import Mathlib

/-!
# Librarian: a shallow embedding of the boolean query engine

The definitions below follow the C++ sources of the Librarian suite
(`Status.hh`, `Index.hh`, `QueryParser.hh/.cxx`, `QueryExecutor.cxx`).

Conventions of the embedding:

* a `std::string` is the list of its `char`s (`List Char`, one `Char` per byte);
* `uint64_t` values are natural numbers, reduced modulo `2 ^ 64` where the
  source arithmetic can wrap;
* an iterator into a `std::list` or a `std::map` is the suffix of the container
  that starts at the iterator (`end()` is the empty suffix);
* objects that the source mutates in place are passed and returned explicitly;
* loops and recursive calls that need not terminate are bounded by a fuel
  argument, and running out of fuel is a separate outcome (`Outcome.outOfFuel`);
* an `int` counter is a natural number below `2 ^ 31`; an increment that would
  take it to `2 ^ 31` (a signed overflow) is the outcome `Outcome.fault`;
* dereferencing a null pointer is the outcome `Outcome.fault`.
-/

namespace Librarian

/-- Result of running a piece of the program with bounded fuel. -/
inductive Outcome (α : Type) where
  | ok (a : α)
  | fault
  | outOfFuel
  deriving DecidableEq, Repr

/-- The zero byte, used by the scanner to denote the end of the input. -/
def NUL : Char := Char.ofNat 0

/-! ## Status.hh -/

/-- Value of `Status::success`. -/
def success : Nat := 0x0000

/-- Value of `Status::errSyntax`. -/
def errSyntax : Nat := 0x0002

/-- Class `Status`: a code and a message. -/
structure Status where
  pCode : Nat := success
  pMessage : List Char := []
  deriving DecidableEq, Repr

/-- Method `Status::isOK`. -/
def Status.isOK (st : Status) : Bool := st.pCode == success

/-! ## QueryParser.hh / QueryParser.cxx: the scanner -/

/-- Class `QueryScanner::Character`.  The members `pLine`, `pColumn` and
`pPosition` are `int`s. -/
structure Character where
  pValue : Char := NUL
  pLine : Nat := 0
  pColumn : Nat := 0
  pPosition : Nat := 0
  deriving DecidableEq, Repr

/-- Class `QueryScanner`.  The members `pLine`, `pColumn` and `pPosition` are
`int`s. -/
structure QueryScanner where
  pQuery : List Char
  pLine : Nat := 1
  pColumn : Nat := 1
  pPosition : Nat := 0
  deriving DecidableEq, Repr

/-- Method `QueryScanner::getCharacter`.  The increments `++pPosition`,
`++pColumn` and `++pLine` work on `int`s: one that would take its counter to
`2 ^ 31` is a fault. -/
def QueryScanner.getCharacter (s : QueryScanner) : Outcome (Character × QueryScanner) :=
  if s.pPosition ≥ s.pQuery.length then
    Outcome.ok (⟨NUL, s.pLine, s.pColumn, s.pPosition⟩, s)
  else
    let ch := s.pQuery.getD s.pPosition NUL
    let toRet : Character := ⟨ch, s.pLine, s.pColumn, s.pPosition⟩
    if s.pPosition + 1 < 2 ^ 31 then
      if s.pColumn + 1 < 2 ^ 31 then
        if ch = '\n' then
          if s.pLine + 1 < 2 ^ 31 then
            Outcome.ok
              (toRet, { s with pPosition := s.pPosition + 1, pLine := s.pLine + 1, pColumn := 1 })
          else Outcome.fault
        else
          Outcome.ok (toRet, { s with pPosition := s.pPosition + 1, pColumn := s.pColumn + 1 })
      else Outcome.fault
    else Outcome.fault

/-- Number of characters the scanner has not read yet. -/
def QueryScanner.remaining (s : QueryScanner) : Nat := s.pQuery.length - s.pPosition

/-! ## The lexer -/

/-- Enumeration `QueryLexer::TokenType`. -/
inductive TokenType where
  | Unknown
  | Term
  | Symbol
  | BinaryOp
  | UnaryOp
  | End
  deriving DecidableEq, Repr

/-- Class `QueryLexer::Token`.  The members `pLine`, `pColumn` and `pPosition`
are `int`s. -/
structure Token where
  pValue : List Char := []
  pType : TokenType := TokenType.End
  pLine : Nat := 0
  pColumn : Nat := 0
  pPosition : Nat := 0
  deriving DecidableEq, Repr

/-- Class `QueryLexer`: the scanner it reads from and the pending token. -/
structure QueryLexer where
  pScanner : QueryScanner
  pPending : Token := {}
  deriving DecidableEq, Repr

/-- The first loop of `QueryLexer::getToken` ("skip all the spaces"): read
characters until one is the zero character or is not a space.  The numeric
argument bounds the number of further iterations; `getToken` passes the number
of unread characters, after which the scanner can only return the zero
character.  A fault of `getCharacter` ends the loop with a fault. -/
def skipSpaces : Nat → QueryScanner → Outcome (Character × QueryScanner)
  | fuel, s =>
    match s.getCharacter with
    | Outcome.ok r =>
      if r.1.pValue = NUL then Outcome.ok r
      else if r.1.pValue ≠ ' ' then Outcome.ok r
      else match fuel with
        | 0 => Outcome.ok r
        | n + 1 => skipSpaces n r.2
    | Outcome.fault => Outcome.fault
    | Outcome.outOfFuel => Outcome.outOfFuel

/-- The second loop of `QueryLexer::getToken` ("retrieve a word"): append
characters to `tok` until the zero character, a space or a parenthesis is read.
Returns the word, the character that stopped the loop and the scanner.  A fault
of `getCharacter` ends the loop with a fault. -/
def readWord : Nat → List Char → QueryScanner →
    Outcome (List Char × Character × QueryScanner)
  | fuel, tok, s =>
    match s.getCharacter with
    | Outcome.ok r =>
      if r.1.pValue = NUL ∨ r.1.pValue = ' ' ∨ r.1.pValue = ')' ∨ r.1.pValue = '(' then
        Outcome.ok (tok, r.1, r.2)
      else match fuel with
        | 0 => Outcome.ok (tok ++ [r.1.pValue], r.1, r.2)
        | n + 1 => readWord n (tok ++ [r.1.pValue]) r.2
    | Outcome.fault => Outcome.fault
    | Outcome.outOfFuel => Outcome.outOfFuel

/-- The classification at the end of `QueryLexer::getToken`. -/
def classify (tok : List Char) : TokenType :=
  if tok = "OR".toList ∨ tok = "AND".toList then TokenType.BinaryOp
  else if tok = "NOT".toList then TokenType.UnaryOp
  else TokenType.Term

/-- Method `QueryLexer::getToken`: the token returned and the lexer after the
call. -/
def QueryLexer.getToken (l : QueryLexer) : Outcome (Token × QueryLexer) :=
  if l.pPending.pType ≠ TokenType.End then
    Outcome.ok (l.pPending, { l with pPending := {} })
  else
    match skipSpaces l.pScanner.remaining l.pScanner with
    | Outcome.ok r =>
      let ch := r.1
      if ch.pValue = NUL then
        Outcome.ok
          (⟨[], TokenType.End, ch.pLine, ch.pColumn, ch.pPosition⟩, { l with pScanner := r.2 })
      else if ch.pValue = '(' ∨ ch.pValue = '(' then
        Outcome.ok (⟨[ch.pValue], TokenType.Symbol, ch.pLine, ch.pColumn, ch.pPosition⟩,
          { l with pScanner := r.2 })
      else
        match readWord r.2.remaining [ch.pValue] r.2 with
        | Outcome.ok w =>
          let tok := w.1
          let ch2 := w.2.1
          let pending : Token :=
            if ch2.pValue = ')' ∨ ch2.pValue = '(' then
              ⟨[ch2.pValue], TokenType.Symbol, ch2.pLine, ch2.pColumn, ch2.pPosition⟩
            else l.pPending
          Outcome.ok (⟨tok, classify tok, ch.pLine, ch.pColumn, ch.pPosition⟩,
            { pScanner := w.2.2, pPending := pending })
        | Outcome.fault => Outcome.fault
        | Outcome.outOfFuel => Outcome.outOfFuel
    | Outcome.fault => Outcome.fault
    | Outcome.outOfFuel => Outcome.outOfFuel

/-! ## The parser -/

/-- Class `QueryParser::Node`: a node of the parse tree. -/
inductive PNode where
  | mk (pType : TokenType) (pToken : List Char) (pChildren : List PNode)
  deriving Repr

/-- Class `QueryParser` (the members `pLexer` and `pToken`; the lexer holds the
scanner, and the scanner holds the query). -/
structure QueryParser where
  pLexer : QueryLexer
  pToken : Token := {}
  deriving DecidableEq, Repr

/-- Constructor `QueryParser(query)`: the scanner is built from
`pQuery.c_str()`, hence from the characters before the first zero byte. -/
def QueryParser.new (query : List Char) : QueryParser :=
  { pLexer := { pScanner := { pQuery := query.takeWhile (fun c => c ≠ NUL) } } }

/-- Method `QueryParser::getNextToken`: the parser after the call. -/
def QueryParser.getNextToken (p : QueryParser) : Outcome QueryParser :=
  match p.pLexer.getToken with
  | Outcome.ok r => Outcome.ok { pLexer := r.2, pToken := r.1 }
  | Outcome.fault => Outcome.fault
  | Outcome.outOfFuel => Outcome.outOfFuel

/-- Method `QueryParser::tokenError`. -/
def QueryParser.tokenError (p : QueryParser) (pfx : List Char) : List Char :=
  pfx ++ " at (".toList ++ (Nat.repr p.pToken.pLine).toList ++ ", ".toList
    ++ (Nat.repr p.pToken.pColumn).toList ++ ")".toList

/-- The status every failing path of the parser returns. -/
def QueryParser.syntaxError (p : QueryParser) : Status :=
  ⟨errSyntax, p.tokenError "Syntax error".toList⟩

/-- Method `QueryParser::accept(t)`: the returned flag and the parser after the
call. -/
def QueryParser.accept (p : QueryParser) (t : TokenType) : Outcome (Bool × QueryParser) :=
  if p.pToken.pType = t then
    match p.getNextToken with
    | Outcome.ok p1 => Outcome.ok (true, p1)
    | Outcome.fault => Outcome.fault
    | Outcome.outOfFuel => Outcome.outOfFuel
  else Outcome.ok (false, p)

/-- Method `QueryParser::accept(t, value)`. -/
def QueryParser.acceptValue (p : QueryParser) (t : TokenType) (value : List Char) :
    Outcome (Bool × QueryParser) :=
  if p.pToken.pValue = value then p.accept t else Outcome.ok (false, p)

/-- What a parsing method leaves behind: the returned `Status` together with
the tree stored through `parseTree` (`Except.ok tree` for a success status),
and the parser object. -/
abbrev Parsed := Outcome (Except Status PNode × QueryParser)

/-- The root `block1`/`block2` hand back: the only child when there is exactly
one, otherwise the operator node with all children. -/
def collapse (op : List Char) (children : List PNode) : PNode :=
  match children with
  | [only] => only
  | _ => PNode.mk TokenType.BinaryOp op children

mutual
/-- Method `QueryParser::block1`: `block1 = block2 { "OR" block2 }`. -/
def block1 : Nat → QueryParser → Parsed
  | 0, _ => Outcome.outOfFuel
  | f + 1, p =>
    match block2 f p with
    | Outcome.ok (Except.ok tmp, p1) => block1Loop f [tmp] p1
    | r => r
/-- The `while( accept(BinaryOp, "OR") )` loop of `block1` and what follows it. -/
def block1Loop : Nat → List PNode → QueryParser → Parsed
  | 0, _, _ => Outcome.outOfFuel
  | f + 1, children, p =>
    match p.acceptValue TokenType.BinaryOp "OR".toList with
    | Outcome.ok (true, p1) =>
      match block2 f p1 with
      | Outcome.ok (Except.ok tmp, p2) => block1Loop f (children ++ [tmp]) p2
      | r => r
    | Outcome.ok (false, p1) => Outcome.ok (Except.ok (collapse "OR".toList children), p1)
    | Outcome.fault => Outcome.fault
    | Outcome.outOfFuel => Outcome.outOfFuel
/-- Method `QueryParser::block2`: `block2 = block3 { "AND" block3 }`. -/
def block2 : Nat → QueryParser → Parsed
  | 0, _ => Outcome.outOfFuel
  | f + 1, p =>
    match block3 f p with
    | Outcome.ok (Except.ok tmp, p1) => block2Loop f [tmp] p1
    | r => r
/-- The `while( accept(BinaryOp, "AND") )` loop of `block2` and what follows it. -/
def block2Loop : Nat → List PNode → QueryParser → Parsed
  | 0, _, _ => Outcome.outOfFuel
  | f + 1, children, p =>
    match p.acceptValue TokenType.BinaryOp "AND".toList with
    | Outcome.ok (true, p1) =>
      match block3 f p1 with
      | Outcome.ok (Except.ok tmp, p2) => block2Loop f (children ++ [tmp]) p2
      | r => r
    | Outcome.ok (false, p1) => Outcome.ok (Except.ok (collapse "AND".toList children), p1)
    | Outcome.fault => Outcome.fault
    | Outcome.outOfFuel => Outcome.outOfFuel
/-- Method `QueryParser::block3`:
`block3 = searchTerm | "NOT" block3 | "(" block1 ")"`. -/
def block3 : Nat → QueryParser → Parsed
  | 0, _ => Outcome.outOfFuel
  | f + 1, p =>
    if p.pToken.pType = TokenType.Term then
      match p.getNextToken with
      | Outcome.ok p1 =>
        Outcome.ok (Except.ok (PNode.mk TokenType.Term p.pToken.pValue []), p1)
      | Outcome.fault => Outcome.fault
      | Outcome.outOfFuel => Outcome.outOfFuel
    else
      match p.acceptValue TokenType.UnaryOp "NOT".toList with
      | Outcome.ok (true, p1) =>
        match block3 f p1 with
        | Outcome.ok (Except.ok tmp, p2) =>
          Outcome.ok (Except.ok (PNode.mk TokenType.UnaryOp "NOT".toList [tmp]), p2)
        | r => r
      | Outcome.ok (false, p1) =>
        match p1.acceptValue TokenType.Symbol "(".toList with
        | Outcome.ok (true, p2) =>
          match block1 f p2 with
          | Outcome.ok (Except.ok t, p3) =>
            match p3.acceptValue TokenType.Symbol ")".toList with
            | Outcome.ok (true, p4) => Outcome.ok (Except.ok t, p4)
            | Outcome.ok (false, p4) => Outcome.ok (Except.error p4.syntaxError, p4)
            | Outcome.fault => Outcome.fault
            | Outcome.outOfFuel => Outcome.outOfFuel
          | r => r
        | Outcome.ok (false, p2) => Outcome.ok (Except.error p2.syntaxError, p2)
        | Outcome.fault => Outcome.fault
        | Outcome.outOfFuel => Outcome.outOfFuel
      | Outcome.fault => Outcome.fault
      | Outcome.outOfFuel => Outcome.outOfFuel
end

/-- Method `QueryParser::query`: `query = block1 "End"`. -/
def QueryParser.query (fuel : Nat) (p : QueryParser) : Parsed :=
  match p.getNextToken with
  | Outcome.ok p0 =>
    match block1 fuel p0 with
    | Outcome.ok (Except.ok t, p1) =>
      match p1.accept TokenType.End with
      | Outcome.ok (true, p2) => Outcome.ok (Except.ok t, p2)
      | Outcome.ok (false, p2) => Outcome.ok (Except.error p2.syntaxError, p2)
      | Outcome.fault => Outcome.fault
      | Outcome.outOfFuel => Outcome.outOfFuel
    | r => r
  | Outcome.fault => Outcome.fault
  | Outcome.outOfFuel => Outcome.outOfFuel

/-- Method `QueryParser::parse`, on a parser freshly built from `query`: the
returned status and parse tree. -/
def parse (fuel : Nat) (query : List Char) : Outcome (Except Status PNode) :=
  match (QueryParser.new query).query fuel with
  | Outcome.ok (r, _) => Outcome.ok r
  | Outcome.fault => Outcome.fault
  | Outcome.outOfFuel => Outcome.outOfFuel

/-! ## Index.hh -/

/-- The value `(docid_t)-1`, which the cursors use for "no document". -/
def noDoc : Nat := 2 ^ 64 - 1

/-- Class `TermData`: the posting list of a term and its length counter. -/
structure TermData where
  pCount : Nat := 0
  pPostings : List Nat := []
  deriving DecidableEq, Repr

/-- Method `TermData::numPostings`. -/
def TermData.numPostings (t : TermData) : Nat := t.pCount

/-- Method `TermData::getPostings`. -/
def TermData.getPostings (t : TermData) : List Nat := t.pPostings

/-- The two statements `pPostings.push_back(id); ++pCount;`. -/
def TermData.pushBack (t : TermData) (id : Nat) : TermData :=
  { pCount := (t.pCount + 1) % 2 ^ 64, pPostings := t.pPostings ++ [id] }

/-- Method `TermData::addPosting`.  The scan `for( ; it != end && *it < id; ++it )`
stops at the first element that is not below `id`; it cannot reach `end()`
here, because the last element is not below `id` once the fast path is not
taken. -/
def TermData.addPosting (t : TermData) (id : Nat) : TermData :=
  match t.pPostings.getLast? with
  | none => t.pushBack id
  | some back =>
    if back < id then t.pushBack id
    else
      match t.pPostings.dropWhile (fun x => x < id) with
      | x :: _ => if x = id then t else t.pushBack id
      | [] => t.pushBack id

/-- Assignment `m[k] = v` on a `std::map<docid_t, std::string>`, kept as the
list of its entries in ascending key order. -/
def mapAssign : List (Nat × List Char) → Nat → List Char → List (Nat × List Char)
  | [], k, v => [(k, v)]
  | (k1, v1) :: m, k, v =>
    if k < k1 then (k, v) :: (k1, v1) :: m
    else if k = k1 then (k, v) :: m
    else (k1, v1) :: mapAssign m k v

/-- Class `Index`.  `pIndex` is the `std::unordered_map` from terms to their
data, kept as a list of entries with distinct keys; `pDocuments` is the
`std::map` from docids to names in ascending key order.  The default value is
the state the constructor leaves. -/
structure Index where
  pFreeDocId : Nat := 1
  pIndex : List (List Char × TermData) := []
  pDocuments : List (Nat × List Char) := [(0, [])]
  deriving DecidableEq, Repr

/-- Method `Index::find`: `none` stands for `termsEnd()`. -/
def Index.find (i : Index) (term : List Char) : Option TermData :=
  (i.pIndex.find? (fun e => e.1 = term)).map (fun e => e.2)

/-- Method `Index::addPosting`. -/
def Index.addPosting (i : Index) (term : List Char) (posting : Nat) : Index :=
  match i.find term with
  | none => { i with pIndex := i.pIndex ++ [(term, TermData.addPosting {} posting)] }
  | some _ =>
    let entries := i.pIndex.map
      (fun e => if e.1 = term then (e.1, e.2.addPosting posting) else e)
    { i with pIndex := entries }

/-- Method `Index::getDocumentName`. -/
def Index.getDocumentName (i : Index) (id : Nat) : List Char :=
  match i.pDocuments.find? (fun e => e.1 = id) with
  | some e => e.2
  | none =>
    match i.pDocuments.find? (fun e => e.1 = 0) with
    | some e => e.2
    | none => []

/-- Method `Index::registerDocument`: the returned docid and the new index. -/
def Index.registerDocument (i : Index) (name : List Char) : Nat × Index :=
  (i.pFreeDocId,
    { i with pDocuments := mapAssign i.pDocuments i.pFreeDocId name,
             pFreeDocId := (i.pFreeDocId + 1) % 2 ^ 64 })

/-- Method `Index::numDocuments`. -/
def Index.numDocuments (i : Index) : Nat := i.pDocuments.length

/-! ## QueryExecutor.cxx -/

/-- Class `DataLoader`: `pCurrent` is the part of the posting list from the
iterator on. -/
structure DataLoader where
  pPostings : List Nat
  pCurrent : List Nat
  pDoc : Nat := noDoc
  deriving DecidableEq, Repr

/-- Constructor `DataLoader(postings)`. -/
def DataLoader.new (postings : List Nat) : DataLoader :=
  { pPostings := postings, pCurrent := postings }

/-- Method `DataLoader::loadResult`. -/
def DataLoader.loadResult (d : DataLoader) : Bool × DataLoader :=
  match d.pCurrent with
  | [] => (false, { d with pDoc := noDoc })
  | x :: rest => (true, { d with pDoc := x, pCurrent := rest })

/-- The execution tree: classes `TermNode`, `NotNode`, `AndNode` and `OrNode`
with their members.

* `NotNode.pCurrent` is the part of the document table from the iterator on;
  `NotNode.pSum` holds one pointer, to `pChild`, and is not stored.
* `AndNode`: `prepare` makes `pFirst`, `pIntersectors` and `pNegators` point
  to pairwise distinct nodes owned through `pNodes`, and from then on the
  nodes are reached only through these pointers.  The model stores the nodes
  themselves: `pNodes` holds the children until `prepare` and is empty
  afterwards, `pFirst` is the driving node (`none` for the null pointer),
  `pIntersectors` the other nodes that are not `NotNode`s, and `pNegators`
  the children of the remaining `NotNode`s. -/
inductive Node where
  | TermNode (pCount : Nat) (pTerm : List Char) (pDataLoader : Option DataLoader)
  | NotNode (pCount : Nat) (pChild : Node) (pDoc : Nat) (pCurrent : List (Nat × List Char))
  | AndNode (pCount : Nat) (pNodes : List Node) (pDoc : Nat) (pFirst : Option Node)
      (pNegators : List Node) (pIntersectors : List Node)
  | OrNode (pCount : Nat) (pNodes : List Node) (pDoc : Nat)
  deriving Repr

/-- Method `Node::getCount`. -/
def Node.getCount : Node → Nat
  | Node.TermNode c _ _ => c
  | Node.NotNode c _ _ _ => c
  | Node.AndNode c _ _ _ _ _ => c
  | Node.OrNode c _ _ => c

/-- Whether `dynamic_cast<NotNode*>` succeeds on the node. -/
def Node.isNot : Node → Bool
  | Node.NotNode _ _ _ _ => true
  | _ => false

/-- Method `NotNode::getChild`, on any node. -/
def Node.getChild : Node → Option Node
  | Node.NotNode _ ch _ _ => some ch
  | _ => none

/-- Method `getResult` of the four node classes.  A `TermNode` whose
`pDataLoader` is null dereferences the null pointer. -/
def Node.getResult : Node → Outcome Nat
  | Node.TermNode _ _ none => Outcome.fault
  | Node.TermNode _ _ (some dl) => Outcome.ok dl.pDoc
  | Node.NotNode _ _ d _ => Outcome.ok d
  | Node.AndNode _ _ d _ _ _ => Outcome.ok d
  | Node.OrNode _ _ d => Outcome.ok d

/-- The loop `while(n->getResult() < docId && n->loadResult());` of
`Intersection::check` and `Sum::check`, with `load` for `loadResult`. -/
def seek (load : Node → Outcome (Bool × Node)) : Nat → Node → Nat → Outcome Node
  | 0, _, _ => Outcome.outOfFuel
  | k + 1, n, docId =>
    match n.getResult with
    | Outcome.ok r =>
      if r < docId then
        match load n with
        | Outcome.ok (true, n1) => seek load k n1 docId
        | Outcome.ok (false, n1) => Outcome.ok n1
        | Outcome.fault => Outcome.fault
        | Outcome.outOfFuel => Outcome.outOfFuel
      else Outcome.ok n
    | Outcome.fault => Outcome.fault
    | Outcome.outOfFuel => Outcome.outOfFuel

/-- Method `Intersection::check` on the nodes its pointers refer to: the
answer and the nodes as the call leaves them. -/
def Intersection.check (load : Node → Outcome (Bool × Node)) (k : Nat) :
    List Node → Nat → Outcome (Bool × List Node)
  | [], _ => Outcome.ok (true, [])
  | n :: ns, docId =>
    match seek load k n docId with
    | Outcome.ok n1 =>
      match n1.getResult with
      | Outcome.ok r =>
        if r = docId then
          match Intersection.check load k ns docId with
          | Outcome.ok (b, ns1) => Outcome.ok (b, n1 :: ns1)
          | Outcome.fault => Outcome.fault
          | Outcome.outOfFuel => Outcome.outOfFuel
        else Outcome.ok (false, n1 :: ns)
      | Outcome.fault => Outcome.fault
      | Outcome.outOfFuel => Outcome.outOfFuel
    | Outcome.fault => Outcome.fault
    | Outcome.outOfFuel => Outcome.outOfFuel

/-- Method `Sum::check` on the nodes its pointers refer to: the answer and the
nodes as the call leaves them. -/
def Sum.check (load : Node → Outcome (Bool × Node)) (k : Nat) :
    List Node → Nat → Outcome (Bool × List Node)
  | [], _ => Outcome.ok (false, [])
  | n :: ns, docId =>
    match seek load k n docId with
    | Outcome.ok n1 =>
      match n1.getResult with
      | Outcome.ok r =>
        if r = docId then Outcome.ok (true, n1 :: ns)
        else
          match Sum.check load k ns docId with
          | Outcome.ok (b, ns1) => Outcome.ok (b, n1 :: ns1)
          | Outcome.fault => Outcome.fault
          | Outcome.outOfFuel => Outcome.outOfFuel
      | Outcome.fault => Outcome.fault
      | Outcome.outOfFuel => Outcome.outOfFuel
    | Outcome.fault => Outcome.fault
    | Outcome.outOfFuel => Outcome.outOfFuel

/-- Methods `Intersection::loadNodes` and `Sum::loadNodes`:
`for(auto n: pNodes) n->loadResult();`. -/
def loadNodes (load : Node → Outcome (Bool × Node)) : List Node → Outcome (List Node)
  | [] => Outcome.ok []
  | n :: ns =>
    match load n with
    | Outcome.ok (_, n1) =>
      match loadNodes load ns with
      | Outcome.ok ns1 => Outcome.ok (n1 :: ns1)
      | Outcome.fault => Outcome.fault
      | Outcome.outOfFuel => Outcome.outOfFuel
    | Outcome.fault => Outcome.fault
    | Outcome.outOfFuel => Outcome.outOfFuel

/-- Method `NotNode::loadResult`: the loop over the document table, from the
members `pCount`, `pChild`, `pDoc`, `pCurrent`. -/
def NotNode.loadResult (load : Node → Outcome (Bool × Node)) (k : Nat) (pCount : Nat) :
    Node → Nat → List (Nat × List Char) → Outcome (Bool × Node)
  | pChild, pDoc, [] => Outcome.ok (false, Node.NotNode pCount pChild pDoc [])
  | pChild, _, (doc, _) :: rest =>
    match Sum.check load k [pChild] doc with
    | Outcome.ok (true, ns) => NotNode.loadResult load k pCount (ns.headD pChild) doc rest
    | Outcome.ok (false, ns) => Outcome.ok (true, Node.NotNode pCount (ns.headD pChild) doc rest)
    | Outcome.fault => Outcome.fault
    | Outcome.outOfFuel => Outcome.outOfFuel

/-- Method `AndNode::loadResult`: the loop `while(pFirst->loadResult())`, from
the members of the node.  The first numeric argument bounds the iterations. -/
def AndNode.loadResult (load : Node → Outcome (Bool × Node)) :
    Nat → Nat → List Node → Nat → Option Node → List Node → List Node →
    Outcome (Bool × Node)
  | 0, _, _, _, _, _, _ => Outcome.outOfFuel
  | _ + 1, _, _, _, none, _, _ => Outcome.fault
  | k + 1, pCount, pNodes, pDoc, some first, pNegators, pIntersectors =>
    match load first with
    | Outcome.ok (false, first1) =>
      Outcome.ok (false, Node.AndNode pCount pNodes pDoc (some first1) pNegators pIntersectors)
    | Outcome.ok (true, first1) =>
      match first1.getResult with
      | Outcome.ok d =>
        match Intersection.check load k pIntersectors d with
        | Outcome.ok (true, ints1) =>
          match Sum.check load k pNegators d with
          | Outcome.ok (true, negs1) =>
            AndNode.loadResult load k pCount pNodes d (some first1) negs1 ints1
          | Outcome.ok (false, negs1) =>
            Outcome.ok (true, Node.AndNode pCount pNodes d (some first1) negs1 ints1)
          | Outcome.fault => Outcome.fault
          | Outcome.outOfFuel => Outcome.outOfFuel
        | Outcome.ok (false, ints1) =>
          AndNode.loadResult load k pCount pNodes d (some first1) pNegators ints1
        | Outcome.fault => Outcome.fault
        | Outcome.outOfFuel => Outcome.outOfFuel
      | Outcome.fault => Outcome.fault
      | Outcome.outOfFuel => Outcome.outOfFuel
    | Outcome.fault => Outcome.fault
    | Outcome.outOfFuel => Outcome.outOfFuel

/-- First loop of `OrNode::loadResult`: the least `getResult()` of the children
whose result is not `(docid_t)-1`, starting from `pDoc`. -/
def OrNode.minResult : List Node → Nat → Outcome Nat
  | [], pDoc => Outcome.ok pDoc
  | n :: ns, pDoc =>
    match n.getResult with
    | Outcome.ok r =>
      if r = noDoc then OrNode.minResult ns pDoc
      else if pDoc > r then OrNode.minResult ns r
      else OrNode.minResult ns pDoc
    | Outcome.fault => Outcome.fault
    | Outcome.outOfFuel => Outcome.outOfFuel

/-- Second loop of `OrNode::loadResult`:
`for( auto &n: pNodes ) if(pDoc == n->getResult()) n->loadResult();`. -/
def OrNode.advance (load : Node → Outcome (Bool × Node)) (pDoc : Nat) :
    List Node → Outcome (List Node)
  | [] => Outcome.ok []
  | n :: ns =>
    match n.getResult with
    | Outcome.ok r =>
      if pDoc = r then
        match load n with
        | Outcome.ok (_, n1) =>
          match OrNode.advance load pDoc ns with
          | Outcome.ok ns1 => Outcome.ok (n1 :: ns1)
          | Outcome.fault => Outcome.fault
          | Outcome.outOfFuel => Outcome.outOfFuel
        | Outcome.fault => Outcome.fault
        | Outcome.outOfFuel => Outcome.outOfFuel
      else
        match OrNode.advance load pDoc ns with
        | Outcome.ok ns1 => Outcome.ok (n :: ns1)
        | Outcome.fault => Outcome.fault
        | Outcome.outOfFuel => Outcome.outOfFuel
    | Outcome.fault => Outcome.fault
    | Outcome.outOfFuel => Outcome.outOfFuel

/-- The virtual method `loadResult` of the four node classes: the returned
flag and the node as the call leaves it.  The fuel bounds the depth of nested
calls and the iterations of the loops. -/
def Node.loadResult : Nat → Node → Outcome (Bool × Node)
  | 0, _ => Outcome.outOfFuel
  | _ + 1, Node.TermNode _ _ none => Outcome.fault
  | _ + 1, Node.TermNode c t (some dl) =>
    Outcome.ok (dl.loadResult.1, Node.TermNode c t (some dl.loadResult.2))
  | f + 1, Node.NotNode c ch d cur => NotNode.loadResult (Node.loadResult f) f c ch d cur
  | f + 1, Node.AndNode c ns d first negs ints =>
    AndNode.loadResult (Node.loadResult f) f c ns d first negs ints
  | f + 1, Node.OrNode c ns _ =>
    match OrNode.minResult ns noDoc with
    | Outcome.ok pDoc =>
      if pDoc = noDoc then Outcome.ok (false, Node.OrNode c ns pDoc)
      else
        match OrNode.advance (Node.loadResult f) pDoc ns with
        | Outcome.ok ns1 => Outcome.ok (true, Node.OrNode c ns1 pDoc)
        | Outcome.fault => Outcome.fault
        | Outcome.outOfFuel => Outcome.outOfFuel
    | Outcome.fault => Outcome.fault
    | Outcome.outOfFuel => Outcome.outOfFuel

/-- Insertion of `a` into a sorted list behind every element that is less
than `a`. -/
def orderedInsert (less : Node → Node → Bool) (a : Node) : List Node → List Node
  | [] => [a]
  | b :: l => if less b a then b :: orderedInsert less a l else a :: b :: l

/-- The call `std::sort(pNodes.begin(), pNodes.end(), less)`.  The standard
leaves the order of elements that compare equivalent open; the model keeps
them in their previous order, which is what the insertion sort that libstdc++
runs on short vectors does. -/
def stdSort (less : Node → Node → Bool) : List Node → List Node
  | [] => []
  | a :: l => orderedInsert less a (stdSort less l)

/-- The comparison of `AndNode::prepare`. -/
def andLess (n1 n2 : Node) : Bool := n1.getCount < n2.getCount

/-- The comparison of `OrNode::prepare`, on the results `no1`, `no2` of the two
`dynamic_cast<NotNode*>`: both null compares the counts, a null pointer is
below a non-null one, and two `NotNode`s are compared by address.  The model
answers `false` for two `NotNode`s, so that `stdSort` keeps them in the order
of their allocation. -/
def orLess (n1 n2 : Node) : Bool :=
  match n1.isNot, n2.isNot with
  | false, false => n1.getCount < n2.getCount
  | false, true => true
  | true, false => false
  | true, true => false

/-- The sum `pCount += n->getCount()` over the children, in `uint64_t`. -/
def sumCounts : List Node → Nat → Nat
  | [], acc => acc
  | n :: ns, acc => sumCounts ns ((acc + n.getCount) % 2 ^ 64)

mutual
/-- The virtual method `prepare` of the four node classes, on the nodes that
`translate` builds. -/
def Node.prepare (fuel : Nat) (index : Index) : Node → Outcome Node
  | Node.TermNode c t dl =>
    match index.find t with
    | some td => Outcome.ok (Node.TermNode td.numPostings t (some (DataLoader.new td.getPostings)))
    | none => Outcome.ok (Node.TermNode c t dl)
  | Node.NotNode _ ch d _ =>
    match Node.prepare fuel index ch with
    | Outcome.ok ch1 =>
      let pCount := (index.numDocuments + 2 ^ 64 - ch1.getCount) % 2 ^ 64
      match loadNodes (Node.loadResult fuel) [ch1] with
      | Outcome.ok ns => Outcome.ok (Node.NotNode pCount (ns.headD ch1) d index.pDocuments.tail)
      | Outcome.fault => Outcome.fault
      | Outcome.outOfFuel => Outcome.outOfFuel
    | Outcome.fault => Outcome.fault
    | Outcome.outOfFuel => Outcome.outOfFuel
  | Node.AndNode _ ns d _ _ _ =>
    match Node.prepareAll fuel index ns with
    | Outcome.ok ns1 =>
      match stdSort andLess ns1 with
      | [] => Outcome.fault
      | n0 :: rest =>
        let sorted := n0 :: rest
        let i := (sorted.findIdx? (fun n => !n.isNot)).getD 0
        let others := sorted.eraseIdx i
        match loadNodes (Node.loadResult fuel) (others.filter (fun n => !n.isNot)) with
        | Outcome.ok ints =>
          Outcome.ok (Node.AndNode n0.getCount [] d (sorted.get? i)
            (others.filterMap Node.getChild) ints)
        | Outcome.fault => Outcome.fault
        | Outcome.outOfFuel => Outcome.outOfFuel
    | Outcome.fault => Outcome.fault
    | Outcome.outOfFuel => Outcome.outOfFuel
  | Node.OrNode _ ns d =>
    match Node.prepareAll fuel index ns with
    | Outcome.ok ns1 =>
      match loadNodes (Node.loadResult fuel) ns1 with
      | Outcome.ok ns2 => Outcome.ok (Node.OrNode (sumCounts ns1 0) (stdSort orLess ns2) d)
      | Outcome.fault => Outcome.fault
      | Outcome.outOfFuel => Outcome.outOfFuel
    | Outcome.fault => Outcome.fault
    | Outcome.outOfFuel => Outcome.outOfFuel
/-- The loop `for( auto &n: pNodes ) n->prepare( index );`. -/
def Node.prepareAll (fuel : Nat) (index : Index) : List Node → Outcome (List Node)
  | [] => Outcome.ok []
  | n :: ns =>
    match Node.prepare fuel index n with
    | Outcome.ok n1 =>
      match Node.prepareAll fuel index ns with
      | Outcome.ok ns1 => Outcome.ok (n1 :: ns1)
      | Outcome.fault => Outcome.fault
      | Outcome.outOfFuel => Outcome.outOfFuel
    | Outcome.fault => Outcome.fault
    | Outcome.outOfFuel => Outcome.outOfFuel
end

mutual
/-- Function `translate`: the execution tree of a parse tree, `none` for the
null pointer.  The nodes are as their constructors leave them: `new AndNode()`
zero-initialises `pDoc` and `pFirst`, the other classes start with
`pDoc = (docid_t)-1`; `TermNode` lowercases the term with `tolower`.  A
composite with a null child is itself given as `none`: the first use of either
is a null dereference in `prepare`, and the parser builds neither. -/
def translate : PNode → Option Node
  | PNode.mk TokenType.Term tok _ => some (Node.TermNode 0 (tok.map Char.toLower) none)
  | PNode.mk TokenType.UnaryOp _ [] => none
  | PNode.mk TokenType.UnaryOp _ (ch :: _) =>
    match translate ch with
    | some n => some (Node.NotNode 0 n noDoc [])
    | none => none
  | PNode.mk TokenType.BinaryOp tok chs =>
    match translateAll chs with
    | some ns =>
      if tok = "OR".toList then some (Node.OrNode 0 ns noDoc)
      else some (Node.AndNode 0 ns 0 none [] [])
    | none => none
  | PNode.mk TokenType.Unknown _ _ => none
  | PNode.mk TokenType.Symbol _ _ => none
  | PNode.mk TokenType.End _ _ => none
/-- The loop `for( auto &ch: node->getChildren() ) n->addChild(translate(ch));`. -/
def translateAll : List PNode → Option (List Node)
  | [] => some []
  | ch :: chs =>
    match translate ch, translateAll chs with
    | some n, some ns => some (n :: ns)
    | _, _ => none
end

/-- The loop `while(execTree->loadResult()) result.push_back(...)` of
`runQuery`, collecting the docids `execTree->getResult()` in the order in
which they are produced.  The numeric argument bounds the iterations. -/
def drain (load : Node → Outcome (Bool × Node)) : Nat → Node → List Nat → Outcome (List Nat)
  | 0, _, _ => Outcome.outOfFuel
  | k + 1, t, acc =>
    match load t with
    | Outcome.ok (true, t1) =>
      match t1.getResult with
      | Outcome.ok d => drain load k t1 (acc ++ [d])
      | Outcome.fault => Outcome.fault
      | Outcome.outOfFuel => Outcome.outOfFuel
    | Outcome.ok (false, _) => Outcome.ok acc
    | Outcome.fault => Outcome.fault
    | Outcome.outOfFuel => Outcome.outOfFuel

/-- The docids the root of the execution tree of a parse tree yields:
`translate`, `prepare` and the drain loop of `runQuery`. -/
def execute (fuel : Nat) (pIndex : Index) (parseTree : PNode) : Outcome (List Nat) :=
  match translate parseTree with
  | none => Outcome.fault
  | some execTree =>
    match execTree.prepare fuel pIndex with
    | Outcome.ok t => drain (Node.loadResult fuel) fuel t []
    | Outcome.fault => Outcome.fault
    | Outcome.outOfFuel => Outcome.outOfFuel

/-- Method `QueryExecutor::runQuery`: the returned status and the contents of
`result` after the call, from its contents before the call.  On a syntax error
the container is not touched; otherwise it is cleared and receives
`getDocumentName` of every docid the root yields. -/
def runQuery (fuel : Nat) (pIndex : Index) (result : List (List Char)) (query : List Char) :
    Outcome (Status × List (List Char)) :=
  match parse fuel query with
  | Outcome.ok (Except.error st) => Outcome.ok (st, result)
  | Outcome.ok (Except.ok parseTree) =>
    match execute fuel pIndex parseTree with
    | Outcome.ok ids => Outcome.ok ({}, ids.map pIndex.getDocumentName)
    | Outcome.fault => Outcome.fault
    | Outcome.outOfFuel => Outcome.outOfFuel
  | Outcome.fault => Outcome.fault
  | Outcome.outOfFuel => Outcome.outOfFuel

/-- The docids of a query: `runQuery` before the docids are replaced by the
document names (`none` inside the outcome when the query does not parse). -/
def queryDocids (fuel : Nat) (pIndex : Index) (query : List Char) : Outcome (Option (List Nat)) :=
  match parse fuel query with
  | Outcome.ok (Except.error _) => Outcome.ok none
  | Outcome.ok (Except.ok parseTree) =>
    match execute fuel pIndex parseTree with
    | Outcome.ok ids => Outcome.ok (some ids)
    | Outcome.fault => Outcome.fault
    | Outcome.outOfFuel => Outcome.outOfFuel
  | Outcome.fault => Outcome.fault
  | Outcome.outOfFuel => Outcome.outOfFuel

/-! ## Indexes used in the examples -/

/-- Registers a document and adds one posting for each of its terms, as the
indexer does for a file. -/
def addDocument (i : Index) (name : String) (terms : List String) : Index :=
  let r := i.registerDocument name.toList
  terms.foldl (fun acc t => acc.addPosting t.toList r.1) r.2

/-- The index of the "build and query" scenario: `a.txt` holds cat and dog,
`b.txt` holds dog and fish, `c.txt` holds cat and fish. -/
def scenarioIndex : Index :=
  addDocument (addDocument (addDocument {} "a.txt" ["cat", "dog"]) "b.txt" ["dog", "fish"])
    "c.txt" ["cat", "fish"]

/-- A second index without equal posting counts: `a.txt` holds cat and dog,
`b.txt` holds dog, `c.txt` holds cat and fish, `d.txt` holds dog. -/
def libraryIndex : Index :=
  addDocument (addDocument (addDocument (addDocument {} "a.txt" ["cat", "dog"]) "b.txt" ["dog"])
    "c.txt" ["cat", "fish"]) "d.txt" ["dog"]

/-- Every posting list of the index is strictly ascending. -/
def Index.postingsAscending (i : Index) : Prop :=
  ∀ e ∈ i.pIndex, e.2.pPostings.Pairwise (fun a b => a < b)

instance (i : Index) : Decidable i.postingsAscending :=
  inferInstanceAs (Decidable (∀ e ∈ i.pIndex, e.2.pPostings.Pairwise (fun a b => a < b)))

/-- The drain loop of `runQuery` stopped after `n` iterations: the docids
collected by then (all of them when the loop ends earlier). -/
def drainPrefix (load : Node → Outcome (Bool × Node)) : Nat → Node → List Nat → Outcome (List Nat)
  | 0, _, acc => Outcome.ok acc
  | n + 1, t, acc =>
    match load t with
    | Outcome.ok (true, t1) =>
      match t1.getResult with
      | Outcome.ok d => drainPrefix load n t1 (acc ++ [d])
      | Outcome.fault => Outcome.fault
      | Outcome.outOfFuel => Outcome.outOfFuel
    | Outcome.ok (false, _) => Outcome.ok acc
    | Outcome.fault => Outcome.fault
    | Outcome.outOfFuel => Outcome.outOfFuel

/-- The first `n` docids the root cursor yields while `runQuery` drains it
(`none` inside the outcome when the query does not parse). -/
def firstDocids (fuel n : Nat) (pIndex : Index) (query : List Char) :
    Outcome (Option (List Nat)) :=
  match parse fuel query with
  | Outcome.ok (Except.error _) => Outcome.ok none
  | Outcome.ok (Except.ok parseTree) =>
    match translate parseTree with
    | none => Outcome.fault
    | some execTree =>
      match execTree.prepare fuel pIndex with
      | Outcome.ok t =>
        match drainPrefix (Node.loadResult fuel) n t [] with
        | Outcome.ok ids => Outcome.ok (some ids)
        | Outcome.fault => Outcome.fault
        | Outcome.outOfFuel => Outcome.outOfFuel
      | Outcome.fault => Outcome.fault
      | Outcome.outOfFuel => Outcome.outOfFuel
  | Outcome.fault => Outcome.fault
  | Outcome.outOfFuel => Outcome.outOfFuel

/-- An exhausted `TermNode` over the given posting list. -/
def exhaustedTerm (term : String) (postings : List Nat) (pDoc : Nat) : Node :=
  Node.TermNode postings.length term.toList
    (some { pPostings := postings, pCurrent := [], pDoc := pDoc })

/-- The root of `cat AND dog OR fish` over `scenarioIndex` after the drain loop
has produced 1, 2 and 3: every cursor is exhausted, and the `AndNode` still
shows docid 3. -/
def stuckAndOr : Node :=
  Node.OrNode 4
    [Node.AndNode 2 [] 3 (some (exhaustedTerm "cat" [1, 3] noDoc)) []
        [exhaustedTerm "dog" [1, 2] noDoc],
      exhaustedTerm "fish" [2, 3] noDoc]
    3

/-- The root of `NOT cat OR dog` over `scenarioIndex` after the drain loop has
produced 1, 2 and 3: every cursor is exhausted, and the `NotNode` still shows
docid 3. -/
def stuckNotOr : Node :=
  Node.OrNode 4
    [exhaustedTerm "dog" [1, 2] noDoc,
      Node.NotNode 2 (exhaustedTerm "cat" [1, 3] 3) 3 []]
    3

/-! ## The scanner, the lexer and the parser while the counters are in range

Auxiliary functions for the proofs.  The methods of the scanner, the lexer and
the parser are embedded in the sections above, with the fault of an `int`
counter that leaves its range.  The functions of this section give what these
methods compute as long as no counter leaves its range, written without the
fault.  The theorems `getCharacter_sim` to `scanFrom_inRange` tie the two
together: a method returns what its in-range function gives, or it faults, and
it does not fault on a scanner whose counters fit (`QueryScanner.Fits`), as
they do for every query of fewer than `2 ^ 31 - 1` characters. -/

/-- The counters of the scanner are in the range that reading a query of fewer
than `2 ^ 31 - 1` characters keeps them in. -/
def QueryScanner.Fits (s : QueryScanner) : Prop :=
  s.pQuery.length < 2 ^ 31 - 1 ∧ s.pPosition ≤ s.pQuery.length ∧
    s.pColumn ≤ s.pPosition + 1 ∧ s.pLine ≤ s.pPosition + 1

instance (s : QueryScanner) : Decidable s.Fits :=
  inferInstanceAs (Decidable (s.pQuery.length < 2 ^ 31 - 1 ∧ s.pPosition ≤ s.pQuery.length ∧
    s.pColumn ≤ s.pPosition + 1 ∧ s.pLine ≤ s.pPosition + 1))

/-- The counters of the scanner of the parser are in range. -/
def QueryParser.Fits (p : QueryParser) : Prop := p.pLexer.pScanner.Fits

instance (p : QueryParser) : Decidable p.Fits :=
  inferInstanceAs (Decidable p.pLexer.pScanner.Fits)

/-- Method `QueryScanner::getCharacter` while the counters are in range. -/
def QueryScanner.getCharacterInRange (s : QueryScanner) : Character × QueryScanner :=
  if s.pPosition ≥ s.pQuery.length then
    (⟨NUL, s.pLine, s.pColumn, s.pPosition⟩, s)
  else
    let ch := s.pQuery.getD s.pPosition NUL
    let toRet : Character := ⟨ch, s.pLine, s.pColumn, s.pPosition⟩
    if ch = '\n' then
      (toRet, { s with pPosition := s.pPosition + 1, pLine := s.pLine + 1, pColumn := 1 })
    else
      (toRet, { s with pPosition := s.pPosition + 1, pColumn := s.pColumn + 1 })

/-- The loop `skipSpaces` while the counters are in range. -/
def skipSpacesInRange : Nat → QueryScanner → Character × QueryScanner
  | fuel, s =>
    let r := s.getCharacterInRange
    if r.1.pValue = NUL then r
    else if r.1.pValue ≠ ' ' then r
    else match fuel with
      | 0 => r
      | n + 1 => skipSpacesInRange n r.2

/-- The loop `readWord` while the counters are in range. -/
def readWordInRange : Nat → List Char → QueryScanner → List Char × Character × QueryScanner
  | fuel, tok, s =>
    let r := s.getCharacterInRange
    if r.1.pValue = NUL ∨ r.1.pValue = ' ' ∨ r.1.pValue = ')' ∨ r.1.pValue = '(' then
      (tok, r.1, r.2)
    else match fuel with
      | 0 => (tok ++ [r.1.pValue], r.1, r.2)
      | n + 1 => readWordInRange n (tok ++ [r.1.pValue]) r.2

/-- Method `QueryLexer::getToken` while the counters are in range. -/
def QueryLexer.getTokenInRange (l : QueryLexer) : Token × QueryLexer :=
  if l.pPending.pType ≠ TokenType.End then
    (l.pPending, { l with pPending := {} })
  else
    let r := skipSpacesInRange l.pScanner.remaining l.pScanner
    let ch := r.1
    if ch.pValue = NUL then
      (⟨[], TokenType.End, ch.pLine, ch.pColumn, ch.pPosition⟩, { l with pScanner := r.2 })
    else if ch.pValue = '(' ∨ ch.pValue = '(' then
      (⟨[ch.pValue], TokenType.Symbol, ch.pLine, ch.pColumn, ch.pPosition⟩,
        { l with pScanner := r.2 })
    else
      let w := readWordInRange r.2.remaining [ch.pValue] r.2
      let tok := w.1
      let ch2 := w.2.1
      let pending : Token :=
        if ch2.pValue = ')' ∨ ch2.pValue = '(' then
          ⟨[ch2.pValue], TokenType.Symbol, ch2.pLine, ch2.pColumn, ch2.pPosition⟩
        else l.pPending
      (⟨tok, classify tok, ch.pLine, ch.pColumn, ch.pPosition⟩,
        { pScanner := w.2.2, pPending := pending })

/-- Method `QueryParser::getNextToken` while the counters are in range. -/
def QueryParser.getNextTokenInRange (p : QueryParser) : QueryParser :=
  let r := p.pLexer.getTokenInRange
  { pLexer := r.2, pToken := r.1 }

/-- Method `QueryParser::accept(t)` while the counters are in range. -/
def QueryParser.acceptInRange (p : QueryParser) (t : TokenType) : Bool × QueryParser :=
  if p.pToken.pType = t then (true, p.getNextTokenInRange) else (false, p)

/-- Method `QueryParser::accept(t, value)` while the counters are in range. -/
def QueryParser.acceptValueInRange (p : QueryParser) (t : TokenType) (value : List Char) :
    Bool × QueryParser :=
  if p.pToken.pValue = value then p.acceptInRange t else (false, p)

mutual
/-- Method `QueryParser::block1` while the counters are in range. -/
def block1InRange : Nat → QueryParser → Parsed
  | 0, _ => Outcome.outOfFuel
  | f + 1, p =>
    match block2InRange f p with
    | Outcome.ok (Except.ok tmp, p1) => block1LoopInRange f [tmp] p1
    | r => r
/-- The loop of `block1` while the counters are in range. -/
def block1LoopInRange : Nat → List PNode → QueryParser → Parsed
  | 0, _, _ => Outcome.outOfFuel
  | f + 1, children, p =>
    match p.acceptValueInRange TokenType.BinaryOp "OR".toList with
    | (true, p1) =>
      match block2InRange f p1 with
      | Outcome.ok (Except.ok tmp, p2) => block1LoopInRange f (children ++ [tmp]) p2
      | r => r
    | (false, p1) => Outcome.ok (Except.ok (collapse "OR".toList children), p1)
/-- Method `QueryParser::block2` while the counters are in range. -/
def block2InRange : Nat → QueryParser → Parsed
  | 0, _ => Outcome.outOfFuel
  | f + 1, p =>
    match block3InRange f p with
    | Outcome.ok (Except.ok tmp, p1) => block2LoopInRange f [tmp] p1
    | r => r
/-- The loop of `block2` while the counters are in range. -/
def block2LoopInRange : Nat → List PNode → QueryParser → Parsed
  | 0, _, _ => Outcome.outOfFuel
  | f + 1, children, p =>
    match p.acceptValueInRange TokenType.BinaryOp "AND".toList with
    | (true, p1) =>
      match block3InRange f p1 with
      | Outcome.ok (Except.ok tmp, p2) => block2LoopInRange f (children ++ [tmp]) p2
      | r => r
    | (false, p1) => Outcome.ok (Except.ok (collapse "AND".toList children), p1)
/-- Method `QueryParser::block3` while the counters are in range. -/
def block3InRange : Nat → QueryParser → Parsed
  | 0, _ => Outcome.outOfFuel
  | f + 1, p =>
    if p.pToken.pType = TokenType.Term then
      Outcome.ok (Except.ok (PNode.mk TokenType.Term p.pToken.pValue []), p.getNextTokenInRange)
    else
      match p.acceptValueInRange TokenType.UnaryOp "NOT".toList with
      | (true, p1) =>
        match block3InRange f p1 with
        | Outcome.ok (Except.ok tmp, p2) =>
          Outcome.ok (Except.ok (PNode.mk TokenType.UnaryOp "NOT".toList [tmp]), p2)
        | r => r
      | (false, p1) =>
        match p1.acceptValueInRange TokenType.Symbol "(".toList with
        | (true, p2) =>
          match block1InRange f p2 with
          | Outcome.ok (Except.ok t, p3) =>
            match p3.acceptValueInRange TokenType.Symbol ")".toList with
            | (true, p4) => Outcome.ok (Except.ok t, p4)
            | (false, p4) => Outcome.ok (Except.error p4.syntaxError, p4)
          | r => r
        | (false, p2) => Outcome.ok (Except.error p2.syntaxError, p2)
end

/-- Method `QueryParser::query` while the counters are in range. -/
def QueryParser.queryInRange (fuel : Nat) (p : QueryParser) : Parsed :=
  match block1InRange fuel p.getNextTokenInRange with
  | Outcome.ok (Except.ok t, p1) =>
    match p1.acceptInRange TokenType.End with
    | (true, p2) => Outcome.ok (Except.ok t, p2)
    | (false, p2) => Outcome.ok (Except.error p2.syntaxError, p2)
  | r => r

/-- Method `QueryParser::parse` while the counters are in range. -/
def parseInRange (fuel : Nat) (query : List Char) : Outcome (Except Status PNode) :=
  match (QueryParser.new query).queryInRange fuel with
  | Outcome.ok (r, _) => Outcome.ok r
  | Outcome.fault => Outcome.fault
  | Outcome.outOfFuel => Outcome.outOfFuel

/-- Method `QueryExecutor::runQuery` while the counters of the scanner are in
range. -/
def runQueryInRange (fuel : Nat) (pIndex : Index) (result : List (List Char))
    (query : List Char) : Outcome (Status × List (List Char)) :=
  match parseInRange fuel query with
  | Outcome.ok (Except.error st) => Outcome.ok (st, result)
  | Outcome.ok (Except.ok parseTree) =>
    match execute fuel pIndex parseTree with
    | Outcome.ok ids => Outcome.ok ({}, ids.map pIndex.getDocumentName)
    | Outcome.fault => Outcome.fault
    | Outcome.outOfFuel => Outcome.outOfFuel
  | Outcome.fault => Outcome.fault
  | Outcome.outOfFuel => Outcome.outOfFuel

/-- The function `queryDocids` while the counters of the scanner are in range. -/
def queryDocidsInRange (fuel : Nat) (pIndex : Index) (query : List Char) :
    Outcome (Option (List Nat)) :=
  match parseInRange fuel query with
  | Outcome.ok (Except.error _) => Outcome.ok none
  | Outcome.ok (Except.ok parseTree) =>
    match execute fuel pIndex parseTree with
    | Outcome.ok ids => Outcome.ok (some ids)
    | Outcome.fault => Outcome.fault
    | Outcome.outOfFuel => Outcome.outOfFuel
  | Outcome.fault => Outcome.fault
  | Outcome.outOfFuel => Outcome.outOfFuel

/-- The function `firstDocids` while the counters of the scanner are in range. -/
def firstDocidsInRange (fuel n : Nat) (pIndex : Index) (query : List Char) :
    Outcome (Option (List Nat)) :=
  match parseInRange fuel query with
  | Outcome.ok (Except.error _) => Outcome.ok none
  | Outcome.ok (Except.ok parseTree) =>
    match translate parseTree with
    | none => Outcome.fault
    | some execTree =>
      match execTree.prepare fuel pIndex with
      | Outcome.ok t =>
        match drainPrefix (Node.loadResult fuel) n t [] with
        | Outcome.ok ids => Outcome.ok (some ids)
        | Outcome.fault => Outcome.fault
        | Outcome.outOfFuel => Outcome.outOfFuel
      | Outcome.fault => Outcome.fault
      | Outcome.outOfFuel => Outcome.outOfFuel
  | Outcome.fault => Outcome.fault
  | Outcome.outOfFuel => Outcome.outOfFuel

/-! ## Words, lexer positions and token streams -/

/-- A character that the word loop of the lexer appends. -/
def WordChar (c : Char) : Prop := c ≠ NUL ∧ c ≠ ' ' ∧ c ≠ ')' ∧ c ≠ '('

instance (c : Char) : Decidable (WordChar c) :=
  inferInstanceAs (Decidable (c ≠ NUL ∧ c ≠ ' ' ∧ c ≠ ')' ∧ c ≠ '('))

/-- A plain word: not empty, without zero byte, space or parenthesis. -/
def PlainWord (w : List Char) : Prop := w ≠ [] ∧ ∀ c ∈ w, WordChar c

instance (w : List Char) : Decidable (PlainWord w) :=
  inferInstanceAs (Decidable (w ≠ [] ∧ ∀ c ∈ w, WordChar c))

/-- The lexer has no pending token and its scanner stands in front of `rest`,
the unread end of the query. -/
def LexerAt (l : QueryLexer) (rest : List Char) : Prop :=
  l.pPending.pType = TokenType.End ∧
    ∃ pre, l.pScanner.pQuery = pre ++ rest ∧ l.pScanner.pPosition = pre.length

/-- The parser's current token and the tokens that follow it have the given
types and values, and the token after them is `End`. -/
def TokenStream : QueryParser → List (TokenType × List Char) → Prop
  | p, [] => p.pToken.pType = TokenType.End ∧ p.pToken.pValue = []
  | p, tk :: ts => p.pToken.pType = tk.1 ∧ p.pToken.pValue = tk.2 ∧
      TokenStream p.getNextTokenInRange ts

/-- The words written one after the other with single spaces in between. -/
def spaced : List (List Char) → List Char
  | [] => []
  | w :: ws =>
    match ws with
    | [] => w
    | _ :: _ => w ++ ' ' :: spaced ws

/-- A plain term word: a plain word that is none of the keywords. -/
def TermWord (w : List Char) : Prop :=
  PlainWord w ∧ w ≠ "AND".toList ∧ w ≠ "OR".toList ∧ w ≠ "NOT".toList

instance (w : List Char) : Decidable (TermWord w) :=
  inferInstanceAs (Decidable (PlainWord w ∧ w ≠ "AND".toList ∧ w ≠ "OR".toList ∧ w ≠ "NOT".toList))

/-- An index whose only document holds the word "and". -/
def keywordIndex : Index := addDocument {} "a.txt" ["and"]

/-! ## The token stream of a query -/

/-- The lexer a parser built from `query` reads from. -/
def lexerOf (query : List Char) : QueryLexer := (QueryParser.new query).pLexer

/-- The tokens that the first `n` calls of `getToken` return, in order. -/
def nextTokens : Nat → QueryLexer → Outcome (List Token)
  | 0, _ => Outcome.ok []
  | n + 1, l =>
    match l.getToken with
    | Outcome.ok r =>
      match nextTokens n r.2 with
      | Outcome.ok ts => Outcome.ok (r.1 :: ts)
      | Outcome.fault => Outcome.fault
      | Outcome.outOfFuel => Outcome.outOfFuel
    | Outcome.fault => Outcome.fault
    | Outcome.outOfFuel => Outcome.outOfFuel

/-- The function `nextTokens` while the counters of the scanner are in range. -/
def nextTokensInRange : Nat → QueryLexer → List Token
  | 0, _ => []
  | n + 1, l => l.getTokenInRange.1 :: nextTokensInRange n l.getTokenInRange.2

/-- An index on which `addPosting` is called with a smaller docid after a
larger one for the same term. -/
def unsortedIndex : Index :=
  (((({} : Index).registerDocument "a.txt".toList).2.registerDocument "b.txt".toList).2.addPosting
    "cat".toList 2).addPosting "cat".toList 1

mutual
/-- The shape of a parse tree: a `Term` node has no children, a `UnaryOp` node
has exactly one child, a `BinaryOp` node has at least two children, no node
has another type, and all children have this shape. -/
def PNode.wellShaped : PNode → Bool
  | PNode.mk TokenType.Term _ chs => chs.isEmpty
  | PNode.mk TokenType.UnaryOp _ chs => chs.length == 1 && PNode.wellShapedAll chs
  | PNode.mk TokenType.BinaryOp _ chs => decide (2 ≤ chs.length) && PNode.wellShapedAll chs
  | PNode.mk TokenType.Unknown _ _ => false
  | PNode.mk TokenType.Symbol _ _ => false
  | PNode.mk TokenType.End _ _ => false
/-- All trees of the list are well shaped. -/
def PNode.wellShapedAll : List PNode → Bool
  | [] => true
  | t :: ts => PNode.wellShaped t && PNode.wellShapedAll ts
end

/-- The pattern `if( !(st = blockN(tmp)).isOK() ) return st;` followed by more
code: continue with `k` on the tree and parser of a successful result, and
hand every other result back. -/
def Parsed.andThen (r : Parsed) (k : PNode → QueryParser → Parsed) : Parsed :=
  match r with
  | Outcome.ok (Except.ok tmp, p1) => k tmp p1
  | r => r

/-- The current token has the given type and value, so that
`accept(t, value)` takes it. -/
def QueryParser.sees (p : QueryParser) (t : TokenType) (value : List Char) : Prop :=
  p.pToken.pValue = value ∧ p.pToken.pType = t

instance (p : QueryParser) (t : TokenType) (value : List Char) : Decidable (p.sees t value) :=
  inferInstanceAs (Decidable (p.pToken.pValue = value ∧ p.pToken.pType = t))

/-- The `Term` node of a word. -/
def termNode (w : List Char) : PNode := PNode.mk TokenType.Term w []

/-- The tokens of `op w1 op w2 ... op wn` for term words `w1 ... wn`. -/
def opTail (op : List Char) : List (List Char) → List (TokenType × List Char)
  | [] => []
  | w :: ws => (TokenType.BinaryOp, op) :: (TokenType.Term, w) :: opTail op ws

/-! ## Positions of the lexer in a query -/

/-- Line and column of the scanner after it has read the characters `pre`. -/
def lineCol (pre : List Char) : Nat × Nat :=
  pre.foldl (fun lc c => if c = '\n' then (lc.1 + 1, 1) else (lc.1, lc.2 + 1)) (1, 1)

/-- The scanner that has read `pre` and has `rest` in front of it. -/
def scannerAt (pre rest : List Char) : QueryScanner :=
  { pQuery := pre ++ rest, pLine := (lineCol pre).1, pColumn := (lineCol pre).2,
    pPosition := pre.length }

/-- The token with the given value and type whose first character comes right
after `pre`. -/
def tokenAt (pre value : List Char) (type : TokenType) : Token :=
  { pValue := value, pType := type, pLine := (lineCol pre).1, pColumn := (lineCol pre).2,
    pPosition := pre.length }

/-- A position of the lexer in a query: the characters read, the characters
not yet read, and whether the last character read is a parenthesis that is
held as the pending token. -/
structure LexPos where
  pre : List Char
  rest : List Char
  pend : Bool

/-- The pending token at a position. -/
def LexPos.pending (x : LexPos) : Token :=
  if x.pend then tokenAt x.pre.dropLast [x.pre.getLast?.getD NUL] TokenType.Symbol else {}

/-- The lexer at a position. -/
def LexPos.lexer (x : LexPos) : QueryLexer :=
  { pScanner := scannerAt x.pre x.rest, pPending := x.pending }

/-- One call of `getTokenInRange` described on positions: the token returned and the
position reached. -/
def lexStep (x : LexPos) : Token × LexPos :=
  if x.pend then (x.pending, { x with pend := false })
  else
    let pre1 := x.pre ++ x.rest.takeWhile (fun c => c = ' ')
    match x.rest.dropWhile (fun c => c = ' ') with
    | [] => (tokenAt pre1 [] TokenType.End, ⟨pre1, [], false⟩)
    | c :: r =>
      if c = '(' then (tokenAt pre1 [c] TokenType.Symbol, ⟨pre1 ++ [c], r, false⟩)
      else
        let w := c :: r.takeWhile (fun d => WordChar d)
        match r.dropWhile (fun d => WordChar d) with
        | [] => (tokenAt pre1 w (classify w), ⟨pre1 ++ w, [], false⟩)
        | d :: r3 =>
          (tokenAt pre1 w (classify w), ⟨pre1 ++ w ++ [d], r3, decide (d = ')' ∨ d = '(')⟩)

/-- The lexer returns the tokens `ts`, none of them of type `End`, on its next
calls of `getTokenInRange`, and the `End` token `e` on every call after them. -/
def LexYields : QueryLexer → List Token → Token → Prop
  | l, [], e => e.pType = TokenType.End ∧ e.pValue = [] ∧ l.getTokenInRange.1 = e ∧
      l.getTokenInRange.2.getTokenInRange = (e, l.getTokenInRange.2)
  | l, t :: ts, e => t.pType ≠ TokenType.End ∧ l.getTokenInRange.1 = t ∧ LexYields l.getTokenInRange.2 ts e

/-- The tokens before `End` that at most `n` steps of `lexStep` give. -/
def stepTokens : Nat → LexPos → List Token
  | 0, _ => []
  | n + 1, x =>
    if (lexStep x).1.pType = TokenType.End then []
    else (lexStep x).1 :: stepTokens n (lexStep x).2

/-- The tokens of a query before `End`. -/
def tokensOf (s : List Char) : List Token := stepTokens (2 * s.length + 1) ⟨[], s, false⟩

/-- The `End` token of a query. -/
def endOf (s : List Char) : Token := tokenAt s [] TokenType.End

/-- A bound on the number of tokens before `End` at a position. -/
def LexPos.measure (x : LexPos) : Nat := 2 * x.rest.length + (if x.pend then 1 else 0)

/-- A pending token is held only behind a parenthesis. -/
def LexPos.wf (x : LexPos) : Prop :=
  x.pend = true → ∃ pre0 d, x.pre = pre0 ++ [d] ∧ (d = ')' ∨ d = '(')

/-- A token of the query `s` other than `End`: its value is a non-empty piece
of `s`, its position, line and column are those of the first character of the
piece, and it is a `Symbol` with a parenthesis as value or has the type that
`classify` gives to its value. -/
def GoodToken (s : List Char) (t : Token) : Prop :=
  ∃ pre w rest, s = pre ++ w ++ rest ∧ w ≠ [] ∧ t = tokenAt pre w t.pType ∧
    ((t.pType = TokenType.Symbol ∧ (w = ['('] ∨ w = [')'])) ∨
     (t.pType = classify w ∧ t.pType ≠ TokenType.Symbol))

/-- The line of position `k` of a query: one more than the number of newline
characters before `k`. -/
def lineOf (s : List Char) (k : Nat) : Nat := 1 + (s.take k).count '\n'

/-- The column of position `k` of a query: one more than the number of
characters between the last newline character before `k` (or the start of the
query) and `k`. -/
def columnOf (s : List Char) (k : Nat) : Nat :=
  1 + ((s.take k).reverse.takeWhile (fun c => c ≠ '\n')).length

/-- The character that call number `k` of `getCharacter` returns, counting the
calls on the scanner from 0. -/
def scanFrom : Nat → QueryScanner → Outcome Character
  | 0, sc =>
    match sc.getCharacter with
    | Outcome.ok r => Outcome.ok r.1
    | Outcome.fault => Outcome.fault
    | Outcome.outOfFuel => Outcome.outOfFuel
  | k + 1, sc =>
    match sc.getCharacter with
    | Outcome.ok r => scanFrom k r.2
    | Outcome.fault => Outcome.fault
    | Outcome.outOfFuel => Outcome.outOfFuel

/-- The function `scanFrom` while the counters of the scanner are in range. -/
def scanFromInRange : Nat → QueryScanner → Character
  | 0, sc => sc.getCharacterInRange.1
  | k + 1, sc => scanFromInRange k sc.getCharacterInRange.2

/-! ## Fuel-free view of the parser -/

/-- More fuel does not change a result. -/
def Mono (F : Nat → Parsed) : Prop := ∀ f r, F f = Outcome.ok r → F (f + 1) = Outcome.ok r

/-- With enough fuel the run `F` returns `r`. -/
def Returns (F : Nat → Parsed) (r : Except Status PNode × QueryParser) : Prop :=
  ∃ f, F f = Outcome.ok r

/-- The body of `block2InRange` from the call of `block3InRange` on, with the operands `chs`
already collected: one operand and then the loop. -/
def andFrom (chs : List PNode) (p : QueryParser) (f : Nat) : Parsed :=
  (block3InRange f p).andThen (fun tmp p1 => block2LoopInRange f (chs ++ [tmp]) p1)

/-- The body of `block1InRange` from the call of `block2InRange` on, with the operands `chs`
already collected: one operand and then the loop. -/
def orFrom (chs : List PNode) (p : QueryParser) (f : Nat) : Parsed :=
  (block2InRange f p).andThen (fun tmp p1 => block1LoopInRange f (chs ++ [tmp]) p1)

/-- The loop of `block2InRange` inside an operand of `block1InRange`, followed by the loop of
`block1InRange`. -/
def orTailFrom (chsA chsO : List PNode) (p : QueryParser) (f : Nat) : Parsed :=
  (block2LoopInRange f chsA p).andThen (fun tmp p1 => block1LoopInRange f (chsO ++ [tmp]) p1)

/-! ## The parser on a stream of tokens -/

/-- The parser looks at the first of the tokens `ts`, the lexer yields the
others and then the token `e` of type `End` for ever; on the empty list the
parser looks at `e`. -/
def ParserAt (p : QueryParser) : List Token → Token → Prop
  | [], e => p.pToken = e ∧ e.pType = TokenType.End ∧ p.pLexer.getTokenInRange = (e, p.pLexer)
  | t :: ts, e => p.pToken = t ∧ t.pType ≠ TokenType.End ∧ LexYields p.pLexer ts e

/-- The nonterminals of the grammar of queries. -/
inductive NT where
  | unary
  | andExpr
  | orExpr

/-- Modelled from the spec: the grammar
`or_expr = and_expr { "OR" and_expr }`, `and_expr = unary { "AND" unary }`,
`unary = Term | "NOT" unary | "(" or_expr ")"` on lists of tokens, where `Term`
is a token of type `Term`, `"NOT"` a `UnaryOp` with value `NOT`, `"AND"` and
`"OR"` a `BinaryOp` with that value, and a parenthesis a `Symbol` with that
value. -/
inductive Derives : NT → List Token → Prop
  | term (t : Token) : t.pType = TokenType.Term → Derives NT.unary [t]
  | neg (t : Token) (ts : List Token) : t.pValue = "NOT".toList → t.pType = TokenType.UnaryOp →
      Derives NT.unary ts → Derives NT.unary (t :: ts)
  | paren (o c : Token) (ts : List Token) : o.pValue = "(".toList → o.pType = TokenType.Symbol →
      c.pValue = ")".toList → c.pType = TokenType.Symbol →
      Derives NT.orExpr ts → Derives NT.unary (o :: (ts ++ [c]))
  | andOne (ts : List Token) : Derives NT.unary ts → Derives NT.andExpr ts
  | andMore (us : List Token) (a : Token) (ts : List Token) : Derives NT.unary us →
      a.pValue = "AND".toList → a.pType = TokenType.BinaryOp →
      Derives NT.andExpr ts → Derives NT.andExpr (us ++ a :: ts)
  | orOne (ts : List Token) : Derives NT.andExpr ts → Derives NT.orExpr ts
  | orMore (us : List Token) (o : Token) (ts : List Token) : Derives NT.andExpr us →
      o.pValue = "OR".toList → o.pType = TokenType.BinaryOp →
      Derives NT.orExpr ts → Derives NT.orExpr (us ++ o :: ts)

/-- The repetition `{ "AND" unary }` of the grammar. -/
def AndTail (tl : List Token) : Prop :=
  tl = [] ∨ ∃ a us, tl = a :: us ∧ a.pValue = "AND".toList ∧ a.pType = TokenType.BinaryOp ∧
    Derives NT.andExpr us

/-- The repetition `{ "OR" and_expr }` of the grammar. -/
def OrTail (tl : List Token) : Prop :=
  tl = [] ∨ ∃ o us, tl = o :: us ∧ o.pValue = "OR".toList ∧ o.pType = TokenType.BinaryOp ∧
    Derives NT.orExpr us

/-- What a parsing function leaves on the tokens `ts`: it has consumed a piece
`u`, the parser is at the remaining tokens, and either it succeeded and `u` is
in the language `L`, or it failed with the syntax error of the token the
parser looks at. -/
def Res (L : List Token → Prop) (ts : List Token) (e : Token)
    (r : Except Status PNode × QueryParser) : Prop :=
  ∃ u rest, ts = u ++ rest ∧ ParserAt r.2 rest e ∧
    ((∃ t, r.1 = Except.ok t ∧ L u) ∨ r.1 = Except.error r.2.syntaxError)

/-- The run `F` returns on every parser at the tokens `ts`, with a result as
described by `Res`. -/
def Tot (F : QueryParser → Nat → Parsed) (L : List Token → Prop) (ts : List Token) : Prop :=
  ∀ p e, ParserAt p ts e → ∃ r, Returns (F p) r ∧ Res L ts e r

/-! ## The parser follows the derivations of the grammar -/

/-- What the parser does on tokens that start with a piece `u` derived from a
nonterminal: `block3InRange` consumes a `unary`; on an `and_expr` the run `andFrom`
comes down to the loop of `block2InRange` behind the piece; on an `or_expr` the run
`orFrom` comes down to the two loops behind the piece. -/
def Follows : NT → List Token → Prop
  | NT.unary, u => ∀ rest p e, ParserAt p (u ++ rest) e →
      ∃ t p1, Returns (fun f => block3InRange f p) (Except.ok t, p1) ∧ ParserAt p1 rest e
  | NT.andExpr, u => ∀ rest chs p e, ParserAt p (u ++ rest) e →
      ∃ chs1 p1, ParserAt p1 rest e ∧
        ∀ r, Returns (fun f => block2LoopInRange f chs1 p1) r → Returns (andFrom chs p) r
  | NT.orExpr, u => ∀ rest chs p e, ParserAt p (u ++ rest) e →
      ∃ chsA chsO p1, ParserAt p1 rest e ∧
        ∀ r, Returns (orTailFrom chsA chsO p1) r → Returns (orFrom chs p) r

/-! ## Index.hh and Index.cxx: removePosting, cleanUp, dump and load -/

/-- Value of `Status::errIO`. -/
def errIO : Nat := 0x0001

/-- Method `TermData::removePosting`: the scan stops at the first element equal
to `id`; when there is one it is erased and the `uint64_t` counter is
decremented. -/
def TermData.removePosting (t : TermData) (id : Nat) : TermData :=
  match t.pPostings.dropWhile (fun x => decide (x ≠ id)) with
  | [] => t
  | _ :: after =>
    { pCount := (t.pCount + 2 ^ 64 - 1) % 2 ^ 64,
      pPostings := t.pPostings.takeWhile (fun x => decide (x ≠ id)) ++ after }

/-- Method `Index::cleanUp`. -/
def Index.cleanUp (_i : Index) : Index :=
  { pFreeDocId := 1, pIndex := [], pDocuments := mapAssign [] 0 [] }

/-- Standard library, `out << n` for an unsigned integer: the decimal digits
of `n`. -/
def putNat (n : Nat) : List Char := (Nat.repr n).toList

/-- The loop of `Index::dump` over the document table: one line
`<docid> <name>` for every entry but the one of docid 0. -/
def dumpDocuments : List (Nat × List Char) → List Char
  | [] => []
  | e :: m =>
    (if e.1 ≠ 0 then putNat e.1 ++ [' '] ++ e.2 ++ ['\n'] else []) ++ dumpDocuments m

/-- The inner loop of `Index::dump`: every posting followed by a space. -/
def dumpPostings : List Nat → List Char
  | [] => []
  | d :: ps => putNat d ++ [' '] ++ dumpPostings ps

/-- The loop of `Index::dump` over the terms: one line
`<term> <numPostings> <postings>` for every term. -/
def dumpTerms : List (List Char × TermData) → List Char
  | [] => []
  | e :: m =>
    e.1 ++ [' '] ++ putNat e.2.numPostings ++ [' '] ++ dumpPostings e.2.pPostings ++ ['\n']
      ++ dumpTerms m

/-- The text that `Index::dump` writes to the file once it is open.  The first
number is `pDocuments.size()-1`, computed on `size_t`. -/
def Index.dumpText (i : Index) : List Char :=
  putNat ((i.pDocuments.length + 2 ^ 64 - 1) % 2 ^ 64) ++ ['\n'] ++ dumpDocuments i.pDocuments
    ++ putNat i.pIndex.length ++ ['\n'] ++ dumpTerms i.pIndex

/-- Method `Index::dump`: `openError` is the message of `strerror(errno)` when
the file cannot be opened; the result is the status and the text written. -/
def Index.dump (i : Index) (openError : Option (List Char)) : Status × Option (List Char) :=
  match openError with
  | some msg => (⟨ errIO, msg⟩, none)
  | none => ({}, some i.dumpText)

/-- Function `create` of `Indexer.cxx`: the exit code and the text written to
the new file, given whether the file could be opened. -/
def create (opened : Bool) : Nat × Option (List Char) :=
  if opened then (0, some (putNat 0 ++ ['\n'] ++ putNat 0 ++ ['\n'])) else (1, none)

/-- Standard library, `isspace` in the "C" locale: space, tab, line feed,
vertical tab, form feed, carriage return. -/
def isSpace (c : Char) : Bool :=
  c = ' ' || c = '\t' || c = '\n' || c = '\x0b' || c = '\x0c' || c = '\r'

/-- Standard library, the sign that the extraction of a number accepts before
the digits: whether it is a minus, and the input behind it. -/
def stripSign (s : List Char) : Bool × List Char :=
  match s with
  | [] => (false, [])
  | c :: r => if c = '-' then (true, r) else if c = '+' then (false, r) else (false, c :: r)

/-- The value of a list of decimal digits. -/
def digitsValue (ds : List Char) : Nat := ds.foldl (fun a c => 10 * a + (c.toNat - 48)) 0

/-- Standard library, `in >> n` for a 64-bit unsigned integer followed by the
test `in.good()`: white space is skipped, then an optional sign and the longest
run of decimal digits are read.  The result is `none` when the stream is not
good afterwards: no digit was found (`failbit`), the value does not fit in 64
bits (`failbit`), or the end of the input was reached while reading
(`eofbit`).  Otherwise it is the value (negated modulo `2^64` behind a minus
sign) and the input left. -/
def getNat (inp : List Char) : Option (Nat × List Char) :=
  let s := stripSign (inp.dropWhile isSpace)
  let ds := s.2.takeWhile Char.isDigit
  let rest := s.2.dropWhile Char.isDigit
  if ds = [] then none
  else if rest = [] then none
  else if 2 ^ 64 ≤ digitsValue ds then none
  else some (if s.1 then (2 ^ 64 - digitsValue ds) % 2 ^ 64 else digitsValue ds, rest)

/-- Standard library, `in >> str` for a string followed by the test
`in.good()`: white space is skipped, then the characters up to the next white
space are read.  The result is `none` when the stream is not good afterwards:
nothing was left to read (`failbit`) or the end of the input was reached while
reading (`eofbit`). -/
def getWord (inp : List Char) : Option (List Char × List Char) :=
  let s := inp.dropWhile isSpace
  let w := s.takeWhile (fun c => !isSpace c)
  let rest := s.dropWhile (fun c => !isSpace c)
  if w = [] then none else if rest = [] then none else some (w, rest)

/-- The loop `for( int i = 0; i < numDocs; ++i )` of `Index::load` with `n`
iterations left, on the input `inp`, the document table `docs` and the value
`free` of `pFreeDocId`.  The result is `none` when a test `in.good()` fails, and
a fault when `++i` overflows the `int` counter. -/
def loadDocuments : Nat → Nat → List Char → List (Nat × List Char) → Nat →
    Outcome (Option (List Char × List (Nat × List Char) × Nat))
  | 0, _, inp, docs, free => Outcome.ok (some (inp, docs, free))
  | n + 1, i, inp, docs, free =>
    match getNat inp with
    | none => Outcome.ok none
    | some (id, in1) =>
      match getWord in1 with
      | none => Outcome.ok none
      | some (doc, in2) =>
        if i + 1 < 2 ^ 31 then loadDocuments n (i + 1) in2 (mapAssign docs id doc) (max free id)
        else Outcome.fault

/-- The loop `for( int k = 0; k < numPostings; ++k )` of `Index::load` with `n`
iterations left, on the input `inp` and the term data `d`. -/
def loadPostings : Nat → Nat → List Char → TermData → Outcome (Option (List Char × TermData))
  | 0, _, inp, d => Outcome.ok (some (inp, d))
  | n + 1, k, inp, d =>
    match getNat inp with
    | none => Outcome.ok none
    | some (id, in1) =>
      if k + 1 < 2 ^ 31 then loadPostings n (k + 1) in1 (d.addPosting id) else Outcome.fault

/-- The expression `pIndex[term]` on the `std::unordered_map`: the entries after
the access, in which an absent term has got empty term data. -/
def dictSlot (m : List (List Char × TermData)) (term : List Char) :
    List (List Char × TermData) :=
  match m.find? (fun e => e.1 = term) with
  | none => m ++ [(term, {})]
  | some _ => m

/-- The term data that the reference `pIndex[term]` denotes. -/
def dictGet (m : List (List Char × TermData)) (term : List Char) : TermData :=
  match m.find? (fun e => e.1 = term) with
  | none => {}
  | some e => e.2

/-- Writing the term data `d` through the reference `pIndex[term]`. -/
def dictSet (m : List (List Char × TermData)) (term : List Char) (d : TermData) :
    List (List Char × TermData) :=
  m.map (fun e => if e.1 = term then (e.1, d) else e)

/-- The loop `for( int i = 0; i < numTerms; ++i )` of `Index::load` with `n`
iterations left, on the input `inp` and the entries `m` of `pIndex`. -/
def loadTerms : Nat → Nat → List Char → List (List Char × TermData) →
    Outcome (Option (List Char × List (List Char × TermData)))
  | 0, _, inp, m => Outcome.ok (some (inp, m))
  | n + 1, i, inp, m =>
    match getWord inp with
    | none => Outcome.ok none
    | some (term, in1) =>
      match getNat in1 with
      | none => Outcome.ok none
      | some (numPostings, in2) =>
        match loadPostings numPostings 0 in2 (dictGet m term) with
        | Outcome.ok (some (in3, d)) =>
          if i + 1 < 2 ^ 31 then loadTerms n (i + 1) in3 (dictSet (dictSlot m term) term d)
          else Outcome.fault
        | Outcome.ok none => Outcome.ok none
        | Outcome.fault => Outcome.fault
        | Outcome.outOfFuel => Outcome.outOfFuel

/-- The body of `Index::load` behind the opening of the file, on the text
`content` of the file: `none` when a test `in.good()` fails, otherwise the
index and the input that is left. -/
def Index.loadFrom (i : Index) (content : List Char) : Outcome (Option (Index × List Char)) :=
  match getNat content with
  | none => Outcome.ok none
  | some (numDocs, in1) =>
    match loadDocuments numDocs 0 in1 i.pDocuments 0 with
    | Outcome.ok (some (in2, docs, free)) =>
      match getNat in2 with
      | none => Outcome.ok none
      | some (numTerms, in3) =>
        match loadTerms numTerms 0 in3 i.pIndex with
        | Outcome.ok (some (in4, dict)) =>
          Outcome.ok (some ({ pFreeDocId := (free + 1) % 2 ^ 64, pIndex := dict,
                              pDocuments := docs }, in4))
        | Outcome.ok none => Outcome.ok none
        | Outcome.fault => Outcome.fault
        | Outcome.outOfFuel => Outcome.outOfFuel
    | Outcome.ok none => Outcome.ok none
    | Outcome.fault => Outcome.fault
    | Outcome.outOfFuel => Outcome.outOfFuel

/-- The status of a failed `load`. -/
def fileCorrupted : Status := ⟨ errIO, "File corrupted".toList⟩

/-- Method `Index::load`: `file` is the text of the file, or the message of
`strerror(errno)` when the file cannot be opened.  On a failed read the index
is reset by `cleanUp`. -/
def Index.load (i : Index) (file : Except (List Char) (List Char)) : Outcome (Status × Index) :=
  match file with
  | Except.error msg => Outcome.ok (⟨ errIO, msg⟩, i)
  | Except.ok content =>
    match i.loadFrom content with
    | Outcome.ok (some (i1, _)) => Outcome.ok ({}, i1)
    | Outcome.ok none => Outcome.ok (fileCorrupted, i.cleanUp)
    | Outcome.fault => Outcome.fault
    | Outcome.outOfFuel => Outcome.outOfFuel

/-! ## Normalizer.cxx -/

/-- Standard library, `isalnum` in the "C" locale: the ASCII letters and
digits. -/
def isalnum (c : Char) : Bool := c.isAlphanum

/-- The first loop of `removePunctuation`,
`for( ; s < str.length() && !isalnum(str[s]); ++s )`, from the value `s` of the
`int` counter: the value at which it stops. -/
def skipLoop (str : List Char) : Nat → Nat → Outcome Nat
  | 0, _ => Outcome.outOfFuel
  | fuel + 1, s =>
    match str[s]? with
    | none => Outcome.ok s
    | some c =>
      if isalnum c then Outcome.ok s
      else if s + 1 < 2 ^ 31 then skipLoop str fuel (s + 1)
      else Outcome.fault

/-- The second loop of `removePunctuation`,
`for( ; s+e < str.length() && isalnum(str[s+e]); ++e )`, from the value `e` of
the `int` counter: the value at which it stops. -/
def takeLoop (str : List Char) (s : Nat) : Nat → Nat → Outcome Nat
  | 0, _ => Outcome.outOfFuel
  | fuel + 1, e =>
    if 2 ^ 31 ≤ s + e then Outcome.fault
    else
      match str[s + e]? with
      | none => Outcome.ok e
      | some c =>
        if isalnum c then
          if e + 1 < 2 ^ 31 then takeLoop str s fuel (e + 1) else Outcome.fault
        else Outcome.ok e

/-- Method `LatinNormalizer::removePunctuation`: the two loops, each with one
unit of fuel more than the string has characters, and `str.substr(s, e)`. -/
def removePunctuation (str : List Char) : Outcome (List Char) :=
  match skipLoop str (str.length + 1) 0 with
  | Outcome.ok s =>
    match takeLoop str s (str.length + 1) 0 with
    | Outcome.ok e => Outcome.ok ((str.drop s).take e)
    | Outcome.fault => Outcome.fault
    | Outcome.outOfFuel => Outcome.outOfFuel
  | Outcome.fault => Outcome.fault
  | Outcome.outOfFuel => Outcome.outOfFuel

/-! ## Registering documents -/

/-- Calls of `registerDocument`, one for each name in order: the docids
returned and the index left. -/
def registerAll (i : Index) : List (List Char) → List Nat × Index
  | [] => ([], i)
  | name :: names =>
    ((i.registerDocument name).1 :: (registerAll (i.registerDocument name).2 names).1,
      (registerAll (i.registerDocument name).2 names).2)

/-! ## Reading and writing numbers and words -/

/-- A token of the index file: not empty and without white space. -/
def FileToken (w : List Char) : Prop := w ≠ [] ∧ ∀ c ∈ w, isSpace c = false

instance (w : List Char) : Decidable (FileToken w) :=
  inferInstanceAs (Decidable (w ≠ [] ∧ ∀ c ∈ w, isSpace c = false))

/-! ## Loading a dumped index -/

/-- What reading the line of one term does to the entries of `pIndex`: the
postings are added to the data that `pIndex[term]` denotes. -/
def termStep (m : List (List Char × TermData)) (e : List Char × TermData) :
    List (List Char × TermData) :=
  dictSet (dictSlot m e.1) e.1 (e.2.pPostings.foldl TermData.addPosting (dictGet m e.1))

/-! ## The round trip of dump and load -/

/-- An index as the data model describes it, in the bounds in which `dump` and
`load` work: the document table starts with the sentinel entry `(0, "")` and
has ascending 64-bit keys, the names of the documents and the terms are tokens
of the file format, the terms are pairwise different, the data of every term
is what `addPosting` builds from its postings (64-bit docids), with the length
of the list as count, and there are fewer than `2^31` documents, terms and
postings of a term (the loops of `load` count in `int`). -/
def Index.Storable (i : Index) : Prop :=
  i.pDocuments.head? = some (0, []) ∧
  (i.pDocuments.map Prod.fst).Pairwise (fun a b => a < b) ∧
  (∀ e ∈ i.pDocuments, e.1 < 2 ^ 64 ∧ (e.1 ≠ 0 → FileToken e.2)) ∧
  (i.pIndex.map Prod.fst).Nodup ∧
  (∀ e ∈ i.pIndex, FileToken e.1 ∧ e.2.pCount = e.2.pPostings.length ∧
    e.2.pPostings.foldl TermData.addPosting {} = e.2 ∧
    e.2.pPostings.length < 2 ^ 31 ∧ ∀ p ∈ e.2.pPostings, p < 2 ^ 64) ∧
  i.pDocuments.length ≤ 2 ^ 31 ∧ i.pIndex.length < 2 ^ 31

instance (i : Index) : Decidable i.Storable := by
  unfold Index.Storable; infer_instance

/-! ## What a successful load has read -/

/-- The pairs `(docid, name)` that `n` iterations of the documents loop of
`Index::load` read, and the input left: the reads of the loop alone. -/
def readPairs : Nat → List Char → Option (List (Nat × List Char) × List Char)
  | 0, inp => some ([], inp)
  | n + 1, inp =>
    match getNat inp with
    | none => none
    | some (id, in1) =>
      match getWord in1 with
      | none => none
      | some (doc, in2) =>
        match readPairs n in2 with
        | none => none
        | some (ps, rest) => some ((id, doc) :: ps, rest)

/-! ## The states an index can reach -/

/-- The states of an index that a program can reach: from the freshly
constructed index through any sequence of calls of `registerDocument`,
`addPosting` and `load` (of any file, also one that cannot be opened). -/
inductive Reachable : Index → Prop
  | fresh : Reachable {}
  | register (i : Index) (name : List Char) : Reachable i → Reachable (i.registerDocument name).2
  | addPosting (i : Index) (term : List Char) (d : Nat) :
      Reachable i → Reachable (i.addPosting term d)
  | load (i : Index) (file : Except (List Char) (List Char)) (st : Status) (i1 : Index) :
      Reachable i → i.load file = Outcome.ok (st, i1) → Reachable i1

/-- The states reached when `registerDocument` is called only while the
next-free docid is below `2^64 - 1`, and a `load` succeeds only when the
maximum docid of the document section of its file is below `2^64 - 1` and not
below a docid that the index holds before the call; `addPosting` and failing
calls of `load` are not restricted. -/
inductive ReachableInBounds : Index → Prop
  | fresh : ReachableInBounds {}
  | register (i : Index) (name : List Char) : ReachableInBounds i →
      i.pFreeDocId < 2 ^ 64 - 1 → ReachableInBounds (i.registerDocument name).2
  | addPosting (i : Index) (term : List Char) (d : Nat) :
      ReachableInBounds i → ReachableInBounds (i.addPosting term d)
  | loadFailed (i : Index) (file : Except (List Char) (List Char)) (st : Status) (i1 : Index) :
      ReachableInBounds i → i.load file = Outcome.ok (st, i1) → st ≠ {} → ReachableInBounds i1
  | loadSucceeded (i : Index) (content : List Char) (i1 : Index) : ReachableInBounds i →
      i.load (Except.ok content) = Outcome.ok ({}, i1) →
      (∀ numDocs in1 pairs in2, getNat content = some (numDocs, in1) →
        readPairs numDocs in1 = some (pairs, in2) →
        (pairs.map Prod.fst).foldl max 0 < 2 ^ 64 - 1 ∧
        ∀ e ∈ i.pDocuments, e.1 ≤ (pairs.map Prod.fst).foldl max 0) →
      ReachableInBounds i1

/-- The states reached when `registerDocument` is not called with 0 as
next-free docid and no file is loaded that binds the docid 0. -/
inductive ReachableKeepingSentinel : Index → Prop
  | fresh : ReachableKeepingSentinel {}
  | register (i : Index) (name : List Char) : ReachableKeepingSentinel i →
      i.pFreeDocId ≠ 0 → ReachableKeepingSentinel (i.registerDocument name).2
  | addPosting (i : Index) (term : List Char) (d : Nat) :
      ReachableKeepingSentinel i → ReachableKeepingSentinel (i.addPosting term d)
  | loadFailed (i : Index) (file : Except (List Char) (List Char)) (st : Status) (i1 : Index) :
      ReachableKeepingSentinel i → i.load file = Outcome.ok (st, i1) → st ≠ {} →
      ReachableKeepingSentinel i1
  | loadSucceeded (i : Index) (content : List Char) (i1 : Index) : ReachableKeepingSentinel i →
      i.load (Except.ok content) = Outcome.ok ({}, i1) →
      (∀ numDocs in1 pairs in2, getNat content = some (numDocs, in1) →
        readPairs numDocs in1 = some (pairs, in2) → ∀ e ∈ pairs, e.1 ≠ 0) →
      ReachableKeepingSentinel i1

/-! ## The document table in the states an index can reach -/

/-- The shape of the document table: ascending docids, starting with docid
0. -/
def DocsOk (m : List (Nat × List Char)) : Prop :=
  (m.map Prod.fst).Pairwise (fun a b => a < b) ∧ ∃ n0 rest, m = (0, n0) :: rest

/-! ## A load that fails -/

/-- The result of a loop of `load` when the text `q` is appended to the input
that the loop leaves. -/
def extendRest {α : Type} (q : List Char) :
    Outcome (Option (List Char × α)) → Outcome (Option (List Char × α))
  | Outcome.ok (some (r, a)) => Outcome.ok (some (r ++ q, a))
  | x => x

/-! ## Status.cxx -/

/-- The table `gMessages` of `Status.cxx`. -/
def gMessages : List (List Char) :=
  ["Success".toList, "I/O Error".toList, "Syntax Error".toList]

/-- Method `Status::toString`. -/
def Status.toString (st : Status) : List Char :=
  if st.pCode = success then "[Success]".toList
  else
    let ret := "[".toList
      ++ (match gMessages[st.pCode]? with
          | some m => m
          | none => "[Error".toList)
      ++ "]".toList
    if st.pMessage ≠ [] then ret ++ ": ".toList ++ st.pMessage else ret

/-! ## Normalizer.cxx: normalize -/

/-- The second loop of `EnglishNormalizer::normalize`,
`for( ; s+e < str.length() && isalnum(str[s+e]); ++e ) out += tolower(str[s+e])`,
from the value `e` of the `int` counter and the contents of `out`: the
contents of `out` when it stops.  `tolower` is the one of the "C" locale. -/
def lowerLoop (str : List Char) (s : Nat) : Nat → Nat → List Char → Outcome (List Char)
  | 0, _, _ => Outcome.outOfFuel
  | fuel + 1, e, out =>
    if 2 ^ 31 ≤ s + e then Outcome.fault
    else
      match str[s + e]? with
      | none => Outcome.ok out
      | some c =>
        if isalnum c then
          if e + 1 < 2 ^ 31 then lowerLoop str s fuel (e + 1) (out ++ [c.toLower])
          else Outcome.fault
        else Outcome.ok out

/-- Method `EnglishNormalizer::normalize`: the two loops, each with one unit
of fuel more than the string has characters. -/
def normalize (str : List Char) : Outcome (List Char) :=
  match skipLoop str (str.length + 1) 0 with
  | Outcome.ok s => lowerLoop str s (str.length + 1) 0 []
  | Outcome.fault => Outcome.fault
  | Outcome.outOfFuel => Outcome.outOfFuel

/-! ## Sequences of calls on a posting list and on an index -/

/-- A call of `TermData::addPosting` or of `TermData::removePosting`. -/
inductive PostingOp where
  | add (id : Nat)
  | remove (id : Nat)
  deriving DecidableEq, Repr

/-- The call on a posting list. -/
def TermData.call (t : TermData) : PostingOp → TermData
  | PostingOp.add id => t.addPosting id
  | PostingOp.remove id => t.removePosting id

/-- The states of an ingest that starts on the index `i0`: the index and the
docid that `registerDocument` returned most recently.  Every `addPosting` uses
that docid, and `registerDocument` is called while the next-free docid is not
0, which it is after `2^64 - 1` calls on a freshly constructed index. -/
inductive Ingested (i0 : Index) : Index → Nat → Prop
  | first (name : List Char) : i0.pFreeDocId ≠ 0 →
      Ingested i0 (i0.registerDocument name).2 (i0.registerDocument name).1
  | register (i : Index) (d : Nat) (name : List Char) : Ingested i0 i d → i.pFreeDocId ≠ 0 →
      Ingested i0 (i.registerDocument name).2 (i.registerDocument name).1
  | addPosting (i : Index) (d : Nat) (term : List Char) : Ingested i0 i d →
      Ingested i0 (i.addPosting term d) d

/-- An index on which an ingest keeps the posting lists ascending: the
next-free docid is a 64-bit value, and every posting list is strictly
ascending and holds docids from 1 up to the next-free docid, exclusive. -/
def Index.IngestBase (i0 : Index) : Prop :=
  i0.pFreeDocId < 2 ^ 64 ∧
  ∀ e ∈ i0.pIndex, e.2.pPostings.Pairwise (fun a b => a < b) ∧
    ∀ x ∈ e.2.pPostings, 1 ≤ x ∧ x < i0.pFreeDocId

instance (i0 : Index) : Decidable i0.IngestBase :=
  inferInstanceAs (Decidable (i0.pFreeDocId < 2 ^ 64 ∧
    ∀ e ∈ i0.pIndex, e.2.pPostings.Pairwise (fun a b => a < b) ∧
      ∀ x ∈ e.2.pPostings, 1 ≤ x ∧ x < i0.pFreeDocId))

/-! ## The cursor after exhaustion -/

/-- Calls of `loadResult` until one returns `false`: the node that this call
leaves.  The numeric argument bounds the number of calls. -/
def exhaust (load : Node → Outcome (Bool × Node)) : Nat → Node → Outcome Node
  | 0, _ => Outcome.outOfFuel
  | k + 1, t =>
    match load t with
    | Outcome.ok (true, t1) => exhaust load k t1
    | Outcome.ok (false, t1) => Outcome.ok t1
    | Outcome.fault => Outcome.fault
    | Outcome.outOfFuel => Outcome.outOfFuel

/-- The value `getResult()` of the root cursor of a query once `loadResult()`
has returned `false`, and the flag and the value after one more call of
`loadResult()`. -/
def resultAfterExhaustion (fuel : Nat) (pIndex : Index) (query : List Char) :
    Outcome (Nat × Bool × Nat) :=
  match parse fuel query with
  | Outcome.ok (Except.error _) => Outcome.fault
  | Outcome.ok (Except.ok parseTree) =>
    match translate parseTree with
    | none => Outcome.fault
    | some execTree =>
      match execTree.prepare fuel pIndex with
      | Outcome.ok t =>
        match exhaust (Node.loadResult fuel) fuel t with
        | Outcome.ok t1 =>
          match t1.getResult, Node.loadResult fuel t1 with
          | Outcome.ok d, Outcome.ok (b, t2) =>
            match t2.getResult with
            | Outcome.ok d2 => Outcome.ok (d, b, d2)
            | Outcome.fault => Outcome.fault
            | Outcome.outOfFuel => Outcome.outOfFuel
          | Outcome.outOfFuel, _ => Outcome.outOfFuel
          | _, Outcome.outOfFuel => Outcome.outOfFuel
          | _, _ => Outcome.fault
        | Outcome.fault => Outcome.fault
        | Outcome.outOfFuel => Outcome.outOfFuel
      | Outcome.fault => Outcome.fault
      | Outcome.outOfFuel => Outcome.outOfFuel
  | Outcome.fault => Outcome.fault
  | Outcome.outOfFuel => Outcome.outOfFuel

/-- The function `resultAfterExhaustion` while the counters of the scanner are in
range. -/
def resultAfterExhaustionInRange (fuel : Nat) (pIndex : Index) (query : List Char) :
    Outcome (Nat × Bool × Nat) :=
  match parseInRange fuel query with
  | Outcome.ok (Except.error _) => Outcome.fault
  | Outcome.ok (Except.ok parseTree) =>
    match translate parseTree with
    | none => Outcome.fault
    | some execTree =>
      match execTree.prepare fuel pIndex with
      | Outcome.ok t =>
        match exhaust (Node.loadResult fuel) fuel t with
        | Outcome.ok t1 =>
          match t1.getResult, Node.loadResult fuel t1 with
          | Outcome.ok d, Outcome.ok (b, t2) =>
            match t2.getResult with
            | Outcome.ok d2 => Outcome.ok (d, b, d2)
            | Outcome.fault => Outcome.fault
            | Outcome.outOfFuel => Outcome.outOfFuel
          | Outcome.outOfFuel, _ => Outcome.outOfFuel
          | _, Outcome.outOfFuel => Outcome.outOfFuel
          | _, _ => Outcome.fault
        | Outcome.fault => Outcome.fault
        | Outcome.outOfFuel => Outcome.outOfFuel
      | Outcome.fault => Outcome.fault
      | Outcome.outOfFuel => Outcome.outOfFuel
  | Outcome.fault => Outcome.fault
  | Outcome.outOfFuel => Outcome.outOfFuel

/-! ## FileTokenizer -/

/-- Class `FileTokenizer`: whether `pStream` is not null, the input that the
stream has not read yet, whether the stream is `good()`, and `pToken`. -/
structure FileTokenizer where
  opened : Bool := false
  input : List Char := []
  good : Bool := true
  pToken : List Char := []
  deriving DecidableEq, Repr

/-- Method `FileTokenizer::open` on a file that can be opened and holds
`content`. -/
def FileTokenizer.openOn (content : List Char) : FileTokenizer :=
  { opened := true, input := content }

/-- Method `FileTokenizer::loadNextToken`.  The extraction `>> pToken` skips
white space and reads the characters up to the next white space; it leaves
`pToken` as it is when nothing but white space is left (`failbit`), and it
sets `eofbit` when it reaches the end of the input while reading a token, so
that the stream is not `good()` although `pToken` holds that token. -/
def FileTokenizer.loadNextToken (t : FileTokenizer) : Bool × FileTokenizer :=
  if !t.opened then (false, t)
  else if !t.good then (false, t)
  else
    let s := t.input.dropWhile isSpace
    let w := s.takeWhile (fun c => !isSpace c)
    let rest := s.dropWhile (fun c => !isSpace c)
    if w = [] then (false, { t with input := [], good := false })
    else if rest = [] then (false, { t with input := [], good := false, pToken := w })
    else (true, { t with input := rest, pToken := w })

/-- Method `FileTokenizer::getToken`. -/
def FileTokenizer.getToken (t : FileTokenizer) : List Char := t.pToken

/-- The loop `while( t.loadNextToken() ) ... t.getToken() ...` of `add`: the
tokens it sees, in order.  The numeric argument bounds the iterations. -/
def tokenLoop : Nat → FileTokenizer → Outcome (List (List Char))
  | 0, _ => Outcome.outOfFuel
  | k + 1, t =>
    match t.loadNextToken with
    | (true, t1) =>
      match tokenLoop k t1 with
      | Outcome.ok toks => Outcome.ok (t1.getToken :: toks)
      | Outcome.fault => Outcome.fault
      | Outcome.outOfFuel => Outcome.outOfFuel
    | (false, _) => Outcome.ok []

/-- The tokens that the loop of `add` sees on a file that holds `content`. -/
def fileTokens (content : List Char) : Outcome (List (List Char)) :=
  tokenLoop (content.length + 1) (FileTokenizer.openOn content)

/-- Modelled from the spec: the maximal runs of characters of the content that
are not white space, in order. -/
def whitespaceFreeRuns (content : List Char) : List (List Char) :=
  (content.splitOnP isSpace).filter (fun w => w ≠ [])

/-! ## Cursors over posting lists -/

/-- The state of a `DataLoader` over `postings` that has loaded at least once
and whose pending docids, the current one and those from the iterator on, are
`pending`; with no pending docid the loader shows `(docid_t)-1`. -/
def loaderAt (postings pending : List Nat) : DataLoader :=
  match pending with
  | [] => { pPostings := postings, pCurrent := [], pDoc := noDoc }
  | x :: rest => { pPostings := postings, pCurrent := rest, pDoc := x }

/-- A prepared `TermNode` whose loader is at the pending docids `pending`. -/
def termAt (c : Nat) (t : List Char) (postings pending : List Nat) : Node :=
  Node.TermNode c t (some (loaderAt postings pending))

/-- The docids that the cursor of `a AND NOT b` yields from the docids `A` that
the loader of `a` has not read and the pending docids `P` of the loader of
`b`: a docid of `A` is left out when the loader of `b`, moved past the docids
below it, shows it. -/
def andNot : List Nat → List Nat → List Nat
  | [], _ => []
  | d :: A, P =>
    if (P.dropWhile (fun x => x < d)).headD noDoc = d then
      andNot A (P.dropWhile (fun x => x < d))
    else d :: andNot A (P.dropWhile (fun x => x < d))

/-! ## Indexes with a docid equal to the marker of exhaustion -/

/-- The index that `load` builds from the text
`2\n5 x\n18446744073709551615 y\n2\na 1 18446744073709551615 \nb 1 5 \n`:
the documents `x` with docid 5 and `y` with docid `2^64 - 1`, the term `a`
with the posting `2^64 - 1` and the term `b` with the posting 5. -/
def markerIndex : Index :=
  { pFreeDocId := 0,
    pIndex := [("a".toList, ⟨1, [18446744073709551615]⟩), ("b".toList, ⟨1, [5]⟩)],
    pDocuments := [(0, []), (5, "x".toList), (18446744073709551615, "y".toList)] }

/-! ## The cursor of `t1 OR ... OR tn` -/

/-- The pending docids of a `TermNode` that has loaded: the docid it shows and
those from the iterator on, none when it shows `(docid_t)-1`. -/
def pendingOf : Node → List Nat
  | Node.TermNode _ _ (some dl) => if dl.pDoc = noDoc then [] else dl.pDoc :: dl.pCurrent
  | _ => []

/-- A prepared `TermNode` that has loaded, with strictly ascending pending
docids below `(docid_t)-1`. -/
def GoodTerm (n : Node) : Prop :=
  ∃ c t L P, n = termAt c t L P ∧ P.Pairwise (fun a b => a < b) ∧ ∀ x ∈ P, x < noDoc

/-- The least of `pDoc` and the first docids of the lists: what the first loop
of `OrNode::loadResult` computes. -/
def minSpec : List (List Nat) → Nat → Nat
  | [], pDoc => pDoc
  | [] :: Ps, pDoc => minSpec Ps pDoc
  | (x :: _) :: Ps, pDoc => minSpec Ps (if pDoc > x then x else pDoc)

/-- The pending docids of a loader after the second loop of
`OrNode::loadResult`: the first one is dropped when it is `m`. -/
def dropHead (m : Nat) : List Nat → List Nat
  | [] => []
  | x :: r => if m = x then r else x :: r

/-- The number of pending docids of the nodes. -/
def totalPending (ns : List Node) : Nat := ((ns.map pendingOf).map List.length).sum

/-! ## The query `t1 OR ... OR tn` -/

/-- The data of a term of the index, the data of a new term when the index
does not hold the term. -/
def termDataOf (idx : Index) (t : List Char) : TermData := (idx.find t).getD {}

/-! ## Theorems -/

/-! ## The methods against their in-range runs -/

/-- The in-range run of `getCharacter` keeps the counters in range. -/
theorem getCharacterInRange_fits (s : QueryScanner) (h : s.Fits) :
    s.getCharacterInRange.2.Fits := by
  unfold QueryScanner.Fits at h ⊢
  unfold QueryScanner.getCharacterInRange
  by_cases h0 : s.pPosition ≥ s.pQuery.length
  · rw [if_pos h0]; exact h
  · rw [if_neg h0]
    by_cases h1 : s.pQuery.getD s.pPosition NUL = '\n'
    · simp only [h1, if_true]; omega
    · simp only [h1, if_false]; omega

/-- The method `getCharacter` returns what its in-range run returns, or it
faults on a scanner whose counters are not in range. -/
theorem getCharacter_sim (s : QueryScanner) :
    s.getCharacter = Outcome.ok s.getCharacterInRange ∨
      (s.getCharacter = Outcome.fault ∧ ¬ s.Fits) := by
  unfold QueryScanner.getCharacter QueryScanner.getCharacterInRange QueryScanner.Fits
  by_cases h0 : s.pPosition ≥ s.pQuery.length
  · rw [if_pos h0, if_pos h0]; exact Or.inl rfl
  · rw [if_neg h0, if_neg h0]
    simp only []
    by_cases h1 : s.pPosition + 1 < 2 ^ 31
    · rw [if_pos h1]
      by_cases h2 : s.pColumn + 1 < 2 ^ 31
      · rw [if_pos h2]
        by_cases h3 : s.pQuery.getD s.pPosition NUL = '\n'
        · rw [if_pos h3, if_pos h3]
          by_cases h4 : s.pLine + 1 < 2 ^ 31
          · rw [if_pos h4]; exact Or.inl rfl
          · rw [if_neg h4]; exact Or.inr ⟨rfl, by omega⟩
        · rw [if_neg h3, if_neg h3]; exact Or.inl rfl
      · rw [if_neg h2]; exact Or.inr ⟨rfl, by omega⟩
    · rw [if_neg h1]; exact Or.inr ⟨rfl, by omega⟩

/-- The in-range run of `skipSpaces` keeps the counters in range. -/
theorem skipSpacesInRange_fits (n : Nat) (s : QueryScanner) (h : s.Fits) :
    (skipSpacesInRange n s).2.Fits := by
  induction n generalizing s with
  | zero =>
    unfold skipSpacesInRange
    have := getCharacterInRange_fits s h
    by_cases hA : s.getCharacterInRange.1.pValue = NUL
    · rw [if_pos hA]; exact this
    · by_cases hB : s.getCharacterInRange.1.pValue ≠ ' '
      · rw [if_neg hA, if_pos hB]; exact this
      · rw [if_neg hA, if_neg hB]; exact this
  | succ n ih =>
    unfold skipSpacesInRange
    have := getCharacterInRange_fits s h
    by_cases hA : s.getCharacterInRange.1.pValue = NUL
    · rw [if_pos hA]; exact this
    · by_cases hB : s.getCharacterInRange.1.pValue ≠ ' '
      · rw [if_neg hA, if_pos hB]; exact this
      · rw [if_neg hA, if_neg hB]; exact ih _ this

/-- The loop `skipSpaces` returns what its in-range run returns, or it faults
on a scanner whose counters are not in range. -/
theorem skipSpaces_sim (n : Nat) (s : QueryScanner) :
    skipSpaces n s = Outcome.ok (skipSpacesInRange n s) ∨
      (skipSpaces n s = Outcome.fault ∧ ¬ s.Fits) := by
  induction n generalizing s with
  | zero =>
    unfold skipSpaces skipSpacesInRange
    rcases getCharacter_sim s with h | ⟨h, hn⟩
    · rw [h]; left
      dsimp only
      by_cases hA : s.getCharacterInRange.1.pValue = NUL
      · rw [if_pos hA, if_pos hA]
      · by_cases hB : s.getCharacterInRange.1.pValue ≠ ' '
        · rw [if_neg hA, if_pos hB, if_neg hA, if_pos hB]
        · rw [if_neg hA, if_neg hB, if_neg hA, if_neg hB]
    · rw [h]; exact Or.inr ⟨rfl, hn⟩
  | succ n ih =>
    unfold skipSpaces skipSpacesInRange
    rcases getCharacter_sim s with h | ⟨h, hn⟩
    · rw [h]
      dsimp only
      by_cases hA : s.getCharacterInRange.1.pValue = NUL
      · rw [if_pos hA, if_pos hA]; exact Or.inl rfl
      · by_cases hB : s.getCharacterInRange.1.pValue ≠ ' '
        · rw [if_neg hA, if_pos hB, if_neg hA, if_pos hB]; exact Or.inl rfl
        · rw [if_neg hA, if_neg hB, if_neg hA, if_neg hB]
          rcases ih s.getCharacterInRange.2 with h2 | ⟨h2, hn2⟩
          · exact Or.inl h2
          · exact Or.inr ⟨h2, fun hf => hn2 (getCharacterInRange_fits s hf)⟩
    · rw [h]; exact Or.inr ⟨rfl, hn⟩

/-- The in-range run of `readWord` keeps the counters in range. -/
theorem readWordInRange_fits (n : Nat) (tok : List Char) (s : QueryScanner) (h : s.Fits) :
    (readWordInRange n tok s).2.2.Fits := by
  induction n generalizing s tok with
  | zero =>
    unfold readWordInRange
    have := getCharacterInRange_fits s h
    by_cases hA : s.getCharacterInRange.1.pValue = NUL ∨ s.getCharacterInRange.1.pValue = ' ' ∨
        s.getCharacterInRange.1.pValue = ')' ∨ s.getCharacterInRange.1.pValue = '('
    · rw [if_pos hA]; exact this
    · rw [if_neg hA]; exact this
  | succ n ih =>
    unfold readWordInRange
    have := getCharacterInRange_fits s h
    by_cases hA : s.getCharacterInRange.1.pValue = NUL ∨ s.getCharacterInRange.1.pValue = ' ' ∨
        s.getCharacterInRange.1.pValue = ')' ∨ s.getCharacterInRange.1.pValue = '('
    · rw [if_pos hA]; exact this
    · rw [if_neg hA]; exact ih _ _ this

/-- The loop `readWord` returns what its in-range run returns, or it faults on
a scanner whose counters are not in range. -/
theorem readWord_sim (n : Nat) (tok : List Char) (s : QueryScanner) :
    readWord n tok s = Outcome.ok (readWordInRange n tok s) ∨
      (readWord n tok s = Outcome.fault ∧ ¬ s.Fits) := by
  induction n generalizing s tok with
  | zero =>
    unfold readWord readWordInRange
    rcases getCharacter_sim s with h | ⟨h, hn⟩
    · rw [h]; left
      dsimp only
      by_cases hA : s.getCharacterInRange.1.pValue = NUL ∨ s.getCharacterInRange.1.pValue = ' ' ∨
          s.getCharacterInRange.1.pValue = ')' ∨ s.getCharacterInRange.1.pValue = '('
      · rw [if_pos hA, if_pos hA]
      · rw [if_neg hA, if_neg hA]
    · rw [h]; exact Or.inr ⟨rfl, hn⟩
  | succ n ih =>
    unfold readWord readWordInRange
    rcases getCharacter_sim s with h | ⟨h, hn⟩
    · rw [h]
      dsimp only
      by_cases hA : s.getCharacterInRange.1.pValue = NUL ∨ s.getCharacterInRange.1.pValue = ' ' ∨
          s.getCharacterInRange.1.pValue = ')' ∨ s.getCharacterInRange.1.pValue = '('
      · rw [if_pos hA, if_pos hA]; exact Or.inl rfl
      · rw [if_neg hA, if_neg hA]
        rcases ih (tok ++ [s.getCharacterInRange.1.pValue]) s.getCharacterInRange.2 with
          h2 | ⟨h2, hn2⟩
        · exact Or.inl h2
        · exact Or.inr ⟨h2, fun hf => hn2 (getCharacterInRange_fits s hf)⟩
    · rw [h]; exact Or.inr ⟨rfl, hn⟩

/-- The in-range run of `getToken` keeps the counters in range. -/
theorem getTokenInRange_fits (l : QueryLexer) (h : l.pScanner.Fits) :
    l.getTokenInRange.2.pScanner.Fits := by
  unfold QueryLexer.getTokenInRange
  have h1 := skipSpacesInRange_fits l.pScanner.remaining l.pScanner h
  split
  · exact h
  · simp only []
    split
    · exact h1
    · split
      · exact h1
      · exact readWordInRange_fits _ _ _ h1

/-- The method `getToken` returns what its in-range run returns, or it faults
on a scanner whose counters are not in range. -/
theorem getToken_sim (l : QueryLexer) :
    l.getToken = Outcome.ok l.getTokenInRange ∨
      (l.getToken = Outcome.fault ∧ ¬ l.pScanner.Fits) := by
  unfold QueryLexer.getToken QueryLexer.getTokenInRange
  by_cases h0 : l.pPending.pType ≠ TokenType.End
  · rw [if_pos h0, if_pos h0]; exact Or.inl rfl
  · rw [if_neg h0, if_neg h0]
    rcases skipSpaces_sim l.pScanner.remaining l.pScanner with h | ⟨h, hn⟩
    · rw [h]
      simp only []
      split
      · exact Or.inl rfl
      · split
        · exact Or.inl rfl
        · rcases readWord_sim (skipSpacesInRange l.pScanner.remaining l.pScanner).2.remaining
            [(skipSpacesInRange l.pScanner.remaining l.pScanner).1.pValue]
            (skipSpacesInRange l.pScanner.remaining l.pScanner).2 with h2 | ⟨h2, hn2⟩
          · rw [h2]; exact Or.inl rfl
          · rw [h2]
            exact Or.inr ⟨rfl, fun hf => hn2 (skipSpacesInRange_fits _ _ hf)⟩
    · rw [h]; exact Or.inr ⟨rfl, hn⟩

/-- The in-range run of `getNextToken` keeps the counters in range. -/
theorem getNextTokenInRange_fits (p : QueryParser) (h : p.Fits) :
    p.getNextTokenInRange.Fits :=
  getTokenInRange_fits p.pLexer h

/-- The method `getNextToken` returns what its in-range run returns, or it
faults on a scanner whose counters are not in range. -/
theorem getNextToken_sim (p : QueryParser) :
    p.getNextToken = Outcome.ok p.getNextTokenInRange ∨
      (p.getNextToken = Outcome.fault ∧ ¬ p.Fits) := by
  unfold QueryParser.getNextToken QueryParser.getNextTokenInRange
  rcases getToken_sim p.pLexer with h | ⟨h, hn⟩
  · rw [h]; exact Or.inl rfl
  · rw [h]; exact Or.inr ⟨rfl, hn⟩

/-- The in-range run of `accept(t)` keeps the counters in range. -/
theorem acceptInRange_fits (p : QueryParser) (t : TokenType) (h : p.Fits) :
    (p.acceptInRange t).2.Fits := by
  unfold QueryParser.acceptInRange
  split
  · exact getNextTokenInRange_fits p h
  · exact h

/-- The method `accept(t)` returns what its in-range run returns, or it faults
on a scanner whose counters are not in range. -/
theorem accept_sim (p : QueryParser) (t : TokenType) :
    p.accept t = Outcome.ok (p.acceptInRange t) ∨
      (p.accept t = Outcome.fault ∧ ¬ p.Fits) := by
  unfold QueryParser.accept QueryParser.acceptInRange
  by_cases h0 : p.pToken.pType = t
  · rw [if_pos h0, if_pos h0]
    rcases getNextToken_sim p with h | ⟨h, hn⟩
    · rw [h]; exact Or.inl rfl
    · rw [h]; exact Or.inr ⟨rfl, hn⟩
  · rw [if_neg h0, if_neg h0]; exact Or.inl rfl

/-- The in-range run of `accept(t, value)` keeps the counters in range. -/
theorem acceptValueInRange_fits (p : QueryParser) (t : TokenType) (value : List Char)
    (h : p.Fits) : (p.acceptValueInRange t value).2.Fits := by
  unfold QueryParser.acceptValueInRange
  split
  · exact acceptInRange_fits p t h
  · exact h

/-- The method `accept(t, value)` returns what its in-range run returns, or it
faults on a scanner whose counters are not in range. -/
theorem acceptValue_sim (p : QueryParser) (t : TokenType) (value : List Char) :
    p.acceptValue t value = Outcome.ok (p.acceptValueInRange t value) ∨
      (p.acceptValue t value = Outcome.fault ∧ ¬ p.Fits) := by
  unfold QueryParser.acceptValue QueryParser.acceptValueInRange
  by_cases h0 : p.pToken.pValue = value
  · rw [if_pos h0, if_pos h0]; exact accept_sim p t
  · rw [if_neg h0, if_neg h0]; exact Or.inl rfl

/-- The in-range runs of the parsing methods keep the counters in range. -/
theorem blocksInRange_fits (f : Nat) :
    (∀ p r p1, block3InRange f p = Outcome.ok (r, p1) → p.Fits → p1.Fits) ∧
    (∀ chs p r p1, block2LoopInRange f chs p = Outcome.ok (r, p1) → p.Fits → p1.Fits) ∧
    (∀ p r p1, block2InRange f p = Outcome.ok (r, p1) → p.Fits → p1.Fits) ∧
    (∀ chs p r p1, block1LoopInRange f chs p = Outcome.ok (r, p1) → p.Fits → p1.Fits) ∧
    (∀ p r p1, block1InRange f p = Outcome.ok (r, p1) → p.Fits → p1.Fits) := by
  induction f with
  | zero =>
    refine ⟨?_, ?_, ?_, ?_, ?_⟩ <;> intros <;>
      simp_all [block1InRange, block2InRange, block3InRange, block1LoopInRange,
        block2LoopInRange]
  | succ f ih =>
    obtain ⟨ih3, ih2L, ih2, ih1L, ih1⟩ := ih
    refine ⟨?_, ?_, ?_, ?_, ?_⟩
    · intro p r p1 h hf
      rw [block3InRange] at h
      by_cases h0 : p.pToken.pType = TokenType.Term
      · rw [if_pos h0] at h
        simp only [Outcome.ok.injEq, Prod.mk.injEq] at h
        rw [← h.2]; exact getNextTokenInRange_fits p hf
      · rw [if_neg h0] at h
        have hf1 := acceptValueInRange_fits p TokenType.UnaryOp "NOT".toList hf
        cases ha : p.acceptValueInRange TokenType.UnaryOp "NOT".toList with
        | mk b q1 =>
          rw [ha] at h hf1
          cases b with
          | true =>
            dsimp only at h
            cases hb : block3InRange f q1 with
            | ok x =>
              obtain ⟨e, q2⟩ := x
              rw [hb] at h
              have hf2 := ih3 _ _ _ hb hf1
              cases e with
              | error st =>
                simp only [Outcome.ok.injEq, Prod.mk.injEq] at h
                rw [← h.2]; exact hf2
              | ok tmp =>
                simp only [Outcome.ok.injEq, Prod.mk.injEq] at h
                rw [← h.2]; exact hf2
            | fault => rw [hb] at h; simp at h
            | outOfFuel => rw [hb] at h; simp at h
          | false =>
            dsimp only at h
            have hf2 := acceptValueInRange_fits q1 TokenType.Symbol "(".toList hf1
            cases ha2 : q1.acceptValueInRange TokenType.Symbol "(".toList with
            | mk b2 q2 =>
              rw [ha2] at h hf2
              cases b2 with
              | true =>
                dsimp only at h
                cases hb : block1InRange f q2 with
                | ok x =>
                  obtain ⟨e, q3⟩ := x
                  rw [hb] at h
                  have hf3 := ih1 _ _ _ hb hf2
                  cases e with
                  | error st =>
                    simp only [Outcome.ok.injEq, Prod.mk.injEq] at h
                    rw [← h.2]; exact hf3
                  | ok t =>
                    dsimp only at h
                    have hf4 := acceptValueInRange_fits q3 TokenType.Symbol ")".toList hf3
                    cases ha3 : q3.acceptValueInRange TokenType.Symbol ")".toList with
                    | mk b3 q4 =>
                      rw [ha3] at h hf4
                      cases b3 <;>
                        · simp only [Outcome.ok.injEq, Prod.mk.injEq] at h
                          rw [← h.2]; exact hf4
                | fault => rw [hb] at h; simp at h
                | outOfFuel => rw [hb] at h; simp at h
              | false =>
                simp only [Outcome.ok.injEq, Prod.mk.injEq] at h
                rw [← h.2]; exact hf2
    · intro chs p r p1 h hf
      rw [block2LoopInRange] at h
      have hf1 := acceptValueInRange_fits p TokenType.BinaryOp "AND".toList hf
      cases ha : p.acceptValueInRange TokenType.BinaryOp "AND".toList with
      | mk b q1 =>
        rw [ha] at h hf1
        cases b with
        | true =>
          dsimp only at h
          cases hb : block3InRange f q1 with
          | ok x =>
            obtain ⟨e, q2⟩ := x
            rw [hb] at h
            have hf2 := ih3 _ _ _ hb hf1
            cases e with
            | error st =>
              simp only [Outcome.ok.injEq, Prod.mk.injEq] at h
              rw [← h.2]; exact hf2
            | ok tmp => exact ih2L _ _ _ _ h hf2
          | fault => rw [hb] at h; simp at h
          | outOfFuel => rw [hb] at h; simp at h
        | false =>
          simp only [Outcome.ok.injEq, Prod.mk.injEq] at h
          rw [← h.2]; exact hf1
    · intro p r p1 h hf
      rw [block2InRange] at h
      cases hb : block3InRange f p with
      | ok x =>
        obtain ⟨e, q2⟩ := x
        rw [hb] at h
        have hf2 := ih3 _ _ _ hb hf
        cases e with
        | error st =>
          simp only [Outcome.ok.injEq, Prod.mk.injEq] at h
          rw [← h.2]; exact hf2
        | ok tmp => exact ih2L _ _ _ _ h hf2
      | fault => rw [hb] at h; simp at h
      | outOfFuel => rw [hb] at h; simp at h
    · intro chs p r p1 h hf
      rw [block1LoopInRange] at h
      have hf1 := acceptValueInRange_fits p TokenType.BinaryOp "OR".toList hf
      cases ha : p.acceptValueInRange TokenType.BinaryOp "OR".toList with
      | mk b q1 =>
        rw [ha] at h hf1
        cases b with
        | true =>
          dsimp only at h
          cases hb : block2InRange f q1 with
          | ok x =>
            obtain ⟨e, q2⟩ := x
            rw [hb] at h
            have hf2 := ih2 _ _ _ hb hf1
            cases e with
            | error st =>
              simp only [Outcome.ok.injEq, Prod.mk.injEq] at h
              rw [← h.2]; exact hf2
            | ok tmp => exact ih1L _ _ _ _ h hf2
          | fault => rw [hb] at h; simp at h
          | outOfFuel => rw [hb] at h; simp at h
        | false =>
          simp only [Outcome.ok.injEq, Prod.mk.injEq] at h
          rw [← h.2]; exact hf1
    · intro p r p1 h hf
      rw [block1InRange] at h
      cases hb : block2InRange f p with
      | ok x =>
        obtain ⟨e, q2⟩ := x
        rw [hb] at h
        have hf2 := ih2 _ _ _ hb hf
        cases e with
        | error st =>
          simp only [Outcome.ok.injEq, Prod.mk.injEq] at h
          rw [← h.2]; exact hf2
        | ok tmp => exact ih1L _ _ _ _ h hf2
      | fault => rw [hb] at h; simp at h
      | outOfFuel => rw [hb] at h; simp at h

/-- The parsing methods return what their in-range runs return, or they fault
on a scanner whose counters are not in range. -/
theorem blocks_sim (f : Nat) :
    (∀ p, block3 f p = block3InRange f p ∨ (block3 f p = Outcome.fault ∧ ¬ p.Fits)) ∧
    (∀ chs p, block2Loop f chs p = block2LoopInRange f chs p ∨
      (block2Loop f chs p = Outcome.fault ∧ ¬ p.Fits)) ∧
    (∀ p, block2 f p = block2InRange f p ∨ (block2 f p = Outcome.fault ∧ ¬ p.Fits)) ∧
    (∀ chs p, block1Loop f chs p = block1LoopInRange f chs p ∨
      (block1Loop f chs p = Outcome.fault ∧ ¬ p.Fits)) ∧
    (∀ p, block1 f p = block1InRange f p ∨ (block1 f p = Outcome.fault ∧ ¬ p.Fits)) := by
  induction f with
  | zero =>
    refine ⟨?_, ?_, ?_, ?_, ?_⟩ <;> intros <;> left <;>
      simp [block1InRange, block2InRange, block3InRange, block1LoopInRange,
        block2LoopInRange, block1, block2, block3, block1Loop, block2Loop]
  | succ f ih =>
    obtain ⟨ih3, ih2L, ih2, ih1L, ih1⟩ := ih
    obtain ⟨fit3, -, fit2, -, fit1⟩ := blocksInRange_fits f
    refine ⟨?_, ?_, ?_, ?_, ?_⟩
    · intro p
      rw [block3, block3InRange]
      by_cases h0 : p.pToken.pType = TokenType.Term
      · rw [if_pos h0, if_pos h0]
        rcases getNextToken_sim p with h | ⟨h, hn⟩
        · rw [h]; exact Or.inl rfl
        · rw [h]; exact Or.inr ⟨rfl, hn⟩
      · rw [if_neg h0, if_neg h0]
        rcases acceptValue_sim p TokenType.UnaryOp "NOT".toList with h | ⟨h, hn⟩
        · rw [h]
          have hf1 := acceptValueInRange_fits p TokenType.UnaryOp "NOT".toList
          cases ha : p.acceptValueInRange TokenType.UnaryOp "NOT".toList with
          | mk b q1 =>
            rw [ha] at hf1
            cases b with
            | true =>
              dsimp only
              rcases ih3 q1 with h3 | ⟨h3, hn3⟩
              · rw [h3]; exact Or.inl rfl
              · rw [h3]; exact Or.inr ⟨rfl, fun hf => hn3 (hf1 hf)⟩
            | false =>
              dsimp only
              rcases acceptValue_sim q1 TokenType.Symbol "(".toList with h2 | ⟨h2, hn2⟩
              · rw [h2]
                have hf2 := acceptValueInRange_fits q1 TokenType.Symbol "(".toList
                cases ha2 : q1.acceptValueInRange TokenType.Symbol "(".toList with
                | mk b2 q2 =>
                  rw [ha2] at hf2
                  cases b2 with
                  | true =>
                    dsimp only
                    rcases ih1 q2 with h3 | ⟨h3, hn3⟩
                    · rw [h3]
                      cases hb : block1InRange f q2 with
                      | ok x =>
                        obtain ⟨e, q3⟩ := x
                        cases e with
                        | error st => exact Or.inl rfl
                        | ok t =>
                          dsimp only
                          rcases acceptValue_sim q3 TokenType.Symbol ")".toList with
                            h4 | ⟨h4, hn4⟩
                          · rw [h4]
                            cases ha3 : q3.acceptValueInRange TokenType.Symbol ")".toList with
                            | mk b3 q4 => cases b3 <;> exact Or.inl rfl
                          · rw [h4]
                            exact Or.inr ⟨rfl, fun hf => hn4 (fit1 _ _ _ hb (hf2 (hf1 hf)))⟩
                      | fault => exact Or.inl rfl
                      | outOfFuel => exact Or.inl rfl
                    · rw [h3]; exact Or.inr ⟨rfl, fun hf => hn3 (hf2 (hf1 hf))⟩
                  | false => exact Or.inl rfl
              · rw [h2]; exact Or.inr ⟨rfl, fun hf => hn2 (hf1 hf)⟩
        · rw [h]; exact Or.inr ⟨rfl, hn⟩
    · intro chs p
      rw [block2Loop, block2LoopInRange]
      rcases acceptValue_sim p TokenType.BinaryOp "AND".toList with h | ⟨h, hn⟩
      · rw [h]
        have hf1 := acceptValueInRange_fits p TokenType.BinaryOp "AND".toList
        cases ha : p.acceptValueInRange TokenType.BinaryOp "AND".toList with
        | mk b q1 =>
          rw [ha] at hf1
          cases b with
          | true =>
            dsimp only
            rcases ih3 q1 with h3 | ⟨h3, hn3⟩
            · rw [h3]
              cases hb : block3InRange f q1 with
              | ok x =>
                obtain ⟨e, q2⟩ := x
                cases e with
                | error st => exact Or.inl rfl
                | ok tmp =>
                  dsimp only
                  rcases ih2L (chs ++ [tmp]) q2 with h4 | ⟨h4, hn4⟩
                  · exact Or.inl h4
                  · exact Or.inr ⟨h4, fun hf => hn4 (fit3 _ _ _ hb (hf1 hf))⟩
              | fault => exact Or.inl rfl
              | outOfFuel => exact Or.inl rfl
            · rw [h3]; exact Or.inr ⟨rfl, fun hf => hn3 (hf1 hf)⟩
          | false => exact Or.inl rfl
      · rw [h]; exact Or.inr ⟨rfl, hn⟩
    · intro p
      rw [block2, block2InRange]
      rcases ih3 p with h3 | ⟨h3, hn3⟩
      · rw [h3]
        cases hb : block3InRange f p with
        | ok x =>
          obtain ⟨e, q2⟩ := x
          cases e with
          | error st => exact Or.inl rfl
          | ok tmp =>
            dsimp only
            rcases ih2L [tmp] q2 with h4 | ⟨h4, hn4⟩
            · exact Or.inl h4
            · exact Or.inr ⟨h4, fun hf => hn4 (fit3 _ _ _ hb hf)⟩
        | fault => exact Or.inl rfl
        | outOfFuel => exact Or.inl rfl
      · rw [h3]; exact Or.inr ⟨rfl, hn3⟩
    · intro chs p
      rw [block1Loop, block1LoopInRange]
      rcases acceptValue_sim p TokenType.BinaryOp "OR".toList with h | ⟨h, hn⟩
      · rw [h]
        have hf1 := acceptValueInRange_fits p TokenType.BinaryOp "OR".toList
        cases ha : p.acceptValueInRange TokenType.BinaryOp "OR".toList with
        | mk b q1 =>
          rw [ha] at hf1
          cases b with
          | true =>
            dsimp only
            rcases ih2 q1 with h3 | ⟨h3, hn3⟩
            · rw [h3]
              cases hb : block2InRange f q1 with
              | ok x =>
                obtain ⟨e, q2⟩ := x
                cases e with
                | error st => exact Or.inl rfl
                | ok tmp =>
                  dsimp only
                  rcases ih1L (chs ++ [tmp]) q2 with h4 | ⟨h4, hn4⟩
                  · exact Or.inl h4
                  · exact Or.inr ⟨h4, fun hf => hn4 (fit2 _ _ _ hb (hf1 hf))⟩
              | fault => exact Or.inl rfl
              | outOfFuel => exact Or.inl rfl
            · rw [h3]; exact Or.inr ⟨rfl, fun hf => hn3 (hf1 hf)⟩
          | false => exact Or.inl rfl
      · rw [h]; exact Or.inr ⟨rfl, hn⟩
    · intro p
      rw [block1, block1InRange]
      rcases ih2 p with h3 | ⟨h3, hn3⟩
      · rw [h3]
        cases hb : block2InRange f p with
        | ok x =>
          obtain ⟨e, q2⟩ := x
          cases e with
          | error st => exact Or.inl rfl
          | ok tmp =>
            dsimp only
            rcases ih1L [tmp] q2 with h4 | ⟨h4, hn4⟩
            · exact Or.inl h4
            · exact Or.inr ⟨h4, fun hf => hn4 (fit2 _ _ _ hb hf)⟩
        | fault => exact Or.inl rfl
        | outOfFuel => exact Or.inl rfl
      · rw [h3]; exact Or.inr ⟨rfl, hn3⟩

/-- The parser built from a query of fewer than `2 ^ 31 - 1` characters before
the first zero byte has its counters in range. -/
theorem new_fits (q : List Char) (h : (q.takeWhile (fun c => c ≠ NUL)).length < 2 ^ 31 - 1) :
    (QueryParser.new q).Fits := by
  unfold QueryParser.Fits QueryScanner.Fits QueryParser.new
  dsimp only
  omega

/-- The method `query` returns what its in-range run returns, or it faults on
a scanner whose counters are not in range. -/
theorem query_sim (f : Nat) (p : QueryParser) :
    p.query f = p.queryInRange f ∨ (p.query f = Outcome.fault ∧ ¬ p.Fits) := by
  unfold QueryParser.query QueryParser.queryInRange
  rcases getNextToken_sim p with h | ⟨h, hn⟩
  · rw [h]
    dsimp only
    have hf0 := getNextTokenInRange_fits p
    rcases (blocks_sim f).2.2.2.2 p.getNextTokenInRange with h1 | ⟨h1, hn1⟩
    · rw [h1]
      cases hb : block1InRange f p.getNextTokenInRange with
      | ok x =>
        obtain ⟨e, q1⟩ := x
        cases e with
        | error st => exact Or.inl rfl
        | ok t =>
          dsimp only
          rcases accept_sim q1 TokenType.End with h2 | ⟨h2, hn2⟩
          · rw [h2]
            cases ha : q1.acceptInRange TokenType.End with
            | mk b q2 => cases b <;> exact Or.inl rfl
          · rw [h2]
            exact Or.inr ⟨rfl, fun hf =>
              hn2 ((blocksInRange_fits f).2.2.2.2 _ _ _ hb (hf0 hf))⟩
      | fault => exact Or.inl rfl
      | outOfFuel => exact Or.inl rfl
    · rw [h1]; exact Or.inr ⟨rfl, fun hf => hn1 (hf0 hf)⟩
  · rw [h]; exact Or.inr ⟨rfl, hn⟩

/-- On a query of fewer than `2 ^ 31 - 1` characters before the first zero
byte the method `query` returns what its in-range run returns. -/
theorem query_inRange (q : List Char)
    (h : (q.takeWhile (fun c => c ≠ NUL)).length < 2 ^ 31 - 1) (f : Nat) :
    (QueryParser.new q).query f = (QueryParser.new q).queryInRange f := by
  rcases query_sim f (QueryParser.new q) with h1 | ⟨-, hn⟩
  · exact h1
  · exact absurd (new_fits q h) hn

/-- The method `parse` returns what its in-range run returns, or it faults. -/
theorem parse_sim (f : Nat) (q : List Char) :
    parse f q = parseInRange f q ∨ parse f q = Outcome.fault := by
  unfold parse parseInRange
  rcases query_sim f (QueryParser.new q) with h1 | ⟨h1, -⟩
  · rw [h1]; exact Or.inl rfl
  · rw [h1]; exact Or.inr rfl

/-- On a query of fewer than `2 ^ 31 - 1` characters before the first zero
byte the method `parse` returns what its in-range run returns. -/
theorem parse_inRange (q : List Char)
    (h : (q.takeWhile (fun c => c ≠ NUL)).length < 2 ^ 31 - 1) (f : Nat) :
    parse f q = parseInRange f q := by
  unfold parse parseInRange
  rw [query_inRange q h]

/-- A query without a zero byte is the string the scanner reads. -/
theorem takeWhile_of_no_nul (q : List Char) (hnul : ∀ c ∈ q, c ≠ NUL) :
    q.takeWhile (fun c => c ≠ NUL) = q := by
  rw [List.takeWhile_eq_self_iff]
  intro c hc
  exact decide_eq_true (hnul c hc)

/-- The function `runQuery` on a query in range. -/
theorem runQuery_inRange (q : List Char)
    (h : (q.takeWhile (fun c => c ≠ NUL)).length < 2 ^ 31 - 1) (f : Nat) (idx : Index)
    (result : List (List Char)) : runQuery f idx result q = runQueryInRange f idx result q := by
  unfold runQuery runQueryInRange
  rw [parse_inRange q h]

/-- The function `queryDocids` on a query in range. -/
theorem queryDocids_inRange (q : List Char)
    (h : (q.takeWhile (fun c => c ≠ NUL)).length < 2 ^ 31 - 1) (f : Nat) (idx : Index) :
    queryDocids f idx q = queryDocidsInRange f idx q := by
  unfold queryDocids queryDocidsInRange
  rw [parse_inRange q h]

/-- The function `firstDocids` on a query in range. -/
theorem firstDocids_inRange (q : List Char)
    (h : (q.takeWhile (fun c => c ≠ NUL)).length < 2 ^ 31 - 1) (f n : Nat) (idx : Index) :
    firstDocids f n idx q = firstDocidsInRange f n idx q := by
  unfold firstDocids firstDocidsInRange
  rw [parse_inRange q h]

/-- The function `resultAfterExhaustion` on a query in range. -/
theorem resultAfterExhaustion_inRange (q : List Char)
    (h : (q.takeWhile (fun c => c ≠ NUL)).length < 2 ^ 31 - 1) (f : Nat) (idx : Index) :
    resultAfterExhaustion f idx q = resultAfterExhaustionInRange f idx q := by
  unfold resultAfterExhaustion resultAfterExhaustionInRange
  rw [parse_inRange q h]

/-- The function `nextTokens` returns what its in-range run returns, or it
faults on a scanner whose counters are not in range. -/
theorem nextTokens_sim (n : Nat) (l : QueryLexer) :
    nextTokens n l = Outcome.ok (nextTokensInRange n l) ∨
      (nextTokens n l = Outcome.fault ∧ ¬ l.pScanner.Fits) := by
  induction n generalizing l with
  | zero => exact Or.inl rfl
  | succ n ih =>
    rw [nextTokens, nextTokensInRange]
    rcases getToken_sim l with h | ⟨h, hn⟩
    · rw [h]
      dsimp only
      rcases ih l.getTokenInRange.2 with h2 | ⟨h2, hn2⟩
      · rw [h2]; exact Or.inl rfl
      · rw [h2]; exact Or.inr ⟨rfl, fun hf => hn2 (getTokenInRange_fits l hf)⟩
    · rw [h]; exact Or.inr ⟨rfl, hn⟩

/-- On a query of fewer than `2 ^ 31 - 1` characters before the first zero
byte every number of calls of `getToken` returns what the in-range runs
return. -/
theorem nextTokens_inRange (q : List Char)
    (h : (q.takeWhile (fun c => c ≠ NUL)).length < 2 ^ 31 - 1) (n : Nat) :
    nextTokens n (lexerOf q) = Outcome.ok (nextTokensInRange n (lexerOf q)) := by
  rcases nextTokens_sim n (lexerOf q) with h1 | ⟨-, hn⟩
  · exact h1
  · exact absurd (new_fits q h) hn

/-- The function `scanFrom` returns what its in-range run returns, or it faults
on a scanner whose counters are not in range. -/
theorem scanFrom_sim (k : Nat) (s : QueryScanner) :
    scanFrom k s = Outcome.ok (scanFromInRange k s) ∨
      (scanFrom k s = Outcome.fault ∧ ¬ s.Fits) := by
  induction k generalizing s with
  | zero =>
    rw [scanFrom, scanFromInRange]
    rcases getCharacter_sim s with h | ⟨h, hn⟩
    · rw [h]; exact Or.inl rfl
    · rw [h]; exact Or.inr ⟨rfl, hn⟩
  | succ k ih =>
    rw [scanFrom, scanFromInRange]
    rcases getCharacter_sim s with h | ⟨h, hn⟩
    · rw [h]
      dsimp only
      rcases ih s.getCharacterInRange.2 with h2 | ⟨h2, hn2⟩
      · exact Or.inl h2
      · exact Or.inr ⟨h2, fun hf => hn2 (getCharacterInRange_fits s hf)⟩
    · rw [h]; exact Or.inr ⟨rfl, hn⟩

/-- On a query of fewer than `2 ^ 31 - 1` characters before the first zero
byte every call of `getCharacter` returns what its in-range run returns. -/
theorem scanFrom_inRange (q : List Char)
    (h : (q.takeWhile (fun c => c ≠ NUL)).length < 2 ^ 31 - 1) (k : Nat) :
    scanFrom k (lexerOf q).pScanner = Outcome.ok (scanFromInRange k (lexerOf q).pScanner) := by
  rcases scanFrom_sim k (lexerOf q).pScanner with h1 | ⟨-, hn⟩
  · exact h1
  · exact absurd (new_fits q h) hn

/-- A query of fewer than `2 ^ 31 - 1` characters has fewer than `2 ^ 31 - 1`
characters before its first zero byte. -/
theorem takeWhile_length_lt (q : List Char) (h : q.length < 2 ^ 31 - 1) :
    (q.takeWhile (fun c => c ≠ NUL)).length < 2 ^ 31 - 1 :=
  Nat.lt_of_le_of_lt (List.takeWhile_sublist _).length_le h

/-- On a query of `2 ^ 31 - 1` word characters without newline the word loop
faults: the increment of the column counter for the last character reaches
`2 ^ 31`. -/
theorem readWord_overflow (q : List Char) (hlen : q.length = 2 ^ 31 - 1)
    (hq : ∀ c ∈ q, WordChar c ∧ c ≠ '\n') (j : Nat) :
    ∀ (fuel : Nat) (tok : List Char) (s : QueryScanner), s.pQuery = q →
      s.pPosition + j + 1 = q.length → s.pColumn = s.pPosition + 1 → j ≤ fuel →
      readWord fuel tok s = Outcome.fault := by
  induction j with
  | zero =>
    intro fuel tok s hs hpos hcol _
    unfold readWord
    have hg : s.getCharacter = Outcome.fault := by
      unfold QueryScanner.getCharacter
      rw [if_neg (by rw [hs]; omega)]
      dsimp only
      rw [if_pos (by omega), if_neg (by omega)]
    rw [hg]
  | succ j ih =>
    intro fuel tok s hs hpos hcol hfuel
    have hlt : s.pPosition < q.length := by omega
    have hc := hq (q.getD s.pPosition NUL) (by
      rw [List.getD_eq_getElem _ _ hlt]; exact List.getElem_mem _)
    have hg : s.getCharacter = Outcome.ok (⟨q.getD s.pPosition NUL, s.pLine, s.pColumn,
        s.pPosition⟩, { s with pPosition := s.pPosition + 1, pColumn := s.pColumn + 1 }) := by
      unfold QueryScanner.getCharacter
      rw [if_neg (by rw [hs]; omega)]
      dsimp only
      rw [if_pos (by omega), if_pos (by omega), hs, if_neg hc.2]
    obtain ⟨n, rfl⟩ : ∃ n, fuel = n + 1 := ⟨fuel - 1, by omega⟩
    unfold readWord
    rw [hg]
    dsimp only
    rw [if_neg (by
      rintro (h | h | h | h)
      · exact hc.1.1 h
      · exact hc.1.2.1 h
      · exact hc.1.2.2.1 h
      · exact hc.1.2.2.2 h)]
    exact ih n _ _ hs (by dsimp only; omega) (by dsimp only; omega) (by omega)

/-- The bound `2 ^ 31 - 1` on the length of a query is sharp: on a query of
`2 ^ 31 - 1` word characters without newline and without zero byte the first
call of `getToken` faults, and so does `parse`, with every amount of fuel. -/
theorem long_query_faults (q : List Char) (hlen : q.length = 2 ^ 31 - 1)
    (hq : ∀ c ∈ q, WordChar c ∧ c ≠ '\n') (f : Nat) :
    (lexerOf q).getToken = Outcome.fault ∧ parse f q = Outcome.fault := by
  have hnul : q.takeWhile (fun c => c ≠ NUL) = q :=
    takeWhile_of_no_nul q (fun c hc => (hq c hc).1.1)
  have hlex : lexerOf q = { pScanner := { pQuery := q } } := by
    unfold lexerOf QueryParser.new
    rw [hnul]
  have hc := hq (q.getD 0 NUL) (by
    rw [List.getD_eq_getElem _ _ (by omega)]; exact List.getElem_mem _)
  have hg : ({ pQuery := q } : QueryScanner).getCharacter
      = Outcome.ok (⟨q.getD 0 NUL, 1, 1, 0⟩, { pQuery := q, pPosition := 1, pColumn := 2 }) := by
    unfold QueryScanner.getCharacter
    rw [if_neg (by dsimp only; omega)]
    dsimp only
    rw [if_pos (by omega), if_pos (by omega), if_neg hc.2]
  have hskip : skipSpaces ({ pQuery := q } : QueryScanner).remaining { pQuery := q }
      = Outcome.ok (⟨q.getD 0 NUL, 1, 1, 0⟩, { pQuery := q, pPosition := 1, pColumn := 2 }) := by
    unfold skipSpaces
    rw [hg]
    dsimp only
    rw [if_neg hc.1.1, if_pos hc.1.2.1]
  have hword : readWord ({ pQuery := q, pPosition := 1, pColumn := 2 } : QueryScanner).remaining
      [q.getD 0 NUL] { pQuery := q, pPosition := 1, pColumn := 2 } = Outcome.fault :=
    readWord_overflow q hlen hq (2 ^ 31 - 3) _ _ _ rfl (by dsimp only; omega) rfl
      (by unfold QueryScanner.remaining; dsimp only; omega)
  have htok : (lexerOf q).getToken = Outcome.fault := by
    rw [hlex]
    unfold QueryLexer.getToken
    rw [if_neg (fun h => h rfl)]
    dsimp only
    rw [hskip]
    dsimp only
    rw [if_neg hc.1.1, if_neg (by
      rintro (h | h)
      · exact hc.1.2.2.2 h
      · exact hc.1.2.2.2 h)]
    rw [hword]
  refine ⟨htok, ?_⟩
  have hnext : (QueryParser.new q).getNextToken = Outcome.fault := by
    unfold QueryParser.getNextToken
    have : (QueryParser.new q).pLexer = lexerOf q := rfl
    rw [this, htok]
  unfold parse QueryParser.query
  rw [hnext]

/-- The query of `2 ^ 31 - 1` letters `a` makes `parse` fault. -/
theorem letters_query_faults (f : Nat) :
    parse f (List.replicate (2 ^ 31 - 1) 'a') = Outcome.fault :=
  (long_query_faults (List.replicate (2 ^ 31 - 1) 'a') (List.length_replicate _ _)
    (fun c hc => by rw [List.eq_of_mem_replicate hc]; decide) f).2

/-- A root that `loadResult` leaves unchanged while answering `true` keeps the
drain loop running until the fuel is used up. -/
theorem drain_of_fixed (load : Node → Outcome (Bool × Node)) (t : Node) (d : Nat)
    (hload : load t = Outcome.ok (true, t)) (hres : t.getResult = Outcome.ok d) :
    ∀ k acc, drain load k t acc = Outcome.outOfFuel := by
  intro k
  induction k with
  | zero => intro acc; rfl
  | succ k ih => intro acc; simp only [drain, hload, hres, ih]

/-- From three units of fuel on, `loadResult` answers `true` on `stuckAndOr`
and leaves it as it is. -/
theorem loadResult_stuckAndOr (m : Nat) :
    Node.loadResult (m + 3) stuckAndOr = Outcome.ok (true, stuckAndOr) := rfl

/-- From three units of fuel on, `loadResult` answers `true` on `stuckNotOr`
and leaves it as it is. -/
theorem loadResult_stuckNotOr (m : Nat) :
    Node.loadResult (m + 3) stuckNotOr = Outcome.ok (true, stuckNotOr) := rfl

/-- With ten or more units of fuel `cat AND dog OR fish` runs out of fuel over
`scenarioIndex`. -/
theorem runQuery_andOr_large (m : Nat) :
    runQueryInRange (m + 10) scenarioIndex [] "cat AND dog OR fish".toList = Outcome.outOfFuel := by
  have h : runQueryInRange (m + 10) scenarioIndex [] "cat AND dog OR fish".toList =
      (match drain (Node.loadResult (m + 7 + 3)) (m + 7) stuckAndOr [1, 2, 3] with
        | Outcome.ok ids => Outcome.ok ({}, ids.map scenarioIndex.getDocumentName)
        | Outcome.fault => Outcome.fault
        | Outcome.outOfFuel => Outcome.outOfFuel) := rfl
  rw [h, drain_of_fixed _ stuckAndOr 3 (loadResult_stuckAndOr (m + 7)) rfl]

/-- With ten or more units of fuel `NOT cat OR dog` runs out of fuel over
`scenarioIndex`. -/
theorem runQuery_notOr_large (m : Nat) :
    runQueryInRange (m + 10) scenarioIndex [] "NOT cat OR dog".toList = Outcome.outOfFuel := by
  have h : runQueryInRange (m + 10) scenarioIndex [] "NOT cat OR dog".toList =
      (match drain (Node.loadResult (m + 7 + 3)) (m + 7) stuckNotOr [1, 2, 3] with
        | Outcome.ok ids => Outcome.ok ({}, ids.map scenarioIndex.getDocumentName)
        | Outcome.fault => Outcome.fault
        | Outcome.outOfFuel => Outcome.outOfFuel) := rfl
  rw [h, drain_of_fixed _ stuckNotOr 3 (loadResult_stuckNotOr (m + 7)) rfl]

/-- Every amount of fuel is below ten or is ten plus something. -/
theorem fuel_cases (fuel : Nat) : fuel < 10 ∨ ∃ m, fuel = m + 10 := by
  rcases Nat.lt_or_ge fuel 10 with h | h
  · exact Or.inl h
  · exact Or.inr ⟨fuel - 10, by omega⟩

/-- C1 (the code departs from the claim): over `libraryIndex` the query
`cat AND dog` yields docid 1 and `fish` yields docid 3, so the two results have
no docid in common, yet `(cat AND dog) AND fish` yields docid 3 and `runQuery`
returns `c.txt`. -/
theorem and_of_parenthesised_and_not_intersection (m : Nat) :
    queryDocids (m + 12) libraryIndex "cat AND dog".toList = Outcome.ok (some [1]) ∧
    queryDocids (m + 12) libraryIndex "fish".toList = Outcome.ok (some [3]) ∧
    queryDocids (m + 12) libraryIndex "(cat AND dog) AND fish".toList = Outcome.ok (some [3]) ∧
    runQuery (m + 12) libraryIndex [] "(cat AND dog) AND fish".toList
      = Outcome.ok ({}, ["c.txt".toList]) := by
  rw [queryDocids_inRange, queryDocids_inRange, queryDocids_inRange, runQuery_inRange]
  · exact ⟨rfl, rfl, rfl, rfl⟩
  all_goals decide

/-- C2 (the code departs from the claim): over `scenarioIndex` the operands
`NOT cat` and `dog` return `b.txt` and `a.txt, b.txt`, but `NOT cat OR dog`
returns nothing at all: with every amount of fuel `runQuery` is still in its
drain loop, and the first three docids the root has yielded by then are
1, 2, 3, although docid 3 is in neither operand's result. -/
theorem or_with_not_operand_not_union :
    (∀ fuel, runQuery fuel scenarioIndex [] "NOT cat OR dog".toList = Outcome.outOfFuel) ∧
    (∀ m, runQuery (m + 12) scenarioIndex [] "NOT cat".toList
      = Outcome.ok ({}, ["b.txt".toList])) ∧
    (∀ m, runQuery (m + 12) scenarioIndex [] "dog".toList
      = Outcome.ok ({}, ["a.txt".toList, "b.txt".toList])) ∧
    (∀ m, firstDocids (m + 12) 3 scenarioIndex "NOT cat OR dog".toList
      = Outcome.ok (some [1, 2, 3])) := by
  refine ⟨?_, fun m => (runQuery_inRange _ (by decide) _ _ _).trans rfl,
    fun m => (runQuery_inRange _ (by decide) _ _ _).trans rfl,
    fun m => (firstDocids_inRange _ (by decide) _ _ _).trans rfl⟩
  intro fuel
  rw [runQuery_inRange _ (by decide)]
  rcases fuel_cases fuel with h | ⟨m, rfl⟩
  · interval_cases fuel <;> rfl
  · exact runQuery_notOr_large m

/-- C3 (the code departs from the claim): over `libraryIndex` the real docids
are 1, 2, 3, 4 and `cat AND dog` yields docid 1 only, but `NOT (cat AND dog)`
yields 2 and 4 and leaves out docid 3. -/
theorem not_of_and_misses_document (m : Nat) :
    (libraryIndex.pDocuments.map (fun e => e.1)).filter (fun d => d ≠ 0) = [1, 2, 3, 4] ∧
    queryDocids (m + 12) libraryIndex "cat AND dog".toList = Outcome.ok (some [1]) ∧
    queryDocids (m + 12) libraryIndex "NOT (cat AND dog)".toList = Outcome.ok (some [2, 4]) ∧
    runQuery (m + 12) libraryIndex [] "NOT (cat AND dog)".toList
      = Outcome.ok ({}, ["b.txt".toList, "d.txt".toList]) := by
  rw [queryDocids_inRange, queryDocids_inRange, runQuery_inRange]
  · exact ⟨rfl, rfl, rfl, rfl⟩
  all_goals decide

/-- C4 (the code departs from the claim): the posting lists of `scenarioIndex`
are strictly ascending, and the first four docids the root of
`cat AND dog OR fish` yields while `runQuery` drains it are 1, 2, 3, 3, which
is not a strictly ascending sequence. -/
theorem or_root_repeats_docid (m : Nat) :
    scenarioIndex.postingsAscending ∧
    firstDocids (m + 12) 4 scenarioIndex "cat AND dog OR fish".toList
      = Outcome.ok (some [1, 2, 3, 3]) ∧
    ¬ ([1, 2, 3, 3] : List Nat).Pairwise (fun a b => a < b) :=
  ⟨by decide, (firstDocids_inRange _ (by decide) _ _ _).trans rfl, by decide⟩

/-- C5 (the code departs from the claim): over `scenarioIndex` the query `cat`
returns `a.txt, c.txt`, but `NOT NOT cat` returns `a.txt` only. -/
theorem double_negation_loses_document (m : Nat) :
    runQuery (m + 12) scenarioIndex [] "cat".toList
      = Outcome.ok ({}, ["a.txt".toList, "c.txt".toList]) ∧
    runQuery (m + 12) scenarioIndex [] "NOT NOT cat".toList
      = Outcome.ok ({}, ["a.txt".toList]) :=
  ⟨(runQuery_inRange _ (by decide) _ _ _).trans rfl,
    (runQuery_inRange _ (by decide) _ _ _).trans rfl⟩

/-- C6 (the code departs from the claim): over `scenarioIndex` the query
`fish AND (cat AND dog)` returns `c.txt`, while `(cat AND dog) AND fish`
returns no document. -/
theorem and_operand_order_changes_result (m : Nat) :
    runQuery (m + 12) scenarioIndex [] "fish AND (cat AND dog)".toList
      = Outcome.ok ({}, ["c.txt".toList]) ∧
    runQuery (m + 12) scenarioIndex [] "(cat AND dog) AND fish".toList
      = Outcome.ok ({}, []) :=
  ⟨(runQuery_inRange _ (by decide) _ _ _).trans rfl,
    (runQuery_inRange _ (by decide) _ _ _).trans rfl⟩

/-- C7 (the code departs from the claim): `cat AND dog OR fish` parses, and
over `scenarioIndex` the drain loop of `runQuery` never stops: with every
amount of fuel the run is cut off before it returns. -/
theorem or_with_and_operand_never_returns :
    (∀ m, ∃ t, parse (m + 12) "cat AND dog OR fish".toList = Outcome.ok (Except.ok t)) ∧
    (∀ fuel, runQuery fuel scenarioIndex [] "cat AND dog OR fish".toList
      = Outcome.outOfFuel) := by
  refine ⟨fun m => ⟨_, (parse_inRange _ (by decide) _).trans rfl⟩, ?_⟩
  intro fuel
  rw [runQuery_inRange _ (by decide)]
  rcases fuel_cases fuel with h | ⟨m, rfl⟩
  · interval_cases fuel <;> rfl
  · exact runQuery_andOr_large m

/-! ### The lexer on plain words -/

/-- In front of a character `c` the scanner returns `c` with the current line and
column and moves one position on. -/
theorem getCharacter_at (s : QueryScanner) (pre rest : List Char) (c : Char)
    (hq : s.pQuery = pre ++ c :: rest) (hp : s.pPosition = pre.length) :
    ∃ s1, s.getCharacterInRange = (⟨c, s.pLine, s.pColumn, s.pPosition⟩, s1) ∧
      s1.pQuery = s.pQuery ∧ s1.pPosition = s.pPosition + 1 := by
  have hlt : ¬ (s.pPosition ≥ s.pQuery.length) := by rw [hq, hp]; simp
  have hget : s.pQuery.getD s.pPosition NUL = c := by
    rw [hq, hp, List.getD_eq_getElem?_getD, List.getElem?_append_right (le_refl _)]; simp
  simp only [QueryScanner.getCharacterInRange, if_neg hlt, hget]
  split <;> exact ⟨_, rfl, rfl, rfl⟩

/-- At the end of the query the scanner returns the zero character and stays. -/
theorem getCharacter_end (s : QueryScanner) (h : s.pQuery.length ≤ s.pPosition) :
    s.getCharacterInRange = (⟨NUL, s.pLine, s.pColumn, s.pPosition⟩, s) := by
  simp [QueryScanner.getCharacterInRange, h]

/-- In front of word characters `w` followed by the end of the query or by a
character that ends a word, the word loop appends exactly `w` and stops on what
follows. -/
theorem readWord_spec (w : List Char) : ∀ (fuel : Nat) (tok : List Char) (s : QueryScanner)
    (pre rest : List Char), s.pQuery = pre ++ (w ++ rest) → s.pPosition = pre.length →
    (∀ c ∈ w, WordChar c) → (∀ c ∈ rest.head?, ¬ WordChar c) → w.length ≤ fuel →
    ∃ ch s1, readWordInRange fuel tok s = (tok ++ w, ch, s1) ∧ ch.pValue = rest.headD NUL ∧
      s1.pQuery = s.pQuery ∧ s1.pPosition = pre.length + w.length + (if rest = [] then 0 else 1) := by
  induction w with
  | nil =>
    intro fuel tok s pre rest hq hp _ hrest _
    cases rest with
    | nil =>
      have h0 := getCharacter_end s (by rw [hq, hp]; simp)
      have e : readWordInRange fuel tok s = (tok, ⟨NUL, s.pLine, s.pColumn, s.pPosition⟩, s) := by
        unfold readWordInRange; simp [h0]
      exact ⟨⟨NUL, s.pLine, s.pColumn, s.pPosition⟩, s, by rw [e]; simp, rfl, rfl,
        by simp [hp]⟩
    | cons d r =>
      obtain ⟨s1, h1, h2, h3⟩ := getCharacter_at s pre r d (by simpa using hq) hp
      have hd : ¬ WordChar d := hrest d (by simp)
      have hd2 : d = NUL ∨ d = ' ' ∨ d = ')' ∨ d = '(' := by
        unfold WordChar at hd; tauto
      have e : readWordInRange fuel tok s = (tok, ⟨d, s.pLine, s.pColumn, s.pPosition⟩, s1) := by
        unfold readWordInRange; simp only [h1, hd2, if_true]
      exact ⟨⟨d, s.pLine, s.pColumn, s.pPosition⟩, s1, by rw [e]; simp, rfl, h2,
        by simp [h3, hp]⟩
  | cons c w ih =>
    intro fuel tok s pre rest hq hp hw hrest hfuel
    obtain ⟨s1, h1, h2, h3⟩ := getCharacter_at s pre (w ++ rest) c (by simpa using hq) hp
    have hc : WordChar c := hw c (by simp)
    have hc2 : ¬ (c = NUL ∨ c = ' ' ∨ c = ')' ∨ c = '(') := by
      unfold WordChar at hc; tauto
    cases fuel with
    | zero => simp at hfuel
    | succ n =>
      obtain ⟨ch, s2, e1, e2, e3, e4⟩ := ih n (tok ++ [c]) s1 (pre ++ [c]) rest
        (by rw [h2, hq]; simp) (by rw [h3, hp]; simp) (fun x hx => hw x (by simp [hx])) hrest
        (by simpa using hfuel)
      have e : readWordInRange (n + 1) tok s = readWordInRange n (tok ++ [c]) s1 := by
        rw [readWordInRange]; simp only [h1, hc2, if_false]
      refine ⟨ch, s2, by rw [e, e1]; simp, e2, by rw [e3, h2], ?_⟩
      rw [e4]; simp; omega

/-- When the next character is not a space, the space loop reads just that
character. -/
theorem skipSpaces_of_not_space (fuel : Nat) (s : QueryScanner)
    (h : s.getCharacterInRange.1.pValue ≠ ' ') : skipSpacesInRange fuel s = s.getCharacterInRange := by
  unfold skipSpacesInRange
  by_cases h0 : s.getCharacterInRange.1.pValue = NUL
  · simp [h0]
  · simp [h0, h]

/-- At the end of the query `getTokenInRange` returns an `End` token and leaves the
lexer as it is. -/
theorem getToken_end (l : QueryLexer) (hl : LexerAt l []) :
    ∃ t, l.getTokenInRange = (t, l) ∧ t.pType = TokenType.End ∧ t.pValue = [] := by
  obtain ⟨hpend, pre, hq, hp⟩ := hl
  have h0 := getCharacter_end l.pScanner (by rw [hq, hp]; simp)
  have h1 : skipSpacesInRange l.pScanner.remaining l.pScanner = l.pScanner.getCharacterInRange :=
    skipSpaces_of_not_space _ _ (by rw [h0]; show NUL ≠ ' '; decide)
  refine ⟨⟨[], TokenType.End, l.pScanner.pLine, l.pScanner.pColumn, l.pScanner.pPosition⟩, ?_,
    rfl, rfl⟩
  unfold QueryLexer.getTokenInRange
  simp [hpend, h1, h0]

/-- In front of a plain word that is followed by a space or by the end of the
query, `getTokenInRange` returns the word with its classification and moves behind
the word and the space. -/
theorem getToken_word (l : QueryLexer) (w rest : List Char) (hl : LexerAt l (w ++ rest))
    (hw : PlainWord w) (hrest : rest = [] ∨ ∃ r, rest = ' ' :: r) :
    ∃ t l1, l.getTokenInRange = (t, l1) ∧ t.pValue = w ∧ t.pType = classify w ∧
      LexerAt l1 rest.tail := by
  obtain ⟨hpend, pre, hq, hp⟩ := hl
  obtain ⟨hne, hchars⟩ := hw
  cases w with
  | nil => exact absurd rfl hne
  | cons c w =>
    obtain ⟨s1, h1, h2, h3⟩ := getCharacter_at l.pScanner pre (w ++ rest) c (by simpa using hq) hp
    obtain ⟨hc0, hc1, hc2, hc3⟩ : WordChar c := hchars c (by simp)
    have hskip : skipSpacesInRange l.pScanner.remaining l.pScanner = l.pScanner.getCharacterInRange :=
      skipSpaces_of_not_space _ _ (by rw [h1]; exact hc1)
    have hhead : ∀ d ∈ rest.head?, ¬ WordChar d := by
      rcases hrest with rfl | ⟨r, rfl⟩
      · simp
      · intro d hd
        simp at hd
        subst hd
        unfold WordChar
        simp
    obtain ⟨ch2, s2, e1, e2, e3, e4⟩ := readWord_spec w s1.remaining [c] s1 (pre ++ [c]) rest
      (by rw [h2, hq]; simp) (by rw [h3, hp]; simp) (fun x hx => hchars x (by simp [hx])) hhead
      (by unfold QueryScanner.remaining; rw [h2, h3, hq, hp]; simp; omega)
    have hch2 : ¬ (ch2.pValue = ')' ∨ ch2.pValue = '(') := by
      rw [e2]
      rcases hrest with rfl | ⟨r, rfl⟩
      · show ¬ (NUL = ')' ∨ NUL = '('); decide
      · show ¬ (' ' = ')' ∨ ' ' = '('); decide
    refine ⟨⟨c :: w, classify (c :: w), l.pScanner.pLine, l.pScanner.pColumn,
      l.pScanner.pPosition⟩, ⟨s2, l.pPending⟩, ?_, rfl, rfl, hpend, ?_⟩
    · unfold QueryLexer.getTokenInRange
      simp [hpend, hskip, h1, hc0, hc3, e1, hch2]
    · refine ⟨pre ++ (c :: w) ++ rest.take 1, ?_, ?_⟩
      · show s2.pQuery = _
        rw [e3, h2, hq]
        rcases hrest with rfl | ⟨r, rfl⟩ <;> simp
      · show s2.pPosition = _
        rw [e4]
        rcases hrest with rfl | ⟨r, rfl⟩ <;> simp <;> omega

/-- A lexer in front of plain words separated by single spaces delivers these
words, classified, and then `End`. -/
theorem tokenStream_of_words (ws : List (List Char)) : ∀ (p : QueryParser),
    (∀ w ∈ ws, PlainWord w) → LexerAt p.pLexer (spaced ws) →
    TokenStream p.getNextTokenInRange (ws.map (fun w => (classify w, w))) := by
  have hend : ∀ (p : QueryParser), LexerAt p.pLexer [] →
      TokenStream p.getNextTokenInRange [] ∧ LexerAt p.getNextTokenInRange.pLexer [] := by
    intro p hl
    obtain ⟨t, h1, h2, h3⟩ := getToken_end p.pLexer hl
    unfold TokenStream QueryParser.getNextTokenInRange
    simp [h1, h2, h3, hl]
  induction ws with
  | nil => intro p _ hl; exact (hend p hl).1
  | cons w ws ih =>
    intro p hws hl
    have hw : PlainWord w := hws w (by simp)
    cases ws with
    | nil =>
      obtain ⟨t, l1, h1, h2, h3, h4⟩ := getToken_word p.pLexer w [] (by simpa [spaced] using hl)
        hw (Or.inl rfl)
      have hp1 : p.getNextTokenInRange = ⟨l1, t⟩ := by unfold QueryParser.getNextTokenInRange; simp [h1]
      show TokenStream p.getNextTokenInRange [(classify w, w)]
      unfold TokenStream
      rw [hp1]
      exact ⟨h3, h2, (hend ⟨l1, t⟩ h4).1⟩
    | cons w2 ws =>
      obtain ⟨t, l1, h1, h2, h3, h4⟩ := getToken_word p.pLexer w (' ' :: spaced (w2 :: ws))
        (by simpa [spaced] using hl) hw (Or.inr ⟨_, rfl⟩)
      have hp1 : p.getNextTokenInRange = ⟨l1, t⟩ := by unfold QueryParser.getNextTokenInRange; simp [h1]
      show TokenStream p.getNextTokenInRange ((classify w, w) :: (w2 :: ws).map _)
      unfold TokenStream
      rw [hp1]
      exact ⟨h3, h2, ih ⟨l1, t⟩ (fun x hx => hws x (by simp [hx])) h4⟩

/-- A fresh parser on a query without zero byte has its lexer in front of the
whole query. -/
theorem new_lexerAt (q : List Char) (h : ∀ c ∈ q, c ≠ NUL) :
    LexerAt (QueryParser.new q).pLexer q := by
  refine ⟨rfl, [], ?_, rfl⟩
  show q.takeWhile (fun c => c ≠ NUL) = [] ++ q
  rw [List.nil_append, List.takeWhile_eq_self_iff]
  intro c hc
  simpa using h c hc

/-- A plain term word is classified as `Term`. -/
theorem classify_termWord (w : List Char) (h : TermWord w) : classify w = TokenType.Term := by
  obtain ⟨_, h1, h2, h3⟩ := h
  unfold classify
  rw [if_neg (fun h => h.elim h2 h1), if_neg h3]

/-- Plain words separated by spaces contain no zero byte. -/
theorem spaced_no_nul (ws : List (List Char)) (h : ∀ w ∈ ws, PlainWord w) :
    ∀ c ∈ spaced ws, c ≠ NUL := by
  induction ws with
  | nil => intro c hc; simp [spaced] at hc
  | cons w ws ih =>
    have hw := (h w (by simp)).2
    cases ws with
    | nil => intro c hc; exact (hw c (by simpa [spaced] using hc)).1
    | cons w2 ws =>
      intro c hc
      have hc2 : c ∈ w ∨ c = ' ' ∨ c ∈ spaced (w2 :: ws) := by simpa [spaced] using hc
      rcases hc2 with h1 | h1 | h1
      · exact (hw c h1).1
      · rw [h1]; decide
      · exact ih (fun x hx => h x (by simp [hx])) c h1

/-- The three keywords are plain words. -/
theorem plainWord_keyword : PlainWord "AND".toList ∧ PlainWord "OR".toList ∧
    PlainWord "NOT".toList := by decide

/-- On plain words separated by single spaces, `parseInRange` is `block1InRange` followed by
the test for `End`, run on a parser that sees the classified words. -/
theorem parse_words (fuel : Nat) (ws : List (List Char)) (h : ∀ w ∈ ws, PlainWord w) :
    ∃ p, TokenStream p (ws.map (fun w => (classify w, w))) ∧
      parseInRange fuel (spaced ws) =
        (match block1InRange fuel p with
          | Outcome.ok (Except.ok t, p1) =>
            (match p1.acceptInRange TokenType.End with
              | (true, _) => Outcome.ok (Except.ok t)
              | (false, p2) => Outcome.ok (Except.error p2.syntaxError))
          | Outcome.ok (Except.error st, _) => Outcome.ok (Except.error st)
          | Outcome.fault => Outcome.fault
          | Outcome.outOfFuel => Outcome.outOfFuel) := by
  refine ⟨(QueryParser.new (spaced ws)).getNextTokenInRange,
    tokenStream_of_words ws _ h (new_lexerAt _ (spaced_no_nul ws h)), ?_⟩
  unfold parseInRange QueryParser.queryInRange
  rcases block1InRange fuel (QueryParser.new (spaced ws)).getNextTokenInRange with ⟨⟨t | t, p1⟩⟩ | _ | _
  · rfl
  · simp only
    rcases p1.acceptInRange TokenType.End with ⟨_ | _, p2⟩ <;> rfl
  · rfl
  · rfl

/-- `NOT a AND b OR c` parses to `Or[And[Not[a], b], c]`. -/
theorem precedence_left (a b c : List Char) (ha : TermWord a) (hb : TermWord b) (hc : TermWord c)
    (m : Nat) :
    parseInRange (m + 12) ("NOT ".toList ++ a ++ " AND ".toList ++ b ++ " OR ".toList ++ c)
      = Outcome.ok (Except.ok
          (PNode.mk TokenType.BinaryOp "OR".toList
            [PNode.mk TokenType.BinaryOp "AND".toList
              [PNode.mk TokenType.UnaryOp "NOT".toList [PNode.mk TokenType.Term a []],
                PNode.mk TokenType.Term b []],
              PNode.mk TokenType.Term c []])) := by
  have hq : "NOT ".toList ++ a ++ " AND ".toList ++ b ++ " OR ".toList ++ c
      = spaced ["NOT".toList, a, "AND".toList, b, "OR".toList, c] := by
    simp [spaced]
  obtain ⟨p, hs, hp⟩ := parse_words (m + 12) ["NOT".toList, a, "AND".toList, b, "OR".toList, c]
    (by
      intro w hw
      simp only [List.mem_cons, List.mem_singleton, List.not_mem_nil, or_false] at hw
      rcases hw with rfl | rfl | rfl | rfl | rfl | rfl
      · exact plainWord_keyword.2.2
      · exact ha.1
      · exact plainWord_keyword.1
      · exact hb.1
      · exact plainWord_keyword.2.1
      · exact hc.1)
  rw [hq, hp]
  simp only [List.map, TokenStream, classify_termWord a ha, classify_termWord b hb,
    classify_termWord c hc] at hs
  obtain ⟨h1, h1v, h2, h2v, h3, h3v, h4, h4v, h5, h5v, h6, h6v, h7, h7v⟩ := hs
  have k1 : classify "NOT".toList = TokenType.UnaryOp := by decide
  have k2 : classify "AND".toList = TokenType.BinaryOp := by decide
  have k3 : classify "OR".toList = TokenType.BinaryOp := by decide
  rw [k1] at h1
  rw [k2] at h3
  rw [k3] at h5
  simp [block1InRange, block1LoopInRange, block2InRange, block2LoopInRange, block3InRange, QueryParser.acceptInRange,
    QueryParser.acceptValueInRange, collapse, h1, h1v, h2, h2v, h3, h3v, h4, h4v, h5, h5v, h6, h6v,
    h7, h7v]

/-- `a OR b AND NOT c` parses to `Or[a, And[b, Not[c]]]`. -/
theorem precedence_right (a b c : List Char) (ha : TermWord a) (hb : TermWord b) (hc : TermWord c)
    (m : Nat) :
    parseInRange (m + 12) (a ++ " OR ".toList ++ b ++ " AND NOT ".toList ++ c)
      = Outcome.ok (Except.ok
          (PNode.mk TokenType.BinaryOp "OR".toList
            [PNode.mk TokenType.Term a [],
              PNode.mk TokenType.BinaryOp "AND".toList
                [PNode.mk TokenType.Term b [],
                  PNode.mk TokenType.UnaryOp "NOT".toList [PNode.mk TokenType.Term c []]]])) := by
  have hq : a ++ " OR ".toList ++ b ++ " AND NOT ".toList ++ c
      = spaced [a, "OR".toList, b, "AND".toList, "NOT".toList, c] := by
    simp [spaced]
  obtain ⟨p, hs, hp⟩ := parse_words (m + 12) [a, "OR".toList, b, "AND".toList, "NOT".toList, c]
    (by
      intro w hw
      simp only [List.mem_cons, List.mem_singleton, List.not_mem_nil, or_false] at hw
      rcases hw with rfl | rfl | rfl | rfl | rfl | rfl
      · exact ha.1
      · exact plainWord_keyword.2.1
      · exact hb.1
      · exact plainWord_keyword.1
      · exact plainWord_keyword.2.2
      · exact hc.1)
  rw [hq, hp]
  simp only [List.map, TokenStream, classify_termWord a ha, classify_termWord b hb,
    classify_termWord c hc] at hs
  obtain ⟨h1, h1v, h2, h2v, h3, h3v, h4, h4v, h5, h5v, h6, h6v, h7, h7v⟩ := hs
  have k1 : classify "NOT".toList = TokenType.UnaryOp := by decide
  have k2 : classify "AND".toList = TokenType.BinaryOp := by decide
  have k3 : classify "OR".toList = TokenType.BinaryOp := by decide
  rw [k3] at h2
  rw [k2] at h4
  rw [k1] at h5
  simp [block1InRange, block1LoopInRange, block2InRange, block2LoopInRange, block3InRange, QueryParser.acceptInRange,
    QueryParser.acceptValueInRange, collapse, h1, h1v, h2, h2v, h3, h3v, h4, h4v, h5, h5v, h6, h6v,
    h7, h7v]

/-- A query that is one plain term word parses to the `Term` node of that word. -/
theorem parse_termWord (w : List Char) (hw : TermWord w) (m : Nat) :
    parseInRange (m + 3) w = Outcome.ok (Except.ok (PNode.mk TokenType.Term w [])) := by
  obtain ⟨p, hs, hp⟩ := parse_words (m + 3) [w]
    (by intro x hx; simp only [List.mem_singleton] at hx; rw [hx]; exact hw.1)
  have hq : spaced [w] = w := rfl
  rw [hq] at hp
  rw [hp]
  simp only [List.map, TokenStream, classify_termWord w hw] at hs
  obtain ⟨h1, h1v, h2, h2v⟩ := hs
  simp [block1InRange, block1LoopInRange, block2InRange, block2LoopInRange, block3InRange, QueryParser.acceptInRange,
    QueryParser.acceptValueInRange, collapse, h1, h1v, h2, h2v]

/-- With fewer than three units of fuel `parseInRange` runs out of fuel. -/
theorem parse_small (q : List Char) :
    parseInRange 0 q = Outcome.outOfFuel ∧ parseInRange 1 q = Outcome.outOfFuel ∧
    parseInRange 2 q = Outcome.outOfFuel := by
  simp [parseInRange, QueryParser.queryInRange, block1InRange, block2InRange, block3InRange]

/-- With fewer than three units of fuel `runQueryInRange` runs out of fuel. -/
theorem runQuery_small (idx : Index) (result : List (List Char)) (q : List Char) :
    runQueryInRange 0 idx result q = Outcome.outOfFuel ∧ runQueryInRange 1 idx result q = Outcome.outOfFuel ∧
    runQueryInRange 2 idx result q = Outcome.outOfFuel := by
  simp [runQueryInRange, parse_small]

/-- An amount of fuel is 0, 1, 2, or three plus something. -/
theorem fuel_cases3 (fuel : Nat) : fuel = 0 ∨ fuel = 1 ∨ fuel = 2 ∨ ∃ m, fuel = m + 3 := by
  rcases Nat.lt_or_ge fuel 3 with h | h
  · interval_cases fuel <;> simp
  · exact Or.inr (Or.inr (Or.inr ⟨fuel - 3, by omega⟩))

/-- Two plain term words with the same lowercase form give the same run. -/
theorem case_variant (idx : Index) (result : List (List Char)) (w v : List Char) (fuel : Nat)
    (hw : PlainWord w) (hlow : w.map Char.toLower = w)
    (hv : TermWord v) (hvw : v.map Char.toLower = w) :
    runQueryInRange fuel idx result v = runQueryInRange fuel idx result w := by
  have hwt : TermWord w := by
    refine ⟨hw, ?_, ?_, ?_⟩ <;> intro h <;> rw [h] at hlow <;> revert hlow <;> decide
  rcases fuel_cases3 fuel with rfl | rfl | rfl | ⟨m, rfl⟩
  · rw [(runQuery_small idx result v).1, (runQuery_small idx result w).1]
  · rw [(runQuery_small idx result v).2.1, (runQuery_small idx result w).2.1]
  · rw [(runQuery_small idx result v).2.2, (runQuery_small idx result w).2.2]
  · unfold runQueryInRange
    rw [parse_termWord v hv m, parse_termWord w hwt m]
    simp only [execute, translate, hvw, hlow]

/-- A plain term word whose lowercase form is not a key of the index makes
`runQueryInRange` dereference the null `pDataLoader`. -/
theorem unknown_term_faults (idx : Index) (result : List (List Char)) (w : List Char) (m : Nat)
    (hw : TermWord w) (habsent : idx.find (w.map Char.toLower) = none) :
    runQueryInRange (m + 3) idx result w = Outcome.fault := by
  unfold runQueryInRange
  rw [parse_termWord w hw m]
  simp [execute, translate, Node.prepare, habsent, drain, Node.loadResult]

/-- The drain loop over a `TermNode` with a loader collects what is left of the
posting list. -/
theorem drain_term (c : Nat) (t : List Char) (postings : List Nat) (f : Nat) (cur : List Nat) :
    ∀ (k d : Nat) (acc : List Nat), cur.length < k →
      drain (Node.loadResult (f + 1)) k
        (Node.TermNode c t (some { pPostings := postings, pCurrent := cur, pDoc := d })) acc
        = Outcome.ok (acc ++ cur) := by
  induction cur with
  | nil =>
    intro k d acc hk
    cases k with
    | zero => simp at hk
    | succ k => simp [drain, Node.loadResult, DataLoader.loadResult]
  | cons x rest ih =>
    intro k d acc hk
    cases k with
    | zero => simp at hk
    | succ k =>
      have h := ih k x (acc ++ [x]) (by simpa using hk)
      simp [drain, Node.loadResult, DataLoader.loadResult, Node.getResult, h]

/-- A plain term word whose lowercase form is a key of the index returns the
names of the docids of its posting list, in the order of the list. -/
theorem runQuery_term_present (idx : Index) (result : List (List Char)) (v : List Char)
    (td : TermData) (m : Nat) (hv : TermWord v)
    (hpresent : idx.find (v.map Char.toLower) = some td) :
    runQueryInRange (m + td.pPostings.length + 3) idx result v
      = Outcome.ok ({}, td.pPostings.map idx.getDocumentName) := by
  unfold runQueryInRange
  rw [parse_termWord v hv (m + td.pPostings.length)]
  have h := drain_term td.numPostings (v.map Char.toLower) td.pPostings
    (m + td.pPostings.length + 2) td.pPostings (m + td.pPostings.length + 3) noDoc []
    (by omega)
  simp only [execute, translate, Node.prepare, hpresent, DataLoader.new, TermData.getPostings]
  rw [h]
  simp

/-- C8 (the code departs from the claim): `xyzzy` is not a key of
`scenarioIndex`; `prepare` leaves its `TermNode` with count 0 and a null
`pDataLoader`, and the first `loadResult` dereferences it: `runQuery` faults
on `xyzzy`, on `cat AND xyzzy` and on `cat OR xyzzy`. -/
theorem unknown_term_query_faults (m : Nat) :
    scenarioIndex.find "xyzzy".toList = none ∧
    Node.prepare (m + 12) scenarioIndex (Node.TermNode 0 "xyzzy".toList none)
      = Outcome.ok (Node.TermNode 0 "xyzzy".toList none) ∧
    runQuery (m + 12) scenarioIndex [] "xyzzy".toList = Outcome.fault ∧
    runQuery (m + 12) scenarioIndex [] "cat AND xyzzy".toList = Outcome.fault ∧
    runQuery (m + 12) scenarioIndex [] "cat OR xyzzy".toList = Outcome.fault :=
  ⟨rfl, rfl, (runQuery_inRange _ (by decide) _ _ _).trans rfl,
    (runQuery_inRange _ (by decide) _ _ _).trans rfl,
    (runQuery_inRange _ (by decide) _ _ _).trans rfl⟩

/-- C9 as stated fails: "and" is a term of `keywordIndex` in lowercase form and
`AND` is a case variant of it, yet `runQuery` returns `a.txt` for `and` and a
syntax error for `AND`. -/
theorem keyword_case_variant_differs :
    (keywordIndex.find "and".toList).isSome = true ∧
    "AND".toList.map Char.toLower = "and".toList ∧
    runQuery 12 keywordIndex [] "and".toList = Outcome.ok ({}, ["a.txt".toList]) ∧
    runQuery 12 keywordIndex [] "AND".toList
      = Outcome.ok (⟨errSyntax, "Syntax error at (1, 1)".toList⟩, []) ∧
    runQuery 12 keywordIndex [] "AND".toList ≠ runQuery 12 keywordIndex [] "and".toList := by
  rw [runQuery_inRange "and".toList (by decide), runQuery_inRange "AND".toList (by decide)]
  refine ⟨rfl, rfl, rfl, rfl, ?_⟩
  decide

/-- A word whose lowercase form is a plain word is a plain word. -/
theorem plainWord_of_lower (v : List Char) (h : PlainWord (v.map Char.toLower)) :
    PlainWord v := by
  obtain ⟨hne, hchars⟩ := h
  refine ⟨fun h0 => hne (by rw [h0]; rfl), ?_⟩
  intro c hc
  obtain ⟨h1, h2, h3, h4⟩ := hchars c.toLower (List.mem_map_of_mem _ hc)
  exact ⟨fun e => h1 (by rw [e]; rfl), fun e => h2 (by rw [e]; rfl),
    fun e => h3 (by rw [e]; rfl), fun e => h4 (by rw [e]; rfl)⟩

/-- C9 (amended): for every index and every plain word `w` in lowercase form
that is a key of the index, every case variant `v` of `w` other than the
keywords `AND`, `OR`, `NOT`, of fewer than `2 ^ 31 - 1` characters, gives the
same run of `runQuery` as `w` with every amount of fuel, and with enough fuel
the run returns the names of the docids of the posting list of `w`. -/
theorem case_variant_same_result (idx : Index) (result : List (List Char)) (w v : List Char)
    (td : TermData) (hw : PlainWord w) (hlow : w.map Char.toLower = w)
    (hpresent : idx.find w = some td) (hvw : v.map Char.toLower = w)
    (hkey : v ≠ "AND".toList ∧ v ≠ "OR".toList ∧ v ≠ "NOT".toList)
    (hlen : v.length < 2 ^ 31 - 1) :
    (∀ fuel, runQuery fuel idx result v = runQuery fuel idx result w) ∧
    (∀ m, runQuery (m + td.pPostings.length + 3) idx result v
      = Outcome.ok ({}, td.pPostings.map idx.getDocumentName)) := by
  have hv : TermWord v := ⟨plainWord_of_lower v (by rw [hvw]; exact hw), hkey⟩
  have hbv := takeWhile_length_lt v hlen
  have hbw := takeWhile_length_lt w (by rw [← hvw, List.length_map]; exact hlen)
  refine ⟨fun fuel => ?_, fun m => ?_⟩
  · rw [runQuery_inRange v hbv, runQuery_inRange w hbw]
    exact case_variant idx result w v fuel hw hlow hv hvw
  · rw [runQuery_inRange v hbv]
    exact runQuery_term_present idx result v td m hv (by rw [hvw]; exact hpresent)

/-- Instance of `case_variant_same_result`: `CAT` and `cat` over `scenarioIndex`. -/
theorem case_variant_same_result_witness :
    PlainWord "cat".toList ∧ "cat".toList.map Char.toLower = "cat".toList ∧
    scenarioIndex.find "cat".toList = some ⟨2, [1, 3]⟩ ∧
    "CAT".toList.map Char.toLower = "cat".toList ∧
    ("CAT".toList ≠ "AND".toList ∧ "CAT".toList ≠ "OR".toList ∧ "CAT".toList ≠ "NOT".toList) ∧
    "CAT".toList.length < 2 ^ 31 - 1 ∧
    (∀ fuel, runQuery fuel scenarioIndex [] "CAT".toList
      = runQuery fuel scenarioIndex [] "cat".toList) ∧
    (∀ m, runQuery (m + 2 + 3) scenarioIndex [] "CAT".toList
      = Outcome.ok ({}, ["a.txt".toList, "c.txt".toList])) :=
  ⟨by decide, by decide, by decide, by decide, by decide, by decide,
    case_variant_same_result scenarioIndex [] "cat".toList "CAT".toList ⟨2, [1, 3]⟩
      (by decide) (by decide) (by decide) (by decide) (by decide) (by decide)⟩

/-- C10: for all plain term words `a`, `b`, `c` in a query of fewer than
`2 ^ 31 - 1` characters and with twelve or more units of fuel,
`NOT a AND b OR c` parses to `Or[And[Not[Term a], Term b], Term c]` and
`a OR b AND NOT c` parses to `Or[Term a, And[Term b, Not[Term c]]]`. -/
theorem operator_precedence (a b c : List Char) (ha : TermWord a) (hb : TermWord b)
    (hc : TermWord c) (hlen : a.length + b.length + c.length + 13 < 2 ^ 31 - 1) (m : Nat) :
    parse (m + 12) ("NOT ".toList ++ a ++ " AND ".toList ++ b ++ " OR ".toList ++ c)
      = Outcome.ok (Except.ok
          (PNode.mk TokenType.BinaryOp "OR".toList
            [PNode.mk TokenType.BinaryOp "AND".toList
              [PNode.mk TokenType.UnaryOp "NOT".toList [PNode.mk TokenType.Term a []],
                PNode.mk TokenType.Term b []],
              PNode.mk TokenType.Term c []])) ∧
    parse (m + 12) (a ++ " OR ".toList ++ b ++ " AND NOT ".toList ++ c)
      = Outcome.ok (Except.ok
          (PNode.mk TokenType.BinaryOp "OR".toList
            [PNode.mk TokenType.Term a [],
              PNode.mk TokenType.BinaryOp "AND".toList
                [PNode.mk TokenType.Term b [],
                  PNode.mk TokenType.UnaryOp "NOT".toList [PNode.mk TokenType.Term c []]]])) := by
  have h1 : ("NOT ".toList ++ a ++ " AND ".toList ++ b ++ " OR ".toList ++ c).length
      < 2 ^ 31 - 1 := by
    simp only [List.length_append]
    have e1 : "NOT ".toList.length = 4 := rfl
    have e2 : " AND ".toList.length = 5 := rfl
    have e3 : " OR ".toList.length = 4 := rfl
    omega
  have h2 : (a ++ " OR ".toList ++ b ++ " AND NOT ".toList ++ c).length < 2 ^ 31 - 1 := by
    simp only [List.length_append]
    have e1 : " AND NOT ".toList.length = 9 := rfl
    have e3 : " OR ".toList.length = 4 := rfl
    omega
  rw [parse_inRange _ (takeWhile_length_lt _ h1), parse_inRange _ (takeWhile_length_lt _ h2)]
  exact ⟨precedence_left a b c ha hb hc m, precedence_right a b c ha hb hc m⟩

/-- Instance of `operator_precedence`: the words `cat`, `dog`, `fish` with
twelve units of fuel. -/
theorem operator_precedence_witness :
    TermWord "cat".toList ∧ TermWord "dog".toList ∧ TermWord "fish".toList ∧
    "cat".toList.length + "dog".toList.length + "fish".toList.length + 13 < 2 ^ 31 - 1 ∧
    parse 12 "NOT cat AND dog OR fish".toList
      = Outcome.ok (Except.ok
          (PNode.mk TokenType.BinaryOp "OR".toList
            [PNode.mk TokenType.BinaryOp "AND".toList
              [PNode.mk TokenType.UnaryOp "NOT".toList
                  [PNode.mk TokenType.Term "cat".toList []],
                PNode.mk TokenType.Term "dog".toList []],
              PNode.mk TokenType.Term "fish".toList []])) ∧
    parse 12 "cat OR dog AND NOT fish".toList
      = Outcome.ok (Except.ok
          (PNode.mk TokenType.BinaryOp "OR".toList
            [PNode.mk TokenType.Term "cat".toList [],
              PNode.mk TokenType.BinaryOp "AND".toList
                [PNode.mk TokenType.Term "dog".toList [],
                  PNode.mk TokenType.UnaryOp "NOT".toList
                    [PNode.mk TokenType.Term "fish".toList []]]])) :=
  ⟨by decide, by decide, by decide, by decide,
    operator_precedence "cat".toList "dog".toList "fish".toList (by decide) (by decide)
      (by decide) (by decide) 0⟩

/-! ### Claims C11 to C20 -/

/-- C15 (the code departs from the claim): `(cat)` parses to `Term cat`, but
`((cat))` is a syntax error; `cat ` parses to `Term cat`, but `(cat )` is a
syntax error.  In both the closing parenthesis that starts a token is lexed as
a word. -/
theorem nested_parentheses_rejected (m : Nat) :
    parse (m + 12) "(cat)".toList
      = Outcome.ok (Except.ok (PNode.mk TokenType.Term "cat".toList [])) ∧
    parse (m + 12) "((cat))".toList
      = Outcome.ok (Except.error ⟨errSyntax, "Syntax error at (1, 7)".toList⟩) ∧
    parse (m + 12) "cat ".toList
      = Outcome.ok (Except.ok (PNode.mk TokenType.Term "cat".toList [])) ∧
    parse (m + 12) "(cat )".toList
      = Outcome.ok (Except.error ⟨errSyntax, "Syntax error at (1, 6)".toList⟩) :=
  ⟨(parse_inRange _ (by decide) _).trans rfl, (parse_inRange _ (by decide) _).trans rfl,
    (parse_inRange _ (by decide) _).trans rfl, (parse_inRange _ (by decide) _).trans rfl⟩

/-- C16 (the code departs from the claim): a `)` at the start of the query,
after a space or after another parenthesis is not emitted as a `Symbol`: the
lexer returns it as a `Term`, together with the characters that follow it up
to the next space or parenthesis. -/
theorem closing_parenthesis_lexed_as_term :
    (∃ ts, nextTokens 2 (lexerOf ")".toList) = Outcome.ok ts ∧
      ts.map (fun t => (t.pValue, t.pType))
        = [(")".toList, TokenType.Term), ([], TokenType.End)]) ∧
    (∃ ts, nextTokens 4 (lexerOf "(cat )".toList) = Outcome.ok ts ∧
      ts.map (fun t => (t.pValue, t.pType))
        = [("(".toList, TokenType.Symbol), ("cat".toList, TokenType.Term),
            (")".toList, TokenType.Term), ([], TokenType.End)]) ∧
    (∃ ts, nextTokens 6 (lexerOf "((cat))".toList) = Outcome.ok ts ∧
      ts.map (fun t => (t.pValue, t.pType))
        = [("(".toList, TokenType.Symbol), ("(".toList, TokenType.Symbol),
            ("cat".toList, TokenType.Term), (")".toList, TokenType.Symbol),
            (")".toList, TokenType.Term), ([], TokenType.End)]) ∧
    (∃ ts, nextTokens 2 (lexerOf ")cat".toList) = Outcome.ok ts ∧
      ts.map (fun t => (t.pValue, t.pType))
        = [(")cat".toList, TokenType.Term), ([], TokenType.End)]) :=
  ⟨⟨_, nextTokens_inRange _ (by decide) _, by decide⟩,
    ⟨_, nextTokens_inRange _ (by decide) _, by decide⟩,
    ⟨_, nextTokens_inRange _ (by decide) _, by decide⟩,
    ⟨_, nextTokens_inRange _ (by decide) _, by decide⟩⟩

/-- C20 (the code departs from the claim): after `registerDocument` twice and
`addPosting("cat", 2)`, `addPosting("cat", 1)` on a fresh index, the posting
list of `cat` is `[2, 1]`, which is not ascending. -/
theorem addPosting_breaks_ascending_order :
    unsortedIndex.find "cat".toList = some ⟨2, [2, 1]⟩ ∧
    ¬ unsortedIndex.postingsAscending := by
  decide

/-- The in-range run of `accept(t, value)` takes the token exactly when the parser
sees it. -/
theorem acceptValue_eq (p : QueryParser) (t : TokenType) (value : List Char) :
    p.acceptValueInRange t value = if p.sees t value then (true, p.getNextTokenInRange) else (false, p) := by
  unfold QueryParser.acceptValueInRange QueryParser.acceptInRange QueryParser.sees
  by_cases h1 : p.pToken.pValue = value <;> by_cases h2 : p.pToken.pType = t <;> simp [h1, h2]

theorem block1_succ (f : Nat) (p : QueryParser) :
    block1InRange (f + 1) p = (block2InRange f p).andThen (fun tmp p1 => block1LoopInRange f [tmp] p1) := by
  rw [block1InRange]; unfold Parsed.andThen; rfl

theorem block2_succ (f : Nat) (p : QueryParser) :
    block2InRange (f + 1) p = (block3InRange f p).andThen (fun tmp p1 => block2LoopInRange f [tmp] p1) := by
  rw [block2InRange]; unfold Parsed.andThen; rfl

theorem block1Loop_succ (f : Nat) (chs : List PNode) (p : QueryParser) :
    block1LoopInRange (f + 1) chs p =
      if p.sees TokenType.BinaryOp "OR".toList then
        (block2InRange f p.getNextTokenInRange).andThen (fun tmp p2 => block1LoopInRange f (chs ++ [tmp]) p2)
      else Outcome.ok (Except.ok (collapse "OR".toList chs), p) := by
  rw [block1LoopInRange, acceptValue_eq]
  by_cases h : p.sees TokenType.BinaryOp "OR".toList
  · simp only [h, if_true]; unfold Parsed.andThen; rfl
  · simp only [h, if_false]

theorem block2Loop_succ (f : Nat) (chs : List PNode) (p : QueryParser) :
    block2LoopInRange (f + 1) chs p =
      if p.sees TokenType.BinaryOp "AND".toList then
        (block3InRange f p.getNextTokenInRange).andThen (fun tmp p2 => block2LoopInRange f (chs ++ [tmp]) p2)
      else Outcome.ok (Except.ok (collapse "AND".toList chs), p) := by
  rw [block2LoopInRange, acceptValue_eq]
  by_cases h : p.sees TokenType.BinaryOp "AND".toList
  · simp only [h, if_true]; unfold Parsed.andThen; rfl
  · simp only [h, if_false]

theorem block3_succ (f : Nat) (p : QueryParser) :
    block3InRange (f + 1) p =
      if p.pToken.pType = TokenType.Term then
        Outcome.ok (Except.ok (PNode.mk TokenType.Term p.pToken.pValue []), p.getNextTokenInRange)
      else if p.sees TokenType.UnaryOp "NOT".toList then
        (block3InRange f p.getNextTokenInRange).andThen
          (fun tmp p2 => Outcome.ok (Except.ok (PNode.mk TokenType.UnaryOp "NOT".toList [tmp]), p2))
      else if p.sees TokenType.Symbol "(".toList then
        (block1InRange f p.getNextTokenInRange).andThen
          (fun t p3 =>
            if p3.sees TokenType.Symbol ")".toList then Outcome.ok (Except.ok t, p3.getNextTokenInRange)
            else Outcome.ok (Except.error p3.syntaxError, p3))
      else Outcome.ok (Except.error p.syntaxError, p) := by
  rw [block3InRange]
  by_cases h0 : p.pToken.pType = TokenType.Term
  · simp only [h0, if_true]
  · simp only [h0, if_false, acceptValue_eq]
    by_cases h1 : p.sees TokenType.UnaryOp "NOT".toList
    · simp only [h1, if_true]; unfold Parsed.andThen; rfl
    · simp only [h1, if_false]
      by_cases h2 : p.sees TokenType.Symbol "(".toList
      · simp only [h2, if_true]
        unfold Parsed.andThen
        rcases block1InRange f p.getNextTokenInRange with ⟨⟨t | t, p3⟩⟩ | _ | _ <;> simp only []
        by_cases h3 : p3.sees TokenType.Symbol ")".toList <;> simp only [h3, if_true, if_false]
      · simp only [h2, if_false]

theorem query_eq (f : Nat) (p : QueryParser) :
    p.queryInRange f = (block1InRange f p.getNextTokenInRange).andThen (fun t p1 =>
      if p1.pToken.pType = TokenType.End then Outcome.ok (Except.ok t, p1.getNextTokenInRange)
      else Outcome.ok (Except.error p1.syntaxError, p1)) := by
  unfold QueryParser.queryInRange Parsed.andThen QueryParser.acceptInRange
  rcases block1InRange f p.getNextTokenInRange with ⟨⟨t | t, p3⟩⟩ | _ | _ <;> simp only []
  by_cases h3 : p3.pToken.pType = TokenType.End <;> simp only [h3, if_true, if_false]

/-- A successful result of `andThen` comes from a successful first part. -/
theorem andThen_ok_inv (r : Parsed) (k : PNode → QueryParser → Parsed) (t : PNode)
    (p1 : QueryParser) (h : r.andThen k = Outcome.ok (Except.ok t, p1)) :
    ∃ tmp p2, r = Outcome.ok (Except.ok tmp, p2) ∧ k tmp p2 = Outcome.ok (Except.ok t, p1) := by
  unfold Parsed.andThen at h
  rcases r with ⟨⟨e | tmp, p2⟩⟩ | _ | _
  · simp at h
  · exact ⟨tmp, p2, rfl, h⟩
  · simp at h
  · simp at h

/-- Appending a well shaped tree keeps a list well shaped. -/
theorem wellShapedAll_append (l : List PNode) (t : PNode)
    (hl : PNode.wellShapedAll l = true) (ht : t.wellShaped = true) :
    PNode.wellShapedAll (l ++ [t]) = true := by
  induction l with
  | nil => simp [PNode.wellShapedAll, ht]
  | cons a l ih =>
    simp only [PNode.wellShapedAll, Bool.and_eq_true] at hl
    simp [PNode.wellShapedAll, hl.1, ih hl.2]

/-- What `block1InRange` and `block2InRange` hand back for well shaped operands is well shaped. -/
theorem wellShaped_collapse (op : List Char) (chs : List PNode) (hne : chs ≠ [])
    (hall : PNode.wellShapedAll chs = true) : (collapse op chs).wellShaped = true := by
  match chs, hne, hall with
  | [a], _, h => simpa [collapse, PNode.wellShapedAll] using h
  | a :: b :: r, _, h => simp [collapse, PNode.wellShaped, h]

/-- Every tree that `block1InRange`, `block2InRange`, `block3InRange` or one of their loops returns
is well shaped, the loops given well shaped operands so far. -/
theorem wellShaped_blocks (f : Nat) :
    (∀ p t p1, block3InRange f p = Outcome.ok (Except.ok t, p1) → t.wellShaped = true) ∧
    (∀ chs p t p1, block2LoopInRange f chs p = Outcome.ok (Except.ok t, p1) → chs ≠ [] →
      PNode.wellShapedAll chs = true → t.wellShaped = true) ∧
    (∀ p t p1, block2InRange f p = Outcome.ok (Except.ok t, p1) → t.wellShaped = true) ∧
    (∀ chs p t p1, block1LoopInRange f chs p = Outcome.ok (Except.ok t, p1) → chs ≠ [] →
      PNode.wellShapedAll chs = true → t.wellShaped = true) ∧
    (∀ p t p1, block1InRange f p = Outcome.ok (Except.ok t, p1) → t.wellShaped = true) := by
  induction f with
  | zero =>
    refine ⟨?_, ?_, ?_, ?_, ?_⟩ <;> intros <;>
      simp_all [block1InRange, block2InRange, block3InRange, block1LoopInRange, block2LoopInRange]
  | succ f ih =>
    obtain ⟨ih3, ih2L, ih2, ih1L, ih1⟩ := ih
    refine ⟨?_, ?_, ?_, ?_, ?_⟩
    · intro p t p1 h
      rw [block3_succ] at h
      split at h
      · simp only [Outcome.ok.injEq, Prod.mk.injEq, Except.ok.injEq] at h
        rw [← h.1]; simp [PNode.wellShaped]
      · split at h
        · obtain ⟨tmp, p2, hb, hk⟩ := andThen_ok_inv _ _ _ _ h
          simp only [Outcome.ok.injEq, Prod.mk.injEq, Except.ok.injEq] at hk
          rw [← hk.1]
          simp [PNode.wellShaped, PNode.wellShapedAll, ih3 _ _ _ hb]
        · split at h
          · obtain ⟨tmp, p2, hb, hk⟩ := andThen_ok_inv _ _ _ _ h
            split at hk
            · simp only [Outcome.ok.injEq, Prod.mk.injEq, Except.ok.injEq] at hk
              rw [← hk.1]; exact ih1 _ _ _ hb
            · simp at hk
          · simp at h
    · intro chs p t p1 h hne hall
      rw [block2Loop_succ] at h
      split at h
      · obtain ⟨tmp, p2, hb, hk⟩ := andThen_ok_inv _ _ _ _ h
        exact ih2L _ _ _ _ hk (by simp) (wellShapedAll_append _ _ hall (ih3 _ _ _ hb))
      · simp only [Outcome.ok.injEq, Prod.mk.injEq, Except.ok.injEq] at h
        rw [← h.1]; exact wellShaped_collapse _ _ hne hall
    · intro p t p1 h
      rw [block2_succ] at h
      obtain ⟨tmp, p2, hb, hk⟩ := andThen_ok_inv _ _ _ _ h
      exact ih2L _ _ _ _ hk (by simp) (by simp [PNode.wellShapedAll, ih3 _ _ _ hb])
    · intro chs p t p1 h hne hall
      rw [block1Loop_succ] at h
      split at h
      · obtain ⟨tmp, p2, hb, hk⟩ := andThen_ok_inv _ _ _ _ h
        exact ih1L _ _ _ _ hk (by simp) (wellShapedAll_append _ _ hall (ih2 _ _ _ hb))
      · simp only [Outcome.ok.injEq, Prod.mk.injEq, Except.ok.injEq] at h
        rw [← h.1]; exact wellShaped_collapse _ _ hne hall
    · intro p t p1 h
      rw [block1_succ] at h
      obtain ⟨tmp, p2, hb, hk⟩ := andThen_ok_inv _ _ _ _ h
      exact ih1L _ _ _ _ hk (by simp) (by simp [PNode.wellShapedAll, ih2 _ _ _ hb])

/-- Every tree that a successful in-range run of `parse` returns is well
shaped. -/
theorem parseInRange_wellShaped (fuel : Nat) (query : List Char) (t : PNode)
    (h : parseInRange fuel query = Outcome.ok (Except.ok t)) : t.wellShaped = true := by
  unfold parseInRange at h
  rw [query_eq] at h
  cases hq : (block1InRange fuel (QueryParser.new query).getNextTokenInRange).andThen (fun t p1 =>
      if p1.pToken.pType = TokenType.End then Outcome.ok (Except.ok t, p1.getNextTokenInRange)
      else Outcome.ok (Except.error p1.syntaxError, p1)) with
  | ok r =>
    rw [hq] at h
    obtain ⟨r1, p1⟩ := r
    simp only [Outcome.ok.injEq] at h
    subst h
    obtain ⟨tmp, p2, hb, hk⟩ := andThen_ok_inv _ _ _ _ hq
    split at hk
    · simp only [Outcome.ok.injEq, Prod.mk.injEq, Except.ok.injEq] at hk
      rw [← hk.1]; exact (wellShaped_blocks fuel).2.2.2.2 _ _ _ hb
    · simp at hk
  | fault => rw [hq] at h; simp at h
  | outOfFuel => rw [hq] at h; simp at h

/-- C12: every tree that a successful `parse` returns, for every query and
every amount of fuel, is well shaped: each `BinaryOp` (And/Or) node has at
least two children, each `UnaryOp` (Not) node has exactly one child, each
`Term` node has none, and there are no other nodes. -/
theorem parse_wellShaped (fuel : Nat) (query : List Char) (t : PNode)
    (h : parse fuel query = Outcome.ok (Except.ok t)) : t.wellShaped = true := by
  rcases parse_sim fuel query with h1 | h1
  · rw [h1] at h; exact parseInRange_wellShaped fuel query t h
  · rw [h1] at h; cases h

/-- Instance of `parse_wellShaped`: the tree of `NOT cat AND (dog OR fish)`. -/
theorem parse_wellShaped_witness :
    parse 12 "NOT cat AND (dog OR fish)".toList
      = Outcome.ok (Except.ok
          (PNode.mk TokenType.BinaryOp "AND".toList
            [PNode.mk TokenType.UnaryOp "NOT".toList [PNode.mk TokenType.Term "cat".toList []],
              PNode.mk TokenType.BinaryOp "OR".toList
                [PNode.mk TokenType.Term "dog".toList [],
                  PNode.mk TokenType.Term "fish".toList []]])) ∧
    (PNode.mk TokenType.BinaryOp "AND".toList
      [PNode.mk TokenType.UnaryOp "NOT".toList [PNode.mk TokenType.Term "cat".toList []],
        PNode.mk TokenType.BinaryOp "OR".toList
          [PNode.mk TokenType.Term "dog".toList [],
            PNode.mk TokenType.Term "fish".toList []]]).wellShaped = true :=
  ⟨(parse_inRange _ (by decide) _).trans rfl,
    parse_wellShaped 12 "NOT cat AND (dog OR fish)".toList _
      ((parse_inRange _ (by decide) _).trans rfl)⟩

theorem andThen_ok (tmp : PNode) (p1 : QueryParser) (k : PNode → QueryParser → Parsed) :
    Parsed.andThen (Outcome.ok (Except.ok tmp, p1)) k = k tmp p1 := rfl

/-- On `AND w1 ... AND wn` followed by the end of the query, the loop of `block2InRange`
appends the `Term` nodes of `w1 ... wn` to the operands it has. -/
theorem block2Loop_chain (ws : List (List Char)) : ∀ (chs : List PNode) (p : QueryParser) (m : Nat),
    TokenStream p (opTail "AND".toList ws) →
    ∃ p1, block2LoopInRange (m + ws.length + 1) chs p
        = Outcome.ok (Except.ok (collapse "AND".toList (chs ++ ws.map termNode)), p1) ∧
      TokenStream p1 [] := by
  induction ws with
  | nil =>
    intro chs p m hs
    refine ⟨p, ?_, hs⟩
    have hno : ¬ p.sees TokenType.BinaryOp "AND".toList := by
      intro h; have := hs.2; rw [h.1] at this; exact absurd this (by decide)
    rw [show m + ([] : List (List Char)).length + 1 = m + 1 from rfl, block2Loop_succ, if_neg hno]
    simp
  | cons w ws ih =>
    intro chs p m hs
    obtain ⟨h1, h1v, h2, h2v, hrest⟩ := hs
    obtain ⟨p1, hp1, hs1⟩ := ih (chs ++ [termNode w]) p.getNextTokenInRange.getNextTokenInRange m hrest
    refine ⟨p1, ?_, hs1⟩
    have hsee : p.sees TokenType.BinaryOp "AND".toList := ⟨h1v, h1⟩
    have h3 : block3InRange (m + ws.length + 1) p.getNextTokenInRange
        = Outcome.ok (Except.ok (termNode w), p.getNextTokenInRange.getNextTokenInRange) := by
      rw [block3_succ]; simp [h2, h2v, termNode]
    have e : m + (w :: ws).length + 1 = (m + ws.length + 1) + 1 := by simp; omega
    rw [e, block2Loop_succ, if_pos hsee, h3, andThen_ok, hp1]
    simp

/-- On `OR w1 ... OR wn` followed by the end of the query, the loop of `block1InRange`
appends the `Term` nodes of `w1 ... wn` to the operands it has. -/
theorem block1Loop_chain (ws : List (List Char)) : ∀ (chs : List PNode) (p : QueryParser) (m : Nat),
    TokenStream p (opTail "OR".toList ws) →
    ∃ p1, block1LoopInRange (m + ws.length + 3) chs p
        = Outcome.ok (Except.ok (collapse "OR".toList (chs ++ ws.map termNode)), p1) ∧
      TokenStream p1 [] := by
  induction ws with
  | nil =>
    intro chs p m hs
    refine ⟨p, ?_, hs⟩
    have hno : ¬ p.sees TokenType.BinaryOp "OR".toList := by
      intro h; have := hs.2; rw [h.1] at this; exact absurd this (by decide)
    rw [show m + ([] : List (List Char)).length + 3 = (m + 2) + 1 from rfl, block1Loop_succ,
      if_neg hno]
    simp
  | cons w ws ih =>
    intro chs p m hs
    obtain ⟨h1, h1v, h2, h2v, hrest⟩ := hs
    obtain ⟨p1, hp1, hs1⟩ := ih (chs ++ [termNode w]) p.getNextTokenInRange.getNextTokenInRange m hrest
    refine ⟨p1, ?_, hs1⟩
    have hsee : p.sees TokenType.BinaryOp "OR".toList := ⟨h1v, h1⟩
    have hnext : ¬ p.getNextTokenInRange.getNextTokenInRange.sees TokenType.BinaryOp "AND".toList := by
      intro h
      cases ws with
      | nil => have := hrest.2; rw [h.1] at this; exact absurd this (by decide)
      | cons w2 ws => have := hrest.2.1; rw [h.1] at this; exact absurd this (by decide)
    have h3 : block3InRange (m + ws.length + 1 + 1) p.getNextTokenInRange
        = Outcome.ok (Except.ok (termNode w), p.getNextTokenInRange.getNextTokenInRange) := by
      rw [block3_succ]; simp [h2, h2v, termNode]
    have h2' : block2InRange (m + ws.length + 1 + 1 + 1) p.getNextTokenInRange
        = Outcome.ok (Except.ok (termNode w), p.getNextTokenInRange.getNextTokenInRange) := by
      rw [block2_succ, h3, andThen_ok, block2Loop_succ, if_neg hnext]; rfl
    have e : m + (w :: ws).length + 3 = (m + ws.length + 1 + 1 + 1) + 1 := by simp; omega
    have e2 : m + ws.length + 1 + 1 + 1 = m + ws.length + 3 := by omega
    rw [e, block1Loop_succ, if_pos hsee, h2', andThen_ok, e2, hp1]
    simp

/-- The classified words of `w1 op w2 ... op wn` for term words. -/
theorem map_intersperse (op : List Char) (hop : classify op = TokenType.BinaryOp)
    (w : List Char) (ws : List (List Char)) (hw : ∀ x ∈ w :: ws, TermWord x) :
    ((w :: ws).intersperse op).map (fun x => (classify x, x))
      = (TokenType.Term, w) :: opTail op ws := by
  induction ws generalizing w with
  | nil => simp [opTail, classify_termWord w (hw w (by simp))]
  | cons w2 ws ih =>
    have h2 := ih w2 (fun x hx => hw x (by simp [hx]))
    simp only [List.intersperse, List.map] at h2 ⊢
    rw [h2]
    simp [opTail, classify_termWord w (hw w (by simp)), hop]

theorem plainWord_intersperse (op : List Char) (hop : PlainWord op) (ws : List (List Char))
    (hw : ∀ x ∈ ws, TermWord x) : ∀ x ∈ ws.intersperse op, PlainWord x := by
  induction ws with
  | nil => intro x hx; simp at hx
  | cons w ws ih =>
    cases ws with
    | nil => intro x hx; simp at hx; rw [hx]; exact (hw w (by simp)).1
    | cons w2 ws =>
      intro x hx
      simp only [List.intersperse, List.mem_cons] at hx
      rcases hx with h | h | h
      · rw [h]; exact (hw w (by simp)).1
      · rw [h]; exact hop
      · exact ih (fun y hy => hw y (by simp [hy])) x (by simpa [List.intersperse] using h)

/-- The token stream behind a first token. -/
theorem tokenStream_tail (p : QueryParser) (tk : TokenType × List Char)
    (ts : List (TokenType × List Char)) (h : TokenStream p (tk :: ts)) :
    p.pToken.pType = tk.1 ∧ p.pToken.pValue = tk.2 ∧ TokenStream p.getNextTokenInRange ts := h

/-- The end of `parseInRange` after `block1InRange` has returned a tree at the end of the
query. -/
theorem parse_finish (fuel : Nat) (ws : List (List Char)) (h : ∀ w ∈ ws, PlainWord w)
    (t : PNode)
    (hb : ∀ p, TokenStream p (ws.map (fun w => (classify w, w))) →
      ∃ p1, block1InRange fuel p = Outcome.ok (Except.ok t, p1) ∧ TokenStream p1 []) :
    parseInRange fuel (spaced ws) = Outcome.ok (Except.ok t) := by
  obtain ⟨p, hs, hp⟩ := parse_words fuel ws h
  obtain ⟨p1, hp1, hs1⟩ := hb p hs
  rw [hp, hp1]
  have : p1.acceptInRange TokenType.End = (true, p1.getNextTokenInRange) := by
    unfold QueryParser.acceptInRange; simp [hs1.1]
  simp only [this]

/-- `w1 AND w2 ... AND wn` parses to one `AND` node over the `Term` nodes. -/
theorem parse_and_chain (w1 w2 : List Char) (ws : List (List Char))
    (hw : ∀ x ∈ w1 :: w2 :: ws, TermWord x) (m : Nat) :
    parseInRange (m + ws.length + 4) (spaced ((w1 :: w2 :: ws).intersperse "AND".toList))
      = Outcome.ok (Except.ok
          (PNode.mk TokenType.BinaryOp "AND".toList ((w1 :: w2 :: ws).map termNode))) := by
  apply parse_finish _ _ (plainWord_intersperse _ plainWord_keyword.1 _ hw)
  intro p hs
  rw [map_intersperse _ (by decide) w1 (w2 :: ws) hw] at hs
  obtain ⟨h1, h1v, hrest⟩ := tokenStream_tail _ _ _ hs
  obtain ⟨p1, hp1, hs1⟩ := block2Loop_chain (w2 :: ws) [termNode w1] p.getNextTokenInRange m hrest
  refine ⟨p1, ?_, hs1⟩
  have h3 : block3InRange (m + ws.length + 2) p = Outcome.ok (Except.ok (termNode w1), p.getNextTokenInRange) := by
    rw [show m + ws.length + 2 = (m + ws.length + 1) + 1 from rfl, block3_succ]
    simp [h1, h1v, termNode]
  have e1 : m + (w2 :: ws).length + 1 = m + ws.length + 2 := by simp; omega
  rw [e1] at hp1
  have hno : ¬ p1.sees TokenType.BinaryOp "OR".toList := by
    intro h; have := hs1.2; rw [h.1] at this; exact absurd this (by decide)
  have h2 : block2InRange (m + ws.length + 3) p = Outcome.ok (Except.ok
      (PNode.mk TokenType.BinaryOp "AND".toList ((w1 :: w2 :: ws).map termNode)), p1) := by
    rw [show m + ws.length + 3 = (m + ws.length + 2) + 1 from rfl, block2_succ, h3, andThen_ok,
      hp1]
    rfl
  rw [show m + ws.length + 4 = (m + ws.length + 3) + 1 from rfl, block1_succ, h2, andThen_ok,
    show m + ws.length + 3 = (m + ws.length + 2) + 1 from rfl, block1Loop_succ, if_neg hno]
  rfl

/-- `w1 OR w2 ... OR wn` parses to one `OR` node over the `Term` nodes. -/
theorem parse_or_chain (w1 w2 : List Char) (ws : List (List Char))
    (hw : ∀ x ∈ w1 :: w2 :: ws, TermWord x) (m : Nat) :
    parseInRange (m + ws.length + 5) (spaced ((w1 :: w2 :: ws).intersperse "OR".toList))
      = Outcome.ok (Except.ok
          (PNode.mk TokenType.BinaryOp "OR".toList ((w1 :: w2 :: ws).map termNode))) := by
  apply parse_finish _ _ (plainWord_intersperse _ plainWord_keyword.2.1 _ hw)
  intro p hs
  rw [map_intersperse _ (by decide) w1 (w2 :: ws) hw] at hs
  obtain ⟨h1, h1v, hrest⟩ := tokenStream_tail _ _ _ hs
  obtain ⟨p1, hp1, hs1⟩ := block1Loop_chain (w2 :: ws) [termNode w1] p.getNextTokenInRange m hrest
  refine ⟨p1, ?_, hs1⟩
  have h3 : block3InRange (m + ws.length + 3) p = Outcome.ok (Except.ok (termNode w1), p.getNextTokenInRange) := by
    rw [show m + ws.length + 3 = (m + ws.length + 2) + 1 from rfl, block3_succ]
    simp [h1, h1v, termNode]
  have e1 : m + (w2 :: ws).length + 3 = m + ws.length + 4 := by simp; omega
  rw [e1] at hp1
  have hno : ¬ p.getNextTokenInRange.sees TokenType.BinaryOp "AND".toList := by
    intro h; have := hrest.2.1; rw [h.1] at this; exact absurd this (by decide)
  have h2 : block2InRange (m + ws.length + 4) p
      = Outcome.ok (Except.ok (termNode w1), p.getNextTokenInRange) := by
    rw [show m + ws.length + 4 = (m + ws.length + 3) + 1 from rfl, block2_succ, h3, andThen_ok,
      show m + ws.length + 3 = (m + ws.length + 2) + 1 from rfl, block2Loop_succ, if_neg hno]
    rfl
  rw [show m + ws.length + 5 = (m + ws.length + 4) + 1 from rfl, block1_succ, h2, andThen_ok,
    hp1]
  rfl

/-- `NOT NOT w` parses to `Not[Not[Term w]]`. -/
theorem parse_not_not (w : List Char) (hw : TermWord w) (m : Nat) :
    parseInRange (m + 5) ("NOT NOT ".toList ++ w)
      = Outcome.ok (Except.ok
          (PNode.mk TokenType.UnaryOp "NOT".toList
            [PNode.mk TokenType.UnaryOp "NOT".toList [termNode w]])) := by
  have hq : "NOT NOT ".toList ++ w = spaced ["NOT".toList, "NOT".toList, w] := by
    simp [spaced]
  rw [hq]
  apply parse_finish
  · intro x hx
    simp only [List.mem_cons, List.mem_singleton, List.not_mem_nil, or_false] at hx
    rcases hx with rfl | rfl | rfl
    · exact plainWord_keyword.2.2
    · exact plainWord_keyword.2.2
    · exact hw.1
  · intro p hs
    simp only [List.map, TokenStream, classify_termWord w hw] at hs
    obtain ⟨h1, h1v, h2, h2v, h3, h3v, h4, h4v⟩ := hs
    have k1 : classify "NOT".toList = TokenType.UnaryOp := by decide
    rw [k1] at h1 h2
    refine ⟨p.getNextTokenInRange.getNextTokenInRange.getNextTokenInRange, ?_, h4, h4v⟩
    simp [block1InRange, block1LoopInRange, block2InRange, block2LoopInRange, block3InRange, QueryParser.acceptInRange,
      QueryParser.acceptValueInRange, collapse, h1, h1v, h2, h2v, h3, h3v, h4, h4v, termNode]

/-- C11: for all plain term words `w1, w2, ..., wn` (two or more) and `t`, in
queries of fewer than `2 ^ 31 - 1` characters and with enough fuel,
`w1 AND w2 ... AND wn` parses to a single `AND` node whose children are the
`Term` nodes of the words in order, `w1 OR w2 ... OR wn` parses to a single
`OR` node over the same children, and `NOT NOT t` parses to
`Not[Not[Term t]]`. -/
theorem flattening (w1 w2 : List Char) (ws : List (List Char)) (t : List Char)
    (hw : ∀ x ∈ w1 :: w2 :: ws, TermWord x) (ht : TermWord t)
    (hand : (spaced ((w1 :: w2 :: ws).intersperse "AND".toList)).length < 2 ^ 31 - 1)
    (hor : (spaced ((w1 :: w2 :: ws).intersperse "OR".toList)).length < 2 ^ 31 - 1)
    (hnot : ("NOT NOT ".toList ++ t).length < 2 ^ 31 - 1) (m : Nat) :
    parse (m + ws.length + 5) (spaced ((w1 :: w2 :: ws).intersperse "AND".toList))
      = Outcome.ok (Except.ok
          (PNode.mk TokenType.BinaryOp "AND".toList ((w1 :: w2 :: ws).map termNode))) ∧
    parse (m + ws.length + 5) (spaced ((w1 :: w2 :: ws).intersperse "OR".toList))
      = Outcome.ok (Except.ok
          (PNode.mk TokenType.BinaryOp "OR".toList ((w1 :: w2 :: ws).map termNode))) ∧
    parse (m + 5) ("NOT NOT ".toList ++ t)
      = Outcome.ok (Except.ok
          (PNode.mk TokenType.UnaryOp "NOT".toList
            [PNode.mk TokenType.UnaryOp "NOT".toList [termNode t]])) := by
  have h1 := parse_and_chain w1 w2 ws hw (m + 1)
  rw [show m + 1 + ws.length + 4 = m + ws.length + 5 by omega] at h1
  rw [parse_inRange _ (takeWhile_length_lt _ hand), parse_inRange _ (takeWhile_length_lt _ hor),
    parse_inRange _ (takeWhile_length_lt _ hnot)]
  exact ⟨h1, parse_or_chain w1 w2 ws hw m, parse_not_not t ht m⟩

/-- Instance of `flattening`: the words `cat`, `dog`, `fish` and `bird`. -/
theorem flattening_witness :
    (∀ x ∈ ["cat".toList, "dog".toList, "fish".toList], TermWord x) ∧ TermWord "bird".toList ∧
    "cat AND dog AND fish".toList.length < 2 ^ 31 - 1 ∧
    "cat OR dog OR fish".toList.length < 2 ^ 31 - 1 ∧
    "NOT NOT bird".toList.length < 2 ^ 31 - 1 ∧
    parse 6 "cat AND dog AND fish".toList
      = Outcome.ok (Except.ok
          (PNode.mk TokenType.BinaryOp "AND".toList
            [termNode "cat".toList, termNode "dog".toList, termNode "fish".toList])) ∧
    parse 6 "cat OR dog OR fish".toList
      = Outcome.ok (Except.ok
          (PNode.mk TokenType.BinaryOp "OR".toList
            [termNode "cat".toList, termNode "dog".toList, termNode "fish".toList])) ∧
    parse 5 "NOT NOT bird".toList
      = Outcome.ok (Except.ok
          (PNode.mk TokenType.UnaryOp "NOT".toList
            [PNode.mk TokenType.UnaryOp "NOT".toList [termNode "bird".toList]])) :=
  ⟨by decide, by decide, by decide, by decide, by decide,
    flattening "cat".toList "dog".toList ["fish".toList] "bird".toList (by decide) (by decide)
      (by decide) (by decide) (by decide) 0⟩

/-- Line and column after one more character. -/
theorem lineCol_snoc (pre : List Char) (c : Char) :
    lineCol (pre ++ [c]) =
      if c = '\n' then ((lineCol pre).1 + 1, 1) else ((lineCol pre).1, (lineCol pre).2 + 1) := by
  simp [lineCol, List.foldl_append]

/-- The scanner in front of a character returns it, with the line, column and
position it has, and moves behind it. -/
theorem getCharacter_scannerAt_cons (pre : List Char) (c : Char) (r : List Char) :
    (scannerAt pre (c :: r)).getCharacterInRange
      = (⟨c, (lineCol pre).1, (lineCol pre).2, pre.length⟩, scannerAt (pre ++ [c]) r) := by
  have hlt : ¬ ((scannerAt pre (c :: r)).pPosition ≥ (scannerAt pre (c :: r)).pQuery.length) := by
    simp [scannerAt]
  have hget : (scannerAt pre (c :: r)).pQuery.getD (scannerAt pre (c :: r)).pPosition NUL = c := by
    simp only [scannerAt]
    rw [List.getD_eq_getElem?_getD, List.getElem?_append_right (le_refl _)]; simp
  simp only [QueryScanner.getCharacterInRange, if_neg hlt, hget]
  by_cases hc : c = '\n'
  · simp [hc, scannerAt, lineCol_snoc]
  · simp [hc, scannerAt, lineCol_snoc]

/-- The scanner at the end of the query returns the zero character and stays. -/
theorem getCharacter_scannerAt_nil (pre : List Char) :
    (scannerAt pre []).getCharacterInRange
      = (⟨NUL, (lineCol pre).1, (lineCol pre).2, pre.length⟩, scannerAt pre []) := by
  simp [QueryScanner.getCharacterInRange, scannerAt]

/-- The space loop reads the spaces in front of the scanner and one character
more. -/
theorem skipSpaces_scannerAt (sp : List Char) : ∀ (pre r1 : List Char) (fuel : Nat),
    (∀ c ∈ sp, c = ' ') → (∀ c ∈ r1.head?, c ≠ ' ') → sp.length ≤ fuel →
    skipSpacesInRange fuel (scannerAt pre (sp ++ r1)) = (scannerAt (pre ++ sp) r1).getCharacterInRange := by
  induction sp with
  | nil =>
    intro pre r1 fuel _ hr1 _
    simp only [List.nil_append, List.append_nil]
    apply skipSpaces_of_not_space
    cases r1 with
    | nil => rw [getCharacter_scannerAt_nil]; show NUL ≠ ' '; decide
    | cons c r => rw [getCharacter_scannerAt_cons]; exact hr1 c (by simp)
  | cons s sp ih =>
    intro pre r1 fuel hsp hr1 hfuel
    have hs : s = ' ' := hsp s (by simp)
    subst hs
    cases fuel with
    | zero => simp at hfuel
    | succ n =>
      have h := ih (pre ++ [' ']) r1 n (fun c hc => hsp c (by simp [hc])) hr1 (by simpa using hfuel)
      rw [skipSpacesInRange]
      simp only [List.cons_append, getCharacter_scannerAt_cons]
      have h0 : ¬ (' ' = NUL) := by decide
      simp only [h0, if_false, ne_eq, not_true_eq_false]
      rw [h]; simp

/-- The word loop appends the word characters in front of the scanner and
stops on the character that follows them. -/
theorem readWord_scannerAt (w : List Char) : ∀ (pre rest tok : List Char) (fuel : Nat),
    (∀ c ∈ w, WordChar c) → (∀ c ∈ rest.head?, ¬ WordChar c) → w.length ≤ fuel →
    readWordInRange fuel tok (scannerAt pre (w ++ rest))
      = (tok ++ w, (scannerAt (pre ++ w) rest).getCharacterInRange.1,
          (scannerAt (pre ++ w) rest).getCharacterInRange.2) := by
  induction w with
  | nil =>
    intro pre rest tok fuel _ hrest _
    simp only [List.nil_append, List.append_nil]
    cases rest with
    | nil =>
      unfold readWordInRange
      simp [getCharacter_scannerAt_nil]
    | cons d r =>
      have hd : ¬ WordChar d := hrest d (by simp)
      have hd2 : d = NUL ∨ d = ' ' ∨ d = ')' ∨ d = '(' := by
        unfold WordChar at hd; tauto
      unfold readWordInRange
      simp only [getCharacter_scannerAt_cons, hd2, if_true]
  | cons c w ih =>
    intro pre rest tok fuel hw hrest hfuel
    have hc : WordChar c := hw c (by simp)
    have hc2 : ¬ (c = NUL ∨ c = ' ' ∨ c = ')' ∨ c = '(') := by
      unfold WordChar at hc; tauto
    cases fuel with
    | zero => simp at hfuel
    | succ n =>
      have h := ih (pre ++ [c]) rest (tok ++ [c]) n (fun x hx => hw x (by simp [hx])) hrest
        (by simpa using hfuel)
      rw [readWordInRange]
      simp only [List.cons_append, getCharacter_scannerAt_cons, hc2, if_false]
      rw [h]; simp

/-- The first element that `dropWhile` leaves does not satisfy the test. -/
theorem head_dropWhile_not (p : Char → Bool) (l : List Char) (c : Char) (r : List Char)
    (h : l.dropWhile p = c :: r) : p c = false := by
  induction l with
  | nil => simp at h
  | cons a l ih =>
    rw [List.dropWhile_cons] at h
    by_cases ha : p a = true
    · rw [if_pos ha] at h; exact ih h
    · rw [if_neg ha] at h
      simp only [List.cons.injEq] at h
      rw [← h.1]; simpa using ha

/-- What `dropWhile` leaves is a part of the list. -/
theorem mem_of_dropWhile (p : Char → Bool) (l : List Char) (c : Char) (r : List Char)
    (h : l.dropWhile p = c :: r) : ∀ d ∈ c :: r, d ∈ l := by
  intro d hd
  have := List.takeWhile_append_dropWhile p l
  rw [← this, h]
  exact List.mem_append_right _ hd

/-- `getTokenInRange` without pending token, in front of spaces and the end of the
query. -/
theorem getToken_at_end (pre sp : List Char) (hsp : ∀ c ∈ sp, c = ' ') :
    (LexPos.lexer ⟨pre, sp, false⟩).getTokenInRange
      = (tokenAt (pre ++ sp) [] TokenType.End, LexPos.lexer ⟨pre ++ sp, [], false⟩) := by
  have hskip := skipSpaces_scannerAt sp pre [] (scannerAt pre sp).remaining hsp (by simp)
    (by simp [QueryScanner.remaining, scannerAt])
  rw [List.append_nil] at hskip
  simp only [QueryLexer.getTokenInRange, LexPos.lexer, LexPos.pending]
  simp [hskip, getCharacter_scannerAt_nil, tokenAt]

/-- `getTokenInRange` without pending token, in front of spaces and an opening
parenthesis. -/
theorem getToken_at_paren (pre sp r : List Char) (hsp : ∀ c ∈ sp, c = ' ') :
    (LexPos.lexer ⟨pre, sp ++ '(' :: r, false⟩).getTokenInRange
      = (tokenAt (pre ++ sp) ['('] TokenType.Symbol, LexPos.lexer ⟨pre ++ sp ++ ['('], r, false⟩) := by
  have hskip := skipSpaces_scannerAt sp pre ('(' :: r) (scannerAt pre (sp ++ '(' :: r)).remaining
    hsp (by simp) (by simp [QueryScanner.remaining, scannerAt])
  simp only [QueryLexer.getTokenInRange, LexPos.lexer, LexPos.pending]
  simp [hskip, getCharacter_scannerAt_cons, tokenAt]
  decide

/-- `getTokenInRange` without pending token, in front of spaces and a word that ends
the query. -/
theorem getToken_at_last_word (pre sp : List Char) (c : Char) (w : List Char)
    (hsp : ∀ x ∈ sp, x = ' ') (hc1 : c ≠ NUL) (hc2 : c ≠ ' ') (hc3 : c ≠ '(')
    (hw : ∀ x ∈ w, WordChar x) :
    (LexPos.lexer ⟨pre, sp ++ c :: w, false⟩).getTokenInRange
      = (tokenAt (pre ++ sp) (c :: w) (classify (c :: w)),
          LexPos.lexer ⟨pre ++ sp ++ c :: w, [], false⟩) := by
  have hskip := skipSpaces_scannerAt sp pre (c :: w) (scannerAt pre (sp ++ c :: w)).remaining
    hsp (by simpa using hc2) (by simp [QueryScanner.remaining, scannerAt])
  have hread := readWord_scannerAt w (pre ++ sp ++ [c]) [] [c]
    (scannerAt (pre ++ sp ++ [c]) w).remaining hw (by simp)
    (by simp [QueryScanner.remaining, scannerAt]; omega)
  simp only [List.append_nil, getCharacter_scannerAt_nil] at hread
  simp only [QueryLexer.getTokenInRange, LexPos.lexer, LexPos.pending]
  simp only [hskip, getCharacter_scannerAt_cons, hread]
  simp [hc1, hc3, tokenAt]
  decide

/-- The lexer at a position behind a parenthesis that is held as pending token. -/
theorem lexer_pending_snoc (pre : List Char) (d : Char) (r : List Char) :
    LexPos.lexer ⟨pre ++ [d], r, true⟩
      = { pScanner := scannerAt (pre ++ [d]) r, pPending := tokenAt pre [d] TokenType.Symbol } := by
  simp [LexPos.lexer, LexPos.pending, List.dropLast_concat, List.getLast?_concat]

/-- `getTokenInRange` without pending token, in front of spaces and a word that is
followed by a character that ends it. -/
theorem getToken_at_word (pre sp : List Char) (c : Char) (w : List Char) (d : Char)
    (r : List Char) (hsp : ∀ x ∈ sp, x = ' ') (hc1 : c ≠ NUL) (hc2 : c ≠ ' ') (hc3 : c ≠ '(')
    (hw : ∀ x ∈ w, WordChar x) (hd : ¬ WordChar d) :
    (LexPos.lexer ⟨pre, sp ++ c :: (w ++ d :: r), false⟩).getTokenInRange
      = (tokenAt (pre ++ sp) (c :: w) (classify (c :: w)),
          LexPos.lexer ⟨pre ++ sp ++ c :: w ++ [d], r, decide (d = ')' ∨ d = '(')⟩) := by
  have hskip := skipSpaces_scannerAt sp pre (c :: (w ++ d :: r))
    (scannerAt pre (sp ++ c :: (w ++ d :: r))).remaining
    hsp (by simpa using hc2) (by simp [QueryScanner.remaining, scannerAt])
  have hread := readWord_scannerAt w (pre ++ sp ++ [c]) (d :: r) [c]
    (scannerAt (pre ++ sp ++ [c]) (w ++ d :: r)).remaining hw (by simpa using hd)
    (by simp [QueryScanner.remaining, scannerAt]; omega)
  simp only [getCharacter_scannerAt_cons] at hread
  by_cases hpar : d = ')' ∨ d = '('
  · simp only [hpar, decide_True]
    rw [lexer_pending_snoc]
    simp only [QueryLexer.getTokenInRange, LexPos.lexer, LexPos.pending]
    simp only [hskip, getCharacter_scannerAt_cons, hread]
    simp [hc1, hc3, tokenAt, hpar]
  · simp only [hpar, decide_False]
    simp only [QueryLexer.getTokenInRange, LexPos.lexer, LexPos.pending]
    simp only [hskip, getCharacter_scannerAt_cons, hread]
    simp [hc1, hc3, tokenAt, hpar]

/-- One call of `getTokenInRange` at a position of a query without zero byte returns
the token and reaches the position that `lexStep` gives. -/
theorem getToken_lexStep (x : LexPos) (hnul : ∀ c ∈ x.rest, c ≠ NUL) :
    x.lexer.getTokenInRange = ((lexStep x).1, (lexStep x).2.lexer) := by
  obtain ⟨pre, rest, pend⟩ := x
  cases pend with
  | true =>
    simp [QueryLexer.getTokenInRange, LexPos.lexer, LexPos.pending, lexStep, tokenAt]
  | false =>
    have hsplit := List.takeWhile_append_dropWhile (fun c => decide (c = ' ')) rest
    have hsp : ∀ c ∈ rest.takeWhile (fun c => decide (c = ' ')), c = ' ' := by
      intro c hc; simpa using List.mem_takeWhile_imp hc
    cases hr1 : rest.dropWhile (fun c => decide (c = ' ')) with
    | nil =>
      rw [hr1, List.append_nil] at hsplit
      have h := getToken_at_end pre _ hsp
      rw [hsplit] at h
      simp only [lexStep, hr1]
      rw [hsplit]
      exact h
    | cons c r =>
      rw [hr1] at hsplit
      have hmem : ∀ d ∈ c :: r, d ∈ rest := mem_of_dropWhile _ _ _ _ hr1
      have hcsp : c ≠ ' ' := by simpa using head_dropWhile_not _ _ _ _ hr1
      have hcnul : c ≠ NUL := hnul c (hmem c (by simp))
      by_cases hpar : c = '('
      · subst hpar
        have h := getToken_at_paren pre _ r hsp
        rw [hsplit] at h
        simp only [lexStep, hr1, if_true]
        exact h
      · have hsplit2 := List.takeWhile_append_dropWhile (fun d => decide (WordChar d)) r
        have hw : ∀ d ∈ r.takeWhile (fun d => decide (WordChar d)), WordChar d := by
          intro d hd; simpa using List.mem_takeWhile_imp hd
        cases hr2 : r.dropWhile (fun d => decide (WordChar d)) with
        | nil =>
          rw [hr2, List.append_nil] at hsplit2
          have h := getToken_at_last_word pre _ c _ hsp hcnul hcsp hpar hw
          rw [hsplit2, hsplit] at h
          simp only [lexStep, hr1, hr2, if_neg hpar]
          rw [hsplit2]
          simpa using h
        | cons d r3 =>
          rw [hr2] at hsplit2
          have hd : ¬ WordChar d := by simpa using head_dropWhile_not _ _ _ _ hr2
          have h := getToken_at_word pre _ c _ d r3 hsp hcnul hcsp hpar hw hd
          rw [hsplit2, hsplit] at h
          simp only [lexStep, hr1, hr2, if_neg hpar]
          simpa using h

/-- The five ways in which `lexStep` can go: a pending parenthesis; spaces up to
the end of the query; spaces and an opening parenthesis; spaces and a word up
to the end of the query; spaces and a word followed by a character that ends
it. -/
theorem lexStep_cases (x : LexPos) (hnul : ∀ c ∈ x.rest, c ≠ NUL) :
    (x.pend = true ∧ lexStep x = (x.pending, ⟨x.pre, x.rest, false⟩)) ∨
    (x.pend = false ∧ (∀ c ∈ x.rest, c = ' ') ∧
      lexStep x = (tokenAt (x.pre ++ x.rest) [] TokenType.End, ⟨x.pre ++ x.rest, [], false⟩)) ∨
    (x.pend = false ∧ ∃ sp r, (∀ c ∈ sp, c = ' ') ∧ x.rest = sp ++ '(' :: r ∧
      lexStep x = (tokenAt (x.pre ++ sp) ['('] TokenType.Symbol,
        ⟨x.pre ++ sp ++ ['('], r, false⟩)) ∨
    (x.pend = false ∧ ∃ sp c w, (∀ c ∈ sp, c = ' ') ∧ c ≠ NUL ∧ c ≠ ' ' ∧ c ≠ '(' ∧
      (∀ d ∈ w, WordChar d) ∧ x.rest = sp ++ c :: w ∧
      lexStep x = (tokenAt (x.pre ++ sp) (c :: w) (classify (c :: w)),
        ⟨x.pre ++ sp ++ c :: w, [], false⟩)) ∨
    (x.pend = false ∧ ∃ sp c w d r, (∀ c ∈ sp, c = ' ') ∧ c ≠ NUL ∧ c ≠ ' ' ∧ c ≠ '(' ∧
      (∀ d ∈ w, WordChar d) ∧ d ≠ NUL ∧ ¬ WordChar d ∧ x.rest = sp ++ c :: (w ++ d :: r) ∧
      lexStep x = (tokenAt (x.pre ++ sp) (c :: w) (classify (c :: w)),
        ⟨x.pre ++ sp ++ c :: w ++ [d], r, decide (d = ')' ∨ d = '(')⟩)) := by
  obtain ⟨pre, rest, pend⟩ := x
  cases pend with
  | true => left; simp [lexStep]
  | false =>
    right
    have hsplit := List.takeWhile_append_dropWhile (fun c => decide (c = ' ')) rest
    have hsp : ∀ c ∈ rest.takeWhile (fun c => decide (c = ' ')), c = ' ' := by
      intro c hc; simpa using List.mem_takeWhile_imp hc
    cases hr1 : rest.dropWhile (fun c => decide (c = ' ')) with
    | nil =>
      left
      rw [hr1, List.append_nil] at hsplit
      refine ⟨rfl, by intro c hc; rw [← hsplit] at hc; exact hsp c hc, ?_⟩
      simp only [lexStep, hr1]
      rw [hsplit]
      simp
    | cons c r =>
      right
      rw [hr1] at hsplit
      have hmem : ∀ d ∈ c :: r, d ∈ rest := mem_of_dropWhile _ _ _ _ hr1
      have hcsp : c ≠ ' ' := by simpa using head_dropWhile_not _ _ _ _ hr1
      have hcnul : c ≠ NUL := hnul c (hmem c (by simp))
      by_cases hpar : c = '('
      · left
        subst hpar
        refine ⟨rfl, _, r, hsp, hsplit.symm, ?_⟩
        simp [lexStep, hr1]
      · right
        have hsplit2 := List.takeWhile_append_dropWhile (fun d => decide (WordChar d)) r
        have hw : ∀ d ∈ r.takeWhile (fun d => decide (WordChar d)), WordChar d := by
          intro d hd; simpa using List.mem_takeWhile_imp hd
        cases hr2 : r.dropWhile (fun d => decide (WordChar d)) with
        | nil =>
          left
          rw [hr2, List.append_nil] at hsplit2
          refine ⟨rfl, _, c, _, hsp, hcnul, hcsp, hpar, hw, ?_, ?_⟩
          · rw [hsplit2]; exact hsplit.symm
          · simp [lexStep, hr1, hr2, hpar]
        | cons d r3 =>
          right
          rw [hr2] at hsplit2
          have hd : ¬ WordChar d := by simpa using head_dropWhile_not _ _ _ _ hr2
          have hdnul : d ≠ NUL :=
            hnul d (hmem d (by rw [← hsplit2]; simp))
          refine ⟨rfl, _, c, _, d, r3, hsp, hcnul, hcsp, hpar, hw, hdnul, hd, ?_, ?_⟩
          · rw [hsplit2]; exact hsplit.symm
          · simp [lexStep, hr1, hr2, hpar]

theorem classify_ne_end (w : List Char) : classify w ≠ TokenType.End := by
  unfold classify; split
  · decide
  · split <;> decide

theorem classify_ne_symbol (w : List Char) : classify w ≠ TokenType.Symbol := by
  unfold classify; split
  · decide
  · split <;> decide

/-- What one step of `lexStep` does to a position of a query without zero
byte. -/
theorem lexStep_props (x : LexPos) (hnul : ∀ c ∈ x.rest, c ≠ NUL) (hwf : x.wf) :
    (lexStep x).2.pre ++ (lexStep x).2.rest = x.pre ++ x.rest ∧
    (∃ u, x.rest = u ++ (lexStep x).2.rest) ∧
    (lexStep x).2.wf ∧
    ((lexStep x).1.pType = TokenType.End →
      lexStep x = (tokenAt (x.pre ++ x.rest) [] TokenType.End, ⟨x.pre ++ x.rest, [], false⟩)) ∧
    ((lexStep x).1.pType ≠ TokenType.End →
      (lexStep x).2.measure < x.measure ∧ GoodToken (x.pre ++ x.rest) (lexStep x).1) := by
  rcases lexStep_cases x hnul with ⟨hp, h⟩ | ⟨hp, hsp, h⟩ | ⟨hp, sp, r, hsp, hr, h⟩ |
    ⟨hp, sp, c, w, hsp, hc1, hc2, hc3, hw, hr, h⟩ |
    ⟨hp, sp, c, w, d, r, hsp, hc1, hc2, hc3, hw, hd1, hd2, hr, h⟩
  · obtain ⟨pre0, d, hpre, hd⟩ := hwf hp
    rw [h]
    refine ⟨rfl, ⟨[], rfl⟩, by intro h0; simp at h0, ?_, ?_⟩
    · intro h0; simp [LexPos.pending, hp, tokenAt] at h0
    · intro _
      refine ⟨by simp [LexPos.measure, hp], pre0, [d], x.rest, by simp [hpre], by simp, ?_, ?_⟩
      · simp [LexPos.pending, hp, hpre, tokenAt]
      · left; simp [LexPos.pending, hp, tokenAt]; exact hd.symm
  · rw [h]
    refine ⟨by simp, ⟨x.rest, by simp⟩, by intro h0; simp at h0, fun _ => rfl, ?_⟩
    intro h0; simp [tokenAt] at h0
  · rw [h]
    refine ⟨by simp [hr], ⟨sp ++ ['('], by simp [hr]⟩, by intro h0; simp at h0, ?_, ?_⟩
    · intro h0; simp [tokenAt] at h0
    · intro _
      refine ⟨by simp [LexPos.measure, hp, hr]; omega, x.pre ++ sp, ['('], r, by simp [hr],
        by simp, by simp [tokenAt], ?_⟩
      left; simp [tokenAt]
  · rw [h]
    refine ⟨by simp [hr], ⟨sp ++ c :: w, by simp [hr]⟩, by intro h0; simp at h0, ?_, ?_⟩
    · intro h0; exact absurd h0 (classify_ne_end _)
    · intro _
      refine ⟨by simp [LexPos.measure, hp, hr], x.pre ++ sp, c :: w, [], by simp [hr],
        by simp, by simp [tokenAt], ?_⟩
      right; exact ⟨rfl, classify_ne_symbol _⟩
  · rw [h]
    refine ⟨by simp [hr], ⟨sp ++ c :: w ++ [d], by simp [hr]⟩, ?_, ?_, ?_⟩
    · intro h0
      exact ⟨x.pre ++ sp ++ c :: w, d, rfl, by simpa using h0⟩
    · intro h0; exact absurd h0 (classify_ne_end _)
    · intro _
      refine ⟨?_, x.pre ++ sp, c :: w, d :: r, by simp [hr], by simp, by simp [tokenAt], ?_⟩
      · simp only [LexPos.measure, hp, hr, List.length_append, List.length_cons]
        split <;> simp <;> omega
      · right; exact ⟨rfl, classify_ne_symbol _⟩

/-- From a position of a query without zero byte the lexer returns the tokens
that `stepTokens` lists and then the `End` token of the query for ever, and
the tokens are good tokens of the query. -/
theorem lexYields_stepTokens (n : Nat) : ∀ (x : LexPos), (∀ c ∈ x.rest, c ≠ NUL) → x.wf →
    x.measure < n →
    LexYields x.lexer (stepTokens n x) (endOf (x.pre ++ x.rest)) ∧
    ∀ t ∈ stepTokens n x, GoodToken (x.pre ++ x.rest) t := by
  induction n with
  | zero => intro x _ _ h; simp at h
  | succ n ih =>
    intro x hnul hwf hm
    obtain ⟨hcat, ⟨u, hu⟩, hwf1, hend, hstep⟩ := lexStep_props x hnul hwf
    have hget := getToken_lexStep x hnul
    by_cases hE : (lexStep x).1.pType = TokenType.End
    · have h1 := hend hE
      have hs : stepTokens (n + 1) x = [] := by simp [stepTokens, hE]
      rw [hs]
      refine ⟨⟨rfl, rfl, ?_, ?_⟩, by simp⟩
      · rw [hget, h1]; rfl
      · rw [hget, h1]
        have := getToken_at_end (x.pre ++ x.rest) [] (by simp)
        simpa [endOf] using this
    · obtain ⟨hlt, hgood⟩ := hstep hE
      have hs : stepTokens (n + 1) x = (lexStep x).1 :: stepTokens n (lexStep x).2 := by
        simp [stepTokens, hE]
      have hnul1 : ∀ c ∈ (lexStep x).2.rest, c ≠ NUL := by
        intro c hc; exact hnul c (by rw [hu]; exact List.mem_append_right _ hc)
      obtain ⟨ih1, ih2⟩ := ih (lexStep x).2 hnul1 hwf1 (by omega)
      rw [hcat] at ih1 ih2
      rw [hs]
      refine ⟨⟨hE, by rw [hget], by rw [hget]; exact ih1⟩, ?_⟩
      intro t ht
      rcases List.mem_cons.mp ht with h | h
      · rw [h]; exact hgood
      · exact ih2 t h

/-- The lexer of a query without zero byte starts at the position in front of
the query. -/
theorem lexerOf_eq (s : List Char) (hnul : ∀ c ∈ s, c ≠ NUL) :
    lexerOf s = LexPos.lexer ⟨[], s, false⟩ := by
  have : s.takeWhile (fun c => decide (c ≠ NUL)) = s := by
    rw [List.takeWhile_eq_self_iff]; intro c hc; simpa using hnul c hc
  simp only [lexerOf, QueryParser.new, this]
  rfl

/-- The lexer of a query without zero byte returns the tokens `tokensOf` of the
query and then its `End` token for ever, and the tokens are good tokens. -/
theorem lexYields_tokensOf (s : List Char) (hnul : ∀ c ∈ s, c ≠ NUL) :
    LexYields (lexerOf s) (tokensOf s) (endOf s) ∧ ∀ t ∈ tokensOf s, GoodToken s t := by
  rw [lexerOf_eq s hnul]
  exact lexYields_stepTokens (2 * s.length + 1) ⟨[], s, false⟩ hnul (by intro h; simp at h)
    (by simp [LexPos.measure])

/-- Line and column after `pre`, counted on `pre`. -/
theorem lineCol_eq (pre : List Char) :
    lineCol pre = (1 + pre.count '\n',
      1 + (pre.reverse.takeWhile (fun c => c ≠ '\n')).length) := by
  induction pre using List.reverseRecOn with
  | nil => rfl
  | append_singleton pre c ih =>
    rw [lineCol_snoc, ih]
    by_cases hc : c = '\n'
    · subst hc; simp [List.count_append]; omega
    · have h0 : List.count '\n' [c] = 0 := by
        simp [List.count_cons, hc]
      simp [hc, List.count_append, List.takeWhile_cons, h0]
      omega

/-- Line and column of a position, as the scanner counts them. -/
theorem lineCol_take (s : List Char) (k : Nat) :
    lineCol (s.take k) = (lineOf s k, columnOf s k) := by
  rw [lineCol_eq]; rfl

/-- The calls of `getCharacterInRange` on a scanner at a position. -/
theorem scanFrom_scannerAt (k : Nat) : ∀ (pre rest : List Char),
    scanFromInRange k (scannerAt pre rest) =
      if k < rest.length then
        ⟨rest.getD k NUL, (lineCol (pre ++ rest.take k)).1, (lineCol (pre ++ rest.take k)).2,
          pre.length + k⟩
      else
        ⟨NUL, (lineCol (pre ++ rest)).1, (lineCol (pre ++ rest)).2, pre.length + rest.length⟩ := by
  induction k with
  | zero =>
    intro pre rest
    cases rest with
    | nil => simp [scanFromInRange, getCharacter_scannerAt_nil]
    | cons c r => simp [scanFromInRange, getCharacter_scannerAt_cons]
  | succ k ih =>
    intro pre rest
    cases rest with
    | nil =>
      have := ih pre []
      simp only [List.length_nil, Nat.not_lt_zero, if_false] at this
      simp [scanFromInRange, getCharacter_scannerAt_nil, this]
    | cons c r =>
      rw [scanFromInRange, getCharacter_scannerAt_cons, ih]
      by_cases hk : k < r.length
      · simp [hk]; omega
      · simp [hk]; omega

/-- The scanner of the lexer of a query without zero byte. -/
theorem scanner_lexerOf (s : List Char) (hnul : ∀ c ∈ s, c ≠ NUL) :
    (lexerOf s).pScanner = scannerAt [] s := by
  rw [lexerOf_eq s hnul]; rfl

/-- Position, value, line and column of a good token. -/
theorem goodToken_position (s : List Char) (t : Token) (h : GoodToken s t) :
    t.pValue ≠ [] ∧ t.pValue <+: s.drop t.pPosition ∧
    t.pLine = lineOf s t.pPosition ∧ t.pColumn = columnOf s t.pPosition := by
  obtain ⟨pre, w, rest, hs, hw, ht, _⟩ := h
  have hv : t.pValue = w := by rw [ht]; rfl
  have hp : t.pPosition = pre.length := by rw [ht]; rfl
  have hl : t.pLine = (lineCol pre).1 := by rw [ht]; rfl
  have hc : t.pColumn = (lineCol pre).2 := by rw [ht]; rfl
  have htake : s.take pre.length = pre := by rw [hs]; simp
  have hlc := lineCol_take s pre.length
  rw [htake] at hlc
  refine ⟨by rw [hv]; exact hw, ?_, ?_, ?_⟩
  · rw [hv, hp, hs]; simp
  · rw [hl, hp, hlc]
  · rw [hc, hp, hlc]

/-- Splitting on the space character: a piece without space before a space. -/
theorem splitOn_piece (u r : List Char) (hu : ∀ c ∈ u, c ≠ ' ') :
    (u ++ ' ' :: r).splitOn ' ' = u :: r.splitOn ' ' := by
  unfold List.splitOn
  exact List.splitOnP_first _ u (by intro x hx; simpa using hu x hx) ' ' (by simp) r

/-- Splitting on the space character: a list without space is one piece. -/
theorem splitOn_single (u : List Char) (hu : ∀ c ∈ u, c ≠ ' ') :
    u.splitOn ' ' = [u] := by
  unfold List.splitOn
  exact List.splitOnP_eq_single _ u (by intro x hx; simpa using hu x hx)

/-- Leading spaces add only empty pieces. -/
theorem splitOn_spaces (sp r : List Char) (hsp : ∀ c ∈ sp, c = ' ') :
    ((sp ++ r).splitOn ' ').filter (fun w => decide (w ≠ []))
      = (r.splitOn ' ').filter (fun w => decide (w ≠ [])) := by
  induction sp with
  | nil => rfl
  | cons c sp ih =>
    have hc : c = ' ' := hsp c (by simp)
    subst hc
    have := splitOn_piece [] (sp ++ r) (by simp)
    simp only [List.nil_append] at this
    rw [List.cons_append, this]
    simp only [ne_eq, not_true_eq_false, decide_False, Bool.false_eq_true, not_false_eq_true,
      List.filter_cons_of_neg]
    exact ih (fun c hc => hsp c (by simp [hc]))

/-- No token is left at the end of the query. -/
theorem stepTokens_end (n : Nat) (pre : List Char) : stepTokens n ⟨pre, [], false⟩ = [] := by
  cases n with
  | zero => rfl
  | succ n => simp [stepTokens, lexStep, tokenAt]

/-- Without parentheses the values of the tokens are the non-empty pieces
between spaces. -/
theorem stepTokens_values (n : Nat) : ∀ (x : LexPos), (∀ c ∈ x.rest, c ≠ NUL) →
    (∀ c ∈ x.rest, c ≠ '(' ∧ c ≠ ')') → x.pend = false → x.measure < n →
    (stepTokens n x).map (fun t => t.pValue)
      = (x.rest.splitOn ' ').filter (fun w => decide (w ≠ [])) := by
  induction n with
  | zero => intro x _ _ _ h; simp at h
  | succ n ih =>
    intro x hnul hpar hpend hm
    rcases lexStep_cases x hnul with ⟨hp, _⟩ | ⟨_, hsp, h⟩ | ⟨_, sp, r, _, hr, _⟩ |
      ⟨_, sp, c, w, hsp, hc1, hc2, hc3, hw, hr, h⟩ |
      ⟨_, sp, c, w, d, r, hsp, hc1, hc2, hc3, hw, hd1, hd2, hr, h⟩
    · rw [hpend] at hp; cases hp
    · have h0 := splitOn_spaces x.rest [] hsp
      rw [List.append_nil] at h0
      rw [h0]
      simp [stepTokens, h, tokenAt]
    · exact absurd rfl (hpar '(' (by rw [hr]; simp)).1
    · have hcw : ∀ e ∈ c :: w, e ≠ ' ' := by
        intro e he
        rcases List.mem_cons.1 he with rfl | he
        · exact hc2
        · exact (hw e he).2.1
      rw [hr, splitOn_spaces sp _ hsp, splitOn_single _ hcw]
      have hne : (lexStep x).1.pType ≠ TokenType.End := by
        rw [h]; exact classify_ne_end _
      rw [stepTokens, if_neg hne, h]
      simp [stepTokens_end, tokenAt]
    · have hcw : ∀ e ∈ c :: w, e ≠ ' ' := by
        intro e he
        rcases List.mem_cons.1 he with rfl | he
        · exact hc2
        · exact (hw e he).2.1
      have hdpar := hpar d (by rw [hr]; simp)
      have hd : d = ' ' := by
        by_contra hd
        exact hd2 ⟨hd1, hd, hdpar.2, hdpar.1⟩
      subst hd
      have hne : (lexStep x).1.pType ≠ TokenType.End := by
        rw [h]; exact classify_ne_end _
      have hsplit : x.rest.splitOn ' ' = (sp ++ ((c :: w) ++ ' ' :: r)).splitOn ' ' := by
        rw [hr]; simp
      rw [hsplit, splitOn_spaces sp _ hsp, splitOn_piece _ r hcw]
      rw [stepTokens, if_neg hne, h]
      have hih := ih ⟨x.pre ++ sp ++ c :: w ++ [' '], r, false⟩
        (fun e he => hnul e (by rw [hr]; simp [he]))
        (fun e he => hpar e (by rw [hr]; simp [he])) rfl
        (by
          have hl : x.rest.length = sp.length + (w.length + (r.length + 1) + 1) := by
            rw [hr]; simp
          simp only [LexPos.measure, hpend] at hm
          simp only [LexPos.measure]
          simp at hm ⊢
          omega)
      simp only [List.map_cons]
      rw [show decide ((' ' : Char) = ')' ∨ (' ' : Char) = '(') = false by decide, hih]
      simp [tokenAt]

/-- The tokens that the lexer returns, call after call. -/
theorem nextTokens_of_lexYields (ts : List Token) : ∀ (l : QueryLexer) (e : Token),
    LexYields l ts e → ∀ k, nextTokensInRange (ts.length + k) l = ts ++ List.replicate k e := by
  induction ts with
  | nil =>
    intro l e h k
    obtain ⟨_, _, h1, h2⟩ := h
    have hfix : ∀ k, nextTokensInRange k l.getTokenInRange.2 = List.replicate k e := by
      intro k
      induction k with
      | zero => rfl
      | succ k ihk => rw [nextTokensInRange, h2]; simp only []; rw [ihk]; rfl
    cases k with
    | zero => rfl
    | succ k =>
      simp only [List.length_nil, Nat.zero_add, List.nil_append]
      rw [nextTokensInRange, h1, hfix]; rfl
  | cons t ts ih =>
    intro l e h k
    obtain ⟨_, h1, h2⟩ := h
    rw [show (t :: ts).length + k = (ts.length + k) + 1 by simp; omega, nextTokensInRange, h1,
      ih _ _ h2 k]
    rfl

/-- The calls of `getTokenInRange` on the lexer of a query without zero byte return
the tokens `tokensOf s` and then `endOf s` for ever. -/
theorem nextTokens_lexerOf (s : List Char) (hnul : ∀ c ∈ s, c ≠ NUL) (k : Nat) :
    nextTokensInRange ((tokensOf s).length + k) (lexerOf s)
      = tokensOf s ++ List.replicate k (endOf s) :=
  nextTokens_of_lexYields _ _ _ (lexYields_tokensOf s hnul).1 k

/-- The type that `classify` gives, read off the value. -/
theorem classify_iff (w : List Char) :
    (classify w = TokenType.BinaryOp ↔ (w = "AND".toList ∨ w = "OR".toList)) ∧
    (classify w = TokenType.UnaryOp ↔ w = "NOT".toList) ∧
    (classify w = TokenType.Term ↔
      (w ≠ "AND".toList ∧ w ≠ "OR".toList ∧ w ≠ "NOT".toList)) := by
  unfold classify
  by_cases h1 : w = "OR".toList
  · subst h1; decide
  · by_cases h2 : w = "AND".toList
    · subst h2; decide
    · by_cases h3 : w = "NOT".toList
      · subst h3; decide
      · rw [if_neg (by rintro (h | h); exact h1 h; exact h2 h), if_neg h3]
        refine ⟨⟨fun h => (by cases h), ?_⟩, ⟨fun h => (by cases h), fun h => absurd h h3⟩,
          ⟨fun _ => ⟨h2, h1, h3⟩, fun _ => rfl⟩⟩
        rintro (h | h)
        · exact absurd h h2
        · exact absurd h h1

/-- On a query of fewer than `2 ^ 31 - 1` characters without zero byte the
first `|tokensOf s| + k` calls of `getToken` return the tokens `tokensOf s`
and then `k` times the token `endOf s`. -/
theorem nextTokens_tokensOf (s : List Char) (hnul : ∀ c ∈ s, c ≠ NUL)
    (hlen : s.length < 2 ^ 31 - 1) (k : Nat) :
    nextTokens ((tokensOf s).length + k) (lexerOf s)
      = Outcome.ok (tokensOf s ++ List.replicate k (endOf s)) := by
  rw [nextTokens_inRange s (takeWhile_length_lt s hlen), nextTokens_lexerOf s hnul]

/-- C17: for every query `s` of fewer than `2 ^ 31 - 1` characters without
zero byte and without parenthesis, the lexer returns the tokens `tokensOf s`
and then `End` for ever, and the values of these tokens are, in order, the
non-empty pieces of `s` split on the space character; in
`a<tab>b<newline>c  d` the tab and the newline stay inside the first value. -/
theorem lexer_splits_on_spaces (s : List Char) (hnul : ∀ c ∈ s, c ≠ NUL)
    (hpar : ∀ c ∈ s, c ≠ '(' ∧ c ≠ ')') (hlen : s.length < 2 ^ 31 - 1) :
    (∀ k, nextTokens ((tokensOf s).length + k) (lexerOf s)
      = Outcome.ok (tokensOf s ++ List.replicate k (endOf s))) ∧
    (endOf s).pType = TokenType.End ∧
    (∀ t ∈ tokensOf s, t.pType ≠ TokenType.End) ∧
    (tokensOf s).map (fun t => t.pValue)
      = (s.splitOn ' ').filter (fun w => decide (w ≠ [])) ∧
    (∃ ts, nextTokens 3 (lexerOf "a\tb\nc  d".toList) = Outcome.ok ts ∧
      ts.map (fun t => (t.pValue, t.pType))
        = [("a\tb\nc".toList, TokenType.Term), ("d".toList, TokenType.Term),
            ([], TokenType.End)]) := by
  refine ⟨nextTokens_tokensOf s hnul hlen, rfl, ?_, ?_,
    ⟨_, nextTokens_inRange _ (by decide) _, by decide⟩⟩
  · intro t ht
    obtain ⟨_, _, _, _, _, _, hty⟩ := (lexYields_tokensOf s hnul).2 t ht
    rcases hty with ⟨h1, _⟩ | ⟨h1, _⟩
    · rw [h1]; decide
    · rw [h1]; exact classify_ne_end _
  · exact stepTokens_values _ ⟨[], s, false⟩ hnul hpar rfl (by simp [LexPos.measure])

/-- Instance of `lexer_splits_on_spaces`: the query ` cat  AND dog `. -/
theorem lexer_splits_on_spaces_witness :
    (∀ c ∈ " cat  AND dog ".toList, c ≠ NUL) ∧
    (∀ c ∈ " cat  AND dog ".toList, c ≠ '(' ∧ c ≠ ')') ∧
    " cat  AND dog ".toList.length < 2 ^ 31 - 1 ∧
    (" cat  AND dog ".toList.splitOn ' ').filter (fun w => decide (w ≠ []))
      = ["cat".toList, "AND".toList, "dog".toList] ∧
    (∀ k, nextTokens ((tokensOf " cat  AND dog ".toList).length + k)
        (lexerOf " cat  AND dog ".toList)
      = Outcome.ok (tokensOf " cat  AND dog ".toList
          ++ List.replicate k (endOf " cat  AND dog ".toList))) ∧
    (tokensOf " cat  AND dog ".toList).map (fun t => t.pValue)
      = (" cat  AND dog ".toList.splitOn ' ').filter (fun w => decide (w ≠ [])) :=
  ⟨by decide, by decide, by decide, by decide,
    (lexer_splits_on_spaces " cat  AND dog ".toList (by decide) (by decide) (by decide)).1,
    (lexer_splits_on_spaces " cat  AND dog ".toList (by decide) (by decide)
      (by decide)).2.2.2.1⟩

/-- C18: for every query `s` of fewer than `2 ^ 31 - 1` characters without
zero byte, the lexer returns the tokens `tokensOf s` and then `End` for ever;
each of these tokens is a `Symbol` whose value is one parenthesis, or a word
token, and a word token has type `BinaryOp` iff its value is `AND` or `OR`,
type `UnaryOp` iff its value is `NOT`, and type `Term` iff its value is none of
the three; `and`, `ANDROID` and `NOTE` are terms, and `AND(` gives `BinaryOp`
`AND` then `Symbol` `(`. -/
theorem token_classification (s : List Char) (hnul : ∀ c ∈ s, c ≠ NUL)
    (hlen : s.length < 2 ^ 31 - 1) :
    (∀ k, nextTokens ((tokensOf s).length + k) (lexerOf s)
      = Outcome.ok (tokensOf s ++ List.replicate k (endOf s))) ∧
    (∀ t ∈ tokensOf s, t.pType = TokenType.Symbol →
      (t.pValue = "(".toList ∨ t.pValue = ")".toList)) ∧
    (∀ t ∈ tokensOf s, t.pType ≠ TokenType.Symbol →
      t.pType = classify t.pValue ∧
      (t.pType = TokenType.BinaryOp ↔ (t.pValue = "AND".toList ∨ t.pValue = "OR".toList)) ∧
      (t.pType = TokenType.UnaryOp ↔ t.pValue = "NOT".toList) ∧
      (t.pType = TokenType.Term ↔
        (t.pValue ≠ "AND".toList ∧ t.pValue ≠ "OR".toList ∧ t.pValue ≠ "NOT".toList))) ∧
    (∃ ts, nextTokens 2 (lexerOf "and".toList) = Outcome.ok ts ∧
      ts.map (fun t => (t.pValue, t.pType))
        = [("and".toList, TokenType.Term), ([], TokenType.End)]) ∧
    (∃ ts, nextTokens 2 (lexerOf "ANDROID".toList) = Outcome.ok ts ∧
      ts.map (fun t => (t.pValue, t.pType))
        = [("ANDROID".toList, TokenType.Term), ([], TokenType.End)]) ∧
    (∃ ts, nextTokens 2 (lexerOf "NOTE".toList) = Outcome.ok ts ∧
      ts.map (fun t => (t.pValue, t.pType))
        = [("NOTE".toList, TokenType.Term), ([], TokenType.End)]) ∧
    (∃ ts, nextTokens 3 (lexerOf "AND(".toList) = Outcome.ok ts ∧
      ts.map (fun t => (t.pValue, t.pType))
        = [("AND".toList, TokenType.BinaryOp), ("(".toList, TokenType.Symbol),
            ([], TokenType.End)]) := by
  refine ⟨nextTokens_tokensOf s hnul hlen, ?_, ?_,
    ⟨_, nextTokens_inRange _ (by decide) _, by decide⟩,
    ⟨_, nextTokens_inRange _ (by decide) _, by decide⟩,
    ⟨_, nextTokens_inRange _ (by decide) _, by decide⟩,
    ⟨_, nextTokens_inRange _ (by decide) _, by decide⟩⟩
  · intro t ht hsym
    obtain ⟨pre, w, rest, _, _, htok, hty⟩ := (lexYields_tokensOf s hnul).2 t ht
    have hv : t.pValue = w := by rw [htok]; rfl
    rcases hty with ⟨_, h2⟩ | ⟨_, h2⟩
    · rw [hv]; exact h2
    · exact absurd hsym h2
  · intro t ht hsym
    obtain ⟨pre, w, rest, _, _, htok, hty⟩ := (lexYields_tokensOf s hnul).2 t ht
    have hv : t.pValue = w := by rw [htok]; rfl
    rcases hty with ⟨h1, _⟩ | ⟨h1, _⟩
    · exact absurd h1 hsym
    · have hc : t.pType = classify t.pValue := by rw [hv]; exact h1
      refine ⟨hc, ?_⟩
      rw [hc]
      exact classify_iff _

/-- Instance of `token_classification`: the query `NOT (OR cat)`. -/
theorem token_classification_witness :
    (∀ c ∈ "NOT (OR cat)".toList, c ≠ NUL) ∧
    "NOT (OR cat)".toList.length < 2 ^ 31 - 1 ∧
    (tokensOf "NOT (OR cat)".toList).map (fun t => (t.pValue, t.pType))
      = [("NOT".toList, TokenType.UnaryOp), ("(".toList, TokenType.Symbol),
          ("OR".toList, TokenType.BinaryOp), ("cat".toList, TokenType.Term),
          (")".toList, TokenType.Symbol)] ∧
    (∀ k, nextTokens ((tokensOf "NOT (OR cat)".toList).length + k) (lexerOf "NOT (OR cat)".toList)
      = Outcome.ok
          (tokensOf "NOT (OR cat)".toList ++ List.replicate k (endOf "NOT (OR cat)".toList))) :=
  ⟨by decide, by decide, by decide,
    (token_classification "NOT (OR cat)".toList (by decide) (by decide)).1⟩

/-- C19: for every query `s` of fewer than `2 ^ 31 - 1` characters without
zero byte, call number `k` of `getCharacter` (counted from 0) returns `s[k]`
with position `k`, line `lineOf s k` and column `columnOf s k` for `k < |s|`,
and the zero character at position `|s|` for every later call; the lexer
returns the tokens `tokensOf s` and then the token `endOf s` for ever, every
token before `End` has as value a non-empty piece of `s` that starts at the
token's position and carries the line and column of that position, and the
`End` token carries position `|s|`. -/
theorem source_positions (s : List Char) (hnul : ∀ c ∈ s, c ≠ NUL)
    (hlen : s.length < 2 ^ 31 - 1) :
    (∀ k (h : k < s.length), scanFrom k (lexerOf s).pScanner
      = Outcome.ok ⟨s[k], lineOf s k, columnOf s k, k⟩) ∧
    (∀ k, s.length ≤ k → scanFrom k (lexerOf s).pScanner
      = Outcome.ok ⟨NUL, lineOf s s.length, columnOf s s.length, s.length⟩) ∧
    (∀ k, nextTokens ((tokensOf s).length + k) (lexerOf s)
      = Outcome.ok (tokensOf s ++ List.replicate k (endOf s))) ∧
    (∀ t ∈ tokensOf s, t.pType ≠ TokenType.End ∧ t.pValue ≠ [] ∧
      t.pValue <+: s.drop t.pPosition ∧
      t.pLine = lineOf s t.pPosition ∧ t.pColumn = columnOf s t.pPosition) ∧
    (endOf s).pType = TokenType.End ∧ (endOf s).pPosition = s.length := by
  obtain ⟨hy, hgood⟩ := lexYields_tokensOf s hnul
  have hb := takeWhile_length_lt s hlen
  refine ⟨?_, ?_, nextTokens_tokensOf s hnul hlen, ?_, rfl, rfl⟩
  · intro k hk
    rw [scanFrom_inRange s hb, scanner_lexerOf s hnul, scanFrom_scannerAt, if_pos hk]
    simp only [List.nil_append, List.length_nil, Nat.zero_add, lineCol_take]
    rw [List.getD_eq_getElem _ _ hk]
  · intro k hk
    rw [scanFrom_inRange s hb, scanner_lexerOf s hnul, scanFrom_scannerAt, if_neg (by omega)]
    have := lineCol_take s s.length
    rw [List.take_length] at this
    simp only [List.nil_append, List.length_nil, Nat.zero_add, this]
  · intro t ht
    have hg := hgood t ht
    obtain ⟨pre, w, rest, _, _, htok, hty⟩ := hg
    refine ⟨?_, goodToken_position s t (hgood t ht)⟩
    rcases hty with ⟨h1, _⟩ | ⟨h1, _⟩
    · rw [h1]; decide
    · rw [h1]; exact classify_ne_end _

/-- Instance of `source_positions`: the two-line query `a b` newline `(c`. -/
theorem source_positions_witness :
    (∀ c ∈ "a b\n(c".toList, c ≠ NUL) ∧
    "a b\n(c".toList.length < 2 ^ 31 - 1 ∧
    scanFrom 4 (lexerOf "a b\n(c".toList).pScanner = Outcome.ok ⟨'(', 2, 1, 4⟩ ∧
    scanFrom 9 (lexerOf "a b\n(c".toList).pScanner = Outcome.ok ⟨NUL, 2, 3, 6⟩ ∧
    tokensOf "a b\n(c".toList
      = [⟨"a".toList, TokenType.Term, 1, 1, 0⟩, ⟨"b\n".toList, TokenType.Term, 1, 3, 2⟩,
          ⟨"(".toList, TokenType.Symbol, 2, 1, 4⟩, ⟨"c".toList, TokenType.Term, 2, 2, 5⟩] ∧
    endOf "a b\n(c".toList = ⟨[], TokenType.End, 2, 3, 6⟩ ∧
    (∀ k, nextTokens ((tokensOf "a b\n(c".toList).length + k) (lexerOf "a b\n(c".toList)
      = Outcome.ok
          (tokensOf "a b\n(c".toList ++ List.replicate k (endOf "a b\n(c".toList))) :=
  ⟨by decide, by decide,
    (source_positions "a b\n(c".toList (by decide) (by decide)).1 4 (by decide),
    (source_positions "a b\n(c".toList (by decide) (by decide)).2.1 9 (by decide),
    by decide, by decide,
    (source_positions "a b\n(c".toList (by decide) (by decide)).2.2.1⟩

/-- A result stays when fuel is added. -/
theorem mono_le (F : Nat → Parsed) (h : Mono F) (f g : Nat) (r : Except Status PNode × QueryParser)
    (hfg : f ≤ g) (hf : F f = Outcome.ok r) : F g = Outcome.ok r := by
  induction g with
  | zero =>
    have : f = 0 := by omega
    subst this; exact hf
  | succ g ih =>
    by_cases hle : f ≤ g
    · exact h g r (ih hle)
    · have : f = g + 1 := by omega
      subst this; exact hf

/-- A run returns at most one result. -/
theorem returns_unique (F : Nat → Parsed) (h : Mono F) (r1 r2 : Except Status PNode × QueryParser)
    (h1 : Returns F r1) (h2 : Returns F r2) : r1 = r2 := by
  obtain ⟨f1, hf1⟩ := h1
  obtain ⟨f2, hf2⟩ := h2
  have a := mono_le F h f1 (max f1 f2) r1 (le_max_left _ _) hf1
  have b := mono_le F h f2 (max f1 f2) r2 (le_max_right _ _) hf2
  rw [a] at b
  exact Outcome.ok.inj b

/-- A result of `andThen` is the failure of the first part or the result of the
second part. -/
theorem andThen_eq_ok_inv (r : Parsed) (k : PNode → QueryParser → Parsed)
    (x : Except Status PNode × QueryParser) (h : r.andThen k = Outcome.ok x) :
    (∃ st p, r = Outcome.ok (Except.error st, p) ∧ x = (Except.error st, p)) ∨
    (∃ tmp p, r = Outcome.ok (Except.ok tmp, p) ∧ k tmp p = Outcome.ok x) := by
  unfold Parsed.andThen at h
  rcases r with ⟨⟨e | tmp, p2⟩⟩ | _ | _
  · left; exact ⟨e, p2, rfl, (Outcome.ok.inj h).symm⟩
  · right; exact ⟨tmp, p2, rfl, h⟩
  · simp at h
  · simp at h

/-- The failure of the first part is the result of `andThen`. -/
theorem andThen_error (st : Status) (p1 : QueryParser) (k : PNode → QueryParser → Parsed) :
    Parsed.andThen (Outcome.ok (Except.error st, p1)) k = Outcome.ok (Except.error st, p1) := rfl

/-- The result of `andThen` stays when both parts keep their results. -/
theorem andThen_mono (a a2 : Parsed) (k k2 : PNode → QueryParser → Parsed)
    (r : Except Status PNode × QueryParser)
    (ha : ∀ x, a = Outcome.ok x → a2 = Outcome.ok x)
    (hk : ∀ tmp p x, k tmp p = Outcome.ok x → k2 tmp p = Outcome.ok x)
    (h : a.andThen k = Outcome.ok r) : a2.andThen k2 = Outcome.ok r := by
  rcases andThen_eq_ok_inv a k r h with ⟨st, p, h1, h2⟩ | ⟨tmp, p, h1, h2⟩
  · rw [ha _ h1, h2]; rfl
  · rw [ha _ h1, andThen_ok]; exact hk _ _ _ h2

/-- The five parsing functions keep their result when one unit of fuel is
added. -/
theorem blocks_mono (f : Nat) :
    (∀ p r, block1InRange f p = Outcome.ok r → block1InRange (f + 1) p = Outcome.ok r) ∧
    (∀ chs p r, block1LoopInRange f chs p = Outcome.ok r → block1LoopInRange (f + 1) chs p = Outcome.ok r) ∧
    (∀ p r, block2InRange f p = Outcome.ok r → block2InRange (f + 1) p = Outcome.ok r) ∧
    (∀ chs p r, block2LoopInRange f chs p = Outcome.ok r → block2LoopInRange (f + 1) chs p = Outcome.ok r) ∧
    (∀ p r, block3InRange f p = Outcome.ok r → block3InRange (f + 1) p = Outcome.ok r) := by
  induction f with
  | zero =>
    refine ⟨?_, ?_, ?_, ?_, ?_⟩
    · intro p r h; simp [block1InRange] at h
    · intro chs p r h; simp [block1LoopInRange] at h
    · intro p r h; simp [block2InRange] at h
    · intro chs p r h; simp [block2LoopInRange] at h
    · intro p r h; simp [block3InRange] at h
  | succ f ih =>
    obtain ⟨i1, i1L, i2, i2L, i3⟩ := ih
    refine ⟨?_, ?_, ?_, ?_, ?_⟩
    · intro p r h
      rw [block1_succ] at h ⊢
      exact andThen_mono _ _ _ _ r (i2 p) (fun tmp p1 x => i1L _ p1 x) h
    · intro chs p r h
      rw [block1Loop_succ] at h ⊢
      by_cases hs : p.sees TokenType.BinaryOp "OR".toList
      · rw [if_pos hs] at h ⊢
        exact andThen_mono _ _ _ _ r (i2 _) (fun tmp p1 x => i1L _ p1 x) h
      · rw [if_neg hs] at h ⊢; exact h
    · intro p r h
      rw [block2_succ] at h ⊢
      exact andThen_mono _ _ _ _ r (i3 p) (fun tmp p1 x => i2L _ p1 x) h
    · intro chs p r h
      rw [block2Loop_succ] at h ⊢
      by_cases hs : p.sees TokenType.BinaryOp "AND".toList
      · rw [if_pos hs] at h ⊢
        exact andThen_mono _ _ _ _ r (i3 _) (fun tmp p1 x => i2L _ p1 x) h
      · rw [if_neg hs] at h ⊢; exact h
    · intro p r h
      rw [block3_succ] at h ⊢
      by_cases h0 : p.pToken.pType = TokenType.Term
      · rw [if_pos h0] at h ⊢; exact h
      · rw [if_neg h0] at h ⊢
        by_cases h1 : p.sees TokenType.UnaryOp "NOT".toList
        · rw [if_pos h1] at h ⊢
          exact andThen_mono _ _ _ _ r (i3 _) (fun tmp p1 x hx => hx) h
        · rw [if_neg h1] at h ⊢
          by_cases h2 : p.sees TokenType.Symbol "(".toList
          · rw [if_pos h2] at h ⊢
            exact andThen_mono _ _ _ _ r (i1 _) (fun tmp p1 x hx => hx) h
          · rw [if_neg h2] at h ⊢; exact h

/-- Monotony of `block1InRange`. -/
theorem block1_mono (p : QueryParser) : Mono (fun f => block1InRange f p) :=
  fun f r h => (blocks_mono f).1 p r h

/-- Monotony of the loop of `block1InRange`. -/
theorem block1Loop_mono (chs : List PNode) (p : QueryParser) :
    Mono (fun f => block1LoopInRange f chs p) :=
  fun f r h => (blocks_mono f).2.1 chs p r h

/-- Monotony of `block2InRange`. -/
theorem block2_mono (p : QueryParser) : Mono (fun f => block2InRange f p) :=
  fun f r h => (blocks_mono f).2.2.1 p r h

/-- Monotony of the loop of `block2InRange`. -/
theorem block2Loop_mono (chs : List PNode) (p : QueryParser) :
    Mono (fun f => block2LoopInRange f chs p) :=
  fun f r h => (blocks_mono f).2.2.2.1 chs p r h

/-- Monotony of `block3InRange`. -/
theorem block3_mono (p : QueryParser) : Mono (fun f => block3InRange f p) :=
  fun f r h => (blocks_mono f).2.2.2.2 p r h

/-- Monotony of `andFrom`. -/
theorem andFrom_mono (chs : List PNode) (p : QueryParser) : Mono (andFrom chs p) :=
  fun f r h => andThen_mono _ _ _ _ r (fun x => block3_mono p f x)
    (fun _ p1 x => block2Loop_mono _ p1 f x) h

/-- Monotony of `orFrom`. -/
theorem orFrom_mono (chs : List PNode) (p : QueryParser) : Mono (orFrom chs p) :=
  fun f r h => andThen_mono _ _ _ _ r (fun x => block2_mono p f x)
    (fun _ p1 x => block1Loop_mono _ p1 f x) h

/-- Monotony of `orTailFrom`. -/
theorem orTailFrom_mono (chsA chsO : List PNode) (p : QueryParser) :
    Mono (orTailFrom chsA chsO p) :=
  fun f r h => andThen_mono _ _ _ _ r (fun x => block2Loop_mono chsA p f x)
    (fun _ p1 x => block1Loop_mono _ p1 f x) h

/-- Monotony of `query`. -/
theorem query_mono (p : QueryParser) : Mono (fun f => p.queryInRange f) := by
  intro f r h
  simp only [query_eq] at h ⊢
  exact andThen_mono _ _ _ _ r (fun x => block1_mono _ f x) (fun tmp p1 x hx => hx) h

/-- A run that is another run with one more unit of fuel returns the same. -/
theorem returns_succ (F G : Nat → Parsed) (r : Except Status PNode × QueryParser)
    (h : ∀ f, G (f + 1) = F f) (hF : Returns F r) : Returns G r := by
  obtain ⟨f, hf⟩ := hF
  exact ⟨f + 1, by rw [h, hf]⟩

/-- Sequencing two runs: the first succeeds, the second returns `r`. -/
theorem returns_andThen_ok (A : Nat → Parsed) (K : Nat → PNode → QueryParser → Parsed)
    (hA : Mono A) (hK : ∀ tmp p, Mono (fun f => K f tmp p))
    (tmp : PNode) (p1 : QueryParser) (r : Except Status PNode × QueryParser)
    (h1 : Returns A (Except.ok tmp, p1)) (h2 : Returns (fun f => K f tmp p1) r) :
    Returns (fun f => (A f).andThen (K f)) r := by
  obtain ⟨f1, hf1⟩ := h1
  obtain ⟨f2, hf2⟩ := h2
  refine ⟨max f1 f2, ?_⟩
  simp only []
  rw [mono_le A hA f1 _ _ (le_max_left _ _) hf1, andThen_ok]
  exact mono_le _ (hK tmp p1) f2 _ _ (le_max_right _ _) hf2

/-- Sequencing two runs: the first fails. -/
theorem returns_andThen_err (A : Nat → Parsed) (K : Nat → PNode → QueryParser → Parsed)
    (st : Status) (p1 : QueryParser) (h1 : Returns A (Except.error st, p1)) :
    Returns (fun f => (A f).andThen (K f)) (Except.error st, p1) := by
  obtain ⟨f1, hf1⟩ := h1
  exact ⟨f1, by simp only []; rw [hf1]; rfl⟩

/-- A result of two runs in sequence, taken apart. -/
theorem returns_andThen_inv (A : Nat → Parsed) (K : Nat → PNode → QueryParser → Parsed)
    (r : Except Status PNode × QueryParser) (h : Returns (fun f => (A f).andThen (K f)) r) :
    (∃ st p, Returns A (Except.error st, p) ∧ r = (Except.error st, p)) ∨
    (∃ tmp p, Returns A (Except.ok tmp, p) ∧ Returns (fun f => K f tmp p) r) := by
  obtain ⟨f, hf⟩ := h
  rcases andThen_eq_ok_inv _ _ _ hf with ⟨st, p, h1, h2⟩ | ⟨tmp, p, h1, h2⟩
  · left; exact ⟨st, p, ⟨f, h1⟩, h2⟩
  · right; exact ⟨tmp, p, ⟨f, h1⟩, ⟨f, h2⟩⟩

/-- The parser after its first token is read from a lexer. -/
theorem parserAt_of_lexYields (l : QueryLexer) (ts : List Token) (e : Token)
    (h : LexYields l ts e) : ParserAt { pLexer := l.getTokenInRange.2, pToken := l.getTokenInRange.1 } ts e := by
  cases ts with
  | nil =>
    obtain ⟨h1, _, h3, h4⟩ := h
    exact ⟨h3, h1, h4⟩
  | cons t ts =>
    obtain ⟨h1, h2, h3⟩ := h
    exact ⟨h2, h1, h3⟩

/-- Method `getNextTokenInRange` moves the parser to the next token. -/
theorem parserAt_next (p : QueryParser) (t : Token) (ts : List Token) (e : Token)
    (h : ParserAt p (t :: ts) e) : ParserAt p.getNextTokenInRange ts e :=
  parserAt_of_lexYields _ _ _ h.2.2

/-- The token the parser looks at. -/
theorem parserAt_cons_token (p : QueryParser) (t : Token) (ts : List Token) (e : Token)
    (h : ParserAt p (t :: ts) e) : p.pToken = t := h.1

/-- At the end of the tokens the parser looks at a token of type `End`. -/
theorem parserAt_nil_type (p : QueryParser) (e : Token) (h : ParserAt p [] e) :
    p.pToken.pType = TokenType.End := by
  rw [h.1]; exact h.2.1

/-- The parser looks at a token of type `End` only at the end of the tokens. -/
theorem parserAt_end_iff (p : QueryParser) (ts : List Token) (e : Token) (h : ParserAt p ts e) :
    p.pToken.pType = TokenType.End ↔ ts = [] := by
  cases ts with
  | nil => simp [parserAt_nil_type p e h]
  | cons t ts =>
    have : p.pToken.pType ≠ TokenType.End := by rw [h.1]; exact h.2.1
    simp [this]

/-- The token the parser looks at is one of the tokens or the `End` token. -/
theorem parserAt_token_mem (p : QueryParser) (ts : List Token) (e : Token) (h : ParserAt p ts e) :
    p.pToken ∈ ts ++ [e] := by
  cases ts with
  | nil => simp [h.1]
  | cons t ts => simp [h.1]

/-- At the end of the tokens the parser sees no operator, operand or
parenthesis. -/
theorem parserAt_nil_not_sees (p : QueryParser) (e : Token) (h : ParserAt p [] e)
    (t : TokenType) (v : List Char) (ht : t ≠ TokenType.End) : ¬ p.sees t v := by
  intro hs
  have := parserAt_nil_type p e h
  rw [hs.2] at this
  exact ht this

/-! ## Rules for the parsing functions -/

/-- Rule of `block3InRange`: a term. -/
theorem block3_term (p : QueryParser) (h : p.pToken.pType = TokenType.Term) :
    Returns (fun f => block3InRange f p)
      (Except.ok (PNode.mk TokenType.Term p.pToken.pValue []), p.getNextTokenInRange) :=
  ⟨1, by show block3InRange (0 + 1) p = _; rw [block3_succ, if_pos h]⟩

/-- Rule of `block3InRange`: `NOT` and an operand. -/
theorem block3_neg (p : QueryParser) (h0 : p.pToken.pType ≠ TokenType.Term)
    (h1 : p.sees TokenType.UnaryOp "NOT".toList) (tmp : PNode) (p2 : QueryParser)
    (h : Returns (fun f => block3InRange f p.getNextTokenInRange) (Except.ok tmp, p2)) :
    Returns (fun f => block3InRange f p)
      (Except.ok (PNode.mk TokenType.UnaryOp "NOT".toList [tmp]), p2) := by
  obtain ⟨f, hf⟩ := h
  have hf2 : block3InRange f p.getNextTokenInRange = _ := hf
  exact ⟨f + 1, by show block3InRange (f + 1) p = _; rw [block3_succ, if_neg h0, if_pos h1, hf2]; rfl⟩

/-- Rule of `block3InRange`: `NOT` and a failing operand. -/
theorem block3_neg_err (p : QueryParser) (h0 : p.pToken.pType ≠ TokenType.Term)
    (h1 : p.sees TokenType.UnaryOp "NOT".toList) (st : Status) (p2 : QueryParser)
    (h : Returns (fun f => block3InRange f p.getNextTokenInRange) (Except.error st, p2)) :
    Returns (fun f => block3InRange f p) (Except.error st, p2) := by
  obtain ⟨f, hf⟩ := h
  have hf2 : block3InRange f p.getNextTokenInRange = _ := hf
  exact ⟨f + 1, by show block3InRange (f + 1) p = _; rw [block3_succ, if_neg h0, if_pos h1, hf2]; rfl⟩

/-- Rule of `block3InRange`: a parenthesised expression. -/
theorem block3_paren (p : QueryParser) (h0 : p.pToken.pType ≠ TokenType.Term)
    (h1 : ¬ p.sees TokenType.UnaryOp "NOT".toList) (h2 : p.sees TokenType.Symbol "(".toList)
    (t : PNode) (p3 : QueryParser)
    (h : Returns (fun f => block1InRange f p.getNextTokenInRange) (Except.ok t, p3))
    (h3 : p3.sees TokenType.Symbol ")".toList) :
    Returns (fun f => block3InRange f p) (Except.ok t, p3.getNextTokenInRange) := by
  obtain ⟨f, hf⟩ := h
  have hf2 : block1InRange f p.getNextTokenInRange = _ := hf
  exact ⟨f + 1, by show block3InRange (f + 1) p = _; rw [block3_succ, if_neg h0, if_neg h1, if_pos h2, hf2, andThen_ok, if_pos h3]⟩

/-- Rule of `block3InRange`: the closing parenthesis is missing. -/
theorem block3_paren_missing (p : QueryParser) (h0 : p.pToken.pType ≠ TokenType.Term)
    (h1 : ¬ p.sees TokenType.UnaryOp "NOT".toList) (h2 : p.sees TokenType.Symbol "(".toList)
    (t : PNode) (p3 : QueryParser)
    (h : Returns (fun f => block1InRange f p.getNextTokenInRange) (Except.ok t, p3))
    (h3 : ¬ p3.sees TokenType.Symbol ")".toList) :
    Returns (fun f => block3InRange f p) (Except.error p3.syntaxError, p3) := by
  obtain ⟨f, hf⟩ := h
  have hf2 : block1InRange f p.getNextTokenInRange = _ := hf
  exact ⟨f + 1, by show block3InRange (f + 1) p = _; rw [block3_succ, if_neg h0, if_neg h1, if_pos h2, hf2, andThen_ok, if_neg h3]⟩

/-- Rule of `block3InRange`: the expression in parentheses fails. -/
theorem block3_paren_err (p : QueryParser) (h0 : p.pToken.pType ≠ TokenType.Term)
    (h1 : ¬ p.sees TokenType.UnaryOp "NOT".toList) (h2 : p.sees TokenType.Symbol "(".toList)
    (st : Status) (p3 : QueryParser)
    (h : Returns (fun f => block1InRange f p.getNextTokenInRange) (Except.error st, p3)) :
    Returns (fun f => block3InRange f p) (Except.error st, p3) := by
  obtain ⟨f, hf⟩ := h
  have hf2 : block1InRange f p.getNextTokenInRange = _ := hf
  exact ⟨f + 1, by show block3InRange (f + 1) p = _; rw [block3_succ, if_neg h0, if_neg h1, if_pos h2, hf2]; rfl⟩

/-- Rule of `block3InRange`: no operand starts here. -/
theorem block3_bad (p : QueryParser) (h0 : p.pToken.pType ≠ TokenType.Term)
    (h1 : ¬ p.sees TokenType.UnaryOp "NOT".toList) (h2 : ¬ p.sees TokenType.Symbol "(".toList) :
    Returns (fun f => block3InRange f p) (Except.error p.syntaxError, p) :=
  ⟨1, by show block3InRange (0 + 1) p = _; rw [block3_succ, if_neg h0, if_neg h1, if_neg h2]⟩

/-- Rule of `andFrom`: an operand and the loop. -/
theorem andFrom_ok (chs : List PNode) (p : QueryParser) (tmp : PNode) (p1 : QueryParser)
    (r : Except Status PNode × QueryParser)
    (h1 : Returns (fun f => block3InRange f p) (Except.ok tmp, p1))
    (h2 : Returns (fun f => block2LoopInRange f (chs ++ [tmp]) p1) r) : Returns (andFrom chs p) r :=
  returns_andThen_ok (fun f => block3InRange f p) (fun f tmp p1 => block2LoopInRange f (chs ++ [tmp]) p1)
    (block3_mono p) (fun _ p1 => block2Loop_mono _ p1) tmp p1 r h1 h2

/-- Rule of `andFrom`: the operand fails. -/
theorem andFrom_err (chs : List PNode) (p : QueryParser) (st : Status) (p1 : QueryParser)
    (h1 : Returns (fun f => block3InRange f p) (Except.error st, p1)) :
    Returns (andFrom chs p) (Except.error st, p1) :=
  returns_andThen_err (fun f => block3InRange f p) (fun f tmp p1 => block2LoopInRange f (chs ++ [tmp]) p1)
    st p1 h1

/-- Rule of `block2InRange`: it is `andFrom` without operands. -/
theorem block2_of_andFrom (p : QueryParser) (r : Except Status PNode × QueryParser)
    (h : Returns (andFrom [] p) r) : Returns (fun f => block2InRange f p) r :=
  returns_succ (andFrom [] p) _ r (fun f => by show block2InRange (f + 1) p = _; rw [block2_succ]; rfl) h

/-- Rule of the loop of `block2InRange`: `AND` and the rest. -/
theorem block2Loop_and (chs : List PNode) (p : QueryParser)
    (hs : p.sees TokenType.BinaryOp "AND".toList) (r : Except Status PNode × QueryParser)
    (h : Returns (andFrom chs p.getNextTokenInRange) r) : Returns (fun f => block2LoopInRange f chs p) r :=
  returns_succ (andFrom chs p.getNextTokenInRange) _ r
    (fun f => by show block2LoopInRange (f + 1) chs p = _; rw [block2Loop_succ, if_pos hs]; rfl) h

/-- Rule of the loop of `block2InRange`: no `AND`. -/
theorem block2Loop_done (chs : List PNode) (p : QueryParser)
    (hs : ¬ p.sees TokenType.BinaryOp "AND".toList) :
    Returns (fun f => block2LoopInRange f chs p) (Except.ok (collapse "AND".toList chs), p) :=
  ⟨1, by show block2LoopInRange (0 + 1) chs p = _; rw [block2Loop_succ, if_neg hs]⟩

/-- Rule of `orFrom`: an operand and the loop. -/
theorem orFrom_ok (chs : List PNode) (p : QueryParser) (tmp : PNode) (p1 : QueryParser)
    (r : Except Status PNode × QueryParser)
    (h1 : Returns (fun f => block2InRange f p) (Except.ok tmp, p1))
    (h2 : Returns (fun f => block1LoopInRange f (chs ++ [tmp]) p1) r) : Returns (orFrom chs p) r :=
  returns_andThen_ok (fun f => block2InRange f p) (fun f tmp p1 => block1LoopInRange f (chs ++ [tmp]) p1)
    (block2_mono p) (fun _ p1 => block1Loop_mono _ p1) tmp p1 r h1 h2

/-- Rule of `orFrom`: the operand fails. -/
theorem orFrom_err (chs : List PNode) (p : QueryParser) (st : Status) (p1 : QueryParser)
    (h1 : Returns (fun f => block2InRange f p) (Except.error st, p1)) :
    Returns (orFrom chs p) (Except.error st, p1) :=
  returns_andThen_err (fun f => block2InRange f p) (fun f tmp p1 => block1LoopInRange f (chs ++ [tmp]) p1)
    st p1 h1

/-- Rule of `block1InRange`: it is `orFrom` without operands. -/
theorem block1_of_orFrom (p : QueryParser) (r : Except Status PNode × QueryParser)
    (h : Returns (orFrom [] p) r) : Returns (fun f => block1InRange f p) r :=
  returns_succ (orFrom [] p) _ r (fun f => by show block1InRange (f + 1) p = _; rw [block1_succ]; rfl) h

/-- Rule of the loop of `block1InRange`: `OR` and the rest. -/
theorem block1Loop_or (chs : List PNode) (p : QueryParser)
    (hs : p.sees TokenType.BinaryOp "OR".toList) (r : Except Status PNode × QueryParser)
    (h : Returns (orFrom chs p.getNextTokenInRange) r) : Returns (fun f => block1LoopInRange f chs p) r :=
  returns_succ (orFrom chs p.getNextTokenInRange) _ r
    (fun f => by show block1LoopInRange (f + 1) chs p = _; rw [block1Loop_succ, if_pos hs]; rfl) h

/-- Rule of the loop of `block1InRange`: no `OR`. -/
theorem block1Loop_done (chs : List PNode) (p : QueryParser)
    (hs : ¬ p.sees TokenType.BinaryOp "OR".toList) :
    Returns (fun f => block1LoopInRange f chs p) (Except.ok (collapse "OR".toList chs), p) :=
  ⟨1, by show block1LoopInRange (0 + 1) chs p = _; rw [block1Loop_succ, if_neg hs]⟩

/-! ## The parser returns on every stream of tokens -/

/-- The two shapes of a result described by `Res`. -/
theorem res_cases (L : List Token → Prop) (ts : List Token) (e : Token)
    (r : Except Status PNode × QueryParser) (h : Res L ts e r) :
    (∃ t p1 u rest, r = (Except.ok t, p1) ∧ ts = u ++ rest ∧ ParserAt p1 rest e ∧ L u) ∨
    (∃ p1 u rest, r = (Except.error p1.syntaxError, p1) ∧ ts = u ++ rest ∧ ParserAt p1 rest e) := by
  obtain ⟨x, p1⟩ := r
  obtain ⟨u, rest, h1, h2, h3⟩ := h
  rcases h3 with ⟨t, ht, hL⟩ | he
  · left
    have ht : x = Except.ok t := ht
    subst ht
    exact ⟨t, p1, u, rest, rfl, h1, h2, hL⟩
  · right
    have he : x = Except.error p1.syntaxError := he
    subst he
    exact ⟨p1, u, rest, rfl, h1, h2⟩

/-- A successful result described by `Res`. -/
theorem res_ok (L : List Token → Prop) (ts u rest : List Token) (e : Token) (t : PNode)
    (p1 : QueryParser) (h1 : ts = u ++ rest) (h2 : ParserAt p1 rest e) (h3 : L u) :
    Res L ts e (Except.ok t, p1) :=
  ⟨u, rest, h1, h2, Or.inl ⟨t, rfl, h3⟩⟩

/-- A failure described by `Res`. -/
theorem res_err (L : List Token → Prop) (ts u rest : List Token) (e : Token)
    (p1 : QueryParser) (h1 : ts = u ++ rest) (h2 : ParserAt p1 rest e) :
    Res L ts e (Except.error p1.syntaxError, p1) :=
  ⟨u, rest, h1, h2, Or.inr rfl⟩

/-- A result on the rest of the tokens is a result on all tokens. -/
theorem res_extend (L2 L : List Token → Prop) (ts u1 rest1 : List Token) (e : Token)
    (r : Except Status PNode × QueryParser) (hts : ts = u1 ++ rest1)
    (hL : ∀ u2, L2 u2 → L (u1 ++ u2)) (h : Res L2 rest1 e r) : Res L ts e r := by
  obtain ⟨u2, rest, h1, h2, h3⟩ := h
  refine ⟨u1 ++ u2, rest, by rw [hts, h1, List.append_assoc], h2, ?_⟩
  rcases h3 with ⟨t, ht, hL2⟩ | he
  · exact Or.inl ⟨t, ht, hL _ hL2⟩
  · exact Or.inr he

/-- The parser sees a token that is not `End` only before the end. -/
theorem parserAt_type (p : QueryParser) (ts : List Token) (e : Token) (h : ParserAt p ts e)
    (hne : p.pToken.pType ≠ TokenType.End) : ∃ t ts1, ts = t :: ts1 ∧ p.pToken = t := by
  cases ts with
  | nil => exact absurd (parserAt_nil_type p e h) hne
  | cons t ts1 => exact ⟨t, ts1, rfl, h.1⟩

/-- The token that the parser sees. -/
theorem parserAt_sees (p : QueryParser) (ts : List Token) (e : Token) (h : ParserAt p ts e)
    (T : TokenType) (v : List Char) (hT : T ≠ TokenType.End) (hs : p.sees T v) :
    ∃ t ts1, ts = t :: ts1 ∧ p.pToken = t ∧ t.pValue = v ∧ t.pType = T := by
  obtain ⟨t, ts1, h1, h2⟩ := parserAt_type p ts e h (by rw [hs.2]; exact hT)
  exact ⟨t, ts1, h1, h2, by rw [← h2]; exact hs.1, by rw [← h2]; exact hs.2⟩

/-- An operand and a repetition of `AND` operands make an `and_expr`. -/
theorem andExpr_of_tail (u1 u2 : List Token) (h1 : Derives NT.unary u1) (h2 : AndTail u2) :
    Derives NT.andExpr (u1 ++ u2) := by
  rcases h2 with rfl | ⟨a, us, rfl, ha1, ha2, hus⟩
  · rw [List.append_nil]; exact Derives.andOne _ h1
  · exact Derives.andMore _ _ _ h1 ha1 ha2 hus

/-- An `and_expr` and a repetition of `OR` operands make an `or_expr`. -/
theorem orExpr_of_tail (u1 u2 : List Token) (h1 : Derives NT.andExpr u1) (h2 : OrTail u2) :
    Derives NT.orExpr (u1 ++ u2) := by
  rcases h2 with rfl | ⟨a, us, rfl, ha1, ha2, hus⟩
  · rw [List.append_nil]; exact Derives.orOne _ h1
  · exact Derives.orMore _ _ _ h1 ha1 ha2 hus

/-- Method `block3InRange` returns, given that `block3InRange` and `block1InRange` return on shorter
lists of tokens. -/
theorem total_block3 (ts : List Token)
    (ih3 : ∀ ts1 : List Token, ts1.length < ts.length →
      Tot (fun p f => block3InRange f p) (Derives NT.unary) ts1)
    (ih1 : ∀ ts1 : List Token, ts1.length < ts.length →
      Tot (fun p f => block1InRange f p) (Derives NT.orExpr) ts1) :
    Tot (fun p f => block3InRange f p) (Derives NT.unary) ts := by
  intro p e hp
  by_cases h0 : p.pToken.pType = TokenType.Term
  · obtain ⟨t, ts1, rfl, ht⟩ := parserAt_type p ts e hp (by rw [h0]; decide)
    exact ⟨_, block3_term p h0, res_ok _ _ [t] ts1 e _ _ rfl (parserAt_next p t ts1 e hp)
      (Derives.term t (by rw [← ht]; exact h0))⟩
  · by_cases h1 : p.sees TokenType.UnaryOp "NOT".toList
    · obtain ⟨t, ts1, rfl, _, hv, hty⟩ := parserAt_sees p ts e hp _ _ (by decide) h1
      obtain ⟨r, hr, hres⟩ := ih3 ts1 (by simp) p.getNextTokenInRange e (parserAt_next p t ts1 e hp)
      rcases res_cases _ _ _ _ hres with ⟨tmp, p2, u, rest, rfl, hts, hp2, hu⟩ |
        ⟨p2, u, rest, rfl, hts, hp2⟩
      · exact ⟨_, block3_neg p h0 h1 tmp p2 hr,
          res_ok _ _ (t :: u) rest e _ _ (by rw [hts]; rfl) hp2 (Derives.neg t u hv hty hu)⟩
      · exact ⟨_, block3_neg_err p h0 h1 _ p2 hr,
          res_err _ _ (t :: u) rest e _ (by rw [hts]; rfl) hp2⟩
    · by_cases h2 : p.sees TokenType.Symbol "(".toList
      · obtain ⟨o, ts1, rfl, _, hv, hty⟩ := parserAt_sees p ts e hp _ _ (by decide) h2
        obtain ⟨r, hr, hres⟩ := ih1 ts1 (by simp) p.getNextTokenInRange e (parserAt_next p o ts1 e hp)
        rcases res_cases _ _ _ _ hres with ⟨tmp, p3, u, rest, rfl, hts, hp3, hu⟩ |
          ⟨p3, u, rest, rfl, hts, hp3⟩
        · by_cases h3 : p3.sees TokenType.Symbol ")".toList
          · obtain ⟨c, rest1, rfl, _, hcv, hcty⟩ := parserAt_sees p3 rest e hp3 _ _ (by decide) h3
            exact ⟨_, block3_paren p h0 h1 h2 tmp p3 hr h3,
              res_ok _ _ (o :: (u ++ [c])) rest1 e _ _ (by rw [hts]; simp)
                (parserAt_next p3 c rest1 e hp3) (Derives.paren o c u hv hty hcv hcty hu)⟩
          · exact ⟨_, block3_paren_missing p h0 h1 h2 tmp p3 hr h3,
              res_err _ _ (o :: u) rest e _ (by rw [hts]; rfl) hp3⟩
        · exact ⟨_, block3_paren_err p h0 h1 h2 _ p3 hr,
            res_err _ _ (o :: u) rest e _ (by rw [hts]; rfl) hp3⟩
      · exact ⟨_, block3_bad p h0 h1 h2, res_err _ _ [] ts e _ rfl hp⟩

/-- The loop of `block2InRange` returns, given that `andFrom` returns on shorter lists
of tokens. -/
theorem total_block2Loop (ts : List Token)
    (ih : ∀ ts1 : List Token, ts1.length < ts.length →
      ∀ chs, Tot (andFrom chs) (Derives NT.andExpr) ts1) (chs : List PNode) :
    Tot (fun p f => block2LoopInRange f chs p) AndTail ts := by
  intro p e hp
  by_cases hs : p.sees TokenType.BinaryOp "AND".toList
  · obtain ⟨a, ts1, rfl, _, hv, hty⟩ := parserAt_sees p ts e hp _ _ (by decide) hs
    obtain ⟨r, hr, hres⟩ := ih ts1 (by simp) chs p.getNextTokenInRange e (parserAt_next p a ts1 e hp)
    exact ⟨r, block2Loop_and chs p hs r hr,
      res_extend (Derives NT.andExpr) AndTail _ [a] ts1 e r rfl
        (fun u2 h2 => Or.inr ⟨a, u2, rfl, hv, hty, h2⟩) hres⟩
  · exact ⟨_, block2Loop_done chs p hs, res_ok _ _ [] ts e _ _ rfl hp (Or.inl rfl)⟩

/-- The run `andFrom` returns, given that `block3InRange` returns on the tokens and
the loop on lists that are not longer. -/
theorem total_andFrom (ts : List Token)
    (h3 : Tot (fun p f => block3InRange f p) (Derives NT.unary) ts)
    (h2L : ∀ ts1 : List Token, ts1.length ≤ ts.length →
      ∀ chs, Tot (fun p f => block2LoopInRange f chs p) AndTail ts1) (chs : List PNode) :
    Tot (andFrom chs) (Derives NT.andExpr) ts := by
  intro p e hp
  obtain ⟨r, hr, hres⟩ := h3 p e hp
  rcases res_cases _ _ _ _ hres with ⟨tmp, p1, u, rest, rfl, hts, hp1, hu⟩ |
    ⟨p1, u, rest, rfl, hts, hp1⟩
  · obtain ⟨r2, hr2, hres2⟩ := h2L rest (by rw [hts]; simp) (chs ++ [tmp]) p1 e hp1
    exact ⟨r2, andFrom_ok chs p tmp p1 r2 hr hr2,
      res_extend AndTail (Derives NT.andExpr) _ u rest e r2 hts
        (fun u2 h2 => andExpr_of_tail u u2 hu h2) hres2⟩
  · exact ⟨_, andFrom_err chs p _ p1 hr, res_err _ _ u rest e _ hts hp1⟩

/-- The loop of `block1InRange` returns, given that `orFrom` returns on shorter lists
of tokens. -/
theorem total_block1Loop (ts : List Token)
    (ih : ∀ ts1 : List Token, ts1.length < ts.length →
      ∀ chs, Tot (orFrom chs) (Derives NT.orExpr) ts1) (chs : List PNode) :
    Tot (fun p f => block1LoopInRange f chs p) OrTail ts := by
  intro p e hp
  by_cases hs : p.sees TokenType.BinaryOp "OR".toList
  · obtain ⟨a, ts1, rfl, _, hv, hty⟩ := parserAt_sees p ts e hp _ _ (by decide) hs
    obtain ⟨r, hr, hres⟩ := ih ts1 (by simp) chs p.getNextTokenInRange e (parserAt_next p a ts1 e hp)
    exact ⟨r, block1Loop_or chs p hs r hr,
      res_extend (Derives NT.orExpr) OrTail _ [a] ts1 e r rfl
        (fun u2 h2 => Or.inr ⟨a, u2, rfl, hv, hty, h2⟩) hres⟩
  · exact ⟨_, block1Loop_done chs p hs, res_ok _ _ [] ts e _ _ rfl hp (Or.inl rfl)⟩

/-- The run `orFrom` returns, given that `block2InRange` returns on the tokens and the
loop on lists that are not longer. -/
theorem total_orFrom (ts : List Token)
    (h2 : Tot (fun p f => block2InRange f p) (Derives NT.andExpr) ts)
    (h1L : ∀ ts1 : List Token, ts1.length ≤ ts.length →
      ∀ chs, Tot (fun p f => block1LoopInRange f chs p) OrTail ts1) (chs : List PNode) :
    Tot (orFrom chs) (Derives NT.orExpr) ts := by
  intro p e hp
  obtain ⟨r, hr, hres⟩ := h2 p e hp
  rcases res_cases _ _ _ _ hres with ⟨tmp, p1, u, rest, rfl, hts, hp1, hu⟩ |
    ⟨p1, u, rest, rfl, hts, hp1⟩
  · obtain ⟨r2, hr2, hres2⟩ := h1L rest (by rw [hts]; simp) (chs ++ [tmp]) p1 e hp1
    exact ⟨r2, orFrom_ok chs p tmp p1 r2 hr hr2,
      res_extend OrTail (Derives NT.orExpr) _ u rest e r2 hts
        (fun u2 h2 => orExpr_of_tail u u2 hu h2) hres2⟩
  · exact ⟨_, orFrom_err chs p _ p1 hr, res_err _ _ u rest e _ hts hp1⟩

/-- Method `block2InRange` returns where `andFrom` does. -/
theorem tot_block2 (ts : List Token) (h : Tot (andFrom []) (Derives NT.andExpr) ts) :
    Tot (fun p f => block2InRange f p) (Derives NT.andExpr) ts := by
  intro p e hp
  obtain ⟨r, hr, hres⟩ := h p e hp
  exact ⟨r, block2_of_andFrom p r hr, hres⟩

/-- Method `block1InRange` returns where `orFrom` does. -/
theorem tot_block1 (ts : List Token) (h : Tot (orFrom []) (Derives NT.orExpr) ts) :
    Tot (fun p f => block1InRange f p) (Derives NT.orExpr) ts := by
  intro p e hp
  obtain ⟨r, hr, hres⟩ := h p e hp
  exact ⟨r, block1_of_orFrom p r hr, hres⟩

/-- On every list of tokens the parsing functions return: with a success after
consuming a piece in the language of their nonterminal, or with the syntax
error of the token they stopped at. -/
theorem total_all (n : Nat) : ∀ ts : List Token, ts.length < n →
    Tot (fun p f => block3InRange f p) (Derives NT.unary) ts ∧
    (∀ chs, Tot (fun p f => block2LoopInRange f chs p) AndTail ts) ∧
    (∀ chs, Tot (andFrom chs) (Derives NT.andExpr) ts) ∧
    (∀ chs, Tot (fun p f => block1LoopInRange f chs p) OrTail ts) ∧
    (∀ chs, Tot (orFrom chs) (Derives NT.orExpr) ts) := by
  induction n with
  | zero => intro ts h; simp at h
  | succ n ih =>
    have h3 : ∀ ts : List Token, ts.length < n + 1 →
        Tot (fun p f => block3InRange f p) (Derives NT.unary) ts := fun ts _ =>
      total_block3 ts (fun ts1 h1 => (ih ts1 (by omega)).1)
        (fun ts1 h1 => tot_block1 ts1 ((ih ts1 (by omega)).2.2.2.2 []))
    have h2L : ∀ ts : List Token, ts.length < n + 1 →
        ∀ chs, Tot (fun p f => block2LoopInRange f chs p) AndTail ts := fun ts _ =>
      total_block2Loop ts (fun ts1 h1 => (ih ts1 (by omega)).2.2.1)
    have h2 : ∀ ts : List Token, ts.length < n + 1 →
        ∀ chs, Tot (andFrom chs) (Derives NT.andExpr) ts := fun ts h =>
      total_andFrom ts (h3 ts h) (fun ts1 h1 => h2L ts1 (by omega))
    have h1L : ∀ ts : List Token, ts.length < n + 1 →
        ∀ chs, Tot (fun p f => block1LoopInRange f chs p) OrTail ts := fun ts _ =>
      total_block1Loop ts (fun ts1 h1 => (ih ts1 (by omega)).2.2.2.2)
    have h1 : ∀ ts : List Token, ts.length < n + 1 →
        ∀ chs, Tot (orFrom chs) (Derives NT.orExpr) ts := fun ts h =>
      total_orFrom ts (tot_block2 ts (h2 ts h [])) (fun ts1 h1 => h1L ts1 (by omega))
    exact fun ts h => ⟨h3 ts h, h2L ts h, h2 ts h, h1L ts h, h1 ts h⟩

/-- Method `block1InRange` returns on every list of tokens. -/
theorem total_block1 (ts : List Token) : Tot (fun p f => block1InRange f p) (Derives NT.orExpr) ts :=
  tot_block1 ts ((total_all (ts.length + 1) ts (by omega)).2.2.2.2 [])

/-- Rule of `orTailFrom`: neither `AND` nor `OR` follows. -/
theorem orTailFrom_done (chsA chsO : List PNode) (p : QueryParser)
    (h1 : ¬ p.sees TokenType.BinaryOp "AND".toList) (h2 : ¬ p.sees TokenType.BinaryOp "OR".toList) :
    Returns (orTailFrom chsA chsO p)
      (Except.ok (collapse "OR".toList (chsO ++ [collapse "AND".toList chsA])), p) :=
  returns_andThen_ok (fun f => block2LoopInRange f chsA p)
    (fun f tmp p1 => block1LoopInRange f (chsO ++ [tmp]) p1)
    (block2Loop_mono chsA p) (fun _ p1 => block1Loop_mono _ p1) _ p _
    (block2Loop_done chsA p h1) (block1Loop_done _ p h2)

/-- The parser sees the token it is at. -/
theorem parserAt_sees_intro (p : QueryParser) (t : Token) (ts : List Token) (e : Token)
    (h : ParserAt p (t :: ts) e) (T : TokenType) (v : List Char) (hv : t.pValue = v)
    (hT : t.pType = T) : p.sees T v := by
  unfold QueryParser.sees
  rw [h.1]; exact ⟨hv, hT⟩

/-- The parser does not see a type other than that of the token it is at. -/
theorem parserAt_not_sees_type (p : QueryParser) (t : Token) (ts : List Token) (e : Token)
    (h : ParserAt p (t :: ts) e) (T : TokenType) (v : List Char) (hT : t.pType ≠ T) :
    ¬ p.sees T v := by
  intro hs
  have := hs.2
  rw [h.1] at this
  exact hT this

/-- The parser does not see a value other than that of the token it is at. -/
theorem parserAt_not_sees_value (p : QueryParser) (t : Token) (ts : List Token) (e : Token)
    (h : ParserAt p (t :: ts) e) (T : TokenType) (v : List Char) (hv : t.pValue ≠ v) :
    ¬ p.sees T v := by
  intro hs
  have := hs.1
  rw [h.1] at this
  exact hv this

/-- The parser follows every derivation of the grammar. -/
theorem follows_derivation (nt : NT) (u : List Token) (h : Derives nt u) : Follows nt u := by
  induction h with
  | term t ht =>
    unfold Follows
    intro rest p e hp
    have hp : ParserAt p (t :: rest) e := hp
    exact ⟨_, _, block3_term p (by rw [hp.1]; exact ht), parserAt_next p t rest e hp⟩
  | neg t ts hv hty _ ih =>
    unfold Follows at ih ⊢
    intro rest p e hp
    have hp : ParserAt p (t :: (ts ++ rest)) e := hp
    obtain ⟨tmp, p1, hr, hp1⟩ := ih rest p.getNextTokenInRange e (parserAt_next p t _ e hp)
    exact ⟨_, p1, block3_neg p (by rw [hp.1, hty]; decide)
      (parserAt_sees_intro p t _ e hp _ _ hv hty) tmp p1 hr, hp1⟩
  | paren o c ts hv hty hcv hcty _ ih =>
    unfold Follows at ih ⊢
    intro rest p e hp
    have hp : ParserAt p (o :: (ts ++ (c :: rest))) e := by
      have h2 : o :: (ts ++ [c]) ++ rest = o :: (ts ++ (c :: rest)) := by simp
      rw [← h2]; exact hp
    obtain ⟨chsA, chsO, p1, hp1, hred⟩ :=
      ih (c :: rest) [] p.getNextTokenInRange e (parserAt_next p o _ e hp)
    have hnA : ¬ p1.sees TokenType.BinaryOp "AND".toList :=
      parserAt_not_sees_type p1 c rest e hp1 _ _ (by rw [hcty]; decide)
    have hnO : ¬ p1.sees TokenType.BinaryOp "OR".toList :=
      parserAt_not_sees_type p1 c rest e hp1 _ _ (by rw [hcty]; decide)
    have hb1 := block1_of_orFrom _ _ (hred _ (orTailFrom_done chsA chsO p1 hnA hnO))
    exact ⟨_, _, block3_paren p (by rw [hp.1, hty]; decide)
      (parserAt_not_sees_type p o _ e hp _ _ (by rw [hty]; decide))
      (parserAt_sees_intro p o _ e hp _ _ hv hty) _ p1 hb1
      (parserAt_sees_intro p1 c rest e hp1 _ _ hcv hcty), parserAt_next p1 c rest e hp1⟩
  | andOne ts _ ih =>
    unfold Follows at ih ⊢
    intro rest chs p e hp
    obtain ⟨t, p1, hr, hp1⟩ := ih rest p e hp
    exact ⟨chs ++ [t], p1, hp1, fun r h => andFrom_ok chs p t p1 r hr h⟩
  | andMore us a ts _ hv hty _ ih_us ih_ts =>
    unfold Follows at ih_us ih_ts ⊢
    intro rest chs p e hp
    have hp : ParserAt p (us ++ (a :: (ts ++ rest))) e := by
      have h2 : us ++ a :: ts ++ rest = us ++ (a :: (ts ++ rest)) := by simp
      rw [← h2]; exact hp
    obtain ⟨t, p1, hr, hp1⟩ := ih_us _ p e hp
    obtain ⟨chs1, p2, hp2, hred⟩ :=
      ih_ts rest (chs ++ [t]) p1.getNextTokenInRange e (parserAt_next p1 a _ e hp1)
    exact ⟨chs1, p2, hp2, fun r h => andFrom_ok chs p t p1 r hr
      (block2Loop_and _ p1 (parserAt_sees_intro p1 a _ e hp1 _ _ hv hty) r (hred r h))⟩
  | orOne ts _ ih =>
    unfold Follows at ih ⊢
    intro rest chs p e hp
    obtain ⟨chs1, p1, hp1, hred⟩ := ih rest [] p e hp
    refine ⟨chs1, chs, p1, hp1, fun r h => ?_⟩
    rcases returns_andThen_inv (fun f => block2LoopInRange f chs1 p1)
        (fun f tmp p2 => block1LoopInRange f (chs ++ [tmp]) p2) r h with
      ⟨st, p2, h1, rfl⟩ | ⟨tmp, p2, h1, h2⟩
    · exact orFrom_err chs p st p2 (block2_of_andFrom p _ (hred _ h1))
    · exact orFrom_ok chs p tmp p2 r (block2_of_andFrom p _ (hred _ h1)) h2
  | orMore us o ts _ hv hty _ ih_us ih_ts =>
    unfold Follows at ih_us ih_ts ⊢
    intro rest chs p e hp
    have hp : ParserAt p (us ++ (o :: (ts ++ rest))) e := by
      have h2 : us ++ o :: ts ++ rest = us ++ (o :: (ts ++ rest)) := by simp
      rw [← h2]; exact hp
    obtain ⟨chs1, p1, hp1, hred1⟩ := ih_us _ [] p e hp
    have hnA : ¬ p1.sees TokenType.BinaryOp "AND".toList :=
      parserAt_not_sees_value p1 o _ e hp1 _ _ (by rw [hv]; decide)
    have hb2 := block2_of_andFrom p _ (hred1 _ (block2Loop_done chs1 p1 hnA))
    obtain ⟨chsA, chsO, p2, hp2, hred2⟩ :=
      ih_ts rest (chs ++ [collapse "AND".toList chs1]) p1.getNextTokenInRange e
        (parserAt_next p1 o _ e hp1)
    exact ⟨chsA, chsO, p2, hp2, fun r h => orFrom_ok chs p _ p1 r hb2
      (block1Loop_or _ p1 (parserAt_sees_intro p1 o _ e hp1 _ _ hv hty) r (hred2 r h))⟩

/-- On tokens derived from `or_expr` and followed by the end of the query,
`block1InRange` succeeds and stops at the end. -/
theorem block1_of_derives (ts : List Token) (h : Derives NT.orExpr ts) (p : QueryParser)
    (e : Token) (hp : ParserAt p ts e) :
    ∃ t p1, Returns (fun f => block1InRange f p) (Except.ok t, p1) ∧ ParserAt p1 [] e := by
  have hf := follows_derivation _ _ h
  unfold Follows at hf
  obtain ⟨chsA, chsO, p1, hp1, hred⟩ := hf [] [] p e (by rw [List.append_nil]; exact hp)
  exact ⟨_, p1, block1_of_orFrom p _ (hred _ (orTailFrom_done chsA chsO p1
    (parserAt_nil_not_sees p1 e hp1 _ _ (by decide))
    (parserAt_nil_not_sees p1 e hp1 _ _ (by decide)))), hp1⟩

/-- On tokens derived from `or_expr` and followed by one `AND` or `OR` and the
end of the query, `block1InRange` fails with the syntax error of the `End` token. -/
theorem block1_dangling (ts : List Token) (h : Derives NT.orExpr ts) (op : Token)
    (hop : op.pType = TokenType.BinaryOp)
    (hv : op.pValue = "AND".toList ∨ op.pValue = "OR".toList) (p : QueryParser)
    (e : Token) (hp : ParserAt p (ts ++ [op]) e) :
    ∃ p1, Returns (fun f => block1InRange f p) (Except.error p1.syntaxError, p1) ∧ ParserAt p1 [] e := by
  have hf := follows_derivation _ _ h
  unfold Follows at hf
  obtain ⟨chsA, chsO, p1, hp1, hred⟩ := hf [op] [] p e hp
  have hp2 := parserAt_next p1 op [] e hp1
  have hbad : Returns (fun f => block3InRange f p1.getNextTokenInRange)
      (Except.error p1.getNextTokenInRange.syntaxError, p1.getNextTokenInRange) :=
    block3_bad _ (by rw [parserAt_nil_type _ e hp2]; decide)
      (parserAt_nil_not_sees _ e hp2 _ _ (by decide))
      (parserAt_nil_not_sees _ e hp2 _ _ (by decide))
  refine ⟨p1.getNextTokenInRange, block1_of_orFrom p _ (hred _ ?_), hp2⟩
  rcases hv with hv | hv
  · exact returns_andThen_err (fun f => block2LoopInRange f chsA p1)
      (fun f tmp p2 => block1LoopInRange f (chsO ++ [tmp]) p2) _ _
      (block2Loop_and chsA p1 (parserAt_sees_intro p1 op [] e hp1 _ _ hv hop) _
        (andFrom_err chsA _ _ _ hbad))
  · exact returns_andThen_ok (fun f => block2LoopInRange f chsA p1)
      (fun f tmp p2 => block1LoopInRange f (chsO ++ [tmp]) p2)
      (block2Loop_mono chsA p1) (fun _ p2 => block1Loop_mono _ p2) _ p1 _
      (block2Loop_done chsA p1
        (parserAt_not_sees_value p1 op [] e hp1 _ _ (by rw [hv]; decide)))
      (block1Loop_or _ p1 (parserAt_sees_intro p1 op [] e hp1 _ _ hv hop) _
        (orFrom_err _ _ _ _ (block2_of_andFrom _ _ (andFrom_err [] _ _ _ hbad))))

/-! ## The parser on the tokens of a query -/

/-- After its first `getNextTokenInRange` the parser of a query without zero byte is
at the tokens of the query. -/
theorem parserAt_new (q : List Char) (hnul : ∀ c ∈ q, c ≠ NUL) :
    ParserAt (QueryParser.new q).getNextTokenInRange (tokensOf q) (endOf q) :=
  parserAt_of_lexYields (lexerOf q) _ _ (lexYields_tokensOf q hnul).1

/-- Method `query` returns on every list of tokens: with a success and the
tokens derived from `or_expr`, or with the syntax error of the token it
stopped at. -/
theorem query_total (p0 : QueryParser) (ts : List Token) (e : Token)
    (hp : ParserAt p0.getNextTokenInRange ts e) :
    ∃ r, Returns (fun f => p0.queryInRange f) r ∧
      ((∃ t, r.1 = Except.ok t ∧ Derives NT.orExpr ts) ∨
       (r.1 = Except.error r.2.syntaxError ∧ ∃ u rest, ts = u ++ rest ∧ ParserAt r.2 rest e)) := by
  obtain ⟨r1, ⟨f, hf⟩, hres⟩ := total_block1 ts p0.getNextTokenInRange e hp
  have hf : block1InRange f p0.getNextTokenInRange = Outcome.ok r1 := hf
  rcases res_cases _ _ _ _ hres with ⟨t, p1, u, rest, rfl, hts, hp1, hu⟩ |
    ⟨p1, u, rest, rfl, hts, hp1⟩
  · by_cases hend : p1.pToken.pType = TokenType.End
    · have hrest : rest = [] := (parserAt_end_iff p1 rest e hp1).1 hend
      subst hrest
      rw [List.append_nil] at hts
      subst hts
      exact ⟨(Except.ok t, p1.getNextTokenInRange),
        ⟨f, by show p0.queryInRange f = _; rw [query_eq, hf, andThen_ok, if_pos hend]⟩,
        Or.inl ⟨t, rfl, hu⟩⟩
    · exact ⟨(Except.error p1.syntaxError, p1),
        ⟨f, by show p0.queryInRange f = _; rw [query_eq, hf, andThen_ok, if_neg hend]⟩,
        Or.inr ⟨rfl, u, rest, hts, hp1⟩⟩
  · exact ⟨(Except.error p1.syntaxError, p1),
      ⟨f, by show p0.queryInRange f = _; rw [query_eq, hf]; rfl⟩, Or.inr ⟨rfl, u, rest, hts, hp1⟩⟩

/-- Method `query` succeeds on tokens derived from `or_expr`. -/
theorem query_complete (p0 : QueryParser) (ts : List Token) (e : Token)
    (hp : ParserAt p0.getNextTokenInRange ts e) (h : Derives NT.orExpr ts) :
    ∃ t p2, Returns (fun f => p0.queryInRange f) (Except.ok t, p2) := by
  obtain ⟨t, p1, ⟨f, hf⟩, hp1⟩ := block1_of_derives ts h _ e hp
  have hf : block1InRange f p0.getNextTokenInRange = Outcome.ok (Except.ok t, p1) := hf
  exact ⟨t, p1.getNextTokenInRange, f, by
    show p0.queryInRange f = _
    rw [query_eq, hf, andThen_ok, if_pos (parserAt_nil_type p1 e hp1)]⟩

/-- Method `query` fails at the `End` token on tokens derived from `or_expr`
and followed by one `AND` or `OR`. -/
theorem query_dangling (p0 : QueryParser) (ts : List Token) (op e : Token)
    (hp : ParserAt p0.getNextTokenInRange (ts ++ [op]) e) (h : Derives NT.orExpr ts)
    (hop : op.pType = TokenType.BinaryOp)
    (hv : op.pValue = "AND".toList ∨ op.pValue = "OR".toList) :
    ∃ p1, Returns (fun f => p0.queryInRange f) (Except.error p1.syntaxError, p1) ∧ p1.pToken = e := by
  obtain ⟨p1, ⟨f, hf⟩, hp1⟩ := block1_dangling ts h op hop hv _ e hp
  have hf : block1InRange f p0.getNextTokenInRange = Outcome.ok (Except.error p1.syntaxError, p1) := hf
  exact ⟨p1, ⟨f, by show p0.queryInRange f = _; rw [query_eq, hf]; rfl⟩, hp1.1⟩

/-- What `parseInRange` returns when `query` returns. -/
theorem parse_of_query (q : List Char) (r : Except Status PNode × QueryParser)
    (h : Returns (fun f => (QueryParser.new q).queryInRange f) r) :
    ∃ f0, ∀ f, f0 ≤ f → parseInRange f q = Outcome.ok r.1 := by
  obtain ⟨f0, hf0⟩ := h
  refine ⟨f0, fun f hf => ?_⟩
  have := mono_le _ (query_mono (QueryParser.new q)) f0 f r hf hf0
  have h2 : (QueryParser.new q).queryInRange f = Outcome.ok r := this
  unfold parseInRange
  rw [h2]

/-- A result of `parseInRange` comes from a result of `query`. -/
theorem query_of_parse (q : List Char) (f : Nat) (x : Except Status PNode)
    (h : parseInRange f q = Outcome.ok x) :
    ∃ p1, (QueryParser.new q).queryInRange f = Outcome.ok (x, p1) := by
  unfold parseInRange at h
  rcases hq : (QueryParser.new q).queryInRange f with ⟨⟨y, p1⟩⟩ | _ | _
  · rw [hq] at h
    exact ⟨p1, by rw [Outcome.ok.inj h]⟩
  · rw [hq] at h; simp at h
  · rw [hq] at h; simp at h

/-- The message of the syntax error of a parser. -/
theorem syntaxError_eq (p : QueryParser) :
    p.syntaxError = ⟨errSyntax, "Syntax error at (".toList ++ (Nat.repr p.pToken.pLine).toList
      ++ ", ".toList ++ (Nat.repr p.pToken.pColumn).toList ++ ")".toList⟩ := by
  unfold QueryParser.syntaxError QueryParser.tokenError
  simp

/-- Line and column of the `End` token of a query. -/
theorem endOf_position (q : List Char) :
    (endOf q).pPosition = q.length ∧ (endOf q).pLine = lineOf q q.length ∧
    (endOf q).pColumn = columnOf q q.length := by
  have h := lineCol_take q q.length
  rw [List.take_length] at h
  refine ⟨rfl, ?_, ?_⟩
  · show (lineCol q).1 = _; rw [h]
  · show (lineCol q).2 = _; rw [h]

/-- On a query of one line the `End` token is in line 1, in the column behind
the last character. -/
theorem endOf_single_line (q : List Char) (hline : ∀ c ∈ q, c ≠ '\n') :
    (endOf q).pLine = 1 ∧ (endOf q).pColumn = q.length + 1 := by
  obtain ⟨_, h1, h2⟩ := endOf_position q
  rw [h1, h2]
  unfold lineOf columnOf
  rw [List.take_length]
  have hc : q.count '\n' = 0 := List.count_eq_zero.2 (fun h => hline _ h rfl)
  have ht : q.reverse.takeWhile (fun c => decide (c ≠ '\n')) = q.reverse := by
    rw [List.takeWhile_eq_self_iff]
    intro c hc
    simpa using hline c (List.mem_reverse.1 hc)
  rw [hc, ht, List.length_reverse]
  omega

/-- With enough fuel `parseInRange` succeeds on a query whose tokens are derived from
`or_expr` and fails with a syntax error on every other query. -/
theorem parse_decides (q : List Char) (hnul : ∀ c ∈ q, c ≠ NUL) :
    ∃ f0, ∀ f, f0 ≤ f →
      (Derives NT.orExpr (tokensOf q) → ∃ t, parseInRange f q = Outcome.ok (Except.ok t)) ∧
      (¬ Derives NT.orExpr (tokensOf q) →
        ∃ st, parseInRange f q = Outcome.ok (Except.error st) ∧ st.pCode = errSyntax) := by
  have hp := parserAt_new q hnul
  obtain ⟨r, hr, hdesc⟩ := query_total (QueryParser.new q) _ _ hp
  obtain ⟨f0, hf0⟩ := parse_of_query q r hr
  refine ⟨f0, fun f hf => ?_⟩
  rcases hdesc with ⟨t, ht, hd⟩ | ⟨he, _⟩
  · exact ⟨fun _ => ⟨t, by rw [hf0 f hf, ht]⟩, fun hn => absurd hd hn⟩
  · refine ⟨fun hd => ?_, fun _ => ⟨r.2.syntaxError, by rw [hf0 f hf, he], rfl⟩⟩
    obtain ⟨t, p2, hok⟩ := query_complete (QueryParser.new q) _ _ hp hd
    have := returns_unique _ (query_mono (QueryParser.new q)) _ _ hr hok
    rw [this] at he
    cases he

/-- A query on which `parseInRange` fails with every large amount of fuel has tokens
that are not derived from `or_expr`. -/
theorem not_derives_of_error (q : List Char) (hnul : ∀ c ∈ q, c ≠ NUL) (k : Nat) (st : Status)
    (h : ∀ m, parseInRange (m + k) q = Outcome.ok (Except.error st)) :
    ¬ Derives NT.orExpr (tokensOf q) := by
  intro hd
  obtain ⟨f0, hf0⟩ := parse_decides q hnul
  obtain ⟨t, ht⟩ := (hf0 (f0 + k) (by omega)).1 hd
  rw [h f0] at ht
  cases ht

/-- C14: for every query `q` of fewer than `2 ^ 31 - 1` characters without
zero byte the lexer returns the tokens `tokensOf q` and then `End` for ever,
and with enough fuel `parse` returns Success if `tokensOf q` is derived from
`or_expr` of the grammar, and a status with code Syntax otherwise; `cat AND`, `cat OR`, `NOT`, `(cat`, the empty
query and `cat dog` are rejected and their tokens are not derived from
`or_expr`. -/
theorem parser_accepts_grammar (q : List Char) (hnul : ∀ c ∈ q, c ≠ NUL)
    (hlen : q.length < 2 ^ 31 - 1) :
    (∀ k, nextTokens ((tokensOf q).length + k) (lexerOf q)
      = Outcome.ok (tokensOf q ++ List.replicate k (endOf q))) ∧
    (∃ f0, ∀ f, f0 ≤ f →
      (Derives NT.orExpr (tokensOf q) → ∃ t, parse f q = Outcome.ok (Except.ok t)) ∧
      (¬ Derives NT.orExpr (tokensOf q) →
        ∃ st, parse f q = Outcome.ok (Except.error st) ∧ st.pCode = errSyntax)) ∧
    ((∀ m, parse (m + 8) "cat AND".toList
        = Outcome.ok (Except.error ⟨errSyntax, "Syntax error at (1, 8)".toList⟩)) ∧
      ¬ Derives NT.orExpr (tokensOf "cat AND".toList)) ∧
    ((∀ m, parse (m + 8) "cat OR".toList
        = Outcome.ok (Except.error ⟨errSyntax, "Syntax error at (1, 7)".toList⟩)) ∧
      ¬ Derives NT.orExpr (tokensOf "cat OR".toList)) ∧
    ((∀ m, parse (m + 8) "NOT".toList
        = Outcome.ok (Except.error ⟨errSyntax, "Syntax error at (1, 4)".toList⟩)) ∧
      ¬ Derives NT.orExpr (tokensOf "NOT".toList)) ∧
    ((∀ m, parse (m + 8) "(cat".toList
        = Outcome.ok (Except.error ⟨errSyntax, "Syntax error at (1, 5)".toList⟩)) ∧
      ¬ Derives NT.orExpr (tokensOf "(cat".toList)) ∧
    ((∀ m, parse (m + 8) []
        = Outcome.ok (Except.error ⟨errSyntax, "Syntax error at (1, 1)".toList⟩)) ∧
      ¬ Derives NT.orExpr (tokensOf [])) ∧
    ((∀ m, parse (m + 8) "cat dog".toList
        = Outcome.ok (Except.error ⟨errSyntax, "Syntax error at (1, 5)".toList⟩)) ∧
      ¬ Derives NT.orExpr (tokensOf "cat dog".toList)) :=
  ⟨nextTokens_tokensOf q hnul hlen,
    (parse_decides q hnul).imp (fun _ h f hf =>
      (parse_inRange q (takeWhile_length_lt q hlen) f).symm ▸ h f hf),
    ⟨fun _ => (parse_inRange _ (by decide) _).trans rfl,
      not_derives_of_error _ (by decide) 8 _ (fun _ => rfl)⟩,
    ⟨fun _ => (parse_inRange _ (by decide) _).trans rfl,
      not_derives_of_error _ (by decide) 8 _ (fun _ => rfl)⟩,
    ⟨fun _ => (parse_inRange _ (by decide) _).trans rfl,
      not_derives_of_error _ (by decide) 8 _ (fun _ => rfl)⟩,
    ⟨fun _ => (parse_inRange _ (by decide) _).trans rfl,
      not_derives_of_error _ (by decide) 8 _ (fun _ => rfl)⟩,
    ⟨fun _ => (parse_inRange _ (by decide) _).trans rfl,
      not_derives_of_error _ (by decide) 8 _ (fun _ => rfl)⟩,
    ⟨fun _ => (parse_inRange _ (by decide) _).trans rfl,
      not_derives_of_error _ (by decide) 8 _ (fun _ => rfl)⟩⟩

/-- Instance of `parser_accepts_grammar`: the tokens of `cat AND NOT (dog OR
fish)` are derived from `or_expr` and the query is accepted. -/
theorem parser_accepts_grammar_witness :
    (∀ c ∈ "cat AND NOT (dog OR fish)".toList, c ≠ NUL) ∧
    "cat AND NOT (dog OR fish)".toList.length < 2 ^ 31 - 1 ∧
    Derives NT.orExpr (tokensOf "cat AND NOT (dog OR fish)".toList) ∧
    ∃ f0, ∀ f, f0 ≤ f → ∃ t, parse f "cat AND NOT (dog OR fish)".toList = Outcome.ok (Except.ok t) :=
  have hd : Derives NT.orExpr (tokensOf "cat AND NOT (dog OR fish)".toList) :=
    Derives.orOne _ (Derives.andMore [_] _ _ (Derives.term _ rfl) rfl rfl
      (Derives.andOne _ (Derives.neg _ _ rfl rfl
        (Derives.paren _ _ [_, _, _] rfl rfl rfl rfl
          (Derives.orMore [_] _ _ (Derives.andOne _ (Derives.term _ rfl)) rfl rfl
            (Derives.orOne _ (Derives.andOne _ (Derives.term _ rfl))))))))
  ⟨by decide, by decide, hd,
    (parser_accepts_grammar "cat AND NOT (dog OR fish)".toList (by decide)
      (by decide)).2.1.imp
      (fun _ h f hf => (h f hf).1 hd)⟩

/-- A token of the query or its `End` token carries the line and column of its
position. -/
theorem token_line_column (q : List Char) (hnul : ∀ c ∈ q, c ≠ NUL) (t : Token)
    (ht : t ∈ tokensOf q ++ [endOf q]) :
    t.pLine = lineOf q t.pPosition ∧ t.pColumn = columnOf q t.pPosition := by
  rcases List.mem_append.1 ht with h | h
  · exact (goodToken_position q t ((lexYields_tokensOf q hnul).2 t h)).2.2
  · rw [List.mem_singleton.1 h]
    obtain ⟨h0, h1, h2⟩ := endOf_position q
    rw [h0]; exact ⟨h1, h2⟩

/-- A token of the query of type `BinaryOp` has the value `AND` or `OR`. -/
theorem binaryOp_value (q : List Char) (hnul : ∀ c ∈ q, c ≠ NUL) (t : Token)
    (ht : t ∈ tokensOf q) (hty : t.pType = TokenType.BinaryOp) :
    t.pValue = "AND".toList ∨ t.pValue = "OR".toList := by
  obtain ⟨pre, w, rest, _, _, htok, hcl⟩ := (lexYields_tokensOf q hnul).2 t ht
  have hv : t.pValue = w := by rw [htok]; rfl
  rcases hcl with ⟨h1, _⟩ | ⟨h1, _⟩
  · rw [hty] at h1; cases h1
  · rw [hv]
    exact (classify_iff w).1.1 (by rw [← h1]; exact hty)

/-- C13, counterexample: on `cat dog AND` (length 11), on `AND` (length 3) and
on `cat AND OR` (length 10), single-line queries that end in a dangling binary
operator, the reported positions are (1, 5), (1, 1) and (1, 9), not
(1, length + 1). -/
theorem dangling_operator_reported_earlier :
    (∀ m, parse (m + 8) "cat dog AND".toList
      = Outcome.ok (Except.error ⟨errSyntax, "Syntax error at (1, 5)".toList⟩)) ∧
    "cat dog AND".toList.length + 1 = 12 ∧
    (∀ m, parse (m + 8) "AND".toList
      = Outcome.ok (Except.error ⟨errSyntax, "Syntax error at (1, 1)".toList⟩)) ∧
    "AND".toList.length + 1 = 4 ∧
    (∀ m, parse (m + 8) "cat AND OR".toList
      = Outcome.ok (Except.error ⟨errSyntax, "Syntax error at (1, 9)".toList⟩)) ∧
    "cat AND OR".toList.length + 1 = 11 :=
  ⟨fun _ => (parse_inRange _ (by decide) _).trans rfl, rfl,
    fun _ => (parse_inRange _ (by decide) _).trans rfl, rfl,
    fun _ => (parse_inRange _ (by decide) _).trans rfl, rfl⟩

/-- C13, amended: for every query `q` of fewer than `2 ^ 31 - 1` characters
without zero byte, whenever `parse` fails the status has code Syntax and the message `Syntax error at (L, C)`,
where `L` and `C` are the line and column of the token the parser looks at when
`query` returns, a token of the query or its `End` token, and are the line and
column of the position of that token in `q`; when the tokens of a single-line
query `q` are derived from `or_expr` and followed by one last `BinaryOp` token,
`parse` fails with enough fuel and reports the position (1, |q| + 1). -/
theorem syntax_error_position (q : List Char) (hnul : ∀ c ∈ q, c ≠ NUL)
    (hlen : q.length < 2 ^ 31 - 1) :
    (∀ f st, parse f q = Outcome.ok (Except.error st) →
      ∃ p1, (QueryParser.new q).query f = Outcome.ok (Except.error st, p1) ∧
        st = ⟨errSyntax, "Syntax error at (".toList ++ (Nat.repr p1.pToken.pLine).toList
          ++ ", ".toList ++ (Nat.repr p1.pToken.pColumn).toList ++ ")".toList⟩ ∧
        p1.pToken ∈ tokensOf q ++ [endOf q] ∧
        p1.pToken.pLine = lineOf q p1.pToken.pPosition ∧
        p1.pToken.pColumn = columnOf q p1.pToken.pPosition) ∧
    (∀ ts op, tokensOf q = ts ++ [op] → Derives NT.orExpr ts →
      op.pType = TokenType.BinaryOp → (∀ c ∈ q, c ≠ '\n') →
      ∃ f0, ∀ f, f0 ≤ f → parse f q = Outcome.ok (Except.error
        ⟨errSyntax, "Syntax error at (1, ".toList ++ (Nat.repr (q.length + 1)).toList
          ++ ")".toList⟩)) := by
  have hb := takeWhile_length_lt q hlen
  have hp := parserAt_new q hnul
  refine ⟨fun f st h => ?_, fun ts op hts hd hop hline => ?_⟩
  · rw [parse_inRange q hb] at h
    rw [query_inRange q hb]
    obtain ⟨p1, hq⟩ := query_of_parse q f _ h
    obtain ⟨r, hr, hdesc⟩ := query_total (QueryParser.new q) _ _ hp
    have hr2 : r = (Except.error st, p1) :=
      returns_unique _ (query_mono (QueryParser.new q)) _ _ hr ⟨f, hq⟩
    subst hr2
    rcases hdesc with ⟨t, ht, _⟩ | ⟨he, u, rest, hsplit, hp1⟩
    · cases ht
    · have hst : st = p1.syntaxError := by
        have he : Except.error st = (Except.error p1.syntaxError : Except Status PNode) := he
        exact Except.error.inj he
      have hmem : p1.pToken ∈ tokensOf q ++ [endOf q] := by
        have := parserAt_token_mem p1 rest _ hp1
        rw [hsplit]
        rcases List.mem_append.1 this with h1 | h1
        · exact List.mem_append_left _ (List.mem_append_right _ h1)
        · exact List.mem_append_right _ h1
      exact ⟨p1, hq, by rw [hst]; exact syntaxError_eq p1, hmem,
        token_line_column q hnul _ hmem⟩
  · have hv := binaryOp_value q hnul op (by rw [hts]; simp) hop
    rw [hts] at hp
    obtain ⟨p1, hr, htok⟩ := query_dangling (QueryParser.new q) ts op _ hp hd hop hv
    obtain ⟨f0, hf0⟩ := parse_of_query q _ hr
    refine ⟨f0, fun f hf => ?_⟩
    obtain ⟨h1, h2⟩ := endOf_single_line q hline
    rw [parse_inRange q hb, hf0 f hf]
    show Outcome.ok (Except.error p1.syntaxError) = _
    rw [syntaxError_eq, htok, h1, h2]
    rfl

/-- Instance of `syntax_error_position`: `cat AND` has length 7 and the
reported position is (1, 8). -/
theorem syntax_error_position_witness :
    (∀ c ∈ "cat AND".toList, c ≠ NUL) ∧ "cat AND".toList.length < 2 ^ 31 - 1 ∧
    ∃ f0, ∀ f, f0 ≤ f → parse f "cat AND".toList
      = Outcome.ok (Except.error ⟨errSyntax, "Syntax error at (1, 8)".toList⟩) :=
  ⟨by decide, by decide,
    (syntax_error_position "cat AND".toList (by decide) (by decide)).2
      [⟨"cat".toList, TokenType.Term, 1, 1, 0⟩] ⟨"AND".toList, TokenType.BinaryOp, 1, 5, 4⟩
      (by decide) (Derives.orOne _ (Derives.andOne _ (Derives.term _ rfl))) rfl (by decide)⟩

/-! ## Postings: adding twice, removing -/

/-- C21 (the code departs from the claim): on the index with the postings 2
and then 1 for `cat`, whose list is `[2, 1]`, one more `addPosting` of docid 1
appends it again: the list becomes `[2, 1, 1]` and `numPostings` 3, so calling
`addPosting("cat", 1)` twice does not leave the state that calling it once
leaves. -/
theorem addPosting_not_idempotent :
    (((({} : Index).registerDocument "a.txt".toList).2.registerDocument "b.txt".toList).2.addPosting
      "cat".toList 2).find "cat".toList = some ⟨1, [2]⟩ ∧
    unsortedIndex.find "cat".toList = some ⟨2, [2, 1]⟩ ∧
    (unsortedIndex.addPosting "cat".toList 1).find "cat".toList = some ⟨3, [2, 1, 1]⟩ ∧
    unsortedIndex.addPosting "cat".toList 1 ≠ unsortedIndex := by
  decide

/-- The scan of `removePosting` splits the list around the first `id`. -/
theorem takeWhile_dropWhile_erase (l : List Nat) (id : Nat) :
    l.takeWhile (fun x => decide (x ≠ id)) ++ (l.dropWhile (fun x => decide (x ≠ id))).tail
      = l.erase id := by
  induction l with
  | nil => rfl
  | cons a l ih =>
    by_cases h : a = id
    · subst h; simp
    · have h2 : (a == id) = false := by simpa using h
      simp only [ne_eq, decide_not] at ih
      simp [List.takeWhile_cons, List.dropWhile_cons, h, List.erase_cons, h2, ih]

/-- The scan of `removePosting` finds nothing exactly when `id` is absent. -/
theorem dropWhile_ne_eq_nil (l : List Nat) (id : Nat) :
    l.dropWhile (fun x => decide (x ≠ id)) = [] ↔ id ∉ l := by
  induction l with
  | nil => simp
  | cons a l ih =>
    by_cases h : a = id
    · subst h; simp
    · have hd : decide (a ≠ id) = true := by simp [h]
      rw [List.dropWhile_cons, hd]
      simp only [if_true]
      rw [ih]
      simp [Ne.symm h]

/-- The list that `removePosting` leaves. -/
theorem removePosting_postings (t : TermData) (id : Nat) :
    (t.removePosting id).pPostings = t.pPostings.erase id := by
  unfold TermData.removePosting
  have h := takeWhile_dropWhile_erase t.pPostings id
  cases hd : t.pPostings.dropWhile (fun x => decide (x ≠ id)) with
  | nil =>
    simp only []
    rw [List.erase_of_not_mem ((dropWhile_ne_eq_nil _ _).1 hd)]
  | cons a after =>
    rw [hd] at h
    simpa using h

/-- C28: `removePosting(d)` leaves the term data unchanged when `d` is absent;
when `d` is present it erases the first `d`, the list gets one element shorter
and `numPostings` (when not 0, a 64-bit value) one smaller; on a duplicate-free
list the result no longer contains `d` and is the list of the other elements
in their order. -/
theorem removePosting_spec (t : TermData) (d : Nat) :
    (d ∉ t.pPostings → t.removePosting d = t) ∧
    (d ∈ t.pPostings →
      (t.removePosting d).pPostings = t.pPostings.erase d ∧
      (t.removePosting d).pPostings.length + 1 = t.pPostings.length ∧
      (0 < t.pCount → t.pCount < 2 ^ 64 →
        (t.removePosting d).numPostings + 1 = t.numPostings)) ∧
    (t.pPostings.Nodup → d ∈ t.pPostings →
      d ∉ (t.removePosting d).pPostings ∧
      (t.removePosting d).pPostings = t.pPostings.filter (fun x => decide (x ≠ d))) := by
  refine ⟨fun h => ?_, fun h => ⟨removePosting_postings t d, ?_, fun h0 h1 => ?_⟩,
    fun hn h => ⟨?_, ?_⟩⟩
  · unfold TermData.removePosting
    rw [(dropWhile_ne_eq_nil _ _).2 h]
  · rw [removePosting_postings, List.length_erase_of_mem h]
    have := List.length_pos_of_mem h
    omega
  · unfold TermData.removePosting TermData.numPostings
    cases hd : t.pPostings.dropWhile (fun x => decide (x ≠ d)) with
    | nil => exact absurd h ((dropWhile_ne_eq_nil _ _).1 hd)
    | cons a after =>
      simp only []
      omega
  · rw [removePosting_postings]
    exact fun hm => (List.Nodup.mem_erase_iff hn).1 hm |>.1 rfl
  · rw [removePosting_postings, List.Nodup.erase_eq_filter hn]
    congr 1
    funext x
    by_cases hx : x = d <;> simp [hx]

/-- Instance of `removePosting_spec`: removing 2 from and 5 from `[1, 2, 3]`. -/
theorem removePosting_spec_witness :
    (5 ∉ [1, 2, 3] ∧ TermData.removePosting ⟨3, [1, 2, 3]⟩ 5 = ⟨3, [1, 2, 3]⟩) ∧
    (2 ∈ [1, 2, 3] ∧ TermData.removePosting ⟨3, [1, 2, 3]⟩ 2 = ⟨2, [1, 3]⟩ ∧
      2 ∉ (TermData.removePosting ⟨3, [1, 2, 3]⟩ 2).pPostings) :=
  ⟨⟨by decide, (removePosting_spec ⟨3, [1, 2, 3]⟩ 5).1 (by decide)⟩,
    ⟨by decide, by decide,
      ((removePosting_spec ⟨3, [1, 2, 3]⟩ 2).2.2 (by decide) (by decide)).1⟩⟩

/-- C29: `dump` of a freshly constructed index writes the text `0\n0\n`, the
text that `create` writes; `load` of this text into a freshly constructed index
succeeds and gives an index with `numDocuments` 1 and no terms. -/
theorem empty_index_file :
    ({} : Index).dump none = ({}, some "0\n0\n".toList) ∧
    create true = (0, some "0\n0\n".toList) ∧
    ({} : Index).load (Except.ok "0\n0\n".toList) = Outcome.ok ({}, {}) ∧
    ({} : Status).isOK = true ∧
    ({} : Index).numDocuments = 1 ∧ ({} : Index).pDocuments = [(0, [])] ∧
    ({} : Index).pIndex = [] := by
  decide

/-! ## The normalizer -/

/-- The list from position `s` on, when `s` is a position of the list. -/
theorem drop_of_getElem? (str : List Char) (s : Nat) (c : Char) (h : str[s]? = some c) :
    str.drop s = c :: str.drop (s + 1) := by
  have hlt : s < str.length := by
    by_contra hge
    rw [List.getElem?_eq_none (by omega)] at h
    cases h
  rw [List.drop_eq_getElem_cons hlt]
  rw [List.getElem?_eq_getElem hlt] at h
  rw [Option.some.inj h]

/-- The first loop of `removePunctuation` stops behind the leading characters
that are not alphanumeric. -/
theorem skipLoop_eq (str : List Char) (hlen : str.length < 2 ^ 31) (fuel : Nat) :
    ∀ s, s ≤ str.length → str.length - s < fuel →
      skipLoop str fuel s
        = Outcome.ok (s + ((str.drop s).takeWhile (fun c => !isalnum c)).length) := by
  induction fuel with
  | zero => intro s _ h; omega
  | succ fuel ih =>
    intro s hs hf
    rw [skipLoop]
    cases hc : str[s]? with
    | none =>
      have : str.length ≤ s := by
        by_contra hlt
        rw [List.getElem?_eq_getElem (by omega)] at hc
        cases hc
      rw [List.drop_of_length_le this]
      rfl
    | some c =>
      have hlt : s < str.length := by
        by_contra hge
        rw [List.getElem?_eq_none (by omega)] at hc
        cases hc
      rw [drop_of_getElem? str s c hc]
      by_cases ha : isalnum c = true
      · simp [ha]
      · have ha2 : isalnum c = false := by simpa using ha
        simp only [ha2, Bool.false_eq_true, if_false]
        rw [if_pos (by omega), ih (s + 1) (by omega) (by omega)]
        simp [List.takeWhile_cons, ha2]
        omega

/-- The second loop of `removePunctuation` stops behind the alphanumeric
characters that follow position `s`. -/
theorem takeLoop_eq (str : List Char) (hlen : str.length < 2 ^ 31) (s : Nat) (fuel : Nat) :
    ∀ e, s + e ≤ str.length → str.length - (s + e) < fuel →
      takeLoop str s fuel e
        = Outcome.ok (e + ((str.drop (s + e)).takeWhile (fun c => isalnum c)).length) := by
  induction fuel with
  | zero => intro e _ h; omega
  | succ fuel ih =>
    intro e hs hf
    rw [takeLoop, if_neg (by omega)]
    cases hc : str[s + e]? with
    | none =>
      have : str.length ≤ s + e := by
        by_contra hlt
        rw [List.getElem?_eq_getElem (by omega)] at hc
        cases hc
      rw [List.drop_of_length_le this]
      rfl
    | some c =>
      have hlt : s + e < str.length := by
        by_contra hge
        rw [List.getElem?_eq_none (by omega)] at hc
        cases hc
      rw [drop_of_getElem? str (s + e) c hc]
      by_cases ha : isalnum c = true
      · simp only [ha, if_true]
        rw [if_pos (by omega), ih (e + 1) (by omega) (by omega)]
        simp [List.takeWhile_cons, ha, ← Nat.add_assoc]
        omega
      · have ha2 : isalnum c = false := by simpa using ha
        simp [ha2]

/-- Dropping as many elements as `takeWhile` takes is `dropWhile`. -/
theorem drop_length_takeWhile (p : Char → Bool) (l : List Char) :
    l.drop (l.takeWhile p).length = l.dropWhile p := by
  induction l with
  | nil => rfl
  | cons a l ih =>
    by_cases h : p a = true
    · simp [List.takeWhile_cons, List.dropWhile_cons, h, ih]
    · simp [List.takeWhile_cons, List.dropWhile_cons, h]

/-- Taking as many elements as `takeWhile` takes is `takeWhile`. -/
theorem take_length_takeWhile (p : Char → Bool) (l : List Char) :
    l.take (l.takeWhile p).length = l.takeWhile p := by
  induction l with
  | nil => rfl
  | cons a l ih =>
    by_cases h : p a = true
    · simp [List.takeWhile_cons, h, ih]
    · simp [List.takeWhile_cons, h]

/-- On a string with fewer than `2^31` characters `removePunctuation` returns
the alphanumeric characters that follow the leading characters that are not
alphanumeric. -/
theorem removePunctuation_eq (str : List Char) (hlen : str.length < 2 ^ 31) :
    removePunctuation str
      = Outcome.ok ((str.dropWhile (fun c => !isalnum c)).takeWhile (fun c => isalnum c)) := by
  unfold removePunctuation
  rw [skipLoop_eq str hlen _ 0 (by omega) (by omega)]
  simp only [List.drop_zero, Nat.zero_add]
  have hle : (str.takeWhile (fun c => !isalnum c)).length ≤ str.length := by
    have := congrArg List.length (List.takeWhile_append_dropWhile (fun c => !isalnum c) str)
    rw [List.length_append] at this
    omega
  rw [takeLoop_eq str hlen _ _ 0 (by omega) (by omega)]
  simp only [Nat.add_zero, Nat.zero_add]
  rw [drop_length_takeWhile, take_length_takeWhile]

/-- C30, counterexample: `removePunctuation` of `a,bcd` is `a`, while `bcd`
is a longer substring of `a,bcd` that consists only of alphanumeric characters
and whose preceding character `,` is not alphanumeric. -/
theorem removePunctuation_not_longest :
    removePunctuation "a,bcd".toList = Outcome.ok "a".toList ∧
    "a,bcd".toList = "a,".toList ++ "bcd".toList ++ [] ∧
    (∀ c ∈ "bcd".toList, isalnum c = true) ∧
    "a,".toList.getLast? = some ',' ∧ isalnum ',' = false ∧
    "a".toList.length < "bcd".toList.length := by
  decide

/-- C30, amended: for every string `str` with fewer than `2^31` characters,
`removePunctuation` returns the first maximal run `r` of alphanumeric
characters: `str` is `pre ++ r ++ post`, where no character of `pre` is
alphanumeric, every character of `r` is, `post` does not start with an
alphanumeric character, and `post` is empty when `r` is; so `r` starts at the
first alphanumeric character of `str` and is the longest substring from there
that consists only of alphanumeric characters. -/
theorem removePunctuation_first_run (str : List Char) (hlen : str.length < 2 ^ 31) :
    ∃ pre r post, str = pre ++ r ++ post ∧ removePunctuation str = Outcome.ok r ∧
      (∀ c ∈ pre, isalnum c = false) ∧ (∀ c ∈ r, isalnum c = true) ∧
      (∀ c, post.head? = some c → isalnum c = false) ∧ (r = [] → post = []) ∧
      pre = str.takeWhile (fun c => !isalnum c) ∧
      r = (str.drop pre.length).takeWhile (fun c => isalnum c) := by
  refine ⟨str.takeWhile (fun c => !isalnum c),
    (str.dropWhile (fun c => !isalnum c)).takeWhile (fun c => isalnum c),
    (str.dropWhile (fun c => !isalnum c)).dropWhile (fun c => isalnum c), ?_,
    removePunctuation_eq str hlen, ?_, ?_, ?_, ?_, rfl, ?_⟩
  · rw [List.append_assoc, List.takeWhile_append_dropWhile, List.takeWhile_append_dropWhile]
  · intro c hc
    simpa using List.mem_takeWhile_imp hc
  · intro c hc
    simpa using List.mem_takeWhile_imp hc
  · intro c hc
    cases hd : (str.dropWhile (fun c => !isalnum c)).dropWhile (fun c => isalnum c) with
    | nil => rw [hd] at hc; cases hc
    | cons a l =>
      rw [hd] at hc
      have hca : a = c := by simpa using hc
      subst hca
      have := List.head_dropWhile_not (fun c => isalnum c)
        (str.dropWhile (fun c => !isalnum c)) (by rw [hd]; simp)
      simp only [hd, List.head_cons] at this
      simpa using this
  · intro hr
    cases hd : str.dropWhile (fun c => !isalnum c) with
    | nil => rfl
    | cons a l =>
      have := List.head_dropWhile_not (fun c => !isalnum c) str (by rw [hd]; simp)
      simp only [hd, List.head_cons] at this
      rw [hd] at hr
      have ha : isalnum a = true := by simpa using this
      simp [List.takeWhile_cons, ha] at hr
  · rw [drop_length_takeWhile]

/-- Instance of `removePunctuation_first_run`: on `,,ab1,cd` the result is
`ab1`. -/
theorem removePunctuation_first_run_witness :
    ",,ab1,cd".toList.length < 2 ^ 31 ∧
    removePunctuation ",,ab1,cd".toList = Outcome.ok "ab1".toList ∧
    ∃ pre r post, ",,ab1,cd".toList = pre ++ r ++ post ∧
      removePunctuation ",,ab1,cd".toList = Outcome.ok r ∧
      (∀ c ∈ pre, isalnum c = false) ∧ (∀ c ∈ r, isalnum c = true) ∧
      (∀ c, post.head? = some c → isalnum c = false) ∧ (r = [] → post = []) ∧
      pre = ",,ab1,cd".toList.takeWhile (fun c => !isalnum c) ∧
      r = (",,ab1,cd".toList.drop pre.length).takeWhile (fun c => isalnum c) :=
  ⟨by decide, by decide, removePunctuation_first_run ",,ab1,cd".toList (by decide)⟩

/-- Assigning to a key that is above all keys of the map appends the entry. -/
theorem mapAssign_above (m : List (Nat × List Char)) (k : Nat) (v : List Char)
    (h : ∀ e ∈ m, e.1 < k) : mapAssign m k v = m ++ [(k, v)] := by
  induction m with
  | nil => rfl
  | cons e m ih =>
    obtain ⟨k1, v1⟩ := e
    have h1 : k1 < k := h (k1, v1) (by simp)
    rw [mapAssign, if_neg (by omega), if_neg (by omega), ih (fun e he => h e (by simp [he]))]
    rfl

/-- The calls of `registerAll` on an index whose keys are below the next free
docid. -/
theorem registerAll_eq (names : List (List Char)) : ∀ (i : Index),
    (∀ e ∈ i.pDocuments, e.1 < i.pFreeDocId) → i.pFreeDocId + names.length < 2 ^ 64 →
    registerAll i names
      = (List.range' i.pFreeDocId names.length,
          { i with pDocuments := i.pDocuments ++ (List.range' i.pFreeDocId names.length).zip names,
                   pFreeDocId := i.pFreeDocId + names.length }) := by
  induction names with
  | nil => intro i _ _; simp [registerAll]
  | cons name names ih =>
    intro i hk hb
    have hb2 : i.pFreeDocId + (names.length + 1) < 2 ^ 64 := hb
    have hmod : (i.pFreeDocId + 1) % 2 ^ 64 = i.pFreeDocId + 1 := Nat.mod_eq_of_lt (by omega)
    have hreg : i.registerDocument name
        = (i.pFreeDocId, { i with pDocuments := i.pDocuments ++ [(i.pFreeDocId, name)],
                                  pFreeDocId := i.pFreeDocId + 1 }) := by
      unfold Index.registerDocument
      rw [mapAssign_above _ _ _ hk, hmod]
    rw [registerAll, hreg]
    simp only []
    rw [ih _ (by
        intro e he
        simp only [List.mem_append, List.mem_singleton] at he
        rcases he with he | he
        · have := hk e he
          show e.1 < i.pFreeDocId + 1
          omega
        · rw [he]
          show i.pFreeDocId < i.pFreeDocId + 1
          omega)
      (by show i.pFreeDocId + 1 + names.length < 2 ^ 64; omega)]
    simp only [List.length_cons, List.range'_succ, List.zip_cons_cons, List.append_assoc,
      List.singleton_append, Nat.add_assoc, Nat.add_comm 1]

/-- The entry of key `s + k` among consecutive keys from `s` on. -/
theorem find_zip_range (names : List (List Char)) : ∀ (s k : Nat) (h : k < names.length),
    ((List.range' s names.length).zip names).find? (fun e => decide (e.1 = s + k))
      = some (s + k, names[k]) := by
  induction names with
  | nil => intro s k h; simp at h
  | cons name names ih =>
    intro s k h
    cases k with
    | zero => simp [List.range'_succ]
    | succ k =>
      have h2 : k < names.length := by simpa using h
      have := ih (s + 1) k h2
      simp only [List.length_cons, List.range'_succ, List.zip_cons_cons, List.find?_cons]
      have hne : decide (s = s + (k + 1)) = false := by simp
      simp only [hne]
      rw [show s + (k + 1) = s + 1 + k by omega]
      simpa using this

/-- C26: on a freshly constructed index, after the calls of `registerDocument`
for the names `names` (fewer than `2^64 - 1`), which return the docids
1, 2, ..., the next call, number `k = |names| + 1`, returns `k`,
`getDocumentName(k)` is then the given name and `numDocuments` is `k + 1`; the
names registered before stay bound to their docids; the docids returned are
pairwise different, also for equal names. -/
theorem registerDocument_numbers (names : List (List Char)) (name : List Char)
    (hlen : names.length + 1 < 2 ^ 64 - 1) :
    (registerAll {} names).1 = List.range' 1 names.length ∧
    (registerAll {} names).1.Nodup ∧
    ((registerAll {} names).2.registerDocument name).1 = names.length + 1 ∧
    ((registerAll {} names).2.registerDocument name).2.getDocumentName (names.length + 1) = name ∧
    ((registerAll {} names).2.registerDocument name).2.numDocuments = names.length + 1 + 1 ∧
    (∀ j (h : j < names.length),
      ((registerAll {} names).2.registerDocument name).2.getDocumentName (j + 1) = names[j]) := by
  have hall := registerAll_eq (names ++ [name]) {} (by decide)
    (by show 1 + (names ++ [name]).length < 2 ^ 64; simp; omega)
  have hpre := registerAll_eq names {} (by decide)
    (by show 1 + names.length < 2 ^ 64; omega)
  have hfree : (registerAll {} names).2.pFreeDocId = 1 + names.length := by rw [hpre]
  have hstep : ∀ (l : List (List Char)) (i : Index),
      (registerAll i (l ++ [name])).2 = ((registerAll i l).2.registerDocument name).2 := by
    intro l
    induction l with
    | nil => intro i; rfl
    | cons a l ih => intro i; simp only [List.cons_append, registerAll]; exact ih _
  have hdocs : ((registerAll {} names).2.registerDocument name).2.pDocuments
      = (0, []) :: (List.range' 1 (names ++ [name]).length).zip (names ++ [name]) := by
    rw [← hstep, hall]; rfl
  have hget : ∀ j (h : j < (names ++ [name]).length),
      ((registerAll {} names).2.registerDocument name).2.getDocumentName (j + 1)
        = (names ++ [name])[j] := by
    intro j h
    unfold Index.getDocumentName
    rw [hdocs, List.find?_cons]
    have hne : decide ((0 : Nat) = j + 1) = false := by simp
    simp only [hne]
    have := find_zip_range (names ++ [name]) 1 j h
    rw [show j + 1 = 1 + j by omega, this]
  refine ⟨by rw [hpre], by rw [hpre]; exact List.nodup_range' _ _, ?_, ?_, ?_, ?_⟩
  · show (registerAll {} names).2.pFreeDocId = _
    rw [hfree]; omega
  · have := hget names.length (by simp)
    simpa using this
  · unfold Index.numDocuments
    rw [hdocs]; simp
  · intro j h
    have := hget j (by simp; omega)
    rw [this, List.getElem_append_left h]

/-- Instance of `registerDocument_numbers`: the name `a.txt` registered three
times gets the docids 1, 2 and 3. -/
theorem registerDocument_numbers_witness :
    ["a.txt".toList, "a.txt".toList].length + 1 < 2 ^ 64 - 1 ∧
    (registerAll {} ["a.txt".toList, "a.txt".toList]).1 = [1, 2] ∧
    ((registerAll {} ["a.txt".toList, "a.txt".toList]).2.registerDocument "a.txt".toList).1 = 3 ∧
    ((registerAll {} ["a.txt".toList, "a.txt".toList]).2.registerDocument
      "a.txt".toList).2.numDocuments = 4 :=
  ⟨by decide, by decide,
    (registerDocument_numbers ["a.txt".toList, "a.txt".toList] "a.txt".toList (by decide)).2.2.1,
    (registerDocument_numbers ["a.txt".toList, "a.txt".toList] "a.txt".toList
      (by decide)).2.2.2.2.1⟩

/-- A decimal digit is neither white space nor a sign. -/
theorem digit_not_space (c : Char) (h : c.isDigit = true) :
    isSpace c = false ∧ c ≠ '-' ∧ c ≠ '+' := by
  refine ⟨?_, ?_, ?_⟩
  · cases hs : isSpace c with
    | false => rfl
    | true =>
      unfold isSpace at hs
      simp only [Bool.or_eq_true, decide_eq_true_eq] at hs
      rcases hs with ((((hs | hs) | hs) | hs) | hs) | hs <;> (subst hs; revert h; decide)
  · rintro rfl; revert h; decide
  · rintro rfl; revert h; decide

/-- The characters of `Nat.digitChar` for the ten digits. -/
theorem digitChar_spec (k : Nat) (h : k < 10) :
    (Nat.digitChar k).isDigit = true ∧ (Nat.digitChar k).toNat - 48 = k := by
  interval_cases k <;> decide

/-- The digits that `Nat.toDigitsCore` puts in front of `acc`. -/
theorem toDigitsCore_spec (fuel : Nat) : ∀ (n : Nat) (acc : List Char), n < fuel →
    (∀ c ∈ acc, c.isDigit = true) →
    (∀ c ∈ Nat.toDigitsCore 10 fuel n acc, c.isDigit = true) ∧
    Nat.toDigitsCore 10 fuel n acc ≠ [] ∧
    (Nat.toDigitsCore 10 fuel n acc).foldl (fun a c => 10 * a + (c.toNat - 48)) 0
      = acc.foldl (fun a c => 10 * a + (c.toNat - 48)) n := by
  induction fuel with
  | zero => intro n _ h; omega
  | succ fuel ih =>
    intro n acc hn hacc
    have hd := digitChar_spec (n % 10) (Nat.mod_lt _ (by decide))
    rw [Nat.toDigitsCore]
    by_cases h0 : n / 10 = 0
    · simp only [h0, if_true]
      refine ⟨?_, by simp, ?_⟩
      · intro c hc
        rcases List.mem_cons.1 hc with rfl | hc
        · exact hd.1
        · exact hacc c hc
      · have hlt : n < 10 := by omega
        simp only [List.foldl_cons, Nat.mul_zero, Nat.zero_add, hd.2]
        rw [Nat.mod_eq_of_lt hlt]
    · simp only [h0, if_false]
      have hlt : n / 10 < fuel := by omega
      obtain ⟨h1, h2, h3⟩ := ih (n / 10) (Nat.digitChar (n % 10) :: acc) hlt (by
        intro c hc
        rcases List.mem_cons.1 hc with rfl | hc
        · exact hd.1
        · exact hacc c hc)
      refine ⟨h1, h2, ?_⟩
      rw [h3, List.foldl_cons, hd.2]
      congr 1
      omega

/-- The text of a number: decimal digits, at least one, with the number as
value. -/
theorem putNat_spec (n : Nat) :
    (∀ c ∈ putNat n, c.isDigit = true) ∧ putNat n ≠ [] ∧ digitsValue (putNat n) = n := by
  have h := toDigitsCore_spec (n + 1) n [] (by omega) (by simp)
  have he : putNat n = Nat.toDigitsCore 10 (n + 1) n [] := rfl
  rw [he]
  exact ⟨h.1, h.2.1, h.2.2⟩

/-- Skipping over a prefix that satisfies the predicate. -/
theorem dropWhile_append_all (p : Char → Bool) (ws l : List Char) (h : ∀ c ∈ ws, p c = true) :
    (ws ++ l).dropWhile p = l.dropWhile p := by
  induction ws with
  | nil => rfl
  | cons a ws ih =>
    rw [List.cons_append, List.dropWhile_cons, h a (by simp)]
    exact ih (fun c hc => h c (by simp [hc]))

/-- Reading a run that satisfies the predicate up to a character that does
not. -/
theorem takeWhile_append_stop (p : Char → Bool) (w : List Char) (c : Char) (rest : List Char)
    (hw : ∀ x ∈ w, p x = true) (hc : p c = false) :
    (w ++ c :: rest).takeWhile p = w ∧ (w ++ c :: rest).dropWhile p = c :: rest := by
  induction w with
  | nil => simp [List.takeWhile_cons, List.dropWhile_cons, hc]
  | cons a w ih =>
    have ha := hw a (by simp)
    have := ih (fun x hx => hw x (by simp [hx]))
    simp [List.takeWhile_cons, List.dropWhile_cons, ha, this.1, this.2]

/-- Reading back a number that was written, behind white space and in front
of a character that is not a digit. -/
theorem getNat_putNat (ws : List Char) (n : Nat) (c : Char) (rest : List Char)
    (hws : ∀ x ∈ ws, isSpace x = true) (hn : n < 2 ^ 64) (hc : c.isDigit = false) :
    getNat (ws ++ putNat n ++ c :: rest) = some (n, c :: rest) := by
  obtain ⟨hd, hne, hv⟩ := putNat_spec n
  obtain ⟨d, ds, hds⟩ := List.exists_cons_of_ne_nil hne
  have hdd := digit_not_space d (hd d (by rw [hds]; simp))
  have hdrop : (ws ++ putNat n ++ c :: rest).dropWhile isSpace = putNat n ++ c :: rest := by
    rw [List.append_assoc, dropWhile_append_all isSpace ws _ hws, hds, List.cons_append,
      List.dropWhile_cons, hdd.1]
    rfl
  have hsign : stripSign (putNat n ++ c :: rest) = (false, putNat n ++ c :: rest) := by
    rw [hds, List.cons_append]
    unfold stripSign
    simp only [if_neg hdd.2.1, if_neg hdd.2.2]
  have hsplit := takeWhile_append_stop Char.isDigit (putNat n) c rest hd hc
  unfold getNat
  simp only [hdrop, hsign, hsplit.1, hsplit.2]
  rw [if_neg hne, if_neg (by simp), hv, if_neg (by omega)]
  simp

/-- Reading back a token that was written, behind white space and in front of
a white space character. -/
theorem getWord_token (ws w : List Char) (c : Char) (rest : List Char)
    (hws : ∀ x ∈ ws, isSpace x = true) (hw : FileToken w) (hc : isSpace c = true) :
    getWord (ws ++ w ++ c :: rest) = some (w, c :: rest) := by
  obtain ⟨d, ds, hds⟩ := List.exists_cons_of_ne_nil hw.1
  have hd : isSpace d = false := hw.2 d (by rw [hds]; simp)
  have hdrop : (ws ++ w ++ c :: rest).dropWhile isSpace = w ++ c :: rest := by
    rw [List.append_assoc, dropWhile_append_all isSpace ws _ hws, hds, List.cons_append,
      List.dropWhile_cons, hd]
    rfl
  have hsplit := takeWhile_append_stop (fun x => !isSpace x) w c rest
    (fun x hx => by simp [hw.2 x hx]) (by simp [hc])
  unfold getWord
  simp only [hdrop, hsplit.1, hsplit.2]
  rw [if_neg hw.1, if_neg (by simp)]

/-- A number that `getNat` returns fits in 64 bits. -/
theorem getNat_lt (inp : List Char) (v : Nat) (rest : List Char)
    (h : getNat inp = some (v, rest)) : v < 2 ^ 64 := by
  unfold getNat at h
  simp only [] at h
  split at h
  · cases h
  · split at h
    · cases h
    · split at h
      · cases h
      · rename_i hlt
        have hv := (Prod.mk.inj (Option.some.inj h)).1
        rw [← hv]
        split
        · exact Nat.mod_lt _ (by decide)
        · omega

/-- The scan of `dropWhile` does not see what is appended behind the place
where it stops. -/
theorem dropWhile_append_of_ne_nil (p : Char → Bool) (l q : List Char)
    (h : l.dropWhile p ≠ []) :
    (l ++ q).dropWhile p = l.dropWhile p ++ q ∧ (l ++ q).takeWhile p = l.takeWhile p := by
  induction l with
  | nil => simp at h
  | cons a l ih =>
    by_cases ha : p a = true
    · rw [List.dropWhile_cons, ha] at h
      have := ih h
      simp [List.dropWhile_cons, List.takeWhile_cons, ha, this.1, this.2]
    · simp [List.dropWhile_cons, List.takeWhile_cons, ha]

/-- Behind a successful `getNat` more input changes only the input left. -/
theorem getNat_append (inp q : List Char) (v : Nat) (rest : List Char)
    (h : getNat inp = some (v, rest)) : getNat (inp ++ q) = some (v, rest ++ q) := by
  unfold getNat at h ⊢
  simp only [] at h ⊢
  by_cases h1 : (stripSign (inp.dropWhile isSpace)).2.takeWhile Char.isDigit = []
  · rw [if_pos h1] at h; cases h
  · rw [if_neg h1] at h
    by_cases h2 : (stripSign (inp.dropWhile isSpace)).2.dropWhile Char.isDigit = []
    · rw [if_pos h2] at h; cases h
    · rw [if_neg h2] at h
      have hs2 : (stripSign (inp.dropWhile isSpace)).2 ≠ [] := by
        intro h0; rw [h0] at h2; exact h2 rfl
      have hnn : inp.dropWhile isSpace ≠ [] := by
        intro h0; rw [h0] at hs2; exact hs2 rfl
      have hdrop := (dropWhile_append_of_ne_nil isSpace inp q hnn).1
      have hstrip : stripSign (inp.dropWhile isSpace ++ q)
          = ((stripSign (inp.dropWhile isSpace)).1, (stripSign (inp.dropWhile isSpace)).2 ++ q) := by
        cases hl : inp.dropWhile isSpace with
        | nil => exact absurd hl hnn
        | cons a l =>
          rw [hl] at hs2
          unfold stripSign at hs2 ⊢
          simp only [List.cons_append]
          by_cases ha : a = '-'
          · simp only [ha, if_true]
          · by_cases hb : a = '+'
            · simp only [hb, if_true]; rfl
            · simp only [ha, hb, if_false]; rfl
      have hd := dropWhile_append_of_ne_nil Char.isDigit _ q h2
      rw [hdrop, hstrip]
      simp only []
      rw [hd.1, hd.2, if_neg h1, if_neg (by simp [h2])]
      by_cases h3 : 2 ^ 64 ≤ digitsValue
          ((stripSign (inp.dropWhile isSpace)).2.takeWhile Char.isDigit)
      · rw [if_pos h3] at h; cases h
      · rw [if_neg h3] at h ⊢
        have := Prod.mk.inj (Option.some.inj h)
        rw [this.1, this.2]

/-- Behind a successful `getWord` more input changes only the input left. -/
theorem getWord_append (inp q : List Char) (w rest : List Char)
    (h : getWord inp = some (w, rest)) : getWord (inp ++ q) = some (w, rest ++ q) := by
  unfold getWord at h ⊢
  simp only [] at h ⊢
  by_cases h1 : (inp.dropWhile isSpace).takeWhile (fun c => !isSpace c) = []
  · rw [if_pos h1] at h; cases h
  · rw [if_neg h1] at h
    by_cases h2 : (inp.dropWhile isSpace).dropWhile (fun c => !isSpace c) = []
    · rw [if_pos h2] at h; cases h
    · rw [if_neg h2] at h
      have hnn : inp.dropWhile isSpace ≠ [] := by
        intro h0; rw [h0] at h2; exact h2 rfl
      have hdrop := (dropWhile_append_of_ne_nil isSpace inp q hnn).1
      have hd := dropWhile_append_of_ne_nil (fun c => !isSpace c) _ q h2
      rw [hdrop, hd.1, hd.2, if_neg h1, if_neg (by simp [h2])]
      have := Prod.mk.inj (Option.some.inj h)
      rw [this.1, this.2]

/-- The documents loop reads back the lines that `dumpDocuments` wrote. -/
theorem loadDocuments_dump (l : List (Nat × List Char)) :
    ∀ (ws tail : List Char) (i : Nat) (docs : List (Nat × List Char)) (free : Nat),
    (∀ x ∈ ws, isSpace x = true) →
    (∀ e ∈ l, e.1 ≠ 0 ∧ e.1 < 2 ^ 64 ∧ FileToken e.2) → i + l.length < 2 ^ 31 →
    ∃ ws1, (∀ x ∈ ws1, isSpace x = true) ∧
      loadDocuments l.length i (ws ++ dumpDocuments l ++ tail) docs free
        = Outcome.ok (some (ws1 ++ tail, l.foldl (fun m e => mapAssign m e.1 e.2) docs,
            l.foldl (fun a e => max a e.1) free)) := by
  induction l with
  | nil =>
    intro ws tail i docs free hws _ _
    exact ⟨ws, hws, by simp [dumpDocuments, loadDocuments]⟩
  | cons e l ih =>
    intro ws tail i docs free hws hl hi
    obtain ⟨h0, hlt, htok⟩ := hl e (by simp)
    have hlen : i + (l.length + 1) < 2 ^ 31 := hi
    obtain ⟨ws1, hws1, hrec⟩ := ih ['\n'] tail (i + 1) (mapAssign docs e.1 e.2) (max free e.1)
      (by intro x hx; rw [List.mem_singleton.1 hx]; decide)
      (fun e1 he1 => hl e1 (by simp [he1])) (by omega)
    refine ⟨ws1, hws1, ?_⟩
    have htext : ws ++ dumpDocuments (e :: l) ++ tail
        = ws ++ putNat e.1 ++ ' ' :: (e.2 ++ '\n' :: (dumpDocuments l ++ tail)) := by
      rw [dumpDocuments, if_pos h0]; simp
    have hn := getNat_putNat ws e.1 ' ' (e.2 ++ '\n' :: (dumpDocuments l ++ tail)) hws hlt
      (by decide)
    have hw := getWord_token [' '] e.2 '\n' (dumpDocuments l ++ tail)
      (by intro x hx; rw [List.mem_singleton.1 hx]; decide) htok (by decide)
    have hw2 : getWord (' ' :: (e.2 ++ '\n' :: (dumpDocuments l ++ tail)))
        = some (e.2, '\n' :: (dumpDocuments l ++ tail)) := by
      simpa using hw
    rw [htext, List.length_cons, loadDocuments, hn]
    simp only []
    rw [hw2]
    simp only []
    rw [if_pos (by omega)]
    simpa using hrec

/-- The postings loop reads back the postings that `dumpPostings` wrote. -/
theorem loadPostings_dump (ps : List Nat) :
    ∀ (ws tail : List Char) (k : Nat) (d : TermData),
    (∀ x ∈ ws, isSpace x = true) → (∀ p ∈ ps, p < 2 ^ 64) → k + ps.length < 2 ^ 31 →
    ∃ ws1, (∀ x ∈ ws1, isSpace x = true) ∧
      loadPostings ps.length k (ws ++ dumpPostings ps ++ tail) d
        = Outcome.ok (some (ws1 ++ tail, ps.foldl TermData.addPosting d)) := by
  induction ps with
  | nil =>
    intro ws tail k d hws _ _
    exact ⟨ws, hws, by simp [dumpPostings, loadPostings]⟩
  | cons p ps ih =>
    intro ws tail k d hws hl hk
    have hlen : k + (ps.length + 1) < 2 ^ 31 := hk
    obtain ⟨ws1, hws1, hrec⟩ := ih [' '] tail (k + 1) (d.addPosting p)
      (by intro x hx; rw [List.mem_singleton.1 hx]; decide)
      (fun p1 hp1 => hl p1 (by simp [hp1])) (by omega)
    refine ⟨ws1, hws1, ?_⟩
    have htext : ws ++ dumpPostings (p :: ps) ++ tail
        = ws ++ putNat p ++ ' ' :: (dumpPostings ps ++ tail) := by
      rw [dumpPostings]; simp
    have hn := getNat_putNat ws p ' ' (dumpPostings ps ++ tail) hws (hl p (by simp)) (by decide)
    rw [htext, List.length_cons, loadPostings, hn]
    simp only []
    rw [if_pos (by omega)]
    simpa using hrec

/-- The terms loop reads back the lines that `dumpTerms` wrote. -/
theorem loadTerms_dump (es : List (List Char × TermData)) :
    ∀ (ws tail : List Char) (i : Nat) (m : List (List Char × TermData)),
    (∀ x ∈ ws, isSpace x = true) →
    (∀ e ∈ es, FileToken e.1 ∧ e.2.pCount = e.2.pPostings.length ∧
      e.2.pPostings.length < 2 ^ 31 ∧ ∀ p ∈ e.2.pPostings, p < 2 ^ 64) →
    i + es.length < 2 ^ 31 →
    ∃ ws1, (∀ x ∈ ws1, isSpace x = true) ∧
      loadTerms es.length i (ws ++ dumpTerms es ++ tail) m
        = Outcome.ok (some (ws1 ++ tail, es.foldl termStep m)) := by
  induction es with
  | nil =>
    intro ws tail i m hws _ _
    exact ⟨ws, hws, by simp [dumpTerms, loadTerms]⟩
  | cons e es ih =>
    intro ws tail i m hws hl hi
    obtain ⟨htok, hcount, hplen, hps⟩ := hl e (by simp)
    have hlen : i + (es.length + 1) < 2 ^ 31 := hi
    obtain ⟨ws2, hws2, hpost⟩ := loadPostings_dump e.2.pPostings [' ']
      ('\n' :: (dumpTerms es ++ tail)) 0 (dictGet m e.1)
      (by intro x hx; rw [List.mem_singleton.1 hx]; decide) hps (by omega)
    obtain ⟨ws1, hws1, hrec⟩ := ih (ws2 ++ ['\n']) tail (i + 1) (termStep m e)
      (by
        intro x hx
        rcases List.mem_append.1 hx with hx | hx
        · exact hws2 x hx
        · rw [List.mem_singleton.1 hx]; decide)
      (fun e1 he1 => hl e1 (by simp [he1])) (by omega)
    refine ⟨ws1, hws1, ?_⟩
    have htext : ws ++ dumpTerms (e :: es) ++ tail
        = ws ++ e.1 ++ ' ' :: (putNat e.2.pPostings.length ++ ' ' ::
            (dumpPostings e.2.pPostings ++ '\n' :: (dumpTerms es ++ tail))) := by
      rw [dumpTerms]
      unfold TermData.numPostings
      rw [hcount]; simp
    have hw := getWord_token ws e.1 ' ' (putNat e.2.pPostings.length ++ ' ' ::
      (dumpPostings e.2.pPostings ++ '\n' :: (dumpTerms es ++ tail))) hws htok (by decide)
    have hn := getNat_putNat [' '] e.2.pPostings.length ' '
      (dumpPostings e.2.pPostings ++ '\n' :: (dumpTerms es ++ tail))
      (by intro x hx; rw [List.mem_singleton.1 hx]; decide) (by omega) (by decide)
    have hn2 : getNat (' ' :: (putNat e.2.pPostings.length ++ ' ' ::
        (dumpPostings e.2.pPostings ++ '\n' :: (dumpTerms es ++ tail))))
        = some (e.2.pPostings.length,
            ' ' :: (dumpPostings e.2.pPostings ++ '\n' :: (dumpTerms es ++ tail))) := by
      simpa using hn
    have hpost2 : loadPostings e.2.pPostings.length 0
        (' ' :: (dumpPostings e.2.pPostings ++ '\n' :: (dumpTerms es ++ tail))) (dictGet m e.1)
        = Outcome.ok (some (ws2 ++ '\n' :: (dumpTerms es ++ tail),
            e.2.pPostings.foldl TermData.addPosting (dictGet m e.1))) := by
      simpa using hpost
    rw [htext, List.length_cons, loadTerms, hw]
    simp only []
    rw [hn2]
    simp only []
    rw [hpost2]
    simp only []
    rw [if_pos (by omega)]
    simpa using hrec

/-- Method `load` succeeds when `loadFrom` does. -/
theorem load_of_loadFrom (i : Index) (content : List Char) (i1 : Index) (r : List Char)
    (h : i.loadFrom content = Outcome.ok (some (i1, r))) :
    i.load (Except.ok content) = Outcome.ok ({}, i1) := by
  unfold Index.load
  simp only []
  rw [h]

/-- Method `load` fails and resets the index when a read of `loadFrom` fails. -/
theorem load_of_loadFrom_none (i : Index) (content : List Char)
    (h : i.loadFrom content = Outcome.ok none) :
    i.load (Except.ok content) = Outcome.ok (fileCorrupted, i.cleanUp) := by
  unfold Index.load
  simp only []
  rw [h]

/-- The result of `loadFrom` when its four parts succeed. -/
theorem loadFrom_eq (i : Index) (content : List Char) (numDocs : Nat) (in1 in2 : List Char)
    (docs : List (Nat × List Char)) (free numTerms : Nat) (in3 in4 : List Char)
    (dict : List (List Char × TermData))
    (h1 : getNat content = some (numDocs, in1))
    (h2 : loadDocuments numDocs 0 in1 i.pDocuments 0 = Outcome.ok (some (in2, docs, free)))
    (h3 : getNat in2 = some (numTerms, in3))
    (h4 : loadTerms numTerms 0 in3 i.pIndex = Outcome.ok (some (in4, dict))) :
    i.loadFrom content = Outcome.ok (some
      ({ pFreeDocId := (free + 1) % 2 ^ 64, pIndex := dict, pDocuments := docs }, in4)) := by
  unfold Index.loadFrom
  rw [h1]
  simp only []
  rw [h2]
  simp only []
  rw [h3]
  simp only []
  rw [h4]

/-- Reading the text of `dumpText` back into any index: the documents are
assigned to the document table, the postings are added to the terms, and only
white space is left of the input. -/
theorem loadFrom_dump (idx i : Index) (n0 : List Char) (rest : List (Nat × List Char))
    (hdocs : idx.pDocuments = (0, n0) :: rest)
    (hrest : ∀ e ∈ rest, e.1 ≠ 0 ∧ e.1 < 2 ^ 64 ∧ FileToken e.2)
    (hterms : ∀ e ∈ idx.pIndex, FileToken e.1 ∧ e.2.pCount = e.2.pPostings.length ∧
      e.2.pPostings.length < 2 ^ 31 ∧ ∀ p ∈ e.2.pPostings, p < 2 ^ 64)
    (hsize : rest.length < 2 ^ 31 ∧ idx.pIndex.length < 2 ^ 31) :
    ∃ ws1, (∀ x ∈ ws1, isSpace x = true) ∧
      i.loadFrom idx.dumpText = Outcome.ok (some
        ({ pFreeDocId := (rest.foldl (fun a e => max a e.1) 0 + 1) % 2 ^ 64,
           pIndex := idx.pIndex.foldl termStep i.pIndex,
           pDocuments := rest.foldl (fun m e => mapAssign m e.1 e.2) i.pDocuments }, ws1)) := by
  obtain ⟨ws2, hws2, hterm⟩ := loadTerms_dump idx.pIndex ['\n'] [] 0 i.pIndex
    (by intro x hx; rw [List.mem_singleton.1 hx]; decide) hterms (by omega)
  obtain ⟨ws1, hws1, hdoc⟩ := loadDocuments_dump rest ['\n']
    (putNat idx.pIndex.length ++ '\n' :: (dumpTerms idx.pIndex ++ [])) 0 i.pDocuments 0
    (by intro x hx; rw [List.mem_singleton.1 hx]; decide) hrest (by omega)
  refine ⟨ws2, hws2, ?_⟩
  have hcount : (idx.pDocuments.length + 2 ^ 64 - 1) % 2 ^ 64 = rest.length := by
    rw [hdocs, List.length_cons]
    have : rest.length + 1 + 2 ^ 64 - 1 = rest.length + 2 ^ 64 := by omega
    rw [this, Nat.add_mod_right]
    exact Nat.mod_eq_of_lt (by omega)
  have htext : idx.dumpText = [] ++ putNat rest.length ++ '\n' :: (dumpDocuments rest ++
      (putNat idx.pIndex.length ++ '\n' :: (dumpTerms idx.pIndex ++ []))) := by
    unfold Index.dumpText
    rw [hcount, hdocs, dumpDocuments]
    simp
  have hn1 := getNat_putNat [] rest.length '\n' (dumpDocuments rest ++
      (putNat idx.pIndex.length ++ '\n' :: (dumpTerms idx.pIndex ++ [])))
    (by simp) (by omega) (by decide)
  have hn2 := getNat_putNat ws1 idx.pIndex.length '\n' (dumpTerms idx.pIndex ++ [])
    hws1 (by omega) (by decide)
  have hdoc2 : loadDocuments rest.length 0 ('\n' :: (dumpDocuments rest ++
      (putNat idx.pIndex.length ++ '\n' :: (dumpTerms idx.pIndex ++ [])))) i.pDocuments 0
      = Outcome.ok (some (ws1 ++ putNat idx.pIndex.length ++ '\n' :: (dumpTerms idx.pIndex ++ []),
          rest.foldl (fun m e => mapAssign m e.1 e.2) i.pDocuments,
          rest.foldl (fun a e => max a e.1) 0)) := by
    simpa using hdoc
  have hterm2 : loadTerms idx.pIndex.length 0 ('\n' :: (dumpTerms idx.pIndex ++ [])) i.pIndex
      = Outcome.ok (some (ws2, idx.pIndex.foldl termStep i.pIndex)) := by
    simpa using hterm
  rw [htext]
  exact loadFrom_eq i _ _ _ _ _ _ _ _ _ _ hn1 hdoc2 hn2 hterm2

/-- Assigning documents with ascending keys above those of the table appends
them. -/
theorem foldl_mapAssign_sorted (rest : List (Nat × List Char)) :
    ∀ acc : List (Nat × List Char), ((acc ++ rest).map Prod.fst).Pairwise (fun a b => a < b) →
      rest.foldl (fun m e => mapAssign m e.1 e.2) acc = acc ++ rest := by
  induction rest with
  | nil => intro acc _; simp
  | cons e rest ih =>
    intro acc h
    have habove : ∀ x ∈ acc, x.1 < e.1 := by
      intro x hx
      rw [List.map_append, List.pairwise_append] at h
      exact h.2.2 x.1 (List.mem_map_of_mem _ hx) e.1 (by simp)
    rw [List.foldl_cons, mapAssign_above acc e.1 e.2 habove]
    have h2 : acc ++ [(e.1, e.2)] ++ rest = acc ++ e :: rest := by simp
    rw [ih (acc ++ [(e.1, e.2)]) (by rw [h2]; exact h), h2]

/-- Reading the line of a term that the entries do not hold yet appends the
term with the data that `addPosting` builds. -/
theorem termStep_fresh (m : List (List Char × TermData)) (e : List Char × TermData)
    (h : ∀ x ∈ m, x.1 ≠ e.1) :
    termStep m e = m ++ [(e.1, e.2.pPostings.foldl TermData.addPosting {})] := by
  have hfind : m.find? (fun x => decide (x.1 = e.1)) = none := by
    rw [List.find?_eq_none]
    intro x hx
    simpa using h x hx
  unfold termStep dictSet dictSlot dictGet
  rw [hfind]
  simp only [List.map_append, List.map_cons, List.map_nil, if_true]
  congr 1
  rw [List.map_congr_left (g := id)]
  · simp
  · intro x hx
    simp [h x hx]

/-- Reading the lines of terms that are pairwise different and not among the
entries appends them, when the data of each is what `addPosting` builds. -/
theorem foldl_termStep_fresh (es : List (List Char × TermData)) :
    ∀ acc : List (List Char × TermData), ((acc ++ es).map Prod.fst).Nodup →
      (∀ e ∈ es, e.2.pPostings.foldl TermData.addPosting {} = e.2) →
      es.foldl termStep acc = acc ++ es := by
  induction es with
  | nil => intro acc _ _; simp
  | cons e es ih =>
    intro acc hn hb
    have hfresh : ∀ x ∈ acc, x.1 ≠ e.1 := by
      intro x hx heq
      rw [List.map_append, List.nodup_append] at hn
      have h1 : x.1 ∈ acc.map Prod.fst := List.mem_map_of_mem Prod.fst hx
      have h2 : x.1 ∈ (e :: es).map Prod.fst := by
        rw [heq]; exact List.mem_map_of_mem Prod.fst (List.mem_cons_self e es)
      exact hn.2.2 h1 h2
    rw [List.foldl_cons, termStep_fresh acc e hfresh, hb e (by simp)]
    have h2 : acc ++ [(e.1, e.2)] ++ es = acc ++ e :: es := by simp
    rw [ih (acc ++ [(e.1, e.2)]) (by rw [h2]; exact hn) (fun x hx => hb x (by simp [hx])), h2]

/-- C22, counterexample: the index that `load` of the text `1\n0 foo\n0\n`
leaves in a freshly constructed index has the document table `{0 -> foo}`: its
only name is a non-empty token without white space and it has no terms.  Its
dump is `0\n0\n`, and loading that into a freshly constructed index gives the
document table `{0 -> ""}`, not the same table. -/
theorem round_trip_loses_sentinel_name :
    ({} : Index).load (Except.ok "1\n0 foo\n0\n".toList)
      = Outcome.ok ({}, ⟨1, [], [(0, "foo".toList)]⟩) ∧
    (∀ e ∈ (⟨1, [], [(0, "foo".toList)]⟩ : Index).pDocuments, FileToken e.2) ∧
    (⟨1, [], [(0, "foo".toList)]⟩ : Index).dumpText = "0\n0\n".toList ∧
    ({} : Index).load (Except.ok (⟨1, [], [(0, "foo".toList)]⟩ : Index).dumpText)
      = Outcome.ok ({}, ⟨1, [], [(0, [])]⟩) ∧
    (⟨1, [], [(0, [])]⟩ : Index).pDocuments ≠ (⟨1, [], [(0, "foo".toList)]⟩ : Index).pDocuments := by
  decide

/-- C22, amended: for every index whose document table starts with the
sentinel entry `(0, "")`, whose other document names and whose terms are
non-empty tokens without white space, and which is in the bounds of
`Index.Storable` (ascending 64-bit docids, pairwise different terms, term data
as `addPosting` builds it, fewer than `2^31` documents, terms and postings of a
term), loading the text that `dump` writes into a freshly constructed index
succeeds and gives the same document table and the same entries of terms, with
the same posting list and the same `numPostings` for every term. -/
theorem dump_load_round_trip (idx : Index) (h : idx.Storable) :
    ∃ i, ({} : Index).load (Except.ok idx.dumpText) = Outcome.ok ({}, i) ∧
      (idx.dump none).2 = some idx.dumpText ∧
      i.pDocuments = idx.pDocuments ∧ i.pIndex = idx.pIndex ∧
      (∀ term, i.find term = idx.find term) ∧
      (∀ term d, i.find term = some d → idx.find term = some d ∧
        (∃ d0, idx.find term = some d0 ∧ d.getPostings = d0.getPostings ∧
          d.numPostings = d0.numPostings)) := by
  obtain ⟨hhead, hkeys, hdoc, hnodup, hdata, hsz1, hsz2⟩ := h
  cases hd : idx.pDocuments with
  | nil => rw [hd] at hhead; cases hhead
  | cons e0 rest =>
    rw [hd] at hhead
    have he0 : e0 = (0, []) := by simpa using hhead
    subst he0
    have hrest : ∀ e ∈ rest, e.1 ≠ 0 ∧ e.1 < 2 ^ 64 ∧ FileToken e.2 := by
      intro e he
      have hmem : e ∈ idx.pDocuments := by rw [hd]; simp [he]
      have hpos : 0 < e.1 := by
        rw [hd, List.map_cons, List.pairwise_cons] at hkeys
        exact hkeys.1 e.1 (List.mem_map_of_mem _ he)
      exact ⟨by omega, (hdoc e hmem).1, (hdoc e hmem).2 (by omega)⟩
    obtain ⟨ws1, _, hload⟩ := loadFrom_dump idx {} [] rest hd hrest
      (fun e he => ⟨(hdata e he).1, (hdata e he).2.1, (hdata e he).2.2.2.1,
        (hdata e he).2.2.2.2⟩)
      ⟨by rw [hd, List.length_cons] at hsz1; omega, hsz2⟩
    have hdocs2 : rest.foldl (fun m e => mapAssign m e.1 e.2) ({} : Index).pDocuments
        = (0, []) :: rest :=
      foldl_mapAssign_sorted rest [(0, [])] (by rw [hd] at hkeys; simpa using hkeys)
    have hterms2 : idx.pIndex.foldl termStep ({} : Index).pIndex = idx.pIndex := by
      have := foldl_termStep_fresh idx.pIndex [] (by simpa using hnodup)
        (fun e he => (hdata e he).2.2.1)
      simpa using this
    rw [hdocs2, hterms2] at hload
    refine ⟨_, load_of_loadFrom _ _ _ _ hload, rfl, rfl, rfl, fun _ => rfl, fun term d hf => ?_⟩
    exact ⟨hf, d, hf, rfl, rfl⟩

/-- Instance of `dump_load_round_trip`: the index of the "build and query"
scenario. -/
theorem dump_load_round_trip_witness :
    scenarioIndex.Storable ∧
    scenarioIndex.dumpText
      = "3\n1 a.txt\n2 b.txt\n3 c.txt\n3\ncat 2 1 3 \ndog 2 1 2 \nfish 2 2 3 \n".toList ∧
    ∃ i, ({} : Index).load (Except.ok scenarioIndex.dumpText) = Outcome.ok ({}, i) ∧
      i.pDocuments = scenarioIndex.pDocuments ∧ i.pIndex = scenarioIndex.pIndex :=
  ⟨by decide, by decide,
    (dump_load_round_trip scenarioIndex (by decide)).imp
      (fun _ h => ⟨h.1, h.2.2.1, h.2.2.2.1⟩)⟩

/-- A successful `loadFrom` taken apart into its four parts. -/
theorem loadFrom_ok_inv (i : Index) (content : List Char) (i1 : Index) (r : List Char)
    (h : i.loadFrom content = Outcome.ok (some (i1, r))) :
    ∃ numDocs in1 in2 docs free numTerms in3 dict,
      getNat content = some (numDocs, in1) ∧
      loadDocuments numDocs 0 in1 i.pDocuments 0 = Outcome.ok (some (in2, docs, free)) ∧
      getNat in2 = some (numTerms, in3) ∧
      loadTerms numTerms 0 in3 i.pIndex = Outcome.ok (some (r, dict)) ∧
      i1 = { pFreeDocId := (free + 1) % 2 ^ 64, pIndex := dict, pDocuments := docs } := by
  unfold Index.loadFrom at h
  cases h1 : getNat content with
  | none => rw [h1] at h; cases h
  | some x1 =>
    obtain ⟨numDocs, in1⟩ := x1
    rw [h1] at h
    simp only [] at h
    cases h2 : loadDocuments numDocs 0 in1 i.pDocuments 0 with
    | fault => rw [h2] at h; cases h
    | outOfFuel => rw [h2] at h; cases h
    | ok o2 =>
      cases o2 with
      | none => rw [h2] at h; cases h
      | some x2 =>
        obtain ⟨in2, docs, free⟩ := x2
        rw [h2] at h
        simp only [] at h
        cases h3 : getNat in2 with
        | none => rw [h3] at h; cases h
        | some x3 =>
          obtain ⟨numTerms, in3⟩ := x3
          rw [h3] at h
          simp only [] at h
          cases h4 : loadTerms numTerms 0 in3 i.pIndex with
          | fault => rw [h4] at h; cases h
          | outOfFuel => rw [h4] at h; cases h
          | ok o4 =>
            cases o4 with
            | none => rw [h4] at h; cases h
            | some x4 =>
              obtain ⟨in4, dict⟩ := x4
              rw [h4] at h
              simp only [] at h
              have h5 := Prod.mk.inj (Option.some.inj (Outcome.ok.inj h))
              exact ⟨numDocs, in1, in2, docs, free, numTerms, in3, dict, rfl, h2, h3,
                by rw [← h5.2]; exact h4, h5.1.symm⟩

/-- The two ways in which `load` returns on the text of a file: with success
and what `loadFrom` gives, or with the status of a corrupted file and the
index that `cleanUp` leaves. -/
theorem load_inv (i : Index) (content : List Char) (st : Status) (i1 : Index)
    (h : i.load (Except.ok content) = Outcome.ok (st, i1)) :
    (st = {} ∧ ∃ r, i.loadFrom content = Outcome.ok (some (i1, r))) ∨
    (st = fileCorrupted ∧ i1 = i.cleanUp ∧ i.loadFrom content = Outcome.ok none) := by
  unfold Index.load at h
  simp only [] at h
  cases h1 : i.loadFrom content with
  | fault => rw [h1] at h; cases h
  | outOfFuel => rw [h1] at h; cases h
  | ok o =>
    cases o with
    | none =>
      rw [h1] at h
      have h5 := Prod.mk.inj (Outcome.ok.inj h)
      exact Or.inr ⟨h5.1.symm, h5.2.symm, rfl⟩
    | some x =>
      obtain ⟨i2, r⟩ := x
      rw [h1] at h
      have h5 := Prod.mk.inj (Outcome.ok.inj h)
      exact Or.inl ⟨h5.1.symm, r, by rw [h5.2]⟩

/-- The documents loop assigns the pairs it reads and takes the maximum of
their docids. -/
theorem loadDocuments_pairs (n : Nat) : ∀ (i : Nat) (inp : List Char)
    (docs : List (Nat × List Char)) (free : Nat) (inp1 : List Char)
    (docs1 : List (Nat × List Char)) (free1 : Nat),
    loadDocuments n i inp docs free = Outcome.ok (some (inp1, docs1, free1)) →
    ∃ pairs, readPairs n inp = some (pairs, inp1) ∧ pairs.length = n ∧
      docs1 = pairs.foldl (fun m e => mapAssign m e.1 e.2) docs ∧
      free1 = pairs.foldl (fun a e => max a e.1) free ∧ ∀ e ∈ pairs, e.1 < 2 ^ 64 := by
  induction n with
  | zero =>
    intro i inp docs free inp1 docs1 free1 h
    rw [loadDocuments] at h
    have h5 := Prod.mk.inj (Option.some.inj (Outcome.ok.inj h))
    have h6 := Prod.mk.inj h5.2
    exact ⟨[], by rw [readPairs, h5.1], rfl, h6.1.symm, h6.2.symm, by simp⟩
  | succ n ih =>
    intro i inp docs free inp1 docs1 free1 h
    rw [loadDocuments] at h
    cases h1 : getNat inp with
    | none => rw [h1] at h; cases h
    | some x1 =>
      obtain ⟨id, in1⟩ := x1
      rw [h1] at h
      simp only [] at h
      cases h2 : getWord in1 with
      | none => rw [h2] at h; cases h
      | some x2 =>
        obtain ⟨doc, in2⟩ := x2
        rw [h2] at h
        simp only [] at h
        by_cases hi : i + 1 < 2 ^ 31
        · rw [if_pos hi] at h
          obtain ⟨pairs, hp1, hp2, hp3, hp4, hp5⟩ := ih _ _ _ _ _ _ _ h
          refine ⟨(id, doc) :: pairs, ?_, by simp [hp2], hp3, hp4, ?_⟩
          · rw [readPairs, h1]
            simp only []
            rw [h2]
            simp only []
            rw [hp1]
          · intro e he
            rcases List.mem_cons.1 he with rfl | he
            · exact getNat_lt _ _ _ h1
            · exact hp5 e he
        · rw [if_neg hi] at h; cases h

/-- Every element is at most the maximum that `foldl max` computes, and so is
the start value. -/
theorem le_foldl_max (l : List Nat) : ∀ a, a ≤ l.foldl max a ∧ ∀ x ∈ l, x ≤ l.foldl max a := by
  induction l with
  | nil => intro a; simp
  | cons b l ih =>
    intro a
    have h := ih (max a b)
    refine ⟨le_trans (le_max_left a b) h.1, ?_⟩
    intro x hx
    rcases List.mem_cons.1 hx with rfl | hx
    · exact le_trans (le_max_right a x) h.1
    · exact h.2 x hx

/-- The maximum that `foldl max` computes is below a bound that the start
value and all elements are below. -/
theorem foldl_max_lt (l : List Nat) (b : Nat) : ∀ a, a < b → (∀ x ∈ l, x < b) →
    l.foldl max a < b := by
  induction l with
  | nil => intro a ha _; exact ha
  | cons c l ih =>
    intro a ha hl
    exact ih (max a c) (max_lt ha (hl c (by simp))) (fun x hx => hl x (by simp [hx]))

/-- C24, counterexample: `load` of the text
`2\n0 a\n18446744073709551615 b\n0\n` into a freshly constructed index
succeeds; the maximum docid read is `2^64 - 1`, the next-free docid is 0 and
not 1 + that maximum, and the next `registerDocument` returns 0, the docid of
the loaded document `a`. -/
theorem load_next_free_wraps :
    ({} : Index).load (Except.ok "2\n0 a\n18446744073709551615 b\n0\n".toList)
      = Outcome.ok ({}, ⟨0, [], [(0, "a".toList), (18446744073709551615, "b".toList)]⟩) ∧
    (18446744073709551615 : Nat) = 2 ^ 64 - 1 ∧
    (⟨0, [], [(0, "a".toList), (18446744073709551615, "b".toList)]⟩ : Index).pFreeDocId
      ≠ 1 + 18446744073709551615 ∧
    ((⟨0, [], [(0, "a".toList), (18446744073709551615, "b".toList)]⟩ :
      Index).registerDocument "c".toList).1 = 0 ∧
    (⟨0, [], [(0, "a".toList), (18446744073709551615, "b".toList)]⟩ :
      Index).getDocumentName 0 = "a".toList := by
  decide

/-- C24, amended: after every successful `load`, from every prior state, the
next-free docid is 1 + the maximum docid among the pairs read from the
document section of the file, computed in 64 bits, and 1 when the file
declares no documents; when that maximum is below `2^64 - 1` the next-free
docid is 1 + the maximum, the next `registerDocument` returns it, and it is
the docid of no pair read. -/
theorem load_next_free (i : Index) (content : List Char) (i1 : Index)
    (h : i.load (Except.ok content) = Outcome.ok ({}, i1)) :
    ∃ numDocs in1 pairs in2, getNat content = some (numDocs, in1) ∧
      readPairs numDocs in1 = some (pairs, in2) ∧ pairs.length = numDocs ∧
      i1.pFreeDocId = ((pairs.map Prod.fst).foldl max 0 + 1) % 2 ^ 64 ∧
      (numDocs = 0 → i1.pFreeDocId = 1) ∧
      ((pairs.map Prod.fst).foldl max 0 < 2 ^ 64 - 1 →
        i1.pFreeDocId = 1 + (pairs.map Prod.fst).foldl max 0 ∧
        (∀ name, (i1.registerDocument name).1 = 1 + (pairs.map Prod.fst).foldl max 0) ∧
        ∀ e ∈ pairs, e.1 ≠ i1.pFreeDocId) := by
  rcases load_inv i content _ i1 h with ⟨_, r, hload⟩ | ⟨hst, _, _⟩
  · obtain ⟨numDocs, in1, in2, docs, free, numTerms, in3, dict, h1, h2, _, _, hi1⟩ :=
      loadFrom_ok_inv i content i1 r hload
    obtain ⟨pairs, hp1, hp2, _, hp4, _⟩ := loadDocuments_pairs _ _ _ _ _ _ _ _ h2
    have hmax : free = (pairs.map Prod.fst).foldl max 0 := by
      rw [hp4, List.foldl_map]
    have hfree : i1.pFreeDocId = ((pairs.map Prod.fst).foldl max 0 + 1) % 2 ^ 64 := by
      rw [hi1, hmax]
    refine ⟨numDocs, in1, pairs, in2, h1, hp1, hp2, hfree, ?_, ?_⟩
    · intro h0
      rw [h0] at hp2
      have : pairs = [] := List.length_eq_zero.1 hp2
      rw [hfree, this]
      rfl
    · intro hlt
      have hval : i1.pFreeDocId = 1 + (pairs.map Prod.fst).foldl max 0 := by
        rw [hfree, Nat.mod_eq_of_lt (by omega)]; omega
      refine ⟨hval, fun name => hval, ?_⟩
      intro e he
      have := (le_foldl_max (pairs.map Prod.fst) 0).2 e.1 (List.mem_map_of_mem Prod.fst he)
      omega
  · have : (fileCorrupted : Status) ≠ {} := by decide
    exact absurd hst.symm this

/-- Instance of `load_next_free`: loading the text `2\n5 a\n3 b\n0\n` into the
index of the "build and query" scenario leaves 6 as next-free docid. -/
theorem load_next_free_witness :
    (∃ i1, scenarioIndex.load (Except.ok "2\n5 a\n3 b\n0\n".toList) = Outcome.ok ({}, i1) ∧
      i1.pFreeDocId = 6 ∧ (i1.registerDocument "c".toList).1 = 6) ∧
    ∃ numDocs in1 pairs in2, getNat "2\n5 a\n3 b\n0\n".toList = some (numDocs, in1) ∧
      readPairs numDocs in1 = some (pairs, in2) ∧ pairs.length = numDocs ∧
      (6 : Nat) = ((pairs.map Prod.fst).foldl max 0 + 1) % 2 ^ 64 :=
  ⟨⟨_, rfl, rfl, rfl⟩,
    (load_next_free scenarioIndex "2\n5 a\n3 b\n0\n".toList _ rfl).imp fun _ h =>
      h.imp fun _ h => h.imp fun _ h => h.imp fun _ h => ⟨h.1, h.2.1, h.2.2.1, h.2.2.2.1⟩⟩

/-- An entry of the map after an assignment is the assigned one or an entry
of the map before. -/
theorem mapAssign_mem (m : List (Nat × List Char)) (k : Nat) (v : List Char)
    (e : Nat × List Char) (h : e ∈ mapAssign m k v) : e = (k, v) ∨ e ∈ m := by
  induction m with
  | nil => left; simpa [mapAssign] using h
  | cons a m ih =>
    obtain ⟨k1, v1⟩ := a
    rw [mapAssign] at h
    by_cases h1 : k < k1
    · rw [if_pos h1] at h
      rcases List.mem_cons.1 h with h | h
      · exact Or.inl h
      · exact Or.inr h
    · rw [if_neg h1] at h
      by_cases h2 : k = k1
      · rw [if_pos h2] at h
        rcases List.mem_cons.1 h with h | h
        · exact Or.inl h
        · exact Or.inr (List.mem_cons_of_mem _ h)
      · rw [if_neg h2] at h
        rcases List.mem_cons.1 h with h | h
        · exact Or.inr (by rw [h]; simp)
        · rcases ih h with h | h
          · exact Or.inl h
          · exact Or.inr (List.mem_cons_of_mem _ h)

/-- An entry of the map after the assignment of pairs is an entry of the map
before or has the docid of one of the pairs. -/
theorem foldl_mapAssign_mem (pairs : List (Nat × List Char)) :
    ∀ (m : List (Nat × List Char)) (e : Nat × List Char),
    e ∈ pairs.foldl (fun m e => mapAssign m e.1 e.2) m → e ∈ m ∨ e ∈ pairs := by
  induction pairs with
  | nil => intro m e h; exact Or.inl h
  | cons p pairs ih =>
    intro m e h
    rcases ih _ e h with h | h
    · rcases mapAssign_mem m p.1 p.2 e h with h | h
      · exact Or.inr (by rw [h]; simp)
      · exact Or.inl h
    · exact Or.inr (List.mem_cons_of_mem _ h)

/-- Method `addPosting` changes neither the document table nor the next-free
docid. -/
theorem addPosting_documents (i : Index) (term : List Char) (d : Nat) :
    (i.addPosting term d).pDocuments = i.pDocuments ∧
    (i.addPosting term d).pFreeDocId = i.pFreeDocId := by
  unfold Index.addPosting
  cases i.find term <;> exact ⟨rfl, rfl⟩

/-- A `load` that does not return success leaves the index as it was when the
file cannot be opened, and as `cleanUp` leaves it otherwise. -/
theorem load_failed (i : Index) (file : Except (List Char) (List Char)) (st : Status)
    (i1 : Index) (h : i.load file = Outcome.ok (st, i1)) (hst : st ≠ {}) :
    (i1 = i ∧ ∃ msg, file = Except.error msg ∧ st = ⟨ errIO, msg⟩) ∨
    (i1 = {} ∧ st = fileCorrupted ∧ ∃ content, file = Except.ok content) := by
  cases file with
  | error msg =>
    left
    have h5 := Prod.mk.inj (Outcome.ok.inj h)
    exact ⟨h5.2.symm, msg, rfl, h5.1.symm⟩
  | ok content =>
    right
    rcases load_inv i content st i1 h with ⟨h1, _⟩ | ⟨h1, h2, _⟩
    · exact absurd h1 hst
    · exact ⟨h2, h1, content, rfl⟩

/-- C25, counterexample: after two calls of `registerDocument` on a freshly
constructed index, `load` of the text `0\n0\n` succeeds and leaves the
next-free docid 1, with the docids 1 and 2 in the document table; and `load`
of `1\n18446744073709551615 b\n0\n` into a freshly constructed index leaves
the next-free docid 0.  Both states are reachable and in neither is the
next-free docid above every docid of the document table. -/
theorem next_free_not_above_keys :
    Reachable ⟨1, [], [(0, []), (1, "a.txt".toList), (2, "b.txt".toList)]⟩ ∧
    ¬ (∀ e ∈ (⟨1, [], [(0, []), (1, "a.txt".toList), (2, "b.txt".toList)]⟩ : Index).pDocuments,
        e.1 < (⟨1, [], [(0, []), (1, "a.txt".toList), (2, "b.txt".toList)]⟩ : Index).pFreeDocId) ∧
    Reachable ⟨0, [], [(0, []), (18446744073709551615, "b".toList)]⟩ ∧
    ¬ (∀ e ∈ (⟨0, [], [(0, []), (18446744073709551615, "b".toList)]⟩ : Index).pDocuments,
        e.1 < (⟨0, [], [(0, []), (18446744073709551615, "b".toList)]⟩ : Index).pFreeDocId) :=
  ⟨Reachable.load
      ((({} : Index).registerDocument "a.txt".toList).2.registerDocument "b.txt".toList).2
      (Except.ok "0\n0\n".toList) {} _
      (Reachable.register _ _ (Reachable.register _ _ Reachable.fresh)) (by decide),
    by decide,
    Reachable.load {} (Except.ok "1\n18446744073709551615 b\n0\n".toList) {} _
      Reachable.fresh (by decide),
    by decide⟩

/-- C25, amended: in every state reached from a freshly constructed index
through `registerDocument` called while the next-free docid is below
`2^64 - 1`, `addPosting`, calls of `load` that fail, and calls of `load` that
succeed on a file whose maximum docid is below `2^64 - 1` and not below a
docid that the index holds before the call, the next-free docid is above every
docid of the document table. -/
theorem next_free_above_keys (i : Index) (h : ReachableInBounds i) :
    ∀ e ∈ i.pDocuments, e.1 < i.pFreeDocId := by
  induction h with
  | fresh => decide
  | register i name _ hb ih =>
    intro e he
    have hfree : (i.registerDocument name).2.pFreeDocId = i.pFreeDocId + 1 := by
      show (i.pFreeDocId + 1) % 2 ^ 64 = _
      exact Nat.mod_eq_of_lt (by omega)
    rw [hfree]
    have he2 : e ∈ mapAssign i.pDocuments i.pFreeDocId name := he
    rcases mapAssign_mem _ _ _ _ he2 with h1 | h1
    · rw [h1]; show i.pFreeDocId < _; omega
    · have := ih e h1; omega
  | addPosting i term d _ ih =>
    rw [(addPosting_documents i term d).1, (addPosting_documents i term d).2]
    exact ih
  | loadFailed i file st i1 _ hload hst ih =>
    rcases load_failed i file st i1 hload hst with ⟨h1, _⟩ | ⟨h1, _⟩
    · rw [h1]; exact ih
    · rw [h1]; decide
  | loadSucceeded i content i1 _ hload hfile _ =>
    rcases load_inv i content _ i1 hload with ⟨_, r, hfrom⟩ | ⟨hst, _, _⟩
    · obtain ⟨numDocs, in1, in2, docs, free, numTerms, in3, dict, h1, h2, _, _, hi1⟩ :=
        loadFrom_ok_inv i content i1 r hfrom
      obtain ⟨pairs, hp1, _, hp3, hp4, _⟩ := loadDocuments_pairs _ _ _ _ _ _ _ _ h2
      have hmax : free = (pairs.map Prod.fst).foldl max 0 := by rw [hp4, List.foldl_map]
      obtain ⟨hlt, hold⟩ := hfile numDocs in1 pairs in2 h1 hp1
      rw [← hmax] at hlt hold
      have hfree : i1.pFreeDocId = free + 1 := by
        have h0 : i1.pFreeDocId = (free + 1) % 2 ^ 64 := by rw [hi1]
        rw [h0]
        exact Nat.mod_eq_of_lt (by omega)
      intro e he
      rw [hfree]
      have he2 : e ∈ pairs.foldl (fun m e => mapAssign m e.1 e.2) i.pDocuments := by
        rw [← hp3, hi1] at *; exact he
      rcases foldl_mapAssign_mem pairs _ e he2 with h1 | h1
      · have := hold e h1; omega
      · have := (le_foldl_max (pairs.map Prod.fst) 0).2 e.1 (List.mem_map_of_mem Prod.fst h1)
        omega
    · have : (fileCorrupted : Status) ≠ {} := by decide
      exact absurd hst.symm this

/-- Instance of `next_free_above_keys`: one call of `registerDocument` and of
`addPosting`, a load of `2\n5 a\n3 b\n0\n` into the index that holds the
docid 1, and one more call of `registerDocument`. -/
theorem next_free_above_keys_witness :
    ReachableInBounds
      ⟨7, [("cat".toList, ⟨1, [1]⟩)],
        [(0, []), (1, "a.txt".toList), (3, "b".toList), (5, "a".toList), (6, "c".toList)]⟩ ∧
    ∀ e ∈ (⟨7, [("cat".toList, ⟨1, [1]⟩)],
        [(0, []), (1, "a.txt".toList), (3, "b".toList), (5, "a".toList), (6, "c".toList)]⟩ :
      Index).pDocuments, e.1 < 7 :=
  have hr : ReachableInBounds
      ⟨7, [("cat".toList, ⟨1, [1]⟩)],
        [(0, []), (1, "a.txt".toList), (3, "b".toList), (5, "a".toList), (6, "c".toList)]⟩ :=
    ReachableInBounds.register
      ⟨6, [("cat".toList, ⟨1, [1]⟩)],
        [(0, []), (1, "a.txt".toList), (3, "b".toList), (5, "a".toList)]⟩ "c".toList
      (ReachableInBounds.loadSucceeded
        ⟨2, [("cat".toList, ⟨1, [1]⟩)], [(0, []), (1, "a.txt".toList)]⟩
        "2\n5 a\n3 b\n0\n".toList _
        (ReachableInBounds.addPosting _ "cat".toList 1
          (ReachableInBounds.register _ "a.txt".toList ReachableInBounds.fresh (by decide)))
        (by decide)
        (by
          intro numDocs in1 pairs in2 h1 h2
          have h1b : some (numDocs, in1) = some (2, "\n5 a\n3 b\n0\n".toList) := by
            rw [← h1]; decide
          obtain ⟨rfl, rfl⟩ := Prod.mk.inj (Option.some.inj h1b)
          have h2b : some (pairs, in2)
              = some ([(5, "a".toList), (3, "b".toList)], "\n0\n".toList) := by
            rw [← h2]; decide
          obtain ⟨rfl, rfl⟩ := Prod.mk.inj (Option.some.inj h2b)
          decide))
      (by decide)
  ⟨hr, next_free_above_keys _ hr⟩

/-- An assignment keeps the docids of the map ascending. -/
theorem mapAssign_sorted (m : List (Nat × List Char)) (k : Nat) (v : List Char)
    (h : (m.map Prod.fst).Pairwise (fun a b => a < b)) :
    ((mapAssign m k v).map Prod.fst).Pairwise (fun a b => a < b) := by
  induction m with
  | nil => simp [mapAssign]
  | cons a m ih =>
    obtain ⟨k1, v1⟩ := a
    rw [List.map_cons, List.pairwise_cons] at h
    rw [mapAssign]
    by_cases h1 : k < k1
    · rw [if_pos h1, List.map_cons, List.pairwise_cons]
      refine ⟨?_, by rw [List.map_cons, List.pairwise_cons]; exact h⟩
      intro b hb
      rcases List.mem_cons.1 hb with hb | hb
      · rw [hb]; exact h1
      · have := h.1 b hb
        exact lt_trans h1 this
    · rw [if_neg h1]
      by_cases h2 : k = k1
      · rw [if_pos h2, List.map_cons, List.pairwise_cons]
        exact ⟨by intro b hb; rw [h2]; exact h.1 b hb, h.2⟩
      · rw [if_neg h2, List.map_cons, List.pairwise_cons]
        refine ⟨?_, ih h.2⟩
        intro b hb
        obtain ⟨e, he, rfl⟩ := List.mem_map.1 hb
        rcases mapAssign_mem m k v e he with he | he
        · rw [he]; show k1 < k; omega
        · exact h.1 e.1 (List.mem_map_of_mem Prod.fst he)

/-- An assignment keeps the shape of the document table. -/
theorem mapAssign_docsOk (m : List (Nat × List Char)) (k : Nat) (v : List Char)
    (h : DocsOk m) : DocsOk (mapAssign m k v) := by
  refine ⟨mapAssign_sorted m k v h.1, ?_⟩
  obtain ⟨n0, rest, rfl⟩ := h.2
  rw [mapAssign, if_neg (by omega)]
  by_cases h2 : k = 0
  · rw [if_pos h2]; exact ⟨v, rest, by rw [h2]⟩
  · rw [if_neg h2]; exact ⟨n0, _, rfl⟩

/-- An assignment to a docid other than 0 keeps the entry of docid 0. -/
theorem mapAssign_head (rest : List (Nat × List Char)) (n0 : List Char) (k : Nat)
    (v : List Char) (hk : k ≠ 0) :
    mapAssign ((0, n0) :: rest) k v = (0, n0) :: mapAssign rest k v := by
  rw [mapAssign, if_neg (by omega), if_neg hk]

/-- The assignment of pairs keeps the shape of the document table. -/
theorem foldl_mapAssign_docsOk (pairs : List (Nat × List Char)) :
    ∀ m : List (Nat × List Char), DocsOk m →
      DocsOk (pairs.foldl (fun m e => mapAssign m e.1 e.2) m) := by
  induction pairs with
  | nil => intro m h; exact h
  | cons p pairs ih => intro m h; exact ih _ (mapAssign_docsOk m p.1 p.2 h)

/-- The assignment of pairs without docid 0 keeps the entry of docid 0. -/
theorem foldl_mapAssign_head (pairs : List (Nat × List Char)) :
    ∀ (rest : List (Nat × List Char)) (n0 : List Char), (∀ e ∈ pairs, e.1 ≠ 0) →
      ∃ rest1, pairs.foldl (fun m e => mapAssign m e.1 e.2) ((0, n0) :: rest)
        = (0, n0) :: rest1 := by
  induction pairs with
  | nil => intro rest n0 _; exact ⟨rest, rfl⟩
  | cons p pairs ih =>
    intro rest n0 h
    rw [List.foldl_cons, mapAssign_head rest n0 p.1 p.2 (h p (by simp))]
    exact ih _ n0 (fun e he => h e (by simp [he]))

/-- In a table with ascending docids `find` gives the entry of a docid. -/
theorem find_of_mem_sorted (m : List (Nat × List Char)) (e : Nat × List Char)
    (h : (m.map Prod.fst).Pairwise (fun a b => a < b)) (he : e ∈ m) :
    m.find? (fun x => decide (x.1 = e.1)) = some e := by
  induction m with
  | nil => cases he
  | cons a m ih =>
    rw [List.map_cons, List.pairwise_cons] at h
    rw [List.find?_cons]
    by_cases ha : a.1 = e.1
    · have : decide (a.1 = e.1) = true := by simp [ha]
      rw [this]
      rcases List.mem_cons.1 he with he | he
      · rw [he]
      · have := h.1 e.1 (List.mem_map_of_mem Prod.fst he)
        omega
    · have : decide (a.1 = e.1) = false := by simp [ha]
      rw [this]
      rcases List.mem_cons.1 he with he | he
      · exact absurd (by rw [he]) ha
      · exact ih h.2 he

/-- Method `getDocumentName` on a table of the right shape: the name bound to
a docid of the table, and the name bound to docid 0 for every other docid. -/
theorem getDocumentName_docsOk (i : Index) (h : DocsOk i.pDocuments) :
    (∀ id name, (id, name) ∈ i.pDocuments → i.getDocumentName id = name) ∧
    (∀ id, (∀ e ∈ i.pDocuments, e.1 ≠ id) → i.getDocumentName id = i.getDocumentName 0) ∧
    (∀ n0 rest, i.pDocuments = (0, n0) :: rest → i.getDocumentName 0 = n0) := by
  have hzero : ∀ n0 rest, i.pDocuments = (0, n0) :: rest → i.getDocumentName 0 = n0 := by
    intro n0 rest hd
    unfold Index.getDocumentName
    rw [hd]
    simp
  refine ⟨?_, ?_, hzero⟩
  · intro id name hmem
    unfold Index.getDocumentName
    have := find_of_mem_sorted i.pDocuments (id, name) h.1 hmem
    simp only [] at this
    rw [this]
  · intro id hno
    obtain ⟨n0, rest, hd⟩ := h.2
    rw [hzero n0 rest hd]
    unfold Index.getDocumentName
    have hnone : i.pDocuments.find? (fun e => decide (e.1 = id)) = none := by
      rw [List.find?_eq_none]
      intro x hx
      simpa using hno x hx
    rw [hnone]
    simp only []
    rw [hd]
    simp

/-- The document table has the right shape in every reachable state. -/
theorem reachable_docsOk (i : Index) (h : Reachable i) : DocsOk i.pDocuments := by
  induction h with
  | fresh => exact ⟨by decide, [], [], rfl⟩
  | register i name _ ih => exact mapAssign_docsOk _ _ _ ih
  | addPosting i term d _ ih => rw [(addPosting_documents i term d).1]; exact ih
  | load i file st i1 _ hload ih =>
    cases file with
    | error msg =>
      have h5 := Prod.mk.inj (Outcome.ok.inj hload)
      rw [← h5.2]; exact ih
    | ok content =>
      rcases load_inv i content st i1 hload with ⟨_, r, hfrom⟩ | ⟨_, h2, _⟩
      · obtain ⟨numDocs, in1, in2, docs, free, numTerms, in3, dict, _, h2, _, _, hi1⟩ :=
          loadFrom_ok_inv i content i1 r hfrom
        obtain ⟨pairs, _, _, hp3, _, _⟩ := loadDocuments_pairs _ _ _ _ _ _ _ _ h2
        rw [hi1]
        show DocsOk docs
        rw [hp3]
        exact foldl_mapAssign_docsOk pairs _ ih
      · rw [h2]
        show DocsOk [(0, [])]
        exact ⟨by decide, [], [], rfl⟩

/-- The restricted states are reachable states. -/
theorem reachable_of_keepingSentinel (i : Index) (h : ReachableKeepingSentinel i) :
    Reachable i := by
  induction h with
  | fresh => exact Reachable.fresh
  | register i name _ _ ih => exact Reachable.register i name ih
  | addPosting i term d _ ih => exact Reachable.addPosting i term d ih
  | loadFailed i file st i1 _ hload _ ih => exact Reachable.load i file st i1 ih hload
  | loadSucceeded i content i1 _ hload _ ih => exact Reachable.load i _ _ i1 ih hload

/-- In the restricted states the entry of docid 0 holds the empty name. -/
theorem keepingSentinel_head (i : Index) (h : ReachableKeepingSentinel i) :
    ∃ rest, i.pDocuments = (0, []) :: rest := by
  induction h with
  | fresh => exact ⟨[], rfl⟩
  | register i name _ hne ih =>
    obtain ⟨rest, hd⟩ := ih
    refine ⟨mapAssign rest i.pFreeDocId name, ?_⟩
    show mapAssign i.pDocuments i.pFreeDocId name = _
    rw [hd, mapAssign_head rest [] _ _ hne]
  | addPosting i term d _ ih => rw [(addPosting_documents i term d).1]; exact ih
  | loadFailed i file st i1 _ hload hst ih =>
    rcases load_failed i file st i1 hload hst with ⟨h1, _⟩ | ⟨h1, _⟩
    · rw [h1]; exact ih
    · rw [h1]; exact ⟨[], rfl⟩
  | loadSucceeded i content i1 _ hload hzero ih =>
    rcases load_inv i content _ i1 hload with ⟨_, r, hfrom⟩ | ⟨hst, _, _⟩
    · obtain ⟨numDocs, in1, in2, docs, free, numTerms, in3, dict, h1, h2, _, _, hi1⟩ :=
        loadFrom_ok_inv i content i1 r hfrom
      obtain ⟨pairs, hp1, _, hp3, _, _⟩ := loadDocuments_pairs _ _ _ _ _ _ _ _ h2
      obtain ⟨rest, hd⟩ := ih
      obtain ⟨rest1, hr⟩ := foldl_mapAssign_head pairs rest [] (hzero _ _ _ _ h1 hp1)
      refine ⟨rest1, ?_⟩
      rw [hi1]
      show docs = _
      rw [hp3, hd, hr]
    · have : (fileCorrupted : Status) ≠ {} := by decide
      exact absurd hst.symm this

/-- C27, counterexample: `load` of the text `1\n0 foo\n0\n` into a freshly
constructed index succeeds and binds docid 0 to `foo`; in the state it leaves,
a reachable state, 7 is not a docid of the document table and
`getDocumentName(7)` returns `foo`, not the empty string. -/
theorem getDocumentName_unknown_not_empty :
    Reachable ⟨1, [], [(0, "foo".toList)]⟩ ∧
    (∀ e ∈ (⟨1, [], [(0, "foo".toList)]⟩ : Index).pDocuments, e.1 ≠ 7) ∧
    (⟨1, [], [(0, "foo".toList)]⟩ : Index).getDocumentName 7 = "foo".toList ∧
    "foo".toList ≠ [] :=
  ⟨Reachable.load {} (Except.ok "1\n0 foo\n0\n".toList) {} _ Reachable.fresh (by decide),
    by decide, by decide, by decide⟩

/-- C27, amended: in every state reachable through `registerDocument`,
`addPosting` and `load` the document table holds an entry of docid 0 (so the
look-up that `getDocumentName` falls back on does not fail),
`getDocumentName(id)` returns the name bound to `id` when `id` is a docid of
the table, and the name bound to docid 0 when it is not; that name is the
empty string in every state reached without a call of `registerDocument` at
next-free docid 0 and without the load of a file that binds docid 0. -/
theorem getDocumentName_spec :
    (∀ i, Reachable i →
      (∃ n0 rest, i.pDocuments = (0, n0) :: rest) ∧
      (∀ id name, (id, name) ∈ i.pDocuments → i.getDocumentName id = name) ∧
      (∀ id, (∀ e ∈ i.pDocuments, e.1 ≠ id) → i.getDocumentName id = i.getDocumentName 0)) ∧
    (∀ i, ReachableKeepingSentinel i →
      Reachable i ∧ i.getDocumentName 0 = [] ∧
      ∀ id, (∀ e ∈ i.pDocuments, e.1 ≠ id) → i.getDocumentName id = []) := by
  refine ⟨fun i h => ?_, fun i h => ?_⟩
  · have hd := reachable_docsOk i h
    have hg := getDocumentName_docsOk i hd
    exact ⟨hd.2, hg.1, hg.2.1⟩
  · have hr := reachable_of_keepingSentinel i h
    have hg := getDocumentName_docsOk i (reachable_docsOk i hr)
    obtain ⟨rest, hd⟩ := keepingSentinel_head i h
    have h0 := hg.2.2 [] rest hd
    exact ⟨hr, h0, fun id hid => by rw [hg.2.1 id hid, h0]⟩

/-- Instance of `getDocumentName_spec`: after the load of `2\n5 a\n3 b\n0\n`
and one call of `registerDocument`, docid 5 is bound to `a` and the unknown
docid 4 gives the empty string. -/
theorem getDocumentName_spec_witness :
    ReachableKeepingSentinel
      ⟨7, [], [(0, []), (3, "b".toList), (5, "a".toList), (6, "c".toList)]⟩ ∧
    (⟨7, [], [(0, []), (3, "b".toList), (5, "a".toList), (6, "c".toList)]⟩ :
      Index).getDocumentName 5 = "a".toList ∧
    (⟨7, [], [(0, []), (3, "b".toList), (5, "a".toList), (6, "c".toList)]⟩ :
      Index).getDocumentName 4 = [] :=
  have hr : ReachableKeepingSentinel
      ⟨7, [], [(0, []), (3, "b".toList), (5, "a".toList), (6, "c".toList)]⟩ :=
    ReachableKeepingSentinel.register ⟨6, [], [(0, []), (3, "b".toList), (5, "a".toList)]⟩
      "c".toList
      (ReachableKeepingSentinel.loadSucceeded {} "2\n5 a\n3 b\n0\n".toList _
        ReachableKeepingSentinel.fresh (by decide)
        (by
          intro numDocs in1 pairs in2 h1 h2
          have h1b : some (numDocs, in1) = some (2, "\n5 a\n3 b\n0\n".toList) := by
            rw [← h1]; decide
          obtain ⟨rfl, rfl⟩ := Prod.mk.inj (Option.some.inj h1b)
          have h2b : some (pairs, in2)
              = some ([(5, "a".toList), (3, "b".toList)], "\n0\n".toList) := by
            rw [← h2]; decide
          obtain ⟨rfl, rfl⟩ := Prod.mk.inj (Option.some.inj h2b)
          decide))
      (by decide)
  ⟨hr,
    (getDocumentName_spec.1 _ (reachable_of_keepingSentinel _ hr)).2.1 5 "a".toList (by decide),
    (getDocumentName_spec.2 _ hr).2.2 4 (by decide)⟩

/-- A documents loop that does not fail on a read is not changed by more
input behind. -/
theorem loadDocuments_append (q : List Char) (n : Nat) : ∀ (i : Nat) (inp : List Char)
    (docs : List (Nat × List Char)) (free : Nat),
    loadDocuments n i inp docs free ≠ Outcome.ok none →
    loadDocuments n i (inp ++ q) docs free = extendRest q (loadDocuments n i inp docs free) := by
  induction n with
  | zero => intro i inp docs free _; rfl
  | succ n ih =>
    intro i inp docs free h
    rw [loadDocuments] at h ⊢
    cases h1 : getNat inp with
    | none => rw [h1] at h; exact absurd rfl h
    | some x1 =>
      obtain ⟨id, in1⟩ := x1
      rw [h1] at h
      rw [getNat_append inp q id in1 h1]
      simp only [] at h ⊢
      cases h2 : getWord in1 with
      | none => rw [h2] at h; exact absurd rfl h
      | some x2 =>
        obtain ⟨doc, in2⟩ := x2
        rw [h2] at h
        rw [getWord_append in1 q doc in2 h2]
        simp only [] at h ⊢
        by_cases hi : i + 1 < 2 ^ 31
        · rw [if_pos hi] at h ⊢
          rw [ih _ _ _ _ h, loadDocuments, h1]
          simp only []
          rw [h2]
          simp only []
          rw [if_pos hi]
        · rw [if_neg hi, loadDocuments, h1]
          simp only []
          rw [h2]
          simp only []
          rw [if_neg hi]
          rfl

/-- A postings loop that does not fail on a read is not changed by more input
behind. -/
theorem loadPostings_append (q : List Char) (n : Nat) : ∀ (k : Nat) (inp : List Char)
    (d : TermData), loadPostings n k inp d ≠ Outcome.ok none →
    loadPostings n k (inp ++ q) d = extendRest q (loadPostings n k inp d) := by
  induction n with
  | zero => intro k inp d _; rfl
  | succ n ih =>
    intro k inp d h
    rw [loadPostings] at h ⊢
    cases h1 : getNat inp with
    | none => rw [h1] at h; exact absurd rfl h
    | some x1 =>
      obtain ⟨id, in1⟩ := x1
      rw [h1] at h
      rw [getNat_append inp q id in1 h1]
      simp only [] at h ⊢
      by_cases hk : k + 1 < 2 ^ 31
      · rw [if_pos hk] at h ⊢
        rw [ih _ _ _ h, loadPostings, h1]
        simp only []
        rw [if_pos hk]
      · rw [if_neg hk, loadPostings, h1]
        simp only []
        rw [if_neg hk]
        rfl

/-- A terms loop that does not fail on a read is not changed by more input
behind. -/
theorem loadTerms_append (q : List Char) (n : Nat) : ∀ (i : Nat) (inp : List Char)
    (m : List (List Char × TermData)), loadTerms n i inp m ≠ Outcome.ok none →
    loadTerms n i (inp ++ q) m = extendRest q (loadTerms n i inp m) := by
  induction n with
  | zero => intro i inp m _; rfl
  | succ n ih =>
    intro i inp m h
    rw [loadTerms] at h ⊢
    cases h1 : getWord inp with
    | none => rw [h1] at h; exact absurd rfl h
    | some x1 =>
      obtain ⟨term, in1⟩ := x1
      rw [h1] at h
      rw [getWord_append inp q term in1 h1]
      simp only [] at h ⊢
      cases h2 : getNat in1 with
      | none => rw [h2] at h; exact absurd rfl h
      | some x2 =>
        obtain ⟨np, in2⟩ := x2
        rw [h2] at h
        rw [getNat_append in1 q np in2 h2]
        simp only [] at h ⊢
        have hp : loadPostings np 0 in2 (dictGet m term) ≠ Outcome.ok none := by
          intro h0; rw [h0] at h; exact h rfl
        rw [loadPostings_append q np 0 in2 _ hp]
        have hself : loadTerms (n + 1) i inp m
            = (match loadPostings np 0 in2 (dictGet m term) with
              | Outcome.ok (some (in3, d)) =>
                if i + 1 < 2 ^ 31 then loadTerms n (i + 1) in3 (dictSet (dictSlot m term) term d)
                else Outcome.fault
              | Outcome.ok none => Outcome.ok none
              | Outcome.fault => Outcome.fault
              | Outcome.outOfFuel => Outcome.outOfFuel) := by
          rw [loadTerms, h1]
          simp only []
          rw [h2]
        rw [hself]
        cases h3 : loadPostings np 0 in2 (dictGet m term) with
        | fault => rfl
        | outOfFuel => rfl
        | ok o =>
          cases o with
          | none => exact absurd h3 hp
          | some x3 =>
            obtain ⟨in3, d⟩ := x3
            rw [h3] at h
            have hl : extendRest q (Outcome.ok (some (in3, d)) :
                Outcome (Option (List Char × TermData))) = Outcome.ok (some (in3 ++ q, d)) := rfl
            rw [hl]
            simp only [] at h ⊢
            by_cases hi : i + 1 < 2 ^ 31
            · simp only [if_pos hi] at h ⊢
              exact ih _ _ _ h
            · simp only [if_neg hi]
              rfl

/-- A `loadFrom` that does not fail on a read is not changed by more input
behind: the index is the same and the input left is longer. -/
theorem loadFrom_append (q : List Char) (i : Index) (content : List Char)
    (h : i.loadFrom content ≠ Outcome.ok none) :
    i.loadFrom (content ++ q)
      = (match i.loadFrom content with
        | Outcome.ok (some (i1, r)) => Outcome.ok (some (i1, r ++ q))
        | x => x) := by
  unfold Index.loadFrom at h ⊢
  cases h1 : getNat content with
  | none => rw [h1] at h; exact absurd rfl h
  | some x1 =>
    obtain ⟨numDocs, in1⟩ := x1
    rw [h1] at h
    rw [getNat_append content q numDocs in1 h1]
    simp only [] at h ⊢
    have hd : loadDocuments numDocs 0 in1 i.pDocuments 0 ≠ Outcome.ok none := by
      intro h0; rw [h0] at h; exact h rfl
    rw [loadDocuments_append q numDocs 0 in1 _ _ hd]
    cases h2 : loadDocuments numDocs 0 in1 i.pDocuments 0 with
    | fault => rfl
    | outOfFuel => rfl
    | ok o =>
      cases o with
      | none => exact absurd h2 hd
      | some x2 =>
        obtain ⟨in2, docs, free⟩ := x2
        rw [h2] at h
        simp only [extendRest] at h ⊢
        cases h3 : getNat in2 with
        | none => rw [h3] at h; exact absurd rfl h
        | some x3 =>
          obtain ⟨numTerms, in3⟩ := x3
          rw [h3] at h
          rw [getNat_append in2 q numTerms in3 h3]
          simp only [] at h ⊢
          have ht : loadTerms numTerms 0 in3 i.pIndex ≠ Outcome.ok none := by
            intro h0; rw [h0] at h; exact h rfl
          rw [loadTerms_append q numTerms 0 in3 _ ht]
          cases h4 : loadTerms numTerms 0 in3 i.pIndex with
          | fault => rfl
          | outOfFuel => rfl
          | ok o4 =>
            cases o4 with
            | none => exact absurd h4 ht
            | some x4 =>
              obtain ⟨in4, dict⟩ := x4
              rfl

/-- Reading the dump of an index in the bounds of `Index.Storable` into any
index succeeds and leaves only white space of the input. -/
theorem loadFrom_dump_storable (idx i : Index) (h : idx.Storable) :
    ∃ i1 ws1, (∀ x ∈ ws1, isSpace x = true) ∧
      i.loadFrom idx.dumpText = Outcome.ok (some (i1, ws1)) := by
  obtain ⟨hhead, hkeys, hdoc, _, hdata, hsz1, hsz2⟩ := h
  cases hd : idx.pDocuments with
  | nil => rw [hd] at hhead; cases hhead
  | cons e0 rest =>
    rw [hd] at hhead
    have he0 : e0 = (0, []) := by simpa using hhead
    subst he0
    have hrest : ∀ e ∈ rest, e.1 ≠ 0 ∧ e.1 < 2 ^ 64 ∧ FileToken e.2 := by
      intro e he
      have hmem : e ∈ idx.pDocuments := by rw [hd]; simp [he]
      have hpos : 0 < e.1 := by
        rw [hd, List.map_cons, List.pairwise_cons] at hkeys
        exact hkeys.1 e.1 (List.mem_map_of_mem _ he)
      exact ⟨by omega, (hdoc e hmem).1, (hdoc e hmem).2 (by omega)⟩
    obtain ⟨ws1, hws1, hload⟩ := loadFrom_dump idx i [] rest hd hrest
      (fun e he => ⟨(hdata e he).1, (hdata e he).2.1, (hdata e he).2.2.2.1,
        (hdata e he).2.2.2.2⟩)
      ⟨by rw [hd, List.length_cons] at hsz1; omega, hsz2⟩
    exact ⟨_, ws1, hws1, hload⟩

/-- A number cannot be read where the next character that is not white space
is neither a digit nor a sign, and where only white space is left. -/
theorem getNat_none (inp : List Char)
    (h : ∀ c, (inp.dropWhile isSpace).head? = some c → c.isDigit = false ∧ c ≠ '-' ∧ c ≠ '+') :
    getNat inp = none := by
  unfold getNat
  simp only []
  cases hd : inp.dropWhile isSpace with
  | nil => rfl
  | cons c r =>
    have hc := h c (by rw [hd]; rfl)
    have hs : stripSign (c :: r) = (false, c :: r) := by
      unfold stripSign
      simp only [if_neg hc.2.1, if_neg hc.2.2]
    rw [hs]
    simp only [List.takeWhile_cons, hc.1]
    rfl

/-- A text that is cut out of the dump of an index, with a character that is
not white space cut off, cannot be loaded. -/
theorem loadFrom_truncated (idx i : Index) (h : idx.Storable) (p q : List Char)
    (hsplit : idx.dumpText = p ++ q) (hq : ∃ c ∈ q, isSpace c = false) :
    i.loadFrom p = Outcome.ok none := by
  by_contra hne
  obtain ⟨i1, ws1, hws1, hfull⟩ := loadFrom_dump_storable idx i h
  rw [hsplit, loadFrom_append q i p hne] at hfull
  cases hp : i.loadFrom p with
  | fault => rw [hp] at hfull; cases hfull
  | outOfFuel => rw [hp] at hfull; cases hfull
  | ok o =>
    cases o with
    | none => exact hne hp
    | some x =>
      obtain ⟨i2, r⟩ := x
      rw [hp] at hfull
      have h5 := Prod.mk.inj (Option.some.inj (Outcome.ok.inj hfull))
      obtain ⟨c, hc, hcs⟩ := hq
      have := hws1 c (by rw [← h5.2]; simp [hc])
      rw [hcs] at this
      cases this

/-- C23, counterexample: the text `0\n0x\n`, in which the count of terms is
the non-integer field `0x`, and the text `1\n1 a\n1\ncat 1 5x\n`, in which a
posting is the non-integer field `5x`, are loaded with success: `load` reads
the leading number and does not look at what follows it directly. -/
theorem load_accepts_non_integer_field :
    ({} : Index).load (Except.ok "0\n0x\n".toList) = Outcome.ok ({}, {}) ∧
    ({} : Index).load (Except.ok "1\n1 a\n1\ncat 1 5x\n".toList)
      = Outcome.ok ({}, ⟨2, [("cat".toList, ⟨1, [5]⟩)], [(0, []), (1, "a".toList)]⟩) ∧
    ({} : Status).isOK = true := by
  decide

/-- C23, amended: for every prior state of the index and every text of the
file, a `load` that does not succeed returns the status IO with the message
`File corrupted` and leaves the empty state (document table `{0 -> ""}`, no
terms, next-free docid 1); it does so whenever one of its reads fails, in
particular on every text cut out of the dump of an index with a character
that is not white space cut off (a missing field, a truncated posting list,
the end of the input before the declared counts are exhausted), and on every
text whose first field does not start with a digit or a sign; the texts of
the examples, with a non-integer docid, count of terms, count of postings or
posting, a missing name, a truncated posting list and a count of documents
that is not exhausted, fail in this way on an index that holds documents. -/
theorem load_failure_atomic :
    (∀ (i : Index) (content : List Char) (st : Status) (i1 : Index),
      i.load (Except.ok content) = Outcome.ok (st, i1) → st ≠ {} →
      st = ⟨ errIO, "File corrupted".toList⟩ ∧ i1 = {} ∧
      i1.pDocuments = [(0, [])] ∧ i1.pIndex = [] ∧ i1.pFreeDocId = 1) ∧
    (∀ (i : Index) (content : List Char), i.loadFrom content = Outcome.ok none →
      i.load (Except.ok content) = Outcome.ok (⟨ errIO, "File corrupted".toList⟩, {})) ∧
    (∀ (idx i : Index) (p q : List Char), idx.Storable → idx.dumpText = p ++ q →
      (∃ c ∈ q, isSpace c = false) →
      i.load (Except.ok p) = Outcome.ok (⟨ errIO, "File corrupted".toList⟩, {})) ∧
    (∀ (i : Index) (content : List Char),
      (∀ c, (content.dropWhile isSpace).head? = some c →
        c.isDigit = false ∧ c ≠ '-' ∧ c ≠ '+') →
      i.load (Except.ok content) = Outcome.ok (⟨ errIO, "File corrupted".toList⟩, {})) ∧
    scenarioIndex.load (Except.ok "1\nx a\n0\n".toList) = Outcome.ok (fileCorrupted, {}) ∧
    scenarioIndex.load (Except.ok "1\n1 a\nx\n".toList) = Outcome.ok (fileCorrupted, {}) ∧
    scenarioIndex.load (Except.ok "0\n1\ncat x 1 \n".toList) = Outcome.ok (fileCorrupted, {}) ∧
    scenarioIndex.load (Except.ok "0\n1\ncat 1 x \n".toList) = Outcome.ok (fileCorrupted, {}) ∧
    scenarioIndex.load (Except.ok "1\n1\n".toList) = Outcome.ok (fileCorrupted, {}) ∧
    scenarioIndex.load (Except.ok "0\n1\ncat 2 1 \n".toList) = Outcome.ok (fileCorrupted, {}) ∧
    scenarioIndex.load (Except.ok "2\n1 a\n0\n".toList) = Outcome.ok (fileCorrupted, {}) := by
  refine ⟨?_, ?_, ?_, ?_, by decide, by decide, by decide, by decide, by decide, by decide,
    by decide⟩
  · intro i content st i1 h hst
    rcases load_inv i content st i1 h with ⟨h1, _⟩ | ⟨h1, h2, _⟩
    · exact absurd h1 hst
    · have h3 : i1 = {} := h2
      exact ⟨h1, h3, by rw [h3], by rw [h3], by rw [h3]⟩
  · intro i content h
    exact load_of_loadFrom_none i content h
  · intro idx i p q hs hsplit hq
    exact load_of_loadFrom_none i p (loadFrom_truncated idx i hs p q hsplit hq)
  · intro i content hc
    refine load_of_loadFrom_none i content ?_
    unfold Index.loadFrom
    rw [getNat_none content hc]

/-- Instance of `load_failure_atomic`: the dump of the index of the "build and
query" scenario cut behind the posting count of `dog`, loaded into that
index. -/
theorem load_failure_atomic_witness :
    scenarioIndex.Storable ∧
    scenarioIndex.dumpText
      = "3\n1 a.txt\n2 b.txt\n3 c.txt\n3\ncat 2 1 3 \ndog 2".toList
        ++ " 1 2 \nfish 2 2 3 \n".toList ∧
    (∃ c ∈ " 1 2 \nfish 2 2 3 \n".toList, isSpace c = false) ∧
    scenarioIndex.load
      (Except.ok "3\n1 a.txt\n2 b.txt\n3 c.txt\n3\ncat 2 1 3 \ndog 2".toList)
      = Outcome.ok (⟨ errIO, "File corrupted".toList⟩, {}) :=
  ⟨by decide, by decide, by decide,
    load_failure_atomic.2.2.1 scenarioIndex scenarioIndex
      "3\n1 a.txt\n2 b.txt\n3 c.txt\n3\ncat 2 1 3 \ndog 2".toList
      " 1 2 \nfish 2 2 3 \n".toList (by decide) (by decide) (by decide)⟩

/-! ## The text of a status -/

/-- C33, counterexample: for the code IO and the empty message `toString`
returns `[I/O Error]`, not `[I/O Error]: ` followed by the message; likewise
for the code Syntax. -/
theorem toString_empty_message :
    Status.toString ⟨ errIO, []⟩ = "[I/O Error]".toList ∧
    Status.toString ⟨ errIO, []⟩ ≠ "[I/O Error]: ".toList ++ [] ∧
    Status.toString ⟨errSyntax, []⟩ = "[Syntax Error]".toList ∧
    Status.toString ⟨errSyntax, []⟩ ≠ "[Syntax Error]: ".toList ++ [] := by
  decide

/-- C33, amended: `toString` returns `[Success]` for the code Success whatever
the message; for the codes IO and Syntax, with the kind names `I/O Error` and
`Syntax Error`, it returns `[K]: m` for a message `m` that is not empty and
`[K]` for the empty message; `isOK` holds exactly when the code is Success,
which is 0, with IO = 1 and Syntax = 2. -/
theorem toString_spec :
    (∀ m, Status.toString ⟨success, m⟩ = "[Success]".toList) ∧
    (∀ m, m ≠ [] → Status.toString ⟨ errIO, m⟩ = "[I/O Error]: ".toList ++ m) ∧
    (∀ m, m ≠ [] → Status.toString ⟨errSyntax, m⟩ = "[Syntax Error]: ".toList ++ m) ∧
    Status.toString ⟨ errIO, []⟩ = "[I/O Error]".toList ∧
    Status.toString ⟨errSyntax, []⟩ = "[Syntax Error]".toList ∧
    (∀ st : Status, st.isOK = true ↔ st.pCode = success) ∧
    success = 0 ∧ errIO = 1 ∧ errSyntax = 2 := by
  refine ⟨fun m => rfl, ?_, ?_, by decide, by decide, ?_, rfl, rfl, rfl⟩
  · intro m hm
    have h : ¬ ((⟨ errIO, m⟩ : Status).pCode = success) := by
      show ¬ ( errIO = success)
      decide
    unfold Status.toString
    rw [if_neg h, if_pos hm]
    rfl
  · intro m hm
    have h : ¬ ((⟨errSyntax, m⟩ : Status).pCode = success) := by
      show ¬ (errSyntax = success)
      decide
    unfold Status.toString
    rw [if_neg h, if_pos hm]
    rfl
  · intro st
    unfold Status.isOK
    simp

/-- Instance of `toString_spec`: the status of a failed `load`. -/
theorem toString_spec_witness :
    "File corrupted".toList ≠ [] ∧
    Status.toString fileCorrupted = "[I/O Error]: File corrupted".toList :=
  ⟨by decide, toString_spec.2.1 "File corrupted".toList (by decide)⟩

/-! ## The first run of alphanumeric characters -/

/-- A string split at its first run of alphanumeric characters. -/
theorem first_run_split (str : List Char) :
    str = str.takeWhile (fun c => !isalnum c)
      ++ (str.dropWhile (fun c => !isalnum c)).takeWhile (fun c => isalnum c)
      ++ (str.dropWhile (fun c => !isalnum c)).dropWhile (fun c => isalnum c) ∧
    (∀ c ∈ str.takeWhile (fun c => !isalnum c), isalnum c = false) ∧
    (∀ c ∈ (str.dropWhile (fun c => !isalnum c)).takeWhile (fun c => isalnum c),
      isalnum c = true) ∧
    (∀ c, ((str.dropWhile (fun c => !isalnum c)).dropWhile (fun c => isalnum c)).head? = some c →
      isalnum c = false) ∧
    ((str.dropWhile (fun c => !isalnum c)).takeWhile (fun c => isalnum c) = [] →
      (str.dropWhile (fun c => !isalnum c)).dropWhile (fun c => isalnum c) = []) := by
  refine ⟨?_, ?_, ?_, ?_, ?_⟩
  · rw [List.append_assoc, List.takeWhile_append_dropWhile, List.takeWhile_append_dropWhile]
  · intro c hc
    simpa using List.mem_takeWhile_imp hc
  · intro c hc
    simpa using List.mem_takeWhile_imp hc
  · intro c hc
    cases hd : (str.dropWhile (fun c => !isalnum c)).dropWhile (fun c => isalnum c) with
    | nil => rw [hd] at hc; cases hc
    | cons a l =>
      rw [hd] at hc
      have hca : a = c := by simpa using hc
      subst hca
      have := List.head_dropWhile_not (fun c => isalnum c)
        (str.dropWhile (fun c => !isalnum c)) (by rw [hd]; simp)
      simp only [hd, List.head_cons] at this
      simpa using this
  · intro hr
    cases hd : str.dropWhile (fun c => !isalnum c) with
    | nil => rfl
    | cons a l =>
      have := List.head_dropWhile_not (fun c => !isalnum c) str (by rw [hd]; simp)
      simp only [hd, List.head_cons] at this
      rw [hd] at hr
      have ha : isalnum a = true := by simpa using this
      simp [List.takeWhile_cons, ha] at hr

/-- The positions of a string `pre ++ r ++ post` in which `r` is the first
run of alphanumeric characters. -/
theorem first_run_positions (pre r post : List Char)
    (hpre : ∀ c ∈ pre, isalnum c = false) (hr : ∀ c ∈ r, isalnum c = true)
    (hpost : ∀ c, post.head? = some c → isalnum c = false) (hnil : r = [] → post = []) :
    ((pre ++ r ++ post).drop pre.length).take (pre.length + r.length - pre.length) = r ∧
    (∀ k c, k < pre.length → (pre ++ r ++ post)[k]? = some c → isalnum c = false) ∧
    (∀ c, (pre ++ r ++ post)[pre.length]? = some c → isalnum c = true) ∧
    (∀ k c, pre.length ≤ k → k < pre.length + r.length → (pre ++ r ++ post)[k]? = some c →
      isalnum c = true) ∧
    (∀ c, (pre ++ r ++ post)[pre.length + r.length]? = some c → isalnum c = false) ∧
    (r = [] ↔ ∀ c ∈ pre ++ r ++ post, isalnum c = false) := by
  have hmid : ∀ k c, pre.length ≤ k → k < pre.length + r.length →
      (pre ++ r ++ post)[k]? = some c → c ∈ r := by
    intro k c h1 h2 h
    rw [List.append_assoc, List.getElem?_append_right h1,
      List.getElem?_append_left (by omega)] at h
    exact List.getElem?_mem h
  refine ⟨?_, ?_, ?_, ?_, ?_, ?_⟩
  · rw [List.append_assoc, List.drop_left, Nat.add_sub_cancel_left, List.take_left]
  · intro k c hk h
    rw [List.append_assoc, List.getElem?_append_left hk] at h
    exact hpre c (List.getElem?_mem h)
  · intro c h
    cases r with
    | nil =>
      rw [hnil rfl] at h
      simp at h
    | cons a r =>
      exact hr c (hmid pre.length c (le_refl _) (by simp) h)
  · intro k c h1 h2 h
    exact hr c (hmid k c h1 h2 h)
  · intro c h
    have hlen : (pre ++ r).length = pre.length + r.length := List.length_append pre r
    rw [← hlen, List.getElem?_append_right (le_refl _), Nat.sub_self] at h
    apply hpost c
    rw [← h, List.head?_eq_getElem?]
  · constructor
    · intro h0 c hc
      rw [h0, hnil h0] at hc
      exact hpre c (by simpa using hc)
    · intro hall
      cases r with
      | nil => rfl
      | cons a r =>
        have h1 := hall a (by simp)
        have h2 := hr a (by simp)
        rw [h1] at h2
        cases h2

/-- C31: for every string `str` with fewer than `2^31` characters (the range
of the `int` counters), `removePunctuation` returns the first maximal run of
alphanumeric characters: the characters from position `p` up to position `q`,
where `p` is the position of the first alphanumeric character (no character
before `p` is alphanumeric, the one at `p` is when there is one) and `q` is
the first position from `p` on that holds a character that is not
alphanumeric, or the length of the string; the result is empty exactly when
the string has no alphanumeric character, and it is a contiguous part of the
string. -/
theorem removePunctuation_spec (str : List Char) (hlen : str.length < 2 ^ 31) :
    ∃ p q, p ≤ q ∧ q ≤ str.length ∧
      removePunctuation str = Outcome.ok ((str.drop p).take (q - p)) ∧
      (∀ k c, k < p → str[k]? = some c → isalnum c = false) ∧
      (∀ c, str[p]? = some c → isalnum c = true) ∧
      (∀ k c, p ≤ k → k < q → str[k]? = some c → isalnum c = true) ∧
      (∀ c, str[q]? = some c → isalnum c = false) ∧
      ((str.drop p).take (q - p) = [] ↔ ∀ c ∈ str, isalnum c = false) ∧
      (str.drop p).take (q - p) <:+: str := by
  obtain ⟨hsplit, hpre, hr, hpost, hnil⟩ := first_run_split str
  obtain ⟨h1, h2, h3, h4, h5, h6⟩ := first_run_positions _ _ _ hpre hr hpost hnil
  rw [← hsplit] at h1 h2 h3 h4 h5 h6
  refine ⟨(str.takeWhile (fun c => !isalnum c)).length,
    (str.takeWhile (fun c => !isalnum c)).length
      + ((str.dropWhile (fun c => !isalnum c)).takeWhile (fun c => isalnum c)).length,
    Nat.le_add_right _ _, ?_, ?_, h2, h3, h4, h5, ?_, ?_⟩
  · have := congrArg List.length hsplit
    rw [List.length_append, List.length_append] at this
    omega
  · rw [h1]
    exact removePunctuation_eq str hlen
  · rw [h1]
    exact h6
  · rw [h1]
    exact ⟨_, _, hsplit.symm⟩

/-- Instance of `removePunctuation_spec`: on `,,ab1,cd` the positions are 2
and 5 and the result is `ab1`. -/
theorem removePunctuation_spec_witness :
    ",,ab1,cd".toList.length < 2 ^ 31 ∧
    ((",,ab1,cd".toList.drop 2).take (5 - 2)) = "ab1".toList ∧
    ∃ p q, p ≤ q ∧ q ≤ ",,ab1,cd".toList.length ∧
      removePunctuation ",,ab1,cd".toList = Outcome.ok ((",,ab1,cd".toList.drop p).take (q - p)) ∧
      (∀ k c, k < p → ",,ab1,cd".toList[k]? = some c → isalnum c = false) ∧
      (∀ c, ",,ab1,cd".toList[p]? = some c → isalnum c = true) ∧
      (∀ k c, p ≤ k → k < q → ",,ab1,cd".toList[k]? = some c → isalnum c = true) ∧
      (∀ c, ",,ab1,cd".toList[q]? = some c → isalnum c = false) ∧
      ((",,ab1,cd".toList.drop p).take (q - p) = [] ↔ ∀ c ∈ ",,ab1,cd".toList, isalnum c = false) ∧
      (",,ab1,cd".toList.drop p).take (q - p) <:+: ",,ab1,cd".toList :=
  ⟨by decide, by decide, removePunctuation_spec ",,ab1,cd".toList (by decide)⟩

/-- The lowercase form of an alphanumeric character is a digit or a lowercase
letter. -/
theorem toLower_of_isalnum (c : Char) (h : isalnum c = true) :
    c.toLower.isDigit = true ∨ c.toLower.isLower = true := by
  have hsmall : c.toNat < 128 := by
    unfold isalnum Char.isAlphanum Char.isAlpha Char.isUpper Char.isLower Char.isDigit at h
    simp only [Bool.or_eq_true, Bool.and_eq_true, decide_eq_true_eq, UInt32.le_def] at h
    unfold Char.toNat
    rcases h with (⟨_, h⟩ | ⟨_, h⟩) | ⟨_, h⟩
    all_goals
      have h2 : c.val.toNat ≤ 122 := le_trans h (by decide)
      omega
  have hall : ∀ n, n < 128 → isalnum (Char.ofNat n) = true →
      (Char.ofNat n).toLower.isDigit = true ∨ (Char.ofNat n).toLower.isLower = true := by
    decide
  have hc : Char.ofNat c.toNat = c := Char.ofNat_toNat c
  have := hall c.toNat hsmall (by rw [hc]; exact h)
  rw [hc] at this
  exact this

/-- The second loop of `normalize` appends the lowercase forms of the
alphanumeric characters that follow position `s`. -/
theorem lowerLoop_eq (str : List Char) (hlen : str.length < 2 ^ 31) (s : Nat) (fuel : Nat) :
    ∀ e out, s + e ≤ str.length → str.length - (s + e) < fuel →
      lowerLoop str s fuel e out
        = Outcome.ok (out
            ++ ((str.drop (s + e)).takeWhile (fun c => isalnum c)).map Char.toLower) := by
  induction fuel with
  | zero => intro e _ _ h; omega
  | succ fuel ih =>
    intro e out hs hf
    rw [lowerLoop, if_neg (by omega)]
    cases hc : str[s + e]? with
    | none =>
      have : str.length ≤ s + e := by
        by_contra hlt
        rw [List.getElem?_eq_getElem (by omega)] at hc
        cases hc
      rw [List.drop_of_length_le this]
      simp
    | some c =>
      have hlt : s + e < str.length := by
        by_contra hge
        rw [List.getElem?_eq_none (by omega)] at hc
        cases hc
      rw [drop_of_getElem? str (s + e) c hc]
      by_cases ha : isalnum c = true
      · simp only [ha, if_true]
        rw [if_pos (by omega), ih (e + 1) _ (by omega) (by omega)]
        simp [List.takeWhile_cons, ha, ← Nat.add_assoc]
      · have ha2 : isalnum c = false := by simpa using ha
        simp [ha2]

/-- On a string with fewer than `2^31` characters `normalize` returns the
lowercase forms of the alphanumeric characters that follow the leading
characters that are not alphanumeric. -/
theorem normalize_eq (str : List Char) (hlen : str.length < 2 ^ 31) :
    normalize str
      = Outcome.ok (((str.dropWhile (fun c => !isalnum c)).takeWhile
          (fun c => isalnum c)).map Char.toLower) := by
  unfold normalize
  rw [skipLoop_eq str hlen _ 0 (by omega) (by omega)]
  simp only [List.drop_zero, Nat.zero_add]
  have hle : (str.takeWhile (fun c => !isalnum c)).length ≤ str.length := by
    have := congrArg List.length (List.takeWhile_append_dropWhile (fun c => !isalnum c) str)
    rw [List.length_append] at this
    omega
  rw [lowerLoop_eq str hlen _ _ 0 [] (by omega) (by omega)]
  simp only [Nat.add_zero, List.nil_append]
  rw [drop_length_takeWhile]

/-- C32: for every string `str` with fewer than `2^31` characters (the range
of the `int` counters), `normalize` returns `removePunctuation(str)` with
every character mapped to its lowercase form; the result holds only digits
and lowercase letters and is as long as `removePunctuation(str)`. -/
theorem normalize_spec (str : List Char) (hlen : str.length < 2 ^ 31) :
    ∃ r, removePunctuation str = Outcome.ok r ∧
      normalize str = Outcome.ok (r.map Char.toLower) ∧
      (∀ c ∈ r.map Char.toLower, c.isDigit = true ∨ c.isLower = true) ∧
      (r.map Char.toLower).length = r.length := by
  refine ⟨_, removePunctuation_eq str hlen, normalize_eq str hlen, ?_, List.length_map _ _⟩
  intro c hc
  obtain ⟨a, ha, rfl⟩ := List.mem_map.1 hc
  have hal : isalnum a = true := by simpa using List.mem_takeWhile_imp ha
  exact toLower_of_isalnum a hal

/-- Instance of `normalize_spec`: `normalize` of `..Hello, ` is `hello`. -/
theorem normalize_spec_witness :
    "..Hello, ".toList.length < 2 ^ 31 ∧
    removePunctuation "..Hello, ".toList = Outcome.ok "Hello".toList ∧
    normalize "..Hello, ".toList = Outcome.ok "hello".toList ∧
    ∃ r, removePunctuation "..Hello, ".toList = Outcome.ok r ∧
      normalize "..Hello, ".toList = Outcome.ok (r.map Char.toLower) ∧
      (∀ c ∈ r.map Char.toLower, c.isDigit = true ∨ c.isLower = true) ∧
      (r.map Char.toLower).length = r.length :=
  ⟨by decide, by decide, by decide, normalize_spec "..Hello, ".toList (by decide)⟩

/-! ## Postings: what addPosting leaves -/

/-- The three outcomes of `TermData::addPosting`: the list is left as it is,
which happens only when it holds the docid, or the docid is appended. -/
theorem addPosting_cases (t : TermData) (d : Nat) :
    (t.addPosting d = t ∧ d ∈ t.pPostings) ∨ t.addPosting d = t.pushBack d := by
  unfold TermData.addPosting
  cases t.pPostings.getLast? with
  | none => exact Or.inr rfl
  | some back =>
    simp only []
    by_cases hb : back < d
    · rw [if_pos hb]; exact Or.inr rfl
    · rw [if_neg hb]
      cases hd : t.pPostings.dropWhile (fun x => x < d) with
      | nil => exact Or.inr rfl
      | cons x r =>
        simp only []
        by_cases hx : x = d
        · rw [if_pos hx]
          left
          refine ⟨rfl, ?_⟩
          have hmem : x ∈ t.pPostings.dropWhile (fun x => x < d) := by rw [hd]; simp
          rw [← hx]
          exact (List.dropWhile_suffix _).subset hmem
        · rw [if_neg hx]; exact Or.inr rfl

/-- In a strictly ascending list every element is at most the last one. -/
theorem le_getLast_of_ascending (l : List Nat) (back : Nat)
    (hasc : l.Pairwise (fun a b => a < b)) (hlast : l.getLast? = some back) :
    ∀ x ∈ l, x ≤ back := by
  have hl : l = l.dropLast ++ [back] := (List.dropLast_append_getLast? back hlast).symm
  intro x hx
  rw [hl] at hx hasc
  rcases List.mem_append.1 hx with h | h
  · exact le_of_lt ((List.pairwise_append.1 hasc).2.2 x h back (by simp))
  · simp at h; omega

/-- The last element of a list is an element of the list. -/
theorem getLast_mem (l : List Nat) (back : Nat) (hlast : l.getLast? = some back) : back ∈ l := by
  have hl : l = l.dropLast ++ [back] := (List.dropLast_append_getLast? back hlast).symm
  rw [hl]
  simp

/-- Appending a docid above the last element keeps a list strictly ascending. -/
theorem ascending_append (l : List Nat) (d : Nat) (hasc : l.Pairwise (fun a b => a < b))
    (hlast : ∀ back, l.getLast? = some back → back < d) :
    (l ++ [d]).Pairwise (fun a b => a < b) := by
  rw [List.pairwise_append]
  refine ⟨hasc, by simp, ?_⟩
  intro a ha b hb
  have hbd : b = d := by simpa using hb
  rw [hbd]
  cases hg : l.getLast? with
  | none =>
    rw [List.getLast?_eq_none_iff] at hg
    rw [hg] at ha
    cases ha
  | some back =>
    have := le_getLast_of_ascending l back hasc hg a ha
    have := hlast back hg
    omega

/-- The fast path: on a list that is empty or has its last element below the
docid, `addPosting` appends the docid. -/
theorem addPosting_of_last_lt (t : TermData) (d : Nat)
    (hlast : ∀ back, t.pPostings.getLast? = some back → back < d) :
    t.addPosting d = t.pushBack d := by
  unfold TermData.addPosting
  cases hg : t.pPostings.getLast? with
  | none => rfl
  | some back =>
    simp only []
    rw [if_pos (hlast back hg)]

/-- On a strictly ascending list whose elements are at most the docid and at
least 1, `addPosting` of a docid that is at least 1 leaves such a list. -/
theorem addPosting_bounded (t : TermData) (d : Nat) (hd : 1 ≤ d)
    (hasc : t.pPostings.Pairwise (fun a b => a < b))
    (hb : ∀ x ∈ t.pPostings, 1 ≤ x ∧ x ≤ d) :
    (t.addPosting d).pPostings.Pairwise (fun a b => a < b) ∧
    ∀ x ∈ (t.addPosting d).pPostings, 1 ≤ x ∧ x ≤ d := by
  by_cases hl : ∀ back, t.pPostings.getLast? = some back → back < d
  · rw [addPosting_of_last_lt t d hl]
    refine ⟨ascending_append _ d hasc hl, ?_⟩
    intro x hx
    have hx2 : x ∈ t.pPostings ++ [d] := hx
    rcases List.mem_append.1 hx2 with h | h
    · exact hb x h
    · simp at h; omega
  · have hin : d ∈ t.pPostings := by
      by_contra hnot
      apply hl
      intro back hback
      have h1 := (hb back (getLast_mem _ back hback)).2
      have h2 : back ≠ d := fun h => hnot (h ▸ getLast_mem _ back hback)
      omega
    have hsame : t.addPosting d = t := by
      unfold TermData.addPosting
      cases hg : t.pPostings.getLast? with
      | none =>
        rw [List.getLast?_eq_none_iff] at hg
        rw [hg] at hin
        cases hin
      | some back =>
        simp only []
        have hbd : ¬ back < d := by
          have := le_getLast_of_ascending _ back hasc hg d hin
          omega
        rw [if_neg hbd]
        cases hdw : t.pPostings.dropWhile (fun x => x < d) with
        | nil =>
          exfalso
          have hall := List.dropWhile_eq_nil_iff.1 hdw d hin
          simp at hall
        | cons x r =>
          simp only []
          have hx1 : ¬ x < d := by
            have := List.head_dropWhile_not (fun x => decide (x < d)) t.pPostings
              (by rw [hdw]; simp)
            simp only [hdw, List.head_cons] at this
            simpa using this
          have hx2 : x ≤ d :=
            (hb x ((List.dropWhile_suffix _).subset (by rw [hdw]; simp))).2
          rw [if_pos (by omega)]
    rw [hsame]
    exact ⟨hasc, hb⟩

/-- An entry of the term table after `Index::addPosting` is an entry of the
table before, such an entry after `TermData::addPosting`, or the entry of a
new term. -/
theorem addPosting_entries (i : Index) (term : List Char) (d : Nat) :
    ∀ e ∈ (i.addPosting term d).pIndex,
      e ∈ i.pIndex ∨ (∃ e0 ∈ i.pIndex, e.2 = e0.2.addPosting d) ∨
      e.2 = TermData.addPosting {} d := by
  intro e he
  unfold Index.addPosting at he
  cases hf : i.find term with
  | none =>
    rw [hf] at he
    rcases List.mem_append.1 he with h | h
    · exact Or.inl h
    · right; right
      have : e = (term, TermData.addPosting {} d) := by simpa using h
      rw [this]
  | some td =>
    rw [hf] at he
    obtain ⟨e0, he0, hmap⟩ := List.mem_map.1 he
    by_cases ht : e0.1 = term
    · rw [if_pos ht] at hmap
      right; left
      exact ⟨e0, he0, by rw [← hmap]⟩
    · rw [if_neg ht] at hmap
      left
      rw [← hmap]; exact he0

/-- The invariant of an ingest: the docid returned most recently is at least 1
and comes right before the next-free docid, and every posting list is strictly
ascending with elements from 1 to that docid. -/
theorem ingested_inv (i0 i : Index) (d : Nat) (hbase : i0.IngestBase) (h : Ingested i0 i d) :
    1 ≤ d ∧ d < 2 ^ 64 ∧ i.pFreeDocId = (d + 1) % 2 ^ 64 ∧
    ∀ e ∈ i.pIndex, e.2.pPostings.Pairwise (fun a b => a < b) ∧
      ∀ x ∈ e.2.pPostings, 1 ≤ x ∧ x ≤ d := by
  induction h with
  | first name hne =>
    have hd : (i0.registerDocument name).1 = i0.pFreeDocId := rfl
    rw [hd]
    refine ⟨by omega, hbase.1, rfl, ?_⟩
    intro e he
    have he2 : e ∈ i0.pIndex := he
    exact ⟨(hbase.2 e he2).1, fun x hx => ⟨((hbase.2 e he2).2 x hx).1, by
      have := ((hbase.2 e he2).2 x hx).2
      omega⟩⟩
  | register i d name _ hne ih =>
    obtain ⟨h1, h2, h3, h4⟩ := ih
    have hfree : i.pFreeDocId = d + 1 := by
      rw [h3] at hne ⊢
      by_cases hw : d + 1 = 2 ^ 64
      · rw [hw] at hne; simp at hne
      · exact Nat.mod_eq_of_lt (by omega)
    have hd1 : (i.registerDocument name).1 = d + 1 := hfree
    have hlt : d + 1 < 2 ^ 64 := by
      have : i.pFreeDocId < 2 ^ 64 := by rw [h3]; exact Nat.mod_lt _ (by decide)
      omega
    rw [hd1]
    refine ⟨by omega, hlt, ?_, ?_⟩
    · show (i.pFreeDocId + 1) % 2 ^ 64 = _
      rw [hfree]
    · intro e he
      have he2 : e ∈ i.pIndex := he
      exact ⟨(h4 e he2).1, fun x hx => ⟨((h4 e he2).2 x hx).1, by
        have := ((h4 e he2).2 x hx).2
        omega⟩⟩
  | addPosting i d term _ ih =>
    obtain ⟨h1, h2, h3, h4⟩ := ih
    refine ⟨h1, h2, ?_, ?_⟩
    · rw [(addPosting_documents i term d).2]; exact h3
    · intro e he
      rcases addPosting_entries i term d e he with h | ⟨e0, he0, h⟩ | h
      · exact h4 e h
      · rw [h]
        exact addPosting_bounded e0.2 d h1 (h4 e0 he0).1 (h4 e0 he0).2
      · rw [h]
        exact addPosting_bounded {} d h1 (by simp [List.Pairwise.nil]) (by
          intro x hx
          cases hx)

/-- C35: on a strictly ascending posting list that is empty or has its last
element below `d` (and whose count is below `2^64 - 1`, the range of the
counter), `addPosting(d)` appends `d`, the list stays strictly ascending and
`numPostings` grows by one; and in every state of an ingest, in which every
`addPosting` uses the docid that `registerDocument` returned most recently,
every posting list is strictly ascending and does not hold 0, when the ingest
starts on a freshly constructed index or on any index whose posting lists are
strictly ascending with docids from 1 up to the next-free docid. -/
theorem addPosting_fast_path :
    (∀ (t : TermData) (d : Nat), t.pPostings.Pairwise (fun a b => a < b) →
      (∀ back, t.pPostings.getLast? = some back → back < d) → t.pCount < 2 ^ 64 - 1 →
      (t.addPosting d).pPostings = t.pPostings ++ [d] ∧
      (t.addPosting d).pPostings.Pairwise (fun a b => a < b) ∧
      (t.addPosting d).numPostings = t.numPostings + 1) ∧
    (∀ (i0 i : Index) (d : Nat), i0.IngestBase → Ingested i0 i d →
      i.postingsAscending ∧ ∀ e ∈ i.pIndex, 0 ∉ e.2.pPostings) ∧
    ({} : Index).IngestBase := by
  refine ⟨?_, ?_, by decide⟩
  · intro t d hasc hlast hc
    rw [addPosting_of_last_lt t d hlast]
    refine ⟨rfl, ascending_append _ d hasc hlast, ?_⟩
    show (t.pCount + 1) % 2 ^ 64 = t.pCount + 1
    exact Nat.mod_eq_of_lt (by omega)
  · intro i0 i d hbase h
    obtain ⟨_, _, _, h4⟩ := ingested_inv i0 i d hbase h
    refine ⟨fun e he => (h4 e he).1, ?_⟩
    intro e he h0
    have := ((h4 e he).2 0 h0).1
    omega

/-- Instance of `addPosting_fast_path`: `addPosting(7)` on the list 1, 3 and
the ingest that builds the index of the "build and query" scenario on a
freshly constructed index. -/
theorem addPosting_fast_path_witness :
    (TermData.addPosting ⟨2, [1, 3]⟩ 7).pPostings = [1, 3] ++ [7] ∧
    (TermData.addPosting ⟨2, [1, 3]⟩ 7).numPostings = 2 + 1 ∧
    Ingested {} scenarioIndex 3 ∧ scenarioIndex.postingsAscending :=
  have h1 := addPosting_fast_path.1 ⟨2, [1, 3]⟩ 7 (by decide) (by decide) (by decide)
  have hi : Ingested {} scenarioIndex 3 :=
    Ingested.addPosting _ 3 "fish".toList
      (Ingested.addPosting _ 3 "cat".toList
        (Ingested.register _ 2 "c.txt".toList
          (Ingested.addPosting _ 2 "fish".toList
            (Ingested.addPosting _ 2 "dog".toList
              (Ingested.register _ 1 "b.txt".toList
                (Ingested.addPosting _ 1 "dog".toList
                  (Ingested.addPosting _ 1 "cat".toList
                    (@Ingested.first {} "a.txt".toList (by decide))))
                (by decide))))
          (by decide)))
  ⟨h1.1, h1.2.2, hi, (addPosting_fast_path.2.1 {} scenarioIndex 3 (by decide) hi).1⟩

/-- The two outcomes of `TermData::removePosting`: the term data is left as it
is, or one occurrence of the docid is erased and the counter decremented. -/
theorem removePosting_cases (t : TermData) (id : Nat) :
    t.removePosting id = t ∨
    (id ∈ t.pPostings ∧ (t.removePosting id).pCount = (t.pCount + 2 ^ 64 - 1) % 2 ^ 64 ∧
      (t.removePosting id).pPostings = t.pPostings.erase id) := by
  have hp := removePosting_postings t id
  unfold TermData.removePosting at hp ⊢
  cases hd : t.pPostings.dropWhile (fun x => decide (x ≠ id)) with
  | nil => exact Or.inl rfl
  | cons a after =>
    right
    rw [hd] at hp
    refine ⟨?_, rfl, hp⟩
    by_contra hnot
    rw [(dropWhile_ne_eq_nil _ _).2 hnot] at hd
    cases hd

/-- A sequence of calls of `addPosting` and `removePosting` keeps the counter
equal to the length of the list, while the counter stays in its range. -/
theorem call_count (ops : List PostingOp) : ∀ (t : TermData),
    t.pCount = t.pPostings.length → t.pPostings.length + ops.length < 2 ^ 64 →
    (ops.foldl TermData.call t).pCount = (ops.foldl TermData.call t).pPostings.length := by
  induction ops with
  | nil => intro t h _; exact h
  | cons op ops ih =>
    intro t h hlen
    rw [List.foldl_cons]
    rw [List.length_cons] at hlen
    cases op with
    | add id =>
      have hcall : t.call (PostingOp.add id) = t.addPosting id := rfl
      rw [hcall]
      rcases addPosting_cases t id with ⟨hs, _⟩ | hs
      · rw [hs]; exact ih t h (by omega)
      · rw [hs]
        refine ih _ ?_ ?_
        · show (t.pCount + 1) % 2 ^ 64 = (t.pPostings ++ [id]).length
          rw [List.length_append, h, Nat.mod_eq_of_lt (by omega)]
          rfl
        · show (t.pPostings ++ [id]).length + ops.length < 2 ^ 64
          rw [List.length_append]
          simp only [List.length_singleton]
          omega
    | remove id =>
      have hcall : t.call (PostingOp.remove id) = t.removePosting id := rfl
      rw [hcall]
      rcases removePosting_cases t id with hs | ⟨hin, hc, hp⟩
      · rw [hs]; exact ih t h (by omega)
      · have hpos : 0 < t.pPostings.length := List.length_pos_of_mem hin
        have hlen2 : (t.pPostings.erase id).length = t.pPostings.length - 1 :=
          List.length_erase_of_mem hin
        refine ih _ ?_ ?_
        · rw [hc, hp, hlen2, h]
          have : t.pPostings.length + 2 ^ 64 - 1 = (t.pPostings.length - 1) + 2 ^ 64 := by omega
          rw [this, Nat.add_mod_right, Nat.mod_eq_of_lt (by omega)]
        · rw [hp, hlen2]
          omega

/-- C38: for every posting list and docid `d`, after `addPosting(d)` the list
holds `d`, every docid it held before, and no other docid; and after every
sequence of calls of `addPosting` and `removePosting` on a new term data
(fewer than `2^64` calls, the range of the counter) `numPostings` is the
length of the list, as it is after every such sequence on a term data whose
`numPostings` is the length of its list. -/
theorem addPosting_membership :
    (∀ (t : TermData) (d x : Nat),
      x ∈ (t.addPosting d).pPostings ↔ x ∈ t.pPostings ∨ x = d) ∧
    (∀ ops : List PostingOp, ops.length < 2 ^ 64 →
      (ops.foldl TermData.call {}).numPostings
        = (ops.foldl TermData.call {}).pPostings.length) ∧
    (∀ (t : TermData) (ops : List PostingOp), t.numPostings = t.pPostings.length →
      t.pPostings.length + ops.length < 2 ^ 64 →
      (ops.foldl TermData.call t).numPostings
        = (ops.foldl TermData.call t).pPostings.length) := by
  refine ⟨?_, ?_, fun t ops h hlen => call_count ops t h hlen⟩
  · intro t d x
    rcases addPosting_cases t d with ⟨hs, hin⟩ | hs
    · rw [hs]
      constructor
      · exact Or.inl
      · rintro (h | h)
        · exact h
        · rw [h]; exact hin
    · rw [hs]
      show x ∈ t.pPostings ++ [d] ↔ _
      simp
  · intro ops hlen
    exact call_count ops {} rfl (by
      show 0 + ops.length < 2 ^ 64
      omega)

/-- Instance of `addPosting_membership`: the calls `addPosting(2)`,
`addPosting(1)`, `addPosting(2)`, `removePosting(5)`, `removePosting(2)` on a
new term data leave the list 1, 2 with count 2. -/
theorem addPosting_membership_witness :
    [PostingOp.add 2, PostingOp.add 1, PostingOp.add 2, PostingOp.remove 5,
      PostingOp.remove 2].length < 2 ^ 64 ∧
    [PostingOp.add 2, PostingOp.add 1, PostingOp.add 2, PostingOp.remove 5,
      PostingOp.remove 2].foldl TermData.call {} = ⟨2, [1, 2]⟩ ∧
    ([PostingOp.add 2, PostingOp.add 1, PostingOp.add 2, PostingOp.remove 5,
      PostingOp.remove 2].foldl TermData.call {}).numPostings
      = ([PostingOp.add 2, PostingOp.add 1, PostingOp.add 2, PostingOp.remove 5,
          PostingOp.remove 2].foldl TermData.call {}).pPostings.length :=
  ⟨by decide, by decide, addPosting_membership.2.1 _ (by decide)⟩

/-! ## runQuery and the result container -/

/-- The parser built from a query is the parser built from the characters
before the first zero byte. -/
theorem new_takeWhile (q : List Char) :
    QueryParser.new (q.takeWhile (fun c => c ≠ NUL)) = QueryParser.new q := by
  unfold QueryParser.new
  have : (q.takeWhile (fun c => decide (c ≠ NUL))).takeWhile (fun c => decide (c ≠ NUL))
      = q.takeWhile (fun c => decide (c ≠ NUL)) := by
    rw [List.takeWhile_eq_self_iff]
    intro c hc
    exact @List.mem_takeWhile_imp _ (fun c => decide (c ≠ NUL)) q c hc
  rw [this]

/-- A status that `parseInRange` returns with a failure has the code Syntax, with
every amount of fuel and on every query. -/
theorem parse_error_code (f : Nat) (q : List Char) (st : Status)
    (h : parseInRange f q = Outcome.ok (Except.error st)) : st.pCode = errSyntax := by
  obtain ⟨p1, hq⟩ := query_of_parse q f _ h
  rw [← new_takeWhile q] at hq
  have hnul : ∀ c ∈ q.takeWhile (fun c => c ≠ NUL), c ≠ NUL := by
    intro c hc
    simpa using List.mem_takeWhile_imp hc
  obtain ⟨r, hr, hdesc⟩ := query_total (QueryParser.new (q.takeWhile (fun c => c ≠ NUL))) _ _
    (parserAt_new _ hnul)
  have hu := returns_unique _ (query_mono _) _ _ hr ⟨f, hq⟩
  rw [hu] at hdesc
  rcases hdesc with ⟨t, ht, _⟩ | ⟨he, _⟩
  · cases ht
  · have he2 : Except.error st = Except.error p1.syntaxError := he
    have he3 : st = p1.syntaxError := by
      injection he2
    rw [he3]
    rfl

/-- C39: when the query fails to parse, `runQuery` returns the status of the
parser, which has the code Syntax and is not OK, and leaves the result
container as it was, whatever the index is (no execution tree is built or
run); a query of fewer than `2 ^ 31 - 1` characters other than the zero byte
whose tokens are not derived from the grammar does fail to parse, with enough
fuel; when the query
parses, the run does not depend on what the container held before, and when it
returns, it returns success and the container holds the names of the docids
that the execution tree of this query yields, and nothing else. -/
theorem runQuery_frame :
    (∀ (fuel : Nat) (idx : Index) (result : List (List Char)) (query : List Char) (st : Status),
      parse fuel query = Outcome.ok (Except.error st) →
      runQuery fuel idx result query = Outcome.ok (st, result) ∧
      st.pCode = errSyntax ∧ st.isOK = false ∧
      ∀ idx2, runQuery fuel idx2 result query = Outcome.ok (st, result)) ∧
    (∀ (query : List Char), (∀ c ∈ query, c ≠ NUL) → query.length < 2 ^ 31 - 1 →
      ¬ Derives NT.orExpr (tokensOf query) →
      ∃ f0, ∀ fuel, f0 ≤ fuel → ∀ (idx : Index) (result : List (List Char)),
        ∃ st, runQuery fuel idx result query = Outcome.ok (st, result) ∧
          st.pCode = errSyntax) ∧
    (∀ (fuel : Nat) (idx : Index) (result : List (List Char)) (query : List Char) (t : PNode),
      parse fuel query = Outcome.ok (Except.ok t) →
      runQuery fuel idx result query = runQuery fuel idx [] query ∧
      ∀ st out, runQuery fuel idx result query = Outcome.ok (st, out) →
        st = {} ∧ ∃ ids, execute fuel idx t = Outcome.ok ids ∧
          out = ids.map idx.getDocumentName) := by
  refine ⟨?_, ?_, ?_⟩
  · intro fuel idx result query st h
    have hrun : ∀ idx2, runQuery fuel idx2 result query = Outcome.ok (st, result) := by
      intro idx2
      unfold runQuery
      rw [h]
    have hc : st.pCode = errSyntax := by
      rcases parse_sim fuel query with h1 | h1
      · rw [h1] at h; exact parse_error_code fuel query st h
      · rw [h1] at h; cases h
    refine ⟨hrun idx, hc, ?_, hrun⟩
    unfold Status.isOK
    rw [hc]
    rfl
  · intro query hnul hlen hnot
    obtain ⟨f0, hf0⟩ := parse_decides query hnul
    refine ⟨f0, fun fuel hf idx result => ?_⟩
    obtain ⟨st, hst, hcode⟩ := (hf0 fuel hf).2 hnot
    refine ⟨st, ?_, hcode⟩
    unfold runQuery
    rw [parse_inRange query (takeWhile_length_lt query hlen), hst]
  · intro fuel idx result query t h
    refine ⟨?_, ?_⟩
    · unfold runQuery
      rw [h]
    · intro st out hrun
      unfold runQuery at hrun
      rw [h] at hrun
      simp only [] at hrun
      cases he : execute fuel idx t with
      | ok ids =>
        rw [he] at hrun
        have h5 := Prod.mk.inj (Outcome.ok.inj hrun)
        exact ⟨h5.1.symm, ids, rfl, h5.2.symm⟩
      | fault => rw [he] at hrun; cases hrun
      | outOfFuel => rw [he] at hrun; cases hrun

/-- Instance of `runQuery_frame`: the query `cat AND` on the index of the
"build and query" scenario, with a container that holds `x`, and the query
`cat` with the same container. -/
theorem runQuery_frame_witness :
    parse 10 "cat AND".toList
      = Outcome.ok (Except.error ⟨errSyntax, "Syntax error at (1, 8)".toList⟩) ∧
    runQuery 10 scenarioIndex ["x".toList] "cat AND".toList
      = Outcome.ok (⟨errSyntax, "Syntax error at (1, 8)".toList⟩, ["x".toList]) ∧
    parse 10 "cat".toList = Outcome.ok (Except.ok (PNode.mk TokenType.Term "cat".toList [])) ∧
    runQuery 10 scenarioIndex ["x".toList] "cat".toList
      = Outcome.ok ({}, ["a.txt".toList, "c.txt".toList]) ∧
    runQuery 10 scenarioIndex ["x".toList] "cat".toList
      = runQuery 10 scenarioIndex [] "cat".toList :=
  ⟨(parse_inRange _ (by decide) _).trans rfl,
    (runQuery_frame.1 10 scenarioIndex ["x".toList] "cat AND".toList
      ⟨errSyntax, "Syntax error at (1, 8)".toList⟩
      ((parse_inRange _ (by decide) _).trans rfl)).1,
    (parse_inRange _ (by decide) _).trans rfl,
    (runQuery_inRange _ (by decide) _ _ _).trans (by decide),
    (runQuery_frame.2.2 10 scenarioIndex ["x".toList] "cat".toList
      (PNode.mk TokenType.Term "cat".toList [])
      ((parse_inRange _ (by decide) _).trans rfl)).1⟩

/-! ## The cursors after exhaustion -/

/-- C34 (the code departs from the claim): on the index of the "build and
query" scenario the cursor of `cat AND dog`, an `AndNode`, shows docid 3 once
`loadResult` has returned `false`, and so does the cursor of `NOT cat`, a
`NotNode`; 3 is not the value `2^64 - 1`, and a further `loadResult` returns
`false` and leaves 3.  The cursors of `cat`, a `TermNode`, and of
`cat OR dog`, an `OrNode`, show `2^64 - 1`. -/
theorem stale_docid_after_exhaustion :
    resultAfterExhaustion 10 scenarioIndex "cat AND dog".toList = Outcome.ok (3, false, 3) ∧
    resultAfterExhaustion 10 scenarioIndex "NOT cat".toList = Outcome.ok (3, false, 3) ∧
    3 ≠ noDoc ∧ noDoc = 2 ^ 64 - 1 ∧
    resultAfterExhaustion 10 scenarioIndex "cat".toList = Outcome.ok (noDoc, false, noDoc) ∧
    resultAfterExhaustion 10 scenarioIndex "cat OR dog".toList
      = Outcome.ok (noDoc, false, noDoc) := by
  rw [resultAfterExhaustion_inRange "cat AND dog".toList (by decide),
    resultAfterExhaustion_inRange "NOT cat".toList (by decide),
    resultAfterExhaustion_inRange "cat".toList (by decide),
    resultAfterExhaustion_inRange "cat OR dog".toList (by decide)]
  decide

/-! ## The tokens of a file -/

/-- C40 (the code departs from the claim): on the content `cat dog` the loop
over `loadNextToken` sees the token `cat` only, while the maximal runs without
white space are `cat` and `dog`; the call that reads `dog` returns `false`
with `dog` in `pToken`.  On `cat dog` followed by a line feed the loop sees
both tokens. -/
theorem final_token_dropped :
    fileTokens "cat dog".toList = Outcome.ok ["cat".toList] ∧
    whitespaceFreeRuns "cat dog".toList = ["cat".toList, "dog".toList] ∧
    ((FileTokenizer.openOn "cat dog".toList).loadNextToken.2.loadNextToken.1 = false ∧
      (FileTokenizer.openOn "cat dog".toList).loadNextToken.2.loadNextToken.2.getToken
        = "dog".toList) ∧
    fileTokens "cat dog\n".toList = Outcome.ok ["cat".toList, "dog".toList] ∧
    whitespaceFreeRuns "cat dog\n".toList = ["cat".toList, "dog".toList] := by
  decide

/-! ## Cursors over posting lists -/

/-- The current docid of `termAt`. -/
theorem getResult_termAt (c : Nat) (t : List Char) (L P : List Nat) :
    (termAt c t L P).getResult = Outcome.ok (P.headD noDoc) := by
  cases P <;> rfl

/-- Method `loadResult` on a `TermNode` that has loaded before. -/
theorem loadResult_termAt (f c : Nat) (t : List Char) (L P : List Nat) :
    Node.loadResult (f + 1) (termAt c t L P)
      = Outcome.ok (decide (P.tail ≠ []), termAt c t L P.tail) := by
  cases P with
  | nil => rfl
  | cons x rest =>
    cases rest with
    | nil => rfl
    | cons y r => rfl

/-- The first `loadResult` on a `TermNode` as `prepare` leaves it. -/
theorem loadResult_new (f c : Nat) (t : List Char) (L : List Nat) :
    Node.loadResult (f + 1) (Node.TermNode c t (some (DataLoader.new L)))
      = Outcome.ok (decide (L ≠ []), termAt c t L L) := by
  cases L <;> rfl

/-- The loop of `check` moves a loader past the pending docids below
`docId`. -/
theorem seek_termAt (f c : Nat) (t : List Char) (L : List Nat) (docId : Nat) :
    ∀ (P : List Nat) (k : Nat), P.length < k →
      seek (Node.loadResult (f + 1)) k (termAt c t L P) docId
        = Outcome.ok (termAt c t L (P.dropWhile (fun x => x < docId))) := by
  intro P
  induction P with
  | nil =>
    intro k hk
    cases k with
    | zero => simp at hk
    | succ k =>
      rw [seek, getResult_termAt]
      simp only []
      by_cases h : ([] : List Nat).headD noDoc < docId
      · rw [if_pos h, loadResult_termAt]
        rfl
      · rw [if_neg h]
        rfl
  | cons x rest ih =>
    intro k hk
    cases k with
    | zero => simp at hk
    | succ k =>
      rw [seek, getResult_termAt]
      simp only []
      have hx : (x :: rest).headD noDoc = x := rfl
      rw [hx]
      by_cases h : x < docId
      · rw [if_pos h, loadResult_termAt]
        have hd : (x :: rest).dropWhile (fun x => decide (x < docId))
            = rest.dropWhile (fun x => decide (x < docId)) := by
          rw [List.dropWhile_cons]
          simp [h]
        rw [hd]
        cases rest with
        | nil => rfl
        | cons y r =>
          have ht : decide ((x :: y :: r).tail ≠ []) = true := by simp
          rw [ht]
          simp only [List.tail_cons]
          exact ih k (by simp at hk ⊢; omega)
      · rw [if_neg h]
        have hd : (x :: rest).dropWhile (fun x => decide (x < docId)) = x :: rest := by
          rw [List.dropWhile_cons]
          simp [h]
        rw [hd]

/-- Method `Sum::check` on one loader: the loader is moved past the pending
docids below `docId`, and the answer is whether it then shows `docId`. -/
theorem sumCheck_termAt (f c : Nat) (t : List Char) (L P : List Nat) (docId k : Nat)
    (hk : P.length < k) :
    Sum.check (Node.loadResult (f + 1)) k [termAt c t L P] docId
      = Outcome.ok (decide ((P.dropWhile (fun x => x < docId)).headD noDoc = docId),
          [termAt c t L (P.dropWhile (fun x => x < docId))]) := by
  rw [Sum.check, seek_termAt f c t L docId P k hk]
  simp only []
  rw [getResult_termAt]
  simp only []
  by_cases h : (P.dropWhile (fun x => x < docId)).headD noDoc = docId
  · rw [if_pos h, decide_eq_true h]
  · rw [if_neg h, decide_eq_false h]
    rfl

/-! ## The cursor of `a AND NOT b` -/

/-- One call of `AndNode::loadResult` on the cursor of `a AND NOT b`: it
returns `false` when no docid is left to yield, and otherwise stops at the
first docid that is left. -/
theorem andNot_loadResult (f c ca cb : Nat) (ta tb : List Char) (La Lb : List Nat) :
    ∀ (A P : List Nat) (k x pd : Nat), A.length + P.length + 1 < k →
      (andNot A P = [] →
        ∃ n, AndNode.loadResult (Node.loadResult (f + 1)) k c [] pd
            (some (Node.TermNode ca ta (some { pPostings := La, pCurrent := A, pDoc := x })))
            [termAt cb tb Lb P] [] = Outcome.ok (false, n)) ∧
      (∀ d rest, andNot A P = d :: rest →
        ∃ A1 P1, AndNode.loadResult (Node.loadResult (f + 1)) k c [] pd
            (some (Node.TermNode ca ta (some { pPostings := La, pCurrent := A, pDoc := x })))
            [termAt cb tb Lb P] []
          = Outcome.ok (true, Node.AndNode c [] d
              (some (Node.TermNode ca ta (some { pPostings := La, pCurrent := A1, pDoc := d })))
              [termAt cb tb Lb P1] []) ∧
          andNot A1 P1 = rest ∧ A1.length < A.length ∧ P1.length ≤ P.length) := by
  intro A
  induction A with
  | nil =>
    intro P k x pd hk
    cases k with
    | zero => simp at hk
    | succ k =>
      refine ⟨fun _ => ⟨_, rfl⟩, ?_⟩
      intro d rest h
      simp [andNot] at h
  | cons d A ih =>
    intro P k x pd hk
    cases k with
    | zero => simp at hk
    | succ k =>
      have hlen : (P.dropWhile (fun x => decide (x < d))).length ≤ P.length :=
        (List.dropWhile_suffix _).length_le
      have hsum := sumCheck_termAt f cb tb Lb P d k (by simp at hk; omega)
      have hstep : AndNode.loadResult (Node.loadResult (f + 1)) (k + 1) c [] pd
            (some (Node.TermNode ca ta (some { pPostings := La, pCurrent := d :: A, pDoc := x })))
            [termAt cb tb Lb P] []
          = (if (P.dropWhile (fun x => decide (x < d))).headD noDoc = d then
              AndNode.loadResult (Node.loadResult (f + 1)) k c [] d
                (some (Node.TermNode ca ta (some { pPostings := La, pCurrent := A, pDoc := d })))
                [termAt cb tb Lb (P.dropWhile (fun x => decide (x < d)))] []
            else
              Outcome.ok (true, Node.AndNode c [] d
                (some (Node.TermNode ca ta (some { pPostings := La, pCurrent := A, pDoc := d })))
                [termAt cb tb Lb (P.dropWhile (fun x => decide (x < d)))] [])) := by
        rw [AndNode.loadResult]
        simp only [Node.loadResult, DataLoader.loadResult, Node.getResult, Intersection.check]
        rw [hsum]
        by_cases h : (P.dropWhile (fun x => decide (x < d))).headD noDoc = d
        · rw [if_pos h, decide_eq_true h]
        · rw [if_neg h, decide_eq_false h]
      rw [hstep]
      have hrec := ih (P.dropWhile (fun x => decide (x < d))) k d d
        (by simp at hk; omega)
      by_cases h : (P.dropWhile (fun x => decide (x < d))).headD noDoc = d
      · rw [if_pos h]
        have hand : andNot (d :: A) P = andNot A (P.dropWhile (fun x => decide (x < d))) := by
          rw [andNot, if_pos h]
        rw [hand]
        refine ⟨hrec.1, ?_⟩
        intro d1 rest hd
        obtain ⟨A1, P1, h1, h2, h3, h4⟩ := hrec.2 d1 rest hd
        exact ⟨A1, P1, h1, h2, (by simp; omega), (by omega)⟩
      · rw [if_neg h]
        have hand : andNot (d :: A) P
            = d :: andNot A (P.dropWhile (fun x => decide (x < d))) := by
          rw [andNot, if_neg h]
        rw [hand]
        refine ⟨fun h0 => (by cases h0), ?_⟩
        intro d1 rest hd
        have hd1 : d = d1 := (List.cons.inj hd).1
        have hd2 := (List.cons.inj hd).2
        subst hd1
        exact ⟨A, _, rfl, hd2, by simp, hlen⟩

/-- The drain loop of `runQueryInRange` on the cursor of `a AND NOT b` collects the
docids of `andNot`. -/
theorem drain_andNot (f c ca cb : Nat) (ta tb : List Char) (La Lb : List Nat) :
    ∀ (n : Nat) (A : List Nat), A.length ≤ n → ∀ (P : List Nat) (K x pd : Nat) (acc : List Nat),
      A.length < K → A.length + P.length + 1 < f + 1 →
      drain (Node.loadResult (f + 2)) K
          (Node.AndNode c [] pd
            (some (Node.TermNode ca ta (some { pPostings := La, pCurrent := A, pDoc := x })))
            [termAt cb tb Lb P] []) acc
        = Outcome.ok (acc ++ andNot A P) := by
  intro n
  induction n with
  | zero =>
    intro A hA P K x pd acc hK hf
    have hnil : A = [] := List.length_eq_zero.1 (by omega)
    subst hnil
    cases K with
    | zero => simp at hK
    | succ K =>
      rw [drain]
      simp [Node.loadResult, AndNode.loadResult, DataLoader.loadResult, andNot]
  | succ n ih =>
    intro A hA P K x pd acc hK hf
    cases K with
    | zero => simp at hK
    | succ K =>
      have hload : Node.loadResult (f + 2)
            (Node.AndNode c [] pd
              (some (Node.TermNode ca ta (some { pPostings := La, pCurrent := A, pDoc := x })))
              [termAt cb tb Lb P] [])
          = AndNode.loadResult (Node.loadResult (f + 1)) (f + 1) c [] pd
              (some (Node.TermNode ca ta (some { pPostings := La, pCurrent := A, pDoc := x })))
              [termAt cb tb Lb P] [] := by
        rw [Node.loadResult]
      have hloop := andNot_loadResult f c ca cb ta tb La Lb A P (f + 1) x pd hf
      rw [drain, hload]
      cases hres : andNot A P with
      | nil =>
        obtain ⟨nd, hnd⟩ := hloop.1 hres
        rw [hnd]
        simp
      | cons d rest =>
        obtain ⟨A1, P1, h1, h2, h3, h4⟩ := hloop.2 d rest hres
        rw [h1]
        simp only [Node.getResult]
        rw [ih A1 (by omega) P1 K d d (acc ++ [d]) (by omega) (by omega), h2]
        simp

/-- In a strictly ascending list the part from the first docid that is not
below `d` on starts with `d` exactly when the list holds `d`, for `d` other
than `(docid_t)-1`. -/
theorem head_dropWhile_iff (P : List Nat) (d : Nat) (hasc : P.Pairwise (fun a b => a < b))
    (hd : d ≠ noDoc) :
    (P.dropWhile (fun x => decide (x < d))).headD noDoc = d ↔ d ∈ P := by
  have hsplit := List.takeWhile_append_dropWhile (fun x => decide (x < d)) P
  constructor
  · intro h
    cases hP : P.dropWhile (fun x => decide (x < d)) with
    | nil =>
      rw [hP] at h
      exact absurd h.symm hd
    | cons y r =>
      rw [hP] at h
      have hy : y = d := h
      rw [← hsplit, hP, hy]
      simp
  · intro h
    rw [← hsplit] at h hasc
    rcases List.mem_append.1 h with h1 | h1
    · have := List.mem_takeWhile_imp h1
      simp at this
    · cases hP : P.dropWhile (fun x => decide (x < d)) with
      | nil => rw [hP] at h1; cases h1
      | cons y r =>
        rw [hP] at h1 hasc
        have hy : ¬ y < d := by
          have := List.head_dropWhile_not (fun x => decide (x < d)) P (by rw [hP]; simp)
          simp only [hP, List.head_cons] at this
          simpa using this
        rcases List.mem_cons.1 h1 with h2 | h2
        · exact h2.symm
        · have hlt : y < d := (List.pairwise_cons.1 (List.pairwise_append.1 hasc).2.1).1 d h2
          exact absurd hlt hy

/-- A docid above `d` is in a strictly ascending list exactly when it is in
the part from the first docid that is not below `d` on. -/
theorem mem_dropWhile_iff (P : List Nat) (d y : Nat) (hy : d < y) :
    y ∈ P.dropWhile (fun x => decide (x < d)) ↔ y ∈ P := by
  have hsplit := List.takeWhile_append_dropWhile (fun x => decide (x < d)) P
  constructor
  · intro h
    exact (List.dropWhile_suffix _).subset h
  · intro h
    rw [← hsplit] at h
    rcases List.mem_append.1 h with h1 | h1
    · have := List.mem_takeWhile_imp h1
      simp at this
      omega
    · exact h1

/-- On strictly ascending lists `andNot` keeps the docids of the first list
that the second list does not hold. -/
theorem andNot_eq_filter : ∀ (A P : List Nat), A.Pairwise (fun a b => a < b) →
    P.Pairwise (fun a b => a < b) → noDoc ∉ A →
    andNot A P = A.filter (fun d => decide (d ∉ P)) := by
  intro A
  induction A with
  | nil => intro P _ _ _; rfl
  | cons d A ih =>
    intro P hA hP hno
    have hd : d ≠ noDoc := fun h => hno (by rw [h]; simp)
    have hA2 := List.pairwise_cons.1 hA
    have hP1 : (P.dropWhile (fun x => decide (x < d))).Pairwise (fun a b => a < b) :=
      hP.sublist (List.dropWhile_suffix _).sublist
    have hrec := ih (P.dropWhile (fun x => decide (x < d))) hA2.2 hP1
      (fun h => hno (List.mem_cons_of_mem _ h))
    have hfilter : A.filter (fun y => decide (y ∉ P.dropWhile (fun x => decide (x < d))))
        = A.filter (fun y => decide (y ∉ P)) := by
      apply List.filter_congr
      intro y hy
      exact decide_eq_decide.2 (not_congr (mem_dropWhile_iff P d y (hA2.1 y hy)))
    rw [andNot, hrec, hfilter, List.filter_cons]
    by_cases h : (P.dropWhile (fun x => decide (x < d))).headD noDoc = d
    · have hin : d ∈ P := (head_dropWhile_iff P d hP hd).1 h
      rw [if_pos h]
      simp [hin]
    · have hin : d ∉ P := fun hin => h ((head_dropWhile_iff P d hP hd).2 hin)
      rw [if_neg h]
      simp [hin]

/-! ## The query `a AND NOT b` -/

/-- The term data that `find` returns is the data of an entry of the index. -/
theorem find_mem (idx : Index) (t : List Char) (td : TermData) (h : idx.find t = some td) :
    ∃ e ∈ idx.pIndex, e.2 = td := by
  unfold Index.find at h
  cases hf : idx.pIndex.find? (fun e => e.1 = t) with
  | none => rw [hf] at h; cases h
  | some e =>
    rw [hf] at h
    exact ⟨e, List.mem_of_find?_eq_some hf, Option.some.inj h⟩

/-- The query `a AND NOT b` parses to `And[Term a, Not[Term b]]`. -/
theorem parse_and_not (a b : List Char) (ha : TermWord a) (hb : TermWord b) (m : Nat) :
    parseInRange (m + 8) (a ++ " AND NOT ".toList ++ b)
      = Outcome.ok (Except.ok
          (PNode.mk TokenType.BinaryOp "AND".toList
            [PNode.mk TokenType.Term a [],
              PNode.mk TokenType.UnaryOp "NOT".toList [PNode.mk TokenType.Term b []]])) := by
  have hq : a ++ " AND NOT ".toList ++ b = spaced [a, "AND".toList, "NOT".toList, b] := by
    simp [spaced]
  obtain ⟨p, hs, hp⟩ := parse_words (m + 8) [a, "AND".toList, "NOT".toList, b]
    (by
      intro w hw
      simp only [List.mem_cons, List.mem_singleton, List.not_mem_nil, or_false] at hw
      rcases hw with rfl | rfl | rfl | rfl
      · exact ha.1
      · exact plainWord_keyword.1
      · exact plainWord_keyword.2.2
      · exact hb.1)
  rw [hq, hp]
  simp only [List.map, TokenStream, classify_termWord a ha, classify_termWord b hb] at hs
  obtain ⟨h1, h1v, h2, h2v, h3, h3v, h4, h4v, h5, h5v⟩ := hs
  have k1 : classify "NOT".toList = TokenType.UnaryOp := by decide
  have k2 : classify "AND".toList = TokenType.BinaryOp := by decide
  rw [k2] at h2
  rw [k1] at h3
  simp [block1InRange, block1LoopInRange, block2InRange, block2LoopInRange, block3InRange, QueryParser.acceptInRange,
    QueryParser.acceptValueInRange, collapse, h1, h1v, h2, h2v, h3, h3v, h4, h4v, h5, h5v]

/-- Method `prepare` on the execution tree of `a AND NOT b`: the loader of `a`
drives, and the loader of `b`, which has loaded once, is the only negator. -/
theorem prepare_and_not (f : Nat) (idx : Index) (a b : List Char) (ta tb : TermData)
    (hfa : idx.find a = some ta) (hfb : idx.find b = some tb) :
    ∃ c, Node.prepare (f + 1) idx
        (Node.AndNode 0 [Node.TermNode 0 a none,
          Node.NotNode 0 (Node.TermNode 0 b none) noDoc []] 0 none [] [])
      = Outcome.ok (Node.AndNode c [] 0
          (some (Node.TermNode ta.pCount a
            (some { pPostings := ta.pPostings, pCurrent := ta.pPostings, pDoc := noDoc })))
          [termAt tb.pCount b tb.pPostings tb.pPostings] []) := by
  have hload := loadResult_new f tb.pCount b tb.pPostings
  by_cases hless : andLess
      (Node.NotNode ((idx.numDocuments + 2 ^ 64 - tb.pCount) % 2 ^ 64)
        (termAt tb.pCount b tb.pPostings tb.pPostings) noDoc idx.pDocuments.tail)
      (Node.TermNode ta.pCount a (some (DataLoader.new ta.pPostings))) = true
  · refine ⟨(idx.numDocuments + 2 ^ 64 - tb.pCount) % 2 ^ 64, ?_⟩
    simp only [Node.prepare, Node.prepareAll, hfa, hfb, loadNodes, hload, TermData.numPostings,
      TermData.getPostings, Node.getCount, List.headD, stdSort, orderedInsert, hless, if_true]
    rfl
  · refine ⟨ta.pCount, ?_⟩
    simp only [Node.prepare, Node.prepareAll, hfa, hfb, loadNodes, hload, TermData.numPostings,
      TermData.getPostings, Node.getCount, List.headD, stdSort, orderedInsert, hless]
    rfl

/-- The run of `a AND NOT b` on an index that holds the lowercase forms of the
two words, in terms of `andNot`. -/
theorem runQuery_and_not (idx : Index) (a b : List Char) (ta tb : TermData)
    (result : List (List Char)) (ha : TermWord a) (hb : TermWord b)
    (hfa : idx.find (a.map Char.toLower) = some ta)
    (hfb : idx.find (b.map Char.toLower) = some tb) (m : Nat) :
    runQueryInRange (m + ta.pPostings.length + tb.pPostings.length + 8) idx result
        (a ++ " AND NOT ".toList ++ b)
      = Outcome.ok ({}, (andNot ta.pPostings tb.pPostings).map idx.getDocumentName) := by
  obtain ⟨c, hprep⟩ := prepare_and_not (m + ta.pPostings.length + tb.pPostings.length + 7) idx
    _ _ ta tb hfa hfb
  have hdrain := drain_andNot (m + ta.pPostings.length + tb.pPostings.length + 6) c ta.pCount
    tb.pCount (a.map Char.toLower) (b.map Char.toLower) ta.pPostings tb.pPostings
    ta.pPostings.length ta.pPostings (le_refl _) tb.pPostings
    (m + ta.pPostings.length + tb.pPostings.length + 8) noDoc 0 [] (by omega) (by omega)
  rw [show m + ta.pPostings.length + tb.pPostings.length + 7 + 1
      = m + ta.pPostings.length + tb.pPostings.length + 8 by omega] at hprep
  rw [show m + ta.pPostings.length + tb.pPostings.length + 6 + 2
      = m + ta.pPostings.length + tb.pPostings.length + 8 by omega] at hdrain
  unfold runQueryInRange
  rw [parse_and_not a b ha hb (m + ta.pPostings.length + tb.pPostings.length)]
  simp only [execute, translate, translateAll]
  rw [if_neg (by decide)]
  simp only []
  rw [hprep]
  simp only []
  rw [hdrain]
  rfl

/-- C36, counterexample: in the index that `load` builds from the text
`2\n5 x\n18446744073709551615 y\n2\na 1 18446744073709551615 \nb 1 5 \n`
every posting list is strictly ascending and the terms `a` and `b` are
present; the posting `2^64 - 1` of `a`, the docid of the document `y`, is not a
posting of `b`, and `runQuery` returns no name for `a AND NOT b`. -/
theorem and_not_misses_marker_docid :
    ({} : Index).load (Except.ok
        "2\n5 x\n18446744073709551615 y\n2\na 1 18446744073709551615 \nb 1 5 \n".toList)
      = Outcome.ok ({}, markerIndex) ∧
    markerIndex.postingsAscending ∧
    markerIndex.find "a".toList = some ⟨1, [18446744073709551615]⟩ ∧
    markerIndex.find "b".toList = some ⟨1, [5]⟩ ∧
    (18446744073709551615 : Nat) = 2 ^ 64 - 1 ∧ 18446744073709551615 ∉ [5] ∧
    markerIndex.getDocumentName 18446744073709551615 = "y".toList ∧
    runQuery 20 markerIndex [] "a AND NOT b".toList = Outcome.ok ({}, []) := by
  rw [runQuery_inRange "a AND NOT b".toList (by decide)]
  decide

/-- C36, amended: for every index with strictly ascending posting lists and
all words `a`, `b` that the lexer takes for terms and whose lowercase forms
are present in the index, when no posting of `a` is `2^64 - 1` and the query
has fewer than `2 ^ 31 - 1` characters, `runQuery` of `a AND NOT b` returns
with success, with enough fuel, and yields the names of
the docids of the posting list of `a` that are not in the posting list of `b`,
in the order of the posting list of `a`, which is ascending. -/
theorem and_not_query (idx : Index) (a b : List Char) (ta tb : TermData)
    (result : List (List Char)) (ha : TermWord a) (hb : TermWord b)
    (hfa : idx.find (a.map Char.toLower) = some ta)
    (hfb : idx.find (b.map Char.toLower) = some tb)
    (hasc : idx.postingsAscending) (hno : noDoc ∉ ta.pPostings)
    (hlen : (a ++ " AND NOT ".toList ++ b).length < 2 ^ 31 - 1) (m : Nat) :
    runQuery (m + ta.pPostings.length + tb.pPostings.length + 8) idx result
        (a ++ " AND NOT ".toList ++ b)
      = Outcome.ok ({}, (ta.pPostings.filter (fun d => decide (d ∉ tb.pPostings))).map
          idx.getDocumentName) ∧
    (ta.pPostings.filter (fun d => decide (d ∉ tb.pPostings))).Pairwise
      (fun x y => x < y) := by
  obtain ⟨ea, hea, hea2⟩ := find_mem idx _ ta hfa
  obtain ⟨eb, heb, heb2⟩ := find_mem idx _ tb hfb
  have hA : ta.pPostings.Pairwise (fun x y => x < y) := by
    rw [← hea2]; exact hasc ea hea
  have hB : tb.pPostings.Pairwise (fun x y => x < y) := by
    rw [← heb2]; exact hasc eb heb
  refine ⟨?_, hA.sublist (List.filter_sublist _)⟩
  rw [runQuery_inRange _ (takeWhile_length_lt _ hlen),
    runQuery_and_not idx a b ta tb result ha hb hfa hfb m,
    andNot_eq_filter ta.pPostings tb.pPostings hA hB hno]

/-- Instance of `and_not_query`: `dog AND NOT cat` on the index of the "build
and query" scenario yields `b.txt`. -/
theorem and_not_query_witness :
    TermWord "dog".toList ∧ TermWord "cat".toList ∧
    scenarioIndex.find ("dog".toList.map Char.toLower) = some ⟨2, [1, 2]⟩ ∧
    scenarioIndex.find ("cat".toList.map Char.toLower) = some ⟨2, [1, 3]⟩ ∧
    scenarioIndex.postingsAscending ∧ noDoc ∉ [1, 2] ∧
    ("dog".toList ++ " AND NOT ".toList ++ "cat".toList).length < 2 ^ 31 - 1 ∧
    runQuery (0 + 2 + 2 + 8) scenarioIndex [] ("dog".toList ++ " AND NOT ".toList ++ "cat".toList)
      = Outcome.ok ({}, ["b.txt".toList]) :=
  ⟨by decide, by decide, by decide, by decide, by decide, by decide, by decide,
    (and_not_query scenarioIndex "dog".toList "cat".toList ⟨2, [1, 2]⟩ ⟨2, [1, 3]⟩ []
      (by decide) (by decide) (by decide) (by decide) (by decide) (by decide) (by decide)
      0).1⟩

/-! ## The cursor of `t1 OR ... OR tn` -/

/-- The pending docids of `termAt`. -/
theorem pendingOf_termAt (c : Nat) (t : List Char) (L P : List Nat)
    (hP : ∀ x ∈ P, x < noDoc) : pendingOf (termAt c t L P) = P := by
  cases P with
  | nil =>
    show (if noDoc = noDoc then [] else noDoc :: []) = []
    rw [if_pos rfl]
  | cons x r =>
    have hx : x ≠ noDoc := by
      have := hP x (by simp)
      omega
    show (if x = noDoc then [] else x :: r) = x :: r
    rw [if_neg hx]

/-- The first loop of `OrNode::loadResult` over loaders. -/
theorem minResult_good (ns : List Node) : ∀ pDoc, (∀ n ∈ ns, GoodTerm n) →
    OrNode.minResult ns pDoc = Outcome.ok (minSpec (ns.map pendingOf) pDoc) := by
  induction ns with
  | nil => intro pDoc _; rfl
  | cons n ns ih =>
    intro pDoc h
    obtain ⟨c, t, L, P, rfl, _, hP⟩ := h n (by simp)
    have hrest : ∀ n ∈ ns, GoodTerm n := fun n hn => h n (by simp [hn])
    rw [OrNode.minResult, getResult_termAt, List.map_cons, pendingOf_termAt c t L P hP]
    simp only []
    cases P with
    | nil =>
      have hh : ([] : List Nat).headD noDoc = noDoc := rfl
      rw [hh, if_pos rfl, ih pDoc hrest]
      rfl
    | cons x r =>
      have hx : x ≠ noDoc := by
        have := hP x (by simp)
        omega
      have hh : (x :: r).headD noDoc = x := rfl
      rw [hh, if_neg hx]
      by_cases hgt : pDoc > x
      · rw [if_pos hgt, ih x hrest, minSpec, if_pos hgt]
      · rw [if_neg hgt, ih pDoc hrest, minSpec, if_neg hgt]

/-- The second loop of `OrNode::loadResult` over loaders: every loader that
shows `m` moves on. -/
theorem advance_good (f m : Nat) (ns : List Node) : (∀ n ∈ ns, GoodTerm n) →
    ∃ ns1, OrNode.advance (Node.loadResult (f + 1)) m ns = Outcome.ok ns1 ∧
      (∀ n ∈ ns1, GoodTerm n) ∧ ns1.map pendingOf = (ns.map pendingOf).map (dropHead m) := by
  induction ns with
  | nil => intro _; exact ⟨[], rfl, by simp, rfl⟩
  | cons n ns ih =>
    intro h
    obtain ⟨c, t, L, P, rfl, hasc, hP⟩ := h n (by simp)
    obtain ⟨ns1, h1, h2, h3⟩ := ih (fun n hn => h n (by simp [hn]))
    rw [OrNode.advance, getResult_termAt, h1]
    simp only []
    have htail : ∀ x ∈ P.tail, x < noDoc := fun x hx => hP x (List.mem_of_mem_tail hx)
    have hgt : GoodTerm (termAt c t L P.tail) :=
      ⟨c, t, L, P.tail, rfl, hasc.sublist (List.tail_sublist P), htail⟩
    have hg : GoodTerm (termAt c t L P) := ⟨c, t, L, P, rfl, hasc, hP⟩
    by_cases hm : m = P.headD noDoc
    · rw [if_pos hm, loadResult_termAt]
      simp only []
      refine ⟨termAt c t L P.tail :: ns1, rfl, ?_, ?_⟩
      · intro n hn
        rcases List.mem_cons.1 hn with rfl | hn
        · exact hgt
        · exact h2 n hn
      · rw [List.map_cons, List.map_cons, List.map_cons, h3, pendingOf_termAt c t L P hP,
          pendingOf_termAt c t L P.tail htail]
        cases P with
        | nil => rfl
        | cons x r =>
          have : m = x := hm
          rw [dropHead, if_pos this]
          rfl
    · rw [if_neg hm]
      refine ⟨termAt c t L P :: ns1, rfl, ?_, ?_⟩
      · intro n hn
        rcases List.mem_cons.1 hn with rfl | hn
        · exact hg
        · exact h2 n hn
      · rw [List.map_cons, List.map_cons, List.map_cons, h3, pendingOf_termAt c t L P hP]
        cases P with
        | nil => rfl
        | cons x r =>
          have : ¬ m = x := hm
          rw [dropHead, if_neg this]

/-- The minimum is at most the start value and at most the first docid of
every list. -/
theorem minSpec_le (Ps : List (List Nat)) : ∀ pDoc,
    minSpec Ps pDoc ≤ pDoc ∧ ∀ P ∈ Ps, ∀ x, P.head? = some x → minSpec Ps pDoc ≤ x := by
  induction Ps with
  | nil => intro pDoc; exact ⟨le_refl _, by simp⟩
  | cons P Ps ih =>
    intro pDoc
    cases P with
    | nil =>
      rw [minSpec]
      refine ⟨(ih pDoc).1, ?_⟩
      intro Q hQ x hx
      rcases List.mem_cons.1 hQ with rfl | hQ
      · cases hx
      · exact (ih pDoc).2 Q hQ x hx
    | cons y r =>
      rw [minSpec]
      have h := ih (if pDoc > y then y else pDoc)
      have hle : (if pDoc > y then y else pDoc) ≤ pDoc ∧ (if pDoc > y then y else pDoc) ≤ y := by
        by_cases hgt : pDoc > y
        · rw [if_pos hgt]; omega
        · rw [if_neg hgt]; omega
      refine ⟨le_trans h.1 hle.1, ?_⟩
      intro Q hQ x hx
      rcases List.mem_cons.1 hQ with rfl | hQ
      · have hxy : y = x := by simpa using hx
        rw [← hxy]
        exact le_trans h.1 hle.2
      · exact h.2 Q hQ x hx

/-- The minimum is the start value or the first docid of one of the lists. -/
theorem minSpec_mem (Ps : List (List Nat)) : ∀ pDoc,
    minSpec Ps pDoc = pDoc ∨ ∃ P ∈ Ps, P.head? = some (minSpec Ps pDoc) := by
  induction Ps with
  | nil => intro pDoc; exact Or.inl rfl
  | cons P Ps ih =>
    intro pDoc
    cases P with
    | nil =>
      rw [minSpec]
      rcases ih pDoc with h | ⟨Q, hQ, h⟩
      · exact Or.inl h
      · exact Or.inr ⟨Q, List.mem_cons_of_mem _ hQ, h⟩
    | cons y r =>
      rw [minSpec]
      rcases ih (if pDoc > y then y else pDoc) with h | ⟨Q, hQ, h⟩
      · by_cases hgt : pDoc > y
        · rw [if_pos hgt] at h ⊢
          right
          exact ⟨y :: r, by simp, by rw [h]; rfl⟩
        · rw [if_neg hgt] at h ⊢
          exact Or.inl h
      · exact Or.inr ⟨Q, List.mem_cons_of_mem _ hQ, h⟩

/-- Mapping the lists to lists that are not longer, one of them shorter, makes
the sum of the lengths smaller. -/
theorem sum_length_lt (g : List Nat → List Nat) (hg : ∀ P, (g P).length ≤ P.length)
    (Ps : List (List Nat)) (h : ∃ P ∈ Ps, (g P).length < P.length) :
    ((Ps.map g).map List.length).sum < (Ps.map List.length).sum := by
  have hle : ∀ Qs : List (List Nat), ((Qs.map g).map List.length).sum ≤ (Qs.map List.length).sum := by
    intro Qs
    induction Qs with
    | nil => simp
    | cons Q Qs ih =>
      simp only [List.map_cons, List.sum_cons]
      have := hg Q
      omega
  induction Ps with
  | nil =>
    obtain ⟨P, hP, _⟩ := h
    cases hP
  | cons Q Qs ih =>
    obtain ⟨P, hP, hlt⟩ := h
    simp only [List.map_cons, List.sum_cons]
    rcases List.mem_cons.1 hP with rfl | hP
    · have := hle Qs
      omega
    · have := ih ⟨P, hP, hlt⟩
      have := hg Q
      omega

/-- Dropping the first docid is not longer. -/
theorem dropHead_length (m : Nat) (P : List Nat) : (dropHead m P).length ≤ P.length := by
  cases P with
  | nil => simp [dropHead]
  | cons x r =>
    rw [dropHead]
    by_cases h : m = x
    · rw [if_pos h]; simp
    · rw [if_neg h]

/-- One step of the cursor of an `OR` on strictly ascending lists below
`(docid_t)-1`: when the minimum `m` of the first docids is not `(docid_t)-1`,
the lists left hold docids above `m` only, the docids of the lists are `m` and
the docids of the lists left, and fewer docids are left. -/
theorem orStep_props (Ps : List (List Nat))
    (hgood : ∀ P ∈ Ps, P.Pairwise (fun a b => a < b) ∧ ∀ x ∈ P, x < noDoc)
    (hm : minSpec Ps noDoc ≠ noDoc) :
    (∀ Q ∈ Ps.map (dropHead (minSpec Ps noDoc)), ∀ x ∈ Q, minSpec Ps noDoc < x) ∧
    (∀ x, (∃ P ∈ Ps, x ∈ P) ↔
      x = minSpec Ps noDoc ∨ ∃ Q ∈ Ps.map (dropHead (minSpec Ps noDoc)), x ∈ Q) ∧
    ((Ps.map (dropHead (minSpec Ps noDoc))).map List.length).sum
      < (Ps.map List.length).sum := by
  have hle := (minSpec_le Ps noDoc).2
  obtain ⟨P0, hP0, hhead⟩ : ∃ P ∈ Ps, P.head? = some (minSpec Ps noDoc) := by
    rcases minSpec_mem Ps noDoc with h | h
    · exact absurd h hm
    · exact h
  generalize minSpec Ps noDoc = m at *
  have hkey : ∀ P ∈ Ps, (∀ x ∈ dropHead m P, m < x) ∧
      (∀ x, x ∈ P ↔ (x = m ∧ P.head? = some m) ∨ x ∈ dropHead m P) := by
    intro P hP
    obtain ⟨hasc, _⟩ := hgood P hP
    cases P with
    | nil => exact ⟨by simp [dropHead], by simp [dropHead]⟩
    | cons y r =>
      have hmy : m ≤ y := hle _ hP y rfl
      have hr : ∀ x ∈ r, y < x := (List.pairwise_cons.1 hasc).1
      rw [dropHead]
      by_cases h : m = y
      · rw [if_pos h]
        refine ⟨fun x hx => by rw [h]; exact hr x hx, ?_⟩
        intro x
        constructor
        · intro hx
          rcases List.mem_cons.1 hx with rfl | hx
          · exact Or.inl ⟨h.symm, by rw [h]; rfl⟩
          · exact Or.inr hx
        · rintro (⟨hx, _⟩ | hx)
          · rw [hx, h]; simp
          · exact List.mem_cons_of_mem _ hx
      · rw [if_neg h]
        have hlt : m < y := by omega
        refine ⟨?_, ?_⟩
        · intro x hx
          rcases List.mem_cons.1 hx with rfl | hx
          · exact hlt
          · exact lt_trans hlt (hr x hx)
        · intro x
          constructor
          · intro hx
            exact Or.inr hx
          · rintro (⟨_, hx⟩ | hx)
            · exfalso
              have : y = m := by simpa using hx
              exact h this.symm
            · exact hx
  refine ⟨?_, ?_, ?_⟩
  · intro Q hQ x hx
    obtain ⟨P, hP, rfl⟩ := List.mem_map.1 hQ
    exact (hkey P hP).1 x hx
  · intro x
    constructor
    · rintro ⟨P, hP, hx⟩
      rcases ((hkey P hP).2 x).1 hx with ⟨h, _⟩ | h
      · exact Or.inl h
      · exact Or.inr ⟨dropHead m P, List.mem_map_of_mem _ hP, h⟩
    · rintro (h | ⟨Q, hQ, hx⟩)
      · refine ⟨P0, hP0, ?_⟩
        rw [h]
        cases P0 with
        | nil => cases hhead
        | cons y r =>
          have : y = m := by simpa using hhead
          rw [this]; simp
      · obtain ⟨P, hP, rfl⟩ := List.mem_map.1 hQ
        exact ⟨P, hP, ((hkey P hP).2 x).2 (Or.inr hx)⟩
  · apply sum_length_lt _ (dropHead_length m)
    refine ⟨P0, hP0, ?_⟩
    cases P0 with
    | nil => cases hhead
    | cons y r =>
      have : y = m := by simpa using hhead
      rw [dropHead, if_pos this.symm]
      simp

/-- When the minimum of the first docids is `(docid_t)-1`, the lists, which
hold docids below it, are empty. -/
theorem minSpec_exhausted (Ps : List (List Nat)) (hgood : ∀ P ∈ Ps, ∀ x ∈ P, x < noDoc)
    (hm : minSpec Ps noDoc = noDoc) : ∀ P ∈ Ps, P = [] := by
  intro P hP
  cases P with
  | nil => rfl
  | cons y r =>
    have h1 := (minSpec_le Ps noDoc).2 _ hP y rfl
    have h2 := hgood _ hP y (by simp)
    omega

/-- The pending docids of loaders are strictly ascending and below
`(docid_t)-1`. -/
theorem pending_good (ns : List Node) (h : ∀ n ∈ ns, GoodTerm n) :
    ∀ P ∈ ns.map pendingOf, P.Pairwise (fun a b => a < b) ∧ ∀ x ∈ P, x < noDoc := by
  intro P hP
  obtain ⟨n, hn, rfl⟩ := List.mem_map.1 hP
  obtain ⟨c, t, L, Q, rfl, hasc, hQ⟩ := h n hn
  rw [pendingOf_termAt c t L Q hQ]
  exact ⟨hasc, hQ⟩

/-- The drain loop of `runQueryInRange` on an `OrNode` over loaders collects, in
strictly ascending order, the pending docids of the loaders. -/
theorem drain_or (f : Nat) : ∀ (T : Nat) (ns : List Node), (∀ n ∈ ns, GoodTerm n) →
    totalPending ns ≤ T → ∀ (K c pd : Nat) (acc : List Nat), T < K →
    ∃ out, drain (Node.loadResult (f + 2)) K (Node.OrNode c ns pd) acc = Outcome.ok (acc ++ out) ∧
      out.Pairwise (fun a b => a < b) ∧ ∀ x, x ∈ out ↔ ∃ P ∈ ns.map pendingOf, x ∈ P := by
  intro T
  induction T using Nat.strong_induction_on with
  | _ T ih =>
    intro ns hns htot K c pd acc hK
    have hgood := pending_good ns hns
    cases K with
    | zero => omega
    | succ K =>
      rw [drain]
      have hload : Node.loadResult (f + 2) (Node.OrNode c ns pd)
          = (if minSpec (ns.map pendingOf) noDoc = noDoc then
              Outcome.ok (false, Node.OrNode c ns (minSpec (ns.map pendingOf) noDoc))
            else
              match OrNode.advance (Node.loadResult (f + 1)) (minSpec (ns.map pendingOf) noDoc) ns with
              | Outcome.ok ns1 =>
                Outcome.ok (true, Node.OrNode c ns1 (minSpec (ns.map pendingOf) noDoc))
              | Outcome.fault => Outcome.fault
              | Outcome.outOfFuel => Outcome.outOfFuel) := by
        simp only [Node.loadResult, minResult_good ns noDoc hns]
      rw [hload]
      by_cases hm : minSpec (ns.map pendingOf) noDoc = noDoc
      · rw [if_pos hm]
        refine ⟨[], by simp, List.Pairwise.nil, ?_⟩
        intro x
        constructor
        · intro hx; cases hx
        · rintro ⟨P, hP, hx⟩
          rw [minSpec_exhausted _ (fun P hP => (hgood P hP).2) hm P hP] at hx
          cases hx
      · rw [if_neg hm]
        obtain ⟨ns1, h1, h2, h3⟩ := advance_good f (minSpec (ns.map pendingOf) noDoc) ns hns
        obtain ⟨hgt, hmem, hlt⟩ := orStep_props (ns.map pendingOf) hgood hm
        rw [h1]
        simp only [Node.getResult]
        have htot1 : totalPending ns1 < totalPending ns := by
          unfold totalPending
          rw [h3]
          exact hlt
        obtain ⟨out, ho1, ho2, ho3⟩ := ih (totalPending ns1) (by omega) ns1 h2 (le_refl _) K c
          (minSpec (ns.map pendingOf) noDoc) (acc ++ [minSpec (ns.map pendingOf) noDoc])
          (by omega)
        rw [h3] at ho3
        refine ⟨minSpec (ns.map pendingOf) noDoc :: out, ?_, ?_, ?_⟩
        · rw [ho1]
          simp
        · rw [List.pairwise_cons]
          refine ⟨?_, ho2⟩
          intro x hx
          obtain ⟨Q, hQ, hxQ⟩ := (ho3 x).1 hx
          exact hgt Q hQ x hxQ
        · intro x
          rw [hmem x, List.mem_cons, ho3 x]

/-! ## The query `t1 OR ... OR tn` -/

/-- The element inserted into a sorted list and the elements of the list are
the elements of the result. -/
theorem orderedInsert_perm (less : Node → Node → Bool) (a : Node) (l : List Node) :
    (orderedInsert less a l).Perm (a :: l) := by
  induction l with
  | nil => exact List.Perm.refl _
  | cons b l ih =>
    rw [orderedInsert]
    by_cases h : less b a = true
    · rw [if_pos h]
      exact (List.Perm.cons b ih).trans (List.Perm.swap a b l)
    · rw [if_neg h]

/-- Sorting permutes the nodes. -/
theorem stdSort_perm (less : Node → Node → Bool) (l : List Node) : (stdSort less l).Perm l := by
  induction l with
  | nil => exact List.Perm.refl _
  | cons a l ih =>
    rw [stdSort]
    exact (orderedInsert_perm less a _).trans (List.Perm.cons a ih)

/-- The execution nodes of `Term` nodes. -/
theorem translateAll_terms (ws : List (List Char)) :
    translateAll (ws.map termNode)
      = some (ws.map (fun w => Node.TermNode 0 (w.map Char.toLower) none)) := by
  induction ws with
  | nil => rfl
  | cons w ws ih =>
    rw [List.map_cons, translateAll, ih]
    rfl

/-- Method `prepare` on the `TermNode`s of terms that the index holds. -/
theorem prepareAll_terms (fuel : Nat) (idx : Index) (ts : List (List Char))
    (h : ∀ t ∈ ts, ∃ td, idx.find t = some td) :
    Node.prepareAll fuel idx (ts.map (fun t => Node.TermNode 0 t none))
      = Outcome.ok (ts.map (fun t => Node.TermNode (termDataOf idx t).pCount t
          (some (DataLoader.new (termDataOf idx t).pPostings)))) := by
  induction ts with
  | nil => rfl
  | cons t ts ih =>
    obtain ⟨td, htd⟩ := h t (by simp)
    have hd : termDataOf idx t = td := by
      unfold termDataOf
      rw [htd]
      rfl
    rw [List.map_cons, Node.prepareAll, Node.prepare, htd]
    simp only []
    rw [ih (fun t ht => h t (by simp [ht])), List.map_cons, hd]
    rfl

/-- The first `loadResult` on prepared `TermNode`s. -/
theorem loadNodes_terms (f : Nat) (idx : Index) (ts : List (List Char)) :
    loadNodes (Node.loadResult (f + 1))
        (ts.map (fun t => Node.TermNode (termDataOf idx t).pCount t
          (some (DataLoader.new (termDataOf idx t).pPostings))))
      = Outcome.ok (ts.map (fun t => termAt (termDataOf idx t).pCount t
          (termDataOf idx t).pPostings (termDataOf idx t).pPostings)) := by
  induction ts with
  | nil => rfl
  | cons t ts ih =>
    rw [List.map_cons, loadNodes, loadResult_new, ih]
    rfl

/-- Method `prepare` on the execution tree of `t1 OR ... OR tn`: the children
are the loaders of the terms, each loaded once, in some order. -/
theorem prepare_or (f : Nat) (idx : Index) (ts : List (List Char))
    (h : ∀ t ∈ ts, ∃ td, idx.find t = some td) :
    ∃ c ns, Node.prepare (f + 1) idx
        (Node.OrNode 0 (ts.map (fun t => Node.TermNode 0 t none)) noDoc)
      = Outcome.ok (Node.OrNode c ns noDoc) ∧
      ns.Perm (ts.map (fun t => termAt (termDataOf idx t).pCount t
          (termDataOf idx t).pPostings (termDataOf idx t).pPostings)) := by
  refine ⟨sumCounts (ts.map (fun t => Node.TermNode (termDataOf idx t).pCount t
      (some (DataLoader.new (termDataOf idx t).pPostings)))) 0,
    stdSort orLess (ts.map (fun t => termAt (termDataOf idx t).pCount t
      (termDataOf idx t).pPostings (termDataOf idx t).pPostings)), ?_, stdSort_perm orLess _⟩
  rw [Node.prepare, prepareAll_terms (f + 1) idx ts h]
  simp only []
  rw [loadNodes_terms f idx ts]

/-- Two strictly ascending lists with the same elements are equal. -/
theorem ascending_ext (l1 l2 : List Nat) (h1 : l1.Pairwise (fun a b => a < b))
    (h2 : l2.Pairwise (fun a b => a < b)) (h : ∀ x, x ∈ l1 ↔ x ∈ l2) : l1 = l2 := by
  have n1 : l1.Nodup := h1.imp (fun hab => ne_of_lt hab)
  have n2 : l2.Nodup := h2.imp (fun hab => ne_of_lt hab)
  exact List.eq_of_perm_of_sorted ((List.perm_ext_iff_of_nodup n1 n2).2 h) h1 h2

/-- The run of `t1 OR ... OR tn` on an index that holds the lowercase forms of
the words, with strictly ascending posting lists below `(docid_t)-1`. -/
theorem runQuery_or (idx : Index) (w1 w2 : List Char) (ws : List (List Char))
    (result : List (List Char)) (hw : ∀ x ∈ w1 :: w2 :: ws, TermWord x)
    (hpresent : ∀ x ∈ w1 :: w2 :: ws, ∃ td, idx.find (x.map Char.toLower) = some td)
    (hgood : ∀ x ∈ w1 :: w2 :: ws,
      (termDataOf idx (x.map Char.toLower)).pPostings.Pairwise (fun a b => a < b) ∧
      ∀ d ∈ (termDataOf idx (x.map Char.toLower)).pPostings, d < noDoc) (m : Nat) :
    ∃ ids : List Nat, runQueryInRange
        (m + (((w1 :: w2 :: ws).map (fun x => x.map Char.toLower)).map
          (fun t => (termDataOf idx t).pPostings.length)).sum + ws.length + 5) idx result
        (spaced ((w1 :: w2 :: ws).intersperse "OR".toList))
      = Outcome.ok ({}, ids.map idx.getDocumentName) ∧
      ids.Pairwise (fun a b => a < b) ∧
      ∀ d, d ∈ ids ↔
        ∃ x ∈ w1 :: w2 :: ws, d ∈ (termDataOf idx (x.map Char.toLower)).pPostings := by
  generalize hT : (((w1 :: w2 :: ws).map (fun x => x.map Char.toLower)).map
    (fun t => (termDataOf idx t).pPostings.length)).sum = T
  generalize hts : (w1 :: w2 :: ws).map (fun x => x.map Char.toLower) = ts at hT
  have hfind : ∀ t ∈ ts, ∃ td, idx.find t = some td := by
    intro t ht
    rw [← hts] at ht
    obtain ⟨x, hx, rfl⟩ := List.mem_map.1 ht
    exact hpresent x hx
  have hgood2 : ∀ t ∈ ts, (termDataOf idx t).pPostings.Pairwise (fun a b => a < b) ∧
      ∀ d ∈ (termDataOf idx t).pPostings, d < noDoc := by
    intro t ht
    rw [← hts] at ht
    obtain ⟨x, hx, rfl⟩ := List.mem_map.1 ht
    exact hgood x hx
  obtain ⟨c, ns, hprep, hperm⟩ := prepare_or (m + T + ws.length + 4) idx ts hfind
  have hns : ∀ n ∈ ns, GoodTerm n := by
    intro n hn
    obtain ⟨t, ht, rfl⟩ := List.mem_map.1 (hperm.subset hn)
    exact ⟨_, _, _, _, rfl, (hgood2 t ht).1, (hgood2 t ht).2⟩
  have hpend : (ts.map (fun t => termAt (termDataOf idx t).pCount t
        (termDataOf idx t).pPostings (termDataOf idx t).pPostings)).map pendingOf
      = ts.map (fun t => (termDataOf idx t).pPostings) := by
    rw [List.map_map]
    apply List.map_congr_left
    intro t ht
    exact pendingOf_termAt _ _ _ _ (hgood2 t ht).2
  have hpermP : (ns.map pendingOf).Perm (ts.map (fun t => (termDataOf idx t).pPostings)) := by
    rw [← hpend]
    exact hperm.map pendingOf
  have htot : totalPending ns ≤ T := by
    unfold totalPending
    rw [(hpermP.map List.length).sum_eq, List.map_map, ← hT]
    exact le_of_eq rfl
  obtain ⟨out, ho1, ho2, ho3⟩ := drain_or (m + T + ws.length + 3) T ns hns htot
    (m + T + ws.length + 5) c noDoc [] (by omega)
  rw [show m + T + ws.length + 4 + 1 = m + T + ws.length + 5 by omega] at hprep
  rw [show m + T + ws.length + 3 + 2 = m + T + ws.length + 5 by omega] at ho1
  refine ⟨out, ?_, ho2, ?_⟩
  · unfold runQueryInRange
    rw [parse_or_chain w1 w2 ws hw (m + T)]
    simp only [execute, translate]
    rw [translateAll_terms]
    simp only []
    rw [if_pos trivial]
    simp only []
    have hmap : (w1 :: w2 :: ws).map (fun w => Node.TermNode 0 (w.map Char.toLower) none)
        = ts.map (fun t => Node.TermNode 0 t none) := by
      rw [← hts, List.map_map]
      rfl
    rw [hmap, hprep]
    simp only []
    rw [ho1]
    rfl
  · intro d
    rw [ho3 d]
    constructor
    · rintro ⟨P, hP, hd⟩
      obtain ⟨t, ht, rfl⟩ := List.mem_map.1 (hpermP.subset hP)
      rw [← hts] at ht
      obtain ⟨x, hx, rfl⟩ := List.mem_map.1 ht
      exact ⟨x, hx, hd⟩
    · rintro ⟨x, hx, hd⟩
      refine ⟨_, hpermP.symm.subset (List.mem_map_of_mem _ ?_), hd⟩
      rw [← hts]
      exact List.mem_map_of_mem _ hx

/-- C37, counterexample: in the index that `load` builds from the text
`2\n5 x\n18446744073709551615 y\n2\na 1 18446744073709551615 \nb 1 5 \n`
every posting list is strictly ascending and the terms `a` and `b` are
present; the union of their postings holds 5 and `2^64 - 1`, the docids of the
documents `x` and `y`, and `runQuery` returns the name `x` alone for
`a OR b`. -/
theorem or_misses_marker_docid :
    ({} : Index).load (Except.ok
        "2\n5 x\n18446744073709551615 y\n2\na 1 18446744073709551615 \nb 1 5 \n".toList)
      = Outcome.ok ({}, markerIndex) ∧
    markerIndex.postingsAscending ∧
    markerIndex.find "a".toList = some ⟨1, [18446744073709551615]⟩ ∧
    markerIndex.find "b".toList = some ⟨1, [5]⟩ ∧
    (18446744073709551615 : Nat) = 2 ^ 64 - 1 ∧
    markerIndex.getDocumentName 5 = "x".toList ∧
    markerIndex.getDocumentName 18446744073709551615 = "y".toList ∧
    runQuery 20 markerIndex [] "a OR b".toList = Outcome.ok ({}, ["x".toList]) := by
  rw [runQuery_inRange "a OR b".toList (by decide)]
  decide

/-- C37, amended: for every index with strictly ascending posting lists and
all `n >= 2` words `t1 .. tn` that the lexer takes for terms and whose
lowercase forms are present in the index, when every posting of these terms is
below `2^64 - 1` and the query has fewer than `2 ^ 31 - 1` characters,
`runQuery` of `t1 OR ... OR tn` returns with success, with
enough fuel, and yields the names of a list of docids that is strictly
ascending, hence without duplicates, and holds exactly the docids of the union
of the posting lists. -/
theorem or_query (idx : Index) (w1 w2 : List Char) (ws : List (List Char))
    (result : List (List Char)) (hw : ∀ x ∈ w1 :: w2 :: ws, TermWord x)
    (hpresent : ∀ x ∈ w1 :: w2 :: ws, ∃ td, idx.find (x.map Char.toLower) = some td ∧
      ∀ d ∈ td.pPostings, d < noDoc)
    (hasc : idx.postingsAscending)
    (hlen : (spaced ((w1 :: w2 :: ws).intersperse "OR".toList)).length < 2 ^ 31 - 1) :
    ∃ (ids : List Nat) (f0 : Nat),
      (∀ m, runQuery (m + f0) idx result (spaced ((w1 :: w2 :: ws).intersperse "OR".toList))
        = Outcome.ok ({}, ids.map idx.getDocumentName)) ∧
      ids.Pairwise (fun a b => a < b) ∧
      ∀ d, d ∈ ids ↔
        ∃ x ∈ w1 :: w2 :: ws, ∃ td, idx.find (x.map Char.toLower) = some td ∧
          d ∈ td.pPostings := by
  have hp1 : ∀ x ∈ w1 :: w2 :: ws, ∃ td, idx.find (x.map Char.toLower) = some td := by
    intro x hx
    obtain ⟨td, h1, _⟩ := hpresent x hx
    exact ⟨td, h1⟩
  have hdata : ∀ x ∈ w1 :: w2 :: ws, ∀ td, idx.find (x.map Char.toLower) = some td →
      termDataOf idx (x.map Char.toLower) = td := by
    intro x _ td h
    unfold termDataOf
    rw [h]
    rfl
  have hg : ∀ x ∈ w1 :: w2 :: ws,
      (termDataOf idx (x.map Char.toLower)).pPostings.Pairwise (fun a b => a < b) ∧
      ∀ d ∈ (termDataOf idx (x.map Char.toLower)).pPostings, d < noDoc := by
    intro x hx
    obtain ⟨td, h1, h2⟩ := hpresent x hx
    rw [hdata x hx td h1]
    obtain ⟨e, he, he2⟩ := find_mem idx _ td h1
    refine ⟨?_, h2⟩
    rw [← he2]
    exact hasc e he
  have key := runQuery_or idx w1 w2 ws result hw hp1 hg
  obtain ⟨ids, _, hasc0, hmem0⟩ := key 0
  refine ⟨ids, (((w1 :: w2 :: ws).map (fun x => x.map Char.toLower)).map
    (fun t => (termDataOf idx t).pPostings.length)).sum + ws.length + 5, ?_, hasc0, ?_⟩
  · intro m
    obtain ⟨ids1, h1, h2, h3⟩ := key m
    have hsame : ids1 = ids :=
      ascending_ext ids1 ids h2 hasc0 (fun d => by rw [h3 d, hmem0 d])
    rw [runQuery_inRange _ (takeWhile_length_lt _ hlen), ← hsame, ← h1]
    congr 1
    omega
  · intro d
    rw [hmem0 d]
    constructor
    · rintro ⟨x, hx, hd⟩
      obtain ⟨td, h1, _⟩ := hpresent x hx
      rw [hdata x hx td h1] at hd
      exact ⟨x, hx, td, h1, hd⟩
    · rintro ⟨x, hx, td, h1, hd⟩
      refine ⟨x, hx, ?_⟩
      rw [hdata x hx td h1]
      exact hd

/-- Instance of `or_query`: `cat OR dog OR fish` on the index of the "build and
query" scenario yields the three documents. -/
theorem or_query_witness :
    spaced (["cat".toList, "dog".toList, "fish".toList].intersperse "OR".toList)
      = "cat OR dog OR fish".toList ∧
    "cat OR dog OR fish".toList.length < 2 ^ 31 - 1 ∧
    runQuery 20 scenarioIndex [] "cat OR dog OR fish".toList
      = Outcome.ok ({}, ["a.txt".toList, "b.txt".toList, "c.txt".toList]) ∧
    ∃ (ids : List Nat) (f0 : Nat),
      (∀ m, runQuery (m + f0) scenarioIndex []
          (spaced (["cat".toList, "dog".toList, "fish".toList].intersperse "OR".toList))
        = Outcome.ok ({}, ids.map scenarioIndex.getDocumentName)) ∧
      ids.Pairwise (fun a b => a < b) ∧
      ∀ d, d ∈ ids ↔
        ∃ x ∈ ["cat".toList, "dog".toList, "fish".toList], ∃ td,
          scenarioIndex.find (x.map Char.toLower) = some td ∧ d ∈ td.pPostings :=
  ⟨by decide, by decide, (runQuery_inRange _ (by decide) _ _ _).trans (by decide),
    or_query scenarioIndex "cat".toList "dog".toList ["fish".toList] [] (by decide)
      (by
        intro x hx
        simp only [List.mem_cons, List.mem_singleton, List.not_mem_nil, or_false] at hx
        rcases hx with rfl | rfl | rfl
        · exact ⟨⟨2, [1, 3]⟩, by decide, by decide⟩
        · exact ⟨⟨2, [1, 2]⟩, by decide, by decide⟩
        · exact ⟨⟨2, [2, 3]⟩, by decide, by decide⟩)
      (by decide) (by decide)⟩

end Librarian
